import Mathlib

/-! socow_vector: small-object, copy-on-write vector

A shallow embedding of `src/socow-vector.h` together with the instrumented
element type `element<T>` of `src/tests.cpp`.

Modelling conventions.

* The heap is a list of `big_storage` cells; the address of a cell is its
  index.  `make_storage` appends a cell, so every allocation has an address
  that was never used before.  `operator delete` keeps the cell and clears its
  `live` flag, so that elements that were never destroyed stay visible.
* The constructed slots of an element array always form a prefix of the
  array in the source (elements are constructed at the first free slot and
  destroyed from the last one), so an array is the list of its constructed
  slots.  A construction that is not at the first free slot or is past the
  capacity, a destruction that is not of the last constructed slot, a read
  of a slot that is not constructed and a dereference of a pointer that is
  null or deleted are `Res.fault`.
* `size_t` additions on numbers of elements in memory are unbounded (an array
  of `2^63` elements does not fit the address space); a decrement of `0` wraps
  to `2^64 - 1`; the byte count of an allocation wraps at `2^64` where the
  capacity is the caller's (`storage_bytes`, tested by `reserve`).
* `operator new` always succeeds; the only source of exceptions is
  `element::copy()`.
* An exception carries the state it leaves behind (`Res.thrown`).
-/

namespace Socow

/-! ## Results -/

/-- Outcome of a call: normal return with a value, a propagating exception,
or undefined behaviour. -/
inductive Res (σ : Type) (α : Type) where
  | ok (a : α) (s : σ)
  | thrown (s : σ)
  | fault
  deriving DecidableEq, Repr

/-! ## The instrumented element type (tests.cpp) -/

/-- Static members of `element<T>`. -/
structure Env where
  throw_countdown : Nat
  copy_counter : Nat
  deriving DecidableEq, Repr

/-- The private member `element::copy()`.  The Boolean tells whether the call
throws. -/
def element_copy (e : Env) : Env × Bool :=
  if e.throw_countdown ≠ 0 then
    (⟨e.throw_countdown - 1, e.copy_counter + 1⟩, e.throw_countdown - 1 == 0)
  else
    (⟨e.throw_countdown, e.copy_counter + 1⟩, false)

/-! ## Memory -/

/-- `size_t` decrement. -/
def size_dec (n : Nat) : Nat := if n = 0 then 2 ^ 64 - 1 else n - 1

/-- The heap block `socow_vector::big_storage`; `data` lists the constructed
slots, `live` is cleared by `operator delete`. -/
structure big_storage (T : Type) where
  capacity : Nat
  ref_count : Nat
  data : List T
  live : Bool
  deriving DecidableEq, Repr

/-- `big_storage::unshare`. -/
def big_storage.unshare {T : Type} (b : big_storage T) : big_storage T :=
  { b with ref_count := size_dec b.ref_count }

/-- `big_storage::is_unique`. -/
def big_storage.is_unique {T : Type} (b : big_storage T) : Bool := b.ref_count == 1

/-- `big_storage::does_not_exists`. -/
def big_storage.does_not_exists {T : Type} (b : big_storage T) : Bool := b.ref_count == 0

/-- Heap and the statics of the element type. -/
structure Mem (T : Type) where
  heap : List (big_storage T)
  env : Env
  deriving DecidableEq, Repr

/-- Dereference of a `big_storage*`. -/
def Mem.deref {T : Type} (m : Mem T) (p : Option Nat) : Option (big_storage T) :=
  match p with
  | none => none
  | some a =>
    match m.heap[a]? with
    | some b => if b.live then some b else none
    | none => none

/-- Write a heap block back. -/
def Mem.store {T : Type} (m : Mem T) (a : Nat) (b : big_storage T) : Mem T :=
  { m with heap := m.heap.set a b }

/-- Replace the element statics. -/
def Mem.set_env {T : Type} (m : Mem T) (e : Env) : Mem T :=
  { m with env := e }

/-- `operator delete(p)`. -/
def operator_delete {T : Type} (m : Mem T) (a : Nat) : Mem T :=
  match m.heap[a]? with
  | some b => m.store a { b with live := false }
  | none => m

/-- Sizes in bytes on which the allocation of a block depends: `sizeof(T)` and
`sizeof(big_storage)`. -/
class Layout (T : Type) where
  sizeof_T : Nat
  sizeof_big_storage : Nat

/-- Layout of the tests: `element<size_t>` takes 8 bytes, and the two `size_t`
members of `big_storage` take 16. -/
instance : Layout Nat := ⟨8, 16⟩

/-- Argument of `operator new` in `make_storage(new_capacity)`:
`sizeof(big_storage) + new_capacity * sizeof(T)`, computed in `size_t`. -/
def storage_bytes (T : Type) [Layout T] (new_capacity : Nat) : Nat :=
  (Layout.sizeof_big_storage T + new_capacity * Layout.sizeof_T T) % 2 ^ 64

/-- The bytes asked for hold the header and `new_capacity` elements: the
computation of `storage_bytes` has not wrapped. -/
def storage_fits (T : Type) [Layout T] (new_capacity : Nat) : Bool :=
  decide (storage_bytes T new_capacity =
    Layout.sizeof_big_storage T + new_capacity * Layout.sizeof_T T)

/-- `make_storage(new_capacity)` for a capacity that `storage_fits`; the new
block has address `m.heap.length`.  The capacities asked for by `push_back`,
`data()` and `shrink_to_fit` are at most twice the number of elements in
memory; `reserve`, whose capacity is the caller's, tests `storage_fits`. -/
def make_storage {T : Type} (new_capacity : Nat) (m : Mem T) : Mem T :=
  { m with heap := m.heap ++ [⟨new_capacity, 1, [], true⟩] }

/-! ## The container handle -/

/-- The handle `socow_vector<T, SMALL_SIZE>`.  `small` lists the constructed
inline slots; `big` is the pointer member of the union. -/
structure socow_vector (T : Type) where
  is_small : Bool
  size_ : Nat
  small : List T
  big : Option Nat
  deriving DecidableEq, Repr

/-- State seen by a member function: `*this` and the memory. -/
abbrev St (T : Type) := socow_vector T × Mem T

/-- Where an element array lives: the inline array of `*this` or the `data`
member of a heap block. -/
inductive Loc where
  | small
  | big (a : Nat)
  deriving DecidableEq, Repr

/-- A `T*` / `T const*`: an array and an offset into it. -/
structure ptr where
  loc : Loc
  off : Nat
  deriving DecidableEq, Repr

/-- A `T const&` argument: a value outside the container or a slot of an
array. -/
inductive cref (T : Type) where
  | val (x : T)
  | slot (loc : Loc) (i : Nat)
  deriving DecidableEq, Repr

/-- Constructed slots of an array. -/
def slots {T : Type} (v : socow_vector T) (m : Mem T) : Loc → Option (List T)
  | .small => some v.small
  | .big a => (m.deref (some a)).map fun b => b.data

/-- Number of slots of an array. -/
def slot_count {T : Type} (SMALL_SIZE : Nat) (m : Mem T) : Loc → Option Nat
  | .small => some SMALL_SIZE
  | .big a => (m.deref (some a)).map fun b => b.capacity

/-- Replace the constructed slots of an array. -/
def set_slots {T : Type} (v : socow_vector T) (m : Mem T) (l : Loc) (d : List T) : St T :=
  match l with
  | .small => ({ v with small := d }, m)
  | .big a =>
    match m.heap[a]? with
    | some b => (v, m.store a { b with data := d })
    | none => (v, m)

/-- Read through a `T const&`. -/
def read_ref {T : Type} (v : socow_vector T) (m : Mem T) : cref T → Option T
  | .val x => some x
  | .slot l i => (slots v m l).bind fun d => d[i]?

/-- The expression `is_small ? small : big->data`. -/
def base {T : Type} (v : socow_vector T) : Option Loc :=
  if v.is_small then some .small else v.big.map Loc.big

/-- Slots reachable from `is_small ? small : big->data`. -/
def base_slots {T : Type} (v : socow_vector T) (m : Mem T) : List T :=
  match base v with
  | some l => (slots v m l).getD []
  | none => []

/-! ## Private helpers of the class -/

/-- `clear_array(data_array, len)`. -/
def clear_array {T : Type} : List T → Nat → Option (List T)
  | d, 0 => some d
  | d, i + 1 => if d.length = i + 1 then clear_array d.dropLast i else none

/-- Loop of `copy_data_array`, `todo` iterations from index `i`. -/
def copy_data_array_from {T : Type} (src : List T) (cap : Nat) :
    Nat → Nat → List T → Env → Res (List T × Env) Unit
  | 0, _, res, e => .ok () (res, e)
  | todo + 1, i, res, e =>
    match src[i]? with
    | none => .fault
    | some x =>
      if res.length = i ∧ i < cap then
        let c := element_copy e
        if c.2 then
          match clear_array res i with
          | some r => .thrown (r, c.1)
          | none => .fault
        else copy_data_array_from src cap todo (i + 1) (res ++ [x]) c.1
      else .fault

/-- `copy_data_array(src, res, src_len)`; `cap` is the number of slots of
`res`. -/
def copy_data_array {T : Type} (src res : List T) (cap src_len : Nat) (e : Env) :
    Res (List T × Env) Unit :=
  copy_data_array_from src cap src_len 0 res e

/-- `~socow_vector()`; `none` is undefined behaviour. -/
def destructor {T : Type} (v : socow_vector T) (m : Mem T) : Option (St T) :=
  if v.is_small then
    match clear_array v.small v.size_ with
    | some d => some ({ v with small := d }, m)
    | none => none
  else
    match v.big, m.deref v.big with
    | some a, some b =>
      let b1 := b.unshare
      if b1.does_not_exists then
        match clear_array b1.data v.size_ with
        | some d => some (v, operator_delete (m.store a { b1 with data := d }) a)
        | none => none
      else some (v, m.store a b1)
    | _, _ => none

/-- `make_copy(new_cap)`. -/
def make_copy {T : Type} (v : socow_vector T) (new_cap : Nat) (m : Mem T) : Res (St T) Unit :=
  let tmp := m.heap.length
  let m1 := make_storage new_cap m
  match copy_data_array (base_slots v m1) [] new_cap v.size_ m1.env with
  | .fault => .fault
  | .thrown (r, e) =>
    .thrown (v, operator_delete ((m1.store tmp ⟨new_cap, 1, r, true⟩).set_env e) tmp)
  | .ok _ (d, e) =>
    match destructor v ((m1.store tmp ⟨new_cap, 1, d, true⟩).set_env e) with
    | none => .fault
    | some (v1, m2) => .ok () ({ v1 with big := some tmp }, m2)

/-! ## Observers -/

/-- `capacity() const`. -/
def capacity {T : Type} (SMALL_SIZE : Nat) (v : socow_vector T) (m : Mem T) :
    Res (St T) Nat :=
  if v.is_small then .ok SMALL_SIZE (v, m)
  else
    match m.deref v.big with
    | some b => .ok b.capacity (v, m)
    | none => .fault

/-- `size() const`. -/
def size {T : Type} (v : socow_vector T) (m : Mem T) : Res (St T) Nat :=
  .ok v.size_ (v, m)

/-- `empty() const`. -/
def empty {T : Type} (v : socow_vector T) (m : Mem T) : Res (St T) Bool :=
  .ok (v.size_ == 0) (v, m)

/-- `data() const`. -/
def data_const {T : Type} (v : socow_vector T) (m : Mem T) : Res (St T) ptr :=
  match base v with
  | some l => .ok ⟨l, 0⟩ (v, m)
  | none => .fault

/-- Read of the element a `T const*` points to. -/
def load {T : Type} (v : socow_vector T) (m : Mem T) (p : ptr) : Option T :=
  (slots v m p.loc).bind fun d => d[p.off]?

/-- `operator[](i) const`, with the reference returned as the slot address. -/
def index_const {T : Type} (v : socow_vector T) (m : Mem T) (i : Nat) : Res (St T) ptr :=
  match data_const v m with
  | .ok p s => .ok ⟨p.loc, p.off + i⟩ s
  | .thrown s => .thrown s
  | .fault => .fault

/-- `begin() const`. -/
def begin_const {T : Type} (v : socow_vector T) (m : Mem T) : Res (St T) ptr :=
  data_const v m

/-- `end() const`. -/
def end_const {T : Type} (v : socow_vector T) (m : Mem T) : Res (St T) ptr :=
  match data_const v m with
  | .ok p s => .ok ⟨p.loc, p.off + v.size_⟩ s
  | .thrown s => .thrown s
  | .fault => .fault

/-- `front() const`. -/
def front_const {T : Type} (v : socow_vector T) (m : Mem T) : Res (St T) ptr :=
  match data_const v m with
  | .ok p s => .ok ⟨p.loc, p.off + 0⟩ s
  | .thrown s => .thrown s
  | .fault => .fault

/-- `back() const`. -/
def back_const {T : Type} (v : socow_vector T) (m : Mem T) : Res (St T) ptr :=
  match data_const v m with
  | .ok p s => .ok ⟨p.loc, p.off + size_dec v.size_⟩ s
  | .thrown s => .thrown s
  | .fault => .fault

/-! ## Mutable access -/

/-- `data()`. -/
def data {T : Type} (SMALL_SIZE : Nat) (v : socow_vector T) (m : Mem T) : Res (St T) ptr :=
  if v.is_small then .ok ⟨.small, 0⟩ (v, m)
  else
    match m.deref v.big with
    | none => .fault
    | some b =>
      if !v.is_small && !b.is_unique then
        match capacity SMALL_SIZE v m with
        | .ok cap _ =>
          match make_copy v cap m with
          | .ok _ (v1, m1) =>
            match v1.big with
            | some a => .ok ⟨.big a, 0⟩ (v1, m1)
            | none => .fault
          | .thrown s => .thrown s
          | .fault => .fault
        | _ => .fault
      else
        match v.big with
        | some a => .ok ⟨.big a, 0⟩ (v, m)
        | none => .fault

/-- `operator[](i)`. -/
def index {T : Type} (SMALL_SIZE : Nat) (v : socow_vector T) (m : Mem T) (i : Nat) :
    Res (St T) ptr :=
  match data SMALL_SIZE v m with
  | .ok p s => .ok ⟨p.loc, p.off + i⟩ s
  | .thrown s => .thrown s
  | .fault => .fault

/-- `begin()`. -/
def begin_ {T : Type} (SMALL_SIZE : Nat) (v : socow_vector T) (m : Mem T) : Res (St T) ptr :=
  data SMALL_SIZE v m

/-- `end()`. -/
def end_ {T : Type} (SMALL_SIZE : Nat) (v : socow_vector T) (m : Mem T) : Res (St T) ptr :=
  match data SMALL_SIZE v m with
  | .ok p s => .ok ⟨p.loc, p.off + s.1.size_⟩ s
  | .thrown s => .thrown s
  | .fault => .fault

/-- `front()`. -/
def front {T : Type} (SMALL_SIZE : Nat) (v : socow_vector T) (m : Mem T) : Res (St T) ptr :=
  match data SMALL_SIZE v m with
  | .ok p s => .ok ⟨p.loc, p.off + 0⟩ s
  | .thrown s => .thrown s
  | .fault => .fault

/-- `back()`. -/
def back {T : Type} (SMALL_SIZE : Nat) (v : socow_vector T) (m : Mem T) : Res (St T) ptr :=
  match data SMALL_SIZE v m with
  | .ok p s => .ok ⟨p.loc, p.off + size_dec s.1.size_⟩ s
  | .thrown s => .thrown s
  | .fault => .fault

/-! ## Element-level primitives -/

/-- Pointer difference `a - b` for `b` the start of an array, converted to
`size_t`; `none` when `a` does not point into that array. -/
def ptr_diff (a : ptr) (b : Option Loc) : Option Nat :=
  match b with
  | some l => if a.loc = l then some a.off else none
  | none => none

/-- Difference `last - first` of two pointers; `none` when they do not point
into the same array or `last` is before `first`. -/
def ptr_sub (last first : ptr) : Option Nat :=
  if last.loc = first.loc ∧ first.off ≤ last.off then some (last.off - first.off) else none

/-- Placement new `new (p) T(elem)`: the copy constructor of the element reads
its argument and initialises `val` in the slot `p`, which has to be a free slot
of the array, then calls `copy()`, which may throw, and registers the new
instance. -/
def construct_at {T : Type} (SMALL_SIZE : Nat) (v : socow_vector T) (m : Mem T) (p : ptr)
    (elem : cref T) : Res (St T) Unit :=
  match read_ref v m elem with
  | none => .fault
  | some x =>
    match slots v m p.loc, slot_count SMALL_SIZE m p.loc with
    | some d, some cap =>
      if d.length = p.off ∧ p.off < cap then
        let c := element_copy m.env
        if c.2 then .thrown (v, m.set_env c.1)
        else .ok () (set_slots v (m.set_env c.1) p.loc (d ++ [x]))
      else .fault
    | _, _ => .fault

/-- Explicit destructor call `p->~T()`. -/
def destroy_at {T : Type} (v : socow_vector T) (m : Mem T) (p : ptr) : Option (St T) :=
  match slots v m p.loc with
  | some d => if d.length = p.off + 1 then some (set_slots v m p.loc d.dropLast) else none
  | none => none

/-- Element assignment `*p = x` (`element::operator=`): `copy()`, then the
value is stored. -/
def assign_at {T : Type} (v : socow_vector T) (m : Mem T) (p : ptr) (x : T) :
    Res (St T) Unit :=
  match slots v m p.loc with
  | some d =>
    if p.off < d.length then
      let c := element_copy m.env
      if c.2 then .thrown (v, m.set_env c.1)
      else .ok () (set_slots v (m.set_env c.1) p.loc (d.set p.off x))
    else .fault
  | none => .fault

/-- `std::swap(a, b)` of the C++ standard library on two elements living in
two arrays: `T tmp(a); a = b; b = tmp;`, three element copies. -/
def std_swap2 {T : Type} (d1 d2 : List T) (i j : Nat) (e : Env) :
    Res (List T × List T × Env) Unit :=
  match d1[i]?, d2[j]? with
  | some x, some y =>
    let c1 := element_copy e
    if c1.2 then .thrown (d1, d2, c1.1)
    else
      let c2 := element_copy c1.1
      if c2.2 then .thrown (d1, d2, c2.1)
      else
        let c3 := element_copy c2.1
        if c3.2 then .thrown (d1.set i y, d2, c3.1)
        else .ok () (d1.set i y, d2.set j x, c3.1)
  | _, _ => .fault

/-- `std::swap(a, b)` on two distinct slots of one array. -/
def std_swap {T : Type} (d : List T) (i j : Nat) (e : Env) : Res (List T × Env) Unit :=
  match d[i]?, d[j]? with
  | some x, some y =>
    let c1 := element_copy e
    if c1.2 then .thrown (d, c1.1)
    else
      let c2 := element_copy c1.1
      if c2.2 then .thrown (d, c2.1)
      else
        let c3 := element_copy c2.1
        if c3.2 then .thrown (d.set i y, c3.1)
        else .ok () ((d.set i y).set j x, c3.1)
  | _, _ => .fault

/-- `std::swap(current[i], current[j])` for a pointer `current` into the
storage of `*this`. -/
def swap_at {T : Type} (v : socow_vector T) (m : Mem T) (current : ptr) (i j : Nat) :
    Res (St T) Unit :=
  match slots v m current.loc with
  | none => .fault
  | some d =>
    match std_swap d (current.off + i) (current.off + j) m.env with
    | .ok _ (d1, e) => .ok () (set_slots v (m.set_env e) current.loc d1)
    | .thrown (d1, e) => .thrown (set_slots v (m.set_env e) current.loc d1)
    | .fault => .fault

/-! ## Mutating members -/

/-- `push_back(elem)`. -/
def push_back {T : Type} (SMALL_SIZE : Nat) (v : socow_vector T) (m : Mem T) (elem : cref T) :
    Res (St T) Unit :=
  match capacity SMALL_SIZE v m with
  | .ok cap _ =>
    if v.size_ = cap then
      let new_cap := v.size_ * 2
      let tmp := m.heap.length
      let m1 := make_storage new_cap m
      match copy_data_array (base_slots v m1) [] new_cap v.size_ m1.env with
      | .fault => .fault
      | .thrown (r, e) =>
        .thrown (v, operator_delete ((m1.store tmp ⟨new_cap, 1, r, true⟩).set_env e) tmp)
      | .ok _ (d, e) =>
        let m2 := (m1.store tmp ⟨new_cap, 1, d, true⟩).set_env e
        match construct_at SMALL_SIZE v m2 ⟨.big tmp, v.size_⟩ elem with
        | .fault => .fault
        | .thrown (v1, m3) =>
          match clear_array d v.size_ with
          | none => .fault
          | some r => .thrown (v1, operator_delete (m3.store tmp ⟨new_cap, 1, r, true⟩) tmp)
        | .ok _ (v1, m3) =>
          match destructor v1 m3 with
          | none => .fault
          | some (v2, m4) =>
            .ok () ({ v2 with big := some tmp, is_small := false, size_ := v2.size_ + 1 }, m4)
    else
      match begin_ SMALL_SIZE v m with
      | .fault => .fault
      | .thrown s => .thrown s
      | .ok p (v1, m1) =>
        match construct_at SMALL_SIZE v1 m1 ⟨p.loc, p.off + v1.size_⟩ elem with
        | .fault => .fault
        | .thrown s => .thrown s
        | .ok _ (v2, m2) => .ok () ({ v2 with size_ := v2.size_ + 1 }, m2)
  | _ => .fault

/-- `pop_back()`: `data()[--size_].~T()`, with `data()` sequenced before the
decrement (C++17). -/
def pop_back {T : Type} (SMALL_SIZE : Nat) (v : socow_vector T) (m : Mem T) : Res (St T) Unit :=
  match data SMALL_SIZE v m with
  | .fault => .fault
  | .thrown s => .thrown s
  | .ok p (v1, m1) =>
    let v2 := { v1 with size_ := size_dec v1.size_ }
    match destroy_at v2 m1 ⟨p.loc, p.off + v2.size_⟩ with
    | some s => .ok () s
    | none => .fault

/-- Loop of `insert`: `todo` iterations of `std::swap(current[i - 1], current[i])`
with `i` counting down. -/
def insert_loop {T : Type} (current : ptr) :
    Nat → Nat → socow_vector T → Mem T → Res (St T) Unit
  | 0, _, v, m => .ok () (v, m)
  | todo + 1, i, v, m =>
    match swap_at v m current (i - 1) i with
    | .ok _ (v1, m1) => insert_loop current todo (i - 1) v1 m1
    | .thrown s => .thrown s
    | .fault => .fault

/-- The returned expression `is_small ? small : big->data + p`. -/
def ret_iterator {T : Type} (v : socow_vector T) (p : Nat) : Option ptr :=
  if v.is_small then some ⟨.small, 0⟩
  else
    match v.big with
    | some a => some ⟨.big a, p⟩
    | none => none

/-- `insert(pos, value)`. -/
def insert {T : Type} (SMALL_SIZE : Nat) (v : socow_vector T) (m : Mem T) (pos : ptr)
    (value : cref T) : Res (St T) ptr :=
  match ptr_diff pos (base v) with
  | none => .fault
  | some p =>
    match push_back SMALL_SIZE v m value with
    | .fault => .fault
    | .thrown s => .thrown s
    | .ok _ (v1, m1) =>
      match data SMALL_SIZE v1 m1 with
      | .fault => .fault
      | .thrown s => .thrown s
      | .ok current (v2, m2) =>
        match insert_loop current (size_dec v2.size_ - p) (size_dec v2.size_) v2 m2 with
        | .fault => .fault
        | .thrown s => .thrown s
        | .ok _ (v3, m3) =>
          match ret_iterator v3 p with
          | some r => .ok r (v3, m3)
          | none => .fault

/-- First loop of `erase(first, last)`: `todo` iterations of
`std::swap(current[i], current[i + cnt])` with `i` counting up. -/
def erase_loop {T : Type} (current : ptr) (cnt : Nat) :
    Nat → Nat → socow_vector T → Mem T → Res (St T) Unit
  | 0, _, v, m => .ok () (v, m)
  | todo + 1, i, v, m =>
    match swap_at v m current i (i + cnt) with
    | .ok _ (v1, m1) => erase_loop current cnt todo (i + 1) v1 m1
    | .thrown s => .thrown s
    | .fault => .fault

/-- Second loop of `erase(first, last)`: `cnt` calls of `pop_back()`. -/
def pop_back_loop {T : Type} (SMALL_SIZE : Nat) :
    Nat → socow_vector T → Mem T → Res (St T) Unit
  | 0, v, m => .ok () (v, m)
  | todo + 1, v, m =>
    match pop_back SMALL_SIZE v m with
    | .ok _ (v1, m1) => pop_back_loop SMALL_SIZE todo v1 m1
    | .thrown s => .thrown s
    | .fault => .fault

/-- `erase(first, last)`.  The first loop runs while `i != size() - cnt`; when
`first_index` is already past that bound it never meets it and runs off the
array. -/
def erase_range {T : Type} (SMALL_SIZE : Nat) (v : socow_vector T) (m : Mem T)
    (first last : ptr) : Res (St T) ptr :=
  match ptr_diff first (base v), ptr_sub last first with
  | some first_index, some cnt =>
    if cnt = 0 then
      match begin_ SMALL_SIZE v m with
      | .ok p s => .ok ⟨p.loc, p.off + first_index⟩ s
      | .thrown s => .thrown s
      | .fault => .fault
    else
      match data SMALL_SIZE v m with
      | .fault => .fault
      | .thrown s => .thrown s
      | .ok current (v1, m1) =>
        if cnt ≤ v1.size_ ∧ first_index ≤ v1.size_ - cnt then
          match erase_loop current cnt (v1.size_ - cnt - first_index) first_index v1 m1 with
          | .fault => .fault
          | .thrown s => .thrown s
          | .ok _ (v2, m2) =>
            match pop_back_loop SMALL_SIZE cnt v2 m2 with
            | .fault => .fault
            | .thrown s => .thrown s
            | .ok _ (v3, m3) =>
              match ret_iterator v3 first_index with
              | some r => .ok r (v3, m3)
              | none => .fault
        else .fault
  | _, _ => .fault

/-- `erase(pos)`. -/
def erase {T : Type} (SMALL_SIZE : Nat) (v : socow_vector T) (m : Mem T) (pos : ptr) :
    Res (St T) ptr :=
  match base v with
  | none => .fault
  | some l =>
    if pos = ⟨l, v.size_⟩ then end_ SMALL_SIZE v m
    else erase_range SMALL_SIZE v m pos ⟨pos.loc, pos.off + 1⟩

/-- `clear()`: `erase(begin(), end())`. -/
def clear {T : Type} (SMALL_SIZE : Nat) (v : socow_vector T) (m : Mem T) : Res (St T) Unit :=
  match begin_ SMALL_SIZE v m with
  | .fault => .fault
  | .thrown s => .thrown s
  | .ok first (v1, m1) =>
    match end_ SMALL_SIZE v1 m1 with
    | .fault => .fault
    | .thrown s => .thrown s
    | .ok last (v2, m2) =>
      match erase_range SMALL_SIZE v2 m2 first last with
      | .ok _ s => .ok () s
      | .thrown s => .thrown s
      | .fault => .fault

/-- `reserve(new_cap)`.  When the byte count of `make_storage` wraps for the
capacity handed to `make_copy`, the block obtained is shorter than the capacity
it records: the header or the copied elements are written past its end, or the
handle is left with a capacity it has no memory for.  Such a call ends in
`fault`. -/
def reserve {T : Type} [Layout T] (SMALL_SIZE : Nat) (v : socow_vector T) (m : Mem T)
    (new_cap : Nat) : Res (St T) Unit :=
  match capacity SMALL_SIZE v m with
  | .ok cap _ =>
    if (!v.is_small && !((m.deref v.big).map big_storage.is_unique).getD true)
        || decide (new_cap > cap) then
      if storage_fits T (max new_cap cap) then
        match make_copy v (max new_cap cap) m with
        | .ok _ (v1, m1) => .ok () ({ v1 with is_small := false }, m1)
        | .thrown s => .thrown s
        | .fault => .fault
      else .fault
    else .ok () (v, m)
  | _ => .fault

/-- `shrink_to_fit()`. -/
def shrink_to_fit {T : Type} (SMALL_SIZE : Nat) (v : socow_vector T) (m : Mem T) :
    Res (St T) Unit :=
  match capacity SMALL_SIZE v m with
  | .ok cap _ =>
    if v.size_ = cap then .ok () (v, m)
    else if v.is_small then .ok () (v, m)
    else if v.size_ ≤ SMALL_SIZE then
      match v.big, m.deref v.big with
      | some tmp, some b =>
        match copy_data_array b.data v.small SMALL_SIZE v.size_ m.env with
        | .fault => .fault
        | .thrown (r, e) => .thrown ({ v with small := r, big := some tmp }, m.set_env e)
        | .ok _ (d, e) =>
          let b1 := b.unshare
          let v1 := { v with small := d, big := none, is_small := true }
          if b1.does_not_exists then
            match clear_array b1.data v.size_ with
            | some r => .ok () (v1, operator_delete ((m.set_env e).store tmp { b1 with data := r }) tmp)
            | none => .fault
          else .ok () (v1, (m.set_env e).store tmp b1)
      | _, _ => .fault
    else
      make_copy v v.size_ m
  | _ => .fault

/-! ## Construction, swap, comparison, assignment -/

/-- `socow_vector()`. -/
def default_ctor {T : Type} : socow_vector T :=
  ⟨true, 0, [], none⟩

/-- `socow_vector(socow_vector const& other)`.  The result is the new handle;
the argument is not written to.  An exception leaves no object behind. -/
def copy_ctor {T : Type} (SMALL_SIZE : Nat) (other : socow_vector T) (m : Mem T) :
    Res (Mem T) (socow_vector T) :=
  if other.is_small then
    match copy_data_array other.small [] SMALL_SIZE other.size_ m.env with
    | .fault => .fault
    | .thrown (_, e) => .thrown (m.set_env e)
    | .ok _ (d, e) => .ok ⟨other.is_small, other.size_, d, none⟩ (m.set_env e)
  else
    match other.big, m.deref other.big with
    | some a, some b =>
      .ok ⟨other.is_small, other.size_, [], other.big⟩
        (m.store a { b with ref_count := b.ref_count + 1 })
    | _, _ => .fault

/-- State seen by a member function with a second container argument:
`*this`, the argument, the memory. -/
abbrev St2 (T : Type) := socow_vector T × socow_vector T × Mem T

/-- `swap_stat_dyn(stat, dyn)`; the state lists `stat` first. -/
def swap_stat_dyn {T : Type} (SMALL_SIZE : Nat) (stat dyn : socow_vector T) (m : Mem T) :
    Res (St2 T) Unit :=
  let tmp := dyn.big
  match copy_data_array stat.small dyn.small SMALL_SIZE stat.size_ m.env with
  | .fault => .fault
  | .thrown (r, e) => .thrown (stat, { dyn with small := r, big := tmp }, m.set_env e)
  | .ok _ (d, e) =>
    match clear_array stat.small stat.size_ with
    | none => .fault
    | some r => .ok () ({ stat with small := r, big := tmp },
        { dyn with small := d, big := none }, m.set_env e)

/-- First loop of the both-small branch of `swap`:
`std::swap(data()[i], other[i])` for `i` from `i` on, `todo` times. -/
def swap_small_loop {T : Type} :
    Nat → Nat → socow_vector T → socow_vector T → Mem T → Res (St2 T) Unit
  | 0, _, v, o, m => .ok () (v, o, m)
  | todo + 1, i, v, o, m =>
    match std_swap2 v.small o.small i i m.env with
    | .fault => .fault
    | .thrown (d1, d2, e) => .thrown ({ v with small := d1 }, { o with small := d2 }, m.set_env e)
    | .ok _ (d1, d2, e) =>
      swap_small_loop todo (i + 1) { v with small := d1 } { o with small := d2 } (m.set_env e)

/-- Second loop of the both-small branch of `swap`: `l.push_back(b[i])`; the
state lists `l` first. -/
def swap_push_loop {T : Type} (SMALL_SIZE : Nat) :
    Nat → Nat → socow_vector T → socow_vector T → Mem T → Res (St2 T) Unit
  | 0, _, l, b, m => .ok () (l, b, m)
  | todo + 1, i, l, b, m =>
    match index SMALL_SIZE b m i with
    | .fault => .fault
    | .thrown (b1, m1) => .thrown (l, b1, m1)
    | .ok p (b1, m1) =>
      match load b1 m1 p with
      | none => .fault
      | some x =>
        match push_back SMALL_SIZE l m1 (.val x) with
        | .fault => .fault
        | .thrown (l1, m2) => .thrown (l1, b1, m2)
        | .ok _ (l1, m2) => swap_push_loop SMALL_SIZE todo (i + 1) l1 b1 m2

/-- `swap(other)` for two distinct objects. -/
def swap {T : Type} (SMALL_SIZE : Nat) (v other : socow_vector T) (m : Mem T) :
    Res (St2 T) Unit :=
  if v.is_small && other.is_small then
    match swap_small_loop (min v.size_ other.size_) 0 v other m with
    | .fault => .fault
    | .thrown s => .thrown s
    | .ok _ (v1, o1, m1) =>
      let mn := min v1.size_ o1.size_
      let mx := max v1.size_ o1.size_
      if o1.size_ < v1.size_ then
        match swap_push_loop SMALL_SIZE (mx - mn) mn o1 v1 m1 with
        | .fault => .fault
        | .thrown (l, b, m2) => .thrown (b, l, m2)
        | .ok _ (l, b, m2) =>
          match pop_back_loop SMALL_SIZE (mx - mn) b m2 with
          | .fault => .fault
          | .thrown (b1, m3) => .thrown (b1, l, m3)
          | .ok _ (b1, m3) => .ok () (b1, l, m3)
      else
        match swap_push_loop SMALL_SIZE (mx - mn) mn v1 o1 m1 with
        | .fault => .fault
        | .thrown (l, b, m2) => .thrown (l, b, m2)
        | .ok _ (l, b, m2) =>
          match pop_back_loop SMALL_SIZE (mx - mn) b m2 with
          | .fault => .fault
          | .thrown (b1, m3) => .thrown (l, b1, m3)
          | .ok _ (b1, m3) => .ok () (l, b1, m3)
  else if !v.is_small && !other.is_small then
    .ok () ({ v with big := other.big, size_ := other.size_, is_small := other.is_small },
      { other with big := v.big, size_ := v.size_, is_small := v.is_small }, m)
  else if v.is_small then
    match swap_stat_dyn SMALL_SIZE v other m with
    | .fault => .fault
    | .thrown s => .thrown s
    | .ok _ (v1, o1, m1) =>
      .ok () ({ v1 with size_ := o1.size_, is_small := o1.is_small },
        { o1 with size_ := v1.size_, is_small := v1.is_small }, m1)
  else
    match swap_stat_dyn SMALL_SIZE other v m with
    | .fault => .fault
    | .thrown (o1, v1, m1) => .thrown (v1, o1, m1)
    | .ok _ (o1, v1, m1) =>
      .ok () ({ v1 with size_ := o1.size_, is_small := o1.is_small },
        { o1 with size_ := v1.size_, is_small := v1.is_small }, m1)

/-- Loop of `operator==`: `todo` comparisons `a[i] != b[i]` from index `i`. -/
def eq_loop {T : Type} [DecidableEq T] (a b : List T) : Nat → Nat → Option Bool
  | 0, _ => some true
  | todo + 1, i =>
    match a[i]?, b[i]? with
    | some x, some y => if x ≠ y then some false else eq_loop a b todo (i + 1)
    | _, _ => none

/-- `operator==(a, b)` on two `const&`; `none` is undefined behaviour. -/
def operator_eq {T : Type} [DecidableEq T] (a b : socow_vector T) (m : Mem T) : Option Bool :=
  if a.size_ ≠ b.size_ then some false
  else eq_loop (base_slots a m) (base_slots b m) a.size_ 0

/-- `operator!=(a, b)` on two `const&`.  The body is `return a != b;`: with
both operands `const&` the only viable `operator!=` is this function itself,
so the body is a call of the function with the same arguments.  `fuel` bounds
the depth of the nested calls; `none` says that no call has returned within
that depth. -/
def operator_ne {T : Type} [DecidableEq T] (a b : socow_vector T) (m : Mem T) :
    Nat → Option Bool
  | 0 => none
  | fuel + 1 => operator_ne a b m fuel

/-- `operator=(other)` for `other` a different object from `*this`.  The
temporary `socow_vector(other)` is destroyed when the full expression ends,
also when `swap` throws. -/
def operator_assign {T : Type} [DecidableEq T] (SMALL_SIZE : Nat) (v other : socow_vector T)
    (m : Mem T) : Res (St2 T) Unit :=
  match operator_eq v other m with
  | none => .fault
  | some true => .ok () (v, other, m)
  | some false =>
    match copy_ctor SMALL_SIZE other m with
    | .fault => .fault
    | .thrown m1 => .thrown (v, other, m1)
    | .ok temp m1 =>
      match swap SMALL_SIZE temp v m1 with
      | .fault => .fault
      | .thrown (temp1, v1, m2) =>
        match destructor temp1 m2 with
        | some (_, m3) => .thrown (v1, other, m3)
        | none => .fault
      | .ok _ (temp1, v1, m2) =>
        match destructor temp1 m2 with
        | some (_, m3) => .ok () (v1, other, m3)
        | none => .fault

/-! ## Specification vocabulary -/

/-- Element statics after `k` copies, none of which throws. -/
def copies (e : Env) (k : Nat) : Env :=
  ⟨e.throw_countdown - k, e.copy_counter + k⟩

/-- None of the next `k` element copies throws. -/
def no_throw (e : Env) (k : Nat) : Prop :=
  e.throw_countdown = 0 ∨ k < e.throw_countdown

instance (e : Env) (k : Nat) : Decidable (no_throw e k) := by
  unfold no_throw; infer_instance

/-- The handle `v` is small and its inline array holds `s`. -/
def SmallAt {T : Type} (SMALL_SIZE : Nat) (v : socow_vector T) (s : List T) : Prop :=
  v.is_small = true ∧ v.small = s ∧ v.size_ = s.length ∧ s.length ≤ SMALL_SIZE

/-- The handle `v` is big, its pointer is the address `a` of the live block
`b`, the constructed slots of `b` are `s`, and `b` is referenced. -/
def BigAt {T : Type} (v : socow_vector T) (m : Mem T) (a : Nat) (b : big_storage T)
    (s : List T) : Prop :=
  v.is_small = false ∧ v.small = [] ∧ v.big = some a ∧ v.size_ = s.length ∧
  m.heap[a]? = some b ∧ b.live = true ∧ b.data = s ∧ s.length ≤ b.capacity ∧
  1 ≤ b.ref_count

/-- The handle `v` is in a valid state in memory `m` and holds the sequence
`s`. -/
def Holds {T : Type} (SMALL_SIZE : Nat) (v : socow_vector T) (m : Mem T) (s : List T) : Prop :=
  SmallAt SMALL_SIZE v s ∨ ∃ a b, BigAt v m a b s

/-- Heap block after one of its handles is destroyed: the count drops, and at
zero the elements are destroyed and the block is deleted. -/
def released {T : Type} (b : big_storage T) : big_storage T :=
  if b.ref_count = 1 then ⟨b.capacity, 0, [], false⟩
  else { b with ref_count := b.ref_count - 1 }

/-- Heap after `~socow_vector()` ran on a valid handle. -/
def heap_released {T : Type} (v : socow_vector T) (m : Mem T) : List (big_storage T) :=
  if v.is_small then m.heap
  else
    match v.big with
    | some a =>
      match m.heap[a]? with
      | some b => m.heap.set a (released b)
      | none => m.heap
    | none => m.heap

/-- The handle `v` owns the array `l` exclusively: `l` is its inline array
(of `SMALL_SIZE` slots) or the array of a live block referenced by `v` alone;
`d` are the constructed slots and `cap` is the number of slots. -/
def Stor {T : Type} (SMALL_SIZE : Nat) (v : socow_vector T) (m : Mem T) (l : Loc)
    (d : List T) (cap : Nat) : Prop :=
  (v.is_small = true ∧ v.small = d ∧ l = .small ∧ cap = SMALL_SIZE) ∨
  (v.is_small = false ∧ v.small = [] ∧
    ∃ a b, v.big = some a ∧ l = .big a ∧ m.heap[a]? = some b ∧ b.live = true ∧
      b.data = d ∧ b.capacity = cap ∧ b.ref_count = 1)

/-- State in which the array `l` of `v` has the constructed slots `d`, the
element statics are `e` and the size member is `sz`. -/
def put {T : Type} (v : socow_vector T) (m : Mem T) (l : Loc) (d : List T) (e : Env)
    (sz : Nat) : St T :=
  ({ (set_slots v (m.set_env e) l d).1 with size_ := sz }, (set_slots v (m.set_env e) l d).2)

/-- The list `d` with the values at `i` and `j` exchanged. -/
def swap_idx {T : Type} (d : List T) (i j : Nat) : List T :=
  match d[i]?, d[j]? with
  | some x, some y => (d.set i y).set j x
  | _, _ => d

/-- Effect of the loop of `insert` on the array when no copy throws: `k`
exchanges of neighbours, walking down from index `j`. -/
def insert_pure {T : Type} : Nat → Nat → List T → List T
  | 0, _, d => d
  | k + 1, j, d => insert_pure k (j - 1) (swap_idx d (j - 1) j)

/-- Effect of the first loop of `erase` on the array when no copy throws: `k`
exchanges of the slots `i` and `i + cnt`, walking up from index `i`. -/
def erase_pure {T : Type} (cnt : Nat) : Nat → Nat → List T → List T
  | 0, _, d => d
  | k + 1, i, d => erase_pure cnt k (i + 1) (swap_idx d i (i + cnt))

/-- The mutable access paths of the class. -/
inductive accessor where
  | data
  | subscript (i : Nat)
  | front
  | back
  | begin_
  | end_
  deriving DecidableEq, Repr

/-- Call of a mutable access path; the result is the address obtained. -/
def access {T : Type} (SMALL_SIZE : Nat) (v : socow_vector T) (m : Mem T) :
    accessor → Res (St T) ptr
  | .data => data SMALL_SIZE v m
  | .subscript i => index SMALL_SIZE v m i
  | .front => front SMALL_SIZE v m
  | .back => back SMALL_SIZE v m
  | .begin_ => begin_ SMALL_SIZE v m
  | .end_ => end_ SMALL_SIZE v m

/-- Offset from `data()` of the address an access path returns, for a
container of size `n`. -/
def accessor.offset (n : Nat) : accessor → Nat
  | .data => 0
  | .subscript i => i
  | .front => 0
  | .back => size_dec n
  | .begin_ => 0
  | .end_ => n

/-- Forget the value a call returns. -/
def forget {σ α : Type} : Res σ α → Res σ Unit
  | .ok _ s => .ok () s
  | .thrown s => .thrown s
  | .fault => .fault

/-- The mutating operations of the class.  Positions are offsets from
`begin() const`; `write acc fwd bwd x` is the element assignment `*p = x`
through the address `p` obtained from the access path `acc` by `fwd` steps
forward and `bwd` steps backward (`b[3] = x`, `*std::prev(b.end()) = x`). -/
inductive mut_op (T : Type) where
  | write (acc : accessor) (fwd bwd : Nat) (x : T)
  | push_back (x : T)
  | pop_back
  | insert (i : Nat) (x : T)
  | erase (i : Nat)
  | erase_range (f t : Nat)
  | clear
  | reserve (n : Nat)
  | shrink_to_fit

/-- Run one mutating operation on `*this`. -/
def apply_op {T : Type} [Layout T] (SMALL_SIZE : Nat) (v : socow_vector T) (m : Mem T) :
    mut_op T → Res (St T) Unit
  | .write acc fwd bwd x =>
    match access SMALL_SIZE v m acc with
    | .ok p (v1, m1) => assign_at v1 m1 ⟨p.loc, p.off + fwd - bwd⟩ x
    | .thrown s => .thrown s
    | .fault => .fault
  | .push_back x => push_back SMALL_SIZE v m (.val x)
  | .pop_back => pop_back SMALL_SIZE v m
  | .insert i x =>
    match begin_const v m with
    | .ok p _ => forget (insert SMALL_SIZE v m ⟨p.loc, p.off + i⟩ (.val x))
    | _ => .fault
  | .erase i =>
    match begin_const v m with
    | .ok p _ => forget (erase SMALL_SIZE v m ⟨p.loc, p.off + i⟩)
    | _ => .fault
  | .erase_range f t =>
    match begin_const v m with
    | .ok p _ =>
      forget (erase_range SMALL_SIZE v m ⟨p.loc, p.off + f⟩ ⟨p.loc, p.off + t⟩)
    | _ => .fault
  | .clear => clear SMALL_SIZE v m
  | .reserve n => reserve SMALL_SIZE v m n
  | .shrink_to_fit => shrink_to_fit SMALL_SIZE v m

/-- The block at address `A` is live, has the constructed slots `s` and the
capacity `cap`, and is referenced. -/
def Kept {T : Type} (A : Nat) (s : List T) (cap : Nat) (m : Mem T) : Prop :=
  ∃ c, m.heap[A]? = some c ∧ c.live = true ∧ c.data = s ∧ c.capacity = cap ∧
    1 ≤ c.ref_count

/-- The call either faults or ends in a state whose heap cell `A` is the one
of `m0`. -/
def SameCell {T : Type} {α : Type} (A : Nat) (m0 : Mem T) (r : Res (St T) α) : Prop :=
  match r with
  | .ok _ (_, m1) => m1.heap[A]? = m0.heap[A]?
  | .thrown (_, m1) => m1.heap[A]? = m0.heap[A]?
  | .fault => True

/-- Effect of the first loop of the both-small branch of `swap` on the two
inline arrays when no copy throws: `k` exchanges of the slots `i` of the two
arrays, walking up from index `i`. -/
def swap_small_pure {T : Type} : Nat → Nat → List T → List T → List T × List T
  | 0, _, d1, d2 => (d1, d2)
  | k + 1, i, d1, d2 =>
    match d1[i]?, d2[i]? with
    | some x, some y => swap_small_pure k (i + 1) (d1.set i y) (d2.set i x)
    | _, _ => (d1, d2)

/-- The call `r`, started in the state `v`, `m` where `v` owns the array `l`
of `cap` slots, either is undefined or ends, normally or by an exception, in
the state `v`, `m` with only the constructed slots of `l`, the size (their
number, at most `cap`) and the element statics changed. -/
def InPlace {T α : Type} (v : socow_vector T) (m : Mem T) (l : Loc) (cap : Nat)
    (r : Res (St T) α) : Prop :=
  match r with
  | .ok _ st => ∃ d e, d.length ≤ cap ∧ st = put v m l d e d.length
  | .thrown st => ∃ d e, d.length ≤ cap ∧ st = put v m l d e d.length
  | .fault => True

/-! ### Several containers over one heap -/

/-- The block a handle references: its `big` member when it is in the big
representation. -/
def tgt {T : Type} (v : socow_vector T) : Option Nat :=
  if v.is_small then none else v.big

/-- Number of the handles in `objs` that reference the block at address `A`. -/
def refs {T : Type} (objs : List (socow_vector T)) (A : Nat) : Nat :=
  objs.countP fun v => decide (tgt v = some A)

/-- A program state: the live container objects and the memory. -/
structure Sys (T : Type) where
  objs : List (socow_vector T)
  mem : Mem T
  deriving DecidableEq, Repr

/-- What a program does with its containers.  An object is named by its index
in `Sys.objs`; a new object is added at the end. -/
inductive call (T : Type) where
  | arm (k : Nat)
  | construct
  | copy (j : Nat)
  | destroy (i : Nat)
  | assign (i j : Nat)
  | swap (i j : Nat)
  | mutate (i : Nat) (op : mut_op T)
  | access (i : Nat) (acc : accessor)

/-- One call of a program: `element::set_throw_countdown(k)`, the default
constructor, the copy constructor from object `j`, the destructor of object
`i`, `objs[i] = objs[j]`, `objs[i].swap(objs[j])`, a mutating operation or a
mutable access path on object `i`.  `.fault` is undefined behaviour of the
member function, or a call that names an object that does not exist.  For
`swap` with `i = j` both operands are the same object: `swap` then works on
two equal copies of it, which gives the result on the one object because
exchanging a slot with itself leaves the slot as it was. -/
def run {T : Type} [Layout T] [DecidableEq T] (SMALL_SIZE : Nat) (sys : Sys T) :
    call T → Res (Sys T) Unit
  | .arm k => .ok () ⟨sys.objs, sys.mem.set_env ⟨k, sys.mem.env.copy_counter⟩⟩
  | .construct => .ok () ⟨sys.objs ++ [default_ctor], sys.mem⟩
  | .copy j =>
    match sys.objs[j]? with
    | none => .fault
    | some o =>
      match copy_ctor SMALL_SIZE o sys.mem with
      | .ok v m1 => .ok () ⟨sys.objs ++ [v], m1⟩
      | .thrown m1 => .thrown ⟨sys.objs, m1⟩
      | .fault => .fault
  | .destroy i =>
    match sys.objs[i]? with
    | none => .fault
    | some v =>
      match destructor v sys.mem with
      | some (_, m1) => .ok () ⟨sys.objs.eraseIdx i, m1⟩
      | none => .fault
  | .assign i j =>
    match sys.objs[i]?, sys.objs[j]? with
    | some v, some o =>
      match operator_assign SMALL_SIZE v o sys.mem with
      | .ok _ (v1, _, m1) => .ok () ⟨sys.objs.set i v1, m1⟩
      | .thrown (v1, _, m1) => .thrown ⟨sys.objs.set i v1, m1⟩
      | .fault => .fault
    | _, _ => .fault
  | .swap i j =>
    match sys.objs[i]?, sys.objs[j]? with
    | some v, some o =>
      match swap SMALL_SIZE v o sys.mem with
      | .ok _ (v1, o1, m1) => .ok () ⟨(sys.objs.set j o1).set i v1, m1⟩
      | .thrown (v1, o1, m1) => .thrown ⟨(sys.objs.set j o1).set i v1, m1⟩
      | .fault => .fault
    | _, _ => .fault
  | .mutate i op =>
    match sys.objs[i]? with
    | none => .fault
    | some v =>
      match apply_op SMALL_SIZE v sys.mem op with
      | .ok _ (v1, m1) => .ok () ⟨sys.objs.set i v1, m1⟩
      | .thrown (v1, m1) => .thrown ⟨sys.objs.set i v1, m1⟩
      | .fault => .fault
  | .access i acc =>
    match sys.objs[i]? with
    | none => .fault
    | some v =>
      match access SMALL_SIZE v sys.mem acc with
      | .ok _ (v1, m1) => .ok () ⟨sys.objs.set i v1, m1⟩
      | .thrown (v1, m1) => .thrown ⟨sys.objs.set i v1, m1⟩
      | .fault => .fault

/-- The states a program reaches from no object and an empty heap; a call
that throws leaves the program running in the state it threw in. -/
inductive Reachable {T : Type} [Layout T] [DecidableEq T] (SMALL_SIZE : Nat) :
    Sys T → Prop where
  | init (e : Env) : Reachable SMALL_SIZE ⟨[], ⟨[], e⟩⟩
  | step_ok (sys : Sys T) (c : call T) (sys1 : Sys T) :
    Reachable SMALL_SIZE sys → run SMALL_SIZE sys c = .ok () sys1 → Reachable SMALL_SIZE sys1
  | step_thrown (sys : Sys T) (c : call T) (sys1 : Sys T) :
    Reachable SMALL_SIZE sys → run SMALL_SIZE sys c = .thrown sys1 →
    Reachable SMALL_SIZE sys1

/-- Every object of the state is a valid handle. -/
def Valid {T : Type} (SMALL_SIZE : Nat) (sys : Sys T) : Prop :=
  ∀ v ∈ sys.objs, ∃ s, Holds SMALL_SIZE v sys.mem s

/-- Every live block is referenced, and its reference count is the number of
the handles that reference it. -/
def RefInv {T : Type} (sys : Sys T) : Prop :=
  ∀ A b, sys.mem.heap[A]? = some b → b.live = true →
    b.ref_count = refs sys.objs A ∧ 1 ≤ b.ref_count

/-- The call worked in place on the exclusive storage of `v`: only the
constructed slots of that array, the size and the element statics changed. -/
def EffIn {T : Type} (SMALL_SIZE : Nat) (v : socow_vector T) (m : Mem T)
    (v2 : socow_vector T) (m2 : Mem T) : Prop :=
  ∃ l cap d0 d e, Stor SMALL_SIZE v m l d0 cap ∧ d.length ≤ cap ∧
    (v2, m2) = put v m l d e d.length

/-- The call left `v` and every block alone; blocks it allocated are freed. -/
def EffSame {T : Type} (v : socow_vector T) (m : Mem T) (v2 : socow_vector T) (m2 : Mem T) :
    Prop :=
  v2 = v ∧ ∃ ext e, m2 = ⟨m.heap ++ ext, e⟩ ∧ ∀ b ∈ ext, b.live = false

/-- The call released the storage of `v` and moved `v` to a fresh exclusive
block at the end of the heap, of a capacity that is at least that of the block
`v` had, or above the inline capacity, or twice the inline capacity. -/
def EffMoved {T : Type} (SMALL_SIZE : Nat) (v : socow_vector T) (m : Mem T) (s : List T)
    (v2 : socow_vector T) (m2 : Mem T) : Prop :=
  ∃ cap1 d e, d.length ≤ cap1 ∧ v2 = ⟨false, d.length, [], some m.heap.length⟩ ∧
    m2 = ⟨heap_released v m ++ [⟨cap1, 1, d, true⟩], e⟩ ∧
    ((∃ A c, BigAt v m A c s ∧ c.capacity ≤ cap1) ∨ SMALL_SIZE < cap1 ∨
      cap1 = SMALL_SIZE * 2)

/-- The call released the block of `v` and moved the elements to the inline
array. -/
def EffSmall {T : Type} (SMALL_SIZE : Nat) (v : socow_vector T) (m : Mem T) (s : List T)
    (v2 : socow_vector T) (m2 : Mem T) : Prop :=
  ∃ A c e, BigAt v m A c s ∧ s.length ≤ SMALL_SIZE ∧ v2 = ⟨true, s.length, s, none⟩ ∧
    m2 = ⟨m.heap.set A (released c), e⟩

/-- What a member function called on the valid handle `v` holding `s` has done
to `v` and the heap when it ends in `v2`, `m2`. -/
def Effect {T : Type} (SMALL_SIZE : Nat) (v : socow_vector T) (m : Mem T) (s : List T)
    (v2 : socow_vector T) (m2 : Mem T) : Prop :=
  EffIn SMALL_SIZE v m v2 m2 ∨ EffSame v m v2 m2 ∨ EffMoved SMALL_SIZE v m s v2 m2 ∨
    EffSmall SMALL_SIZE v m s v2 m2

/-- Every live block has more slots than the inline array. -/
def CapInv {T : Type} (SMALL_SIZE : Nat) (m : Mem T) : Prop :=
  ∀ (A : Nat) (b : big_storage T), m.heap[A]? = some b → b.live = true → SMALL_SIZE < b.capacity

/-- Successive `push_back` of the values of a list. -/
def push_all {T : Type} (SMALL_SIZE : Nat) : List T → socow_vector T → Mem T → Res (St T) Unit
  | [], v, m => .ok () (v, m)
  | x :: xs, v, m =>
    match push_back SMALL_SIZE v m (.val x) with
    | .ok _ (v1, m1) => push_all SMALL_SIZE xs v1 m1
    | .thrown s => .thrown s
    | .fault => .fault

/-! ## Basic facts -/

theorem copies_zero (e : Env) : copies e 0 = e := by
  cases e; simp [copies]

theorem copies_copies (e : Env) (a b : Nat) : copies (copies e a) b = copies e (a + b) := by
  simp [copies]; omega

theorem element_copy_ok (e : Env) (k : Nat) (h : no_throw e (k + 1)) :
    element_copy e = (copies e 1, false) ∧ no_throw (copies e 1) k := by
  unfold no_throw at h
  rcases h with h | h
  · simp [element_copy, copies, no_throw, h]
  · have h1 : e.throw_countdown ≠ 0 := by omega
    have h2 : e.throw_countdown - 1 ≠ 0 := by omega
    simp [element_copy, copies, no_throw, h1, h2]
    omega

theorem element_copy_throw (e : Env) (h : e.throw_countdown = 1) :
    element_copy e = (copies e 1, true) := by
  simp [element_copy, copies, h]

theorem element_copy_cases (e : Env) :
    (no_throw e 1 ∧ element_copy e = (copies e 1, false)) ∨
    (e.throw_countdown = 1 ∧ element_copy e = (copies e 1, true)) := by
  by_cases h : no_throw e 1
  · exact Or.inl ⟨h, (element_copy_ok e 0 h).1⟩
  · have h1 : e.throw_countdown = 1 := by
      unfold no_throw at h; omega
    exact Or.inr ⟨h1, element_copy_throw e h1⟩

theorem clear_array_all {T : Type} (d : List T) (n : Nat) (h : d.length = n) :
    clear_array d n = some [] := by
  induction n generalizing d with
  | zero =>
    have : d = [] := List.length_eq_zero.mp h
    simp [clear_array, this]
  | succ k ih =>
    have h1 : d.dropLast.length = k := by simp [h]
    simp [clear_array, h, ih d.dropLast h1]

theorem drop_of_getElem? {T : Type} (l : List T) (i : Nat) (x : T) (h : l[i]? = some x) :
    l.drop i = x :: l.drop (i + 1) := by
  obtain ⟨hi, hx⟩ := List.getElem?_eq_some.mp h
  rw [List.drop_eq_getElem_cons hi, hx]

theorem copy_data_array_from_eq {T : Type} (src : List T) (cap : Nat) (todo : Nat) :
    ∀ (i : Nat) (res : List T) (e : Env), res.length = i → i + todo ≤ src.length →
      i + todo ≤ cap →
      copy_data_array_from src cap todo i res e =
        if no_throw e todo then .ok () (res ++ (src.drop i).take todo, copies e todo)
        else .thrown ([], copies e e.throw_countdown) := by
  induction todo with
  | zero =>
    intro i res e _ _ _
    have : no_throw e 0 := by unfold no_throw; omega
    simp [copy_data_array_from, this, copies_zero]
  | succ k ih =>
    intro i res e hlen hsrc hcap
    have hi : i < src.length := by omega
    obtain ⟨x, hget⟩ : ∃ x, src[i]? = some x := ⟨_, List.getElem?_eq_getElem hi⟩
    have hd := drop_of_getElem? src i x hget
    rw [copy_data_array_from, hget]
    have hlt : i < cap := by omega
    have hcond : res.length = i ∧ i < cap := ⟨hlen, hlt⟩
    rcases element_copy_cases e with ⟨hn, hc⟩ | ⟨ht, hc⟩
    · have hih := ih (i + 1) (res ++ [x]) (copies e 1) (by simp [hlen]) (by omega) (by omega)
      simp only [hc, if_pos hcond, Bool.false_eq_true, if_false]
      rw [hih]
      by_cases hk : no_throw e (k + 1)
      · have hk1 := (element_copy_ok e k hk).2
        simp [hk, hk1, hd, copies_copies, Nat.add_comm]
      · have hk1 : ¬ no_throw (copies e 1) k := by
          unfold no_throw copies at *
          simp only
          omega
        have hk2 : 1 + (e.throw_countdown - 1) = e.throw_countdown := by
          unfold no_throw at hn hk; omega
        simp [hk, hk1, copies_copies]
        simp [copies, hk2]
    · have hk : ¬ no_throw e (k + 1) := by
        unfold no_throw; omega
      simp [hc, hk, hcond, clear_array_all res i hlen, ht]

theorem copy_data_array_eq {T : Type} (src : List T) (cap n : Nat) (e : Env)
    (hsrc : n ≤ src.length) (hcap : n ≤ cap) :
    copy_data_array src [] cap n e =
      if no_throw e n then .ok () (src.take n, copies e n)
      else .thrown ([], copies e e.throw_countdown) := by
  unfold copy_data_array
  rw [copy_data_array_from_eq src cap n 0 [] e rfl (by omega) (by omega)]
  simp

/-! ## Heap access -/

theorem deref_big {T : Type} {v : socow_vector T} {m : Mem T} {a : Nat} {b : big_storage T}
    {s : List T} (h : BigAt v m a b s) : m.deref v.big = some b := by
  obtain ⟨_, _, hb, _, ha, hl, _⟩ := h
  simp [Mem.deref, hb, ha, hl]

theorem addr_lt {T : Type} {v : socow_vector T} {m : Mem T} {a : Nat} {b : big_storage T}
    {s : List T} (h : BigAt v m a b s) : a < m.heap.length := by
  obtain ⟨_, _, _, _, ha, _⟩ := h
  exact (List.getElem?_eq_some.mp ha).1

theorem base_slots_big {T : Type} {v : socow_vector T} {m : Mem T} {a : Nat}
    {b : big_storage T} {s : List T} (h : BigAt v m a b s) : base_slots v m = s := by
  obtain ⟨hs, _, hb, _, ha, hl, hd, _⟩ := h
  simp [base_slots, base, hs, hb, slots, Mem.deref, ha, hl, hd]

theorem base_slots_small {T : Type} {N : Nat} {v : socow_vector T} (m : Mem T) {s : List T}
    (h : SmallAt N v s) : base_slots v m = s := by
  obtain ⟨hs, hd, _⟩ := h
  simp [base_slots, base, hs, slots, hd]

theorem base_slots_holds {T : Type} {N : Nat} {v : socow_vector T} {m : Mem T} {s : List T}
    (h : Holds N v m s) : base_slots v m = s := by
  rcases h with h | ⟨a, b, h⟩
  · exact base_slots_small m h
  · exact base_slots_big h

theorem size_holds {T : Type} {N : Nat} {v : socow_vector T} {m : Mem T} {s : List T}
    (h : Holds N v m s) : v.size_ = s.length := by
  rcases h with h | ⟨a, b, h⟩
  · exact h.2.2.1
  · exact h.2.2.2.1

theorem base_slots_append {T : Type} (v : socow_vector T) (m : Mem T) (c : big_storage T)
    (h : v.is_small = true ∨ ∃ a, v.big = some a ∧ a < m.heap.length) :
    base_slots v ⟨m.heap ++ [c], m.env⟩ = base_slots v m := by
  rcases h with h | ⟨a, hb, ha⟩
  · simp [base_slots, base, h, slots]
  · cases hs : v.is_small
    · simp [base_slots, base, hs, hb, slots, Mem.deref, List.getElem?_append_left ha]
    · simp [base_slots, base, hs, slots]

theorem capacity_big {T : Type} (N : Nat) {v : socow_vector T} {m : Mem T} {a : Nat}
    {b : big_storage T} {s : List T} (h : BigAt v m a b s) :
    capacity N v m = .ok b.capacity (v, m) := by
  simp [capacity, h.1, deref_big h]

theorem capacity_small {T : Type} {N : Nat} {v : socow_vector T} (m : Mem T) {s : List T}
    (h : SmallAt N v s) : capacity N v m = .ok N (v, m) := by
  simp [capacity, h.1]

/-! ## Destructor and clone -/

theorem destructor_big {T : Type} {v : socow_vector T} {m : Mem T} {a : Nat}
    {b : big_storage T} {s : List T} (h : BigAt v m a b s) :
    destructor v m = some (v, ⟨m.heap.set a (released b), m.env⟩) := by
  have hd := deref_big h
  have hlt := addr_lt h
  obtain ⟨hs, _, hb, hn, ha, hl, hdat, _, hr⟩ := h
  rw [hb] at hd
  have hne : b.ref_count ≠ 0 := by omega
  by_cases h1 : b.ref_count = 1
  · simp [destructor, hs, hb, hd, big_storage.unshare, big_storage.does_not_exists, size_dec,
      h1, hdat, hn, clear_array_all s s.length rfl, operator_delete, Mem.store, released,
      List.getElem?_set_self hlt]
  · have h2 : b.ref_count - 1 ≠ 0 := by omega
    simp [destructor, hs, hb, hd, big_storage.unshare, big_storage.does_not_exists, size_dec,
      h1, hne, h2, Mem.store, released]

theorem destructor_small {T : Type} {N : Nat} {v : socow_vector T} (m : Mem T) {s : List T}
    (h : SmallAt N v s) : destructor v m = some ({ v with small := [] }, m) := by
  obtain ⟨hs, hd, hn, _⟩ := h
  simp [destructor, hs, hd, hn, clear_array_all s s.length rfl]

theorem destructor_holds {T : Type} {N : Nat} {v : socow_vector T} {m : Mem T} {s : List T}
    (h : Holds N v m s) :
    destructor v m = some ({ v with small := [] }, ⟨heap_released v m, m.env⟩) := by
  rcases h with h | ⟨a, b, h⟩
  · rw [destructor_small m h]
    simp [heap_released, h.1]
  · rw [destructor_big h]
    obtain ⟨hs, hsm, hb, hn, ha, _⟩ := h
    cases v
    simp_all [heap_released]

theorem set_at_length {α : Type} (l : List α) (c d : α) :
    (l ++ [c]).set l.length d = l ++ [d] := by
  induction l with
  | nil => rfl
  | cons x xs ih => simp [ih]

theorem getElem?_at_length {α : Type} (l : List α) (c : α) :
    (l ++ [c])[l.length]? = some c := by
  simp

theorem bigAt_extend {T : Type} {v : socow_vector T} {m : Mem T} {a : Nat} {b : big_storage T}
    {s : List T} (h : BigAt v m a b s) (l : List (big_storage T)) (e : Env) :
    BigAt v ⟨m.heap ++ l, e⟩ a b s := by
  have hlt := addr_lt h
  obtain ⟨hs, hsm, hb, hn, ha, hl, hdat, hc, hr⟩ := h
  exact ⟨hs, hsm, hb, hn, by simpa [List.getElem?_append_left hlt] using ha, hl, hdat, hc, hr⟩

theorem holds_extend {T : Type} {N : Nat} {v : socow_vector T} {m : Mem T} {s : List T}
    (h : Holds N v m s) (l : List (big_storage T)) (e : Env) :
    Holds N v ⟨m.heap ++ l, e⟩ s := by
  rcases h with h | ⟨a, b, h⟩
  · exact Or.inl h
  · exact Or.inr ⟨a, b, bigAt_extend h l e⟩

theorem heap_released_extend {T : Type} {N : Nat} {v : socow_vector T} {m : Mem T}
    {s : List T} (h : Holds N v m s) (l : List (big_storage T)) (e : Env) :
    heap_released v ⟨m.heap ++ l, e⟩ = heap_released v m ++ l := by
  rcases h with h | ⟨a, b, h⟩
  · simp [heap_released, h.1]
  · have hlt := addr_lt h
    obtain ⟨hs, hsm, hb, hn, ha, _⟩ := h
    simp [heap_released, hs, hb, ha, List.getElem?_append_left hlt, List.set_append_left _ _ hlt]

theorem heap_released_length {T : Type} (v : socow_vector T) (m : Mem T) :
    (heap_released v m).length = m.heap.length := by
  unfold heap_released
  split
  · rfl
  · split
    · split <;> simp
    · rfl

theorem make_copy_eq {T : Type} {N : Nat} {v : socow_vector T} {m : Mem T} {s : List T}
    (h : Holds N v m s) (new_cap : Nat) (hcap : s.length ≤ new_cap) :
    make_copy v new_cap m =
      if no_throw m.env s.length then
        .ok () (⟨v.is_small, s.length, [], some m.heap.length⟩,
          ⟨heap_released v m ++ [⟨new_cap, 1, s, true⟩], copies m.env s.length⟩)
      else
        .thrown (v, ⟨m.heap ++ [⟨new_cap, 1, [], false⟩],
          copies m.env m.env.throw_countdown⟩) := by
  have hx := holds_extend h [⟨new_cap, 1, [], true⟩] m.env
  have hbs : base_slots v (make_storage new_cap m) = s := base_slots_holds hx
  have hn := size_holds h
  unfold make_copy
  simp only [hbs, hn]
  rw [show (make_storage new_cap m).env = m.env from rfl,
    copy_data_array_eq s new_cap s.length m.env (le_refl _) hcap]
  by_cases hnt : no_throw m.env s.length
  · have hy := holds_extend h [⟨new_cap, 1, s, true⟩] (copies m.env s.length)
    have hst : ((make_storage new_cap m).store m.heap.length ⟨new_cap, 1, s, true⟩).set_env
        (copies m.env s.length) = ⟨m.heap ++ [⟨new_cap, 1, s, true⟩], copies m.env s.length⟩ := by
      simp [make_storage, Mem.store, Mem.set_env, set_at_length]
    simp only [hnt, if_true, List.take_length, hst, destructor_holds hy,
      heap_released_extend h]
    simp [hn]
  · simp [hnt, make_storage, Mem.store, Mem.set_env, set_at_length, operator_delete]

/-! ## Exclusive storage -/

theorem stor_slots {T : Type} {N : Nat} {v : socow_vector T} {m : Mem T} {l : Loc}
    {d : List T} {cap : Nat} (h : Stor N v m l d cap) :
    slots v m l = some d ∧ slot_count N m l = some cap := by
  rcases h with ⟨_, hd, hl, hc⟩ | ⟨_, _, a, b, _, hl, ha, hlv, hd, hc, _⟩
  · subst hl; simp [slots, slot_count, hd, hc]
  · subst hl; simp [slots, slot_count, Mem.deref, ha, hlv, hd, hc]

theorem stor_put {T : Type} {N : Nat} {v : socow_vector T} {m : Mem T} {l : Loc}
    {d : List T} {cap : Nat} (h : Stor N v m l d cap) (d1 : List T) (e : Env) (sz : Nat) :
    Stor N (put v m l d1 e sz).1 (put v m l d1 e sz).2 l d1 cap := by
  rcases h with ⟨hs, hd, hl, hc⟩ | ⟨hs, hsm, a, b, hb, hl, ha, hlv, hd, hc, hr⟩
  · subst hl
    exact Or.inl ⟨by simp [put, set_slots, hs], by simp [put, set_slots], rfl, hc⟩
  · subst hl
    have hlt : a < m.heap.length := (List.getElem?_eq_some.mp ha).1
    refine Or.inr ⟨by simp [put, set_slots, Mem.set_env, ha, hs],
      by simp [put, set_slots, Mem.set_env, ha, hsm], a, { b with data := d1 }, ?_, rfl, ?_,
      hlv, rfl, hc, hr⟩
    · simp [put, set_slots, Mem.set_env, ha, hb]
    · simp [put, set_slots, Mem.set_env, ha, Mem.store, List.getElem?_set_self hlt]

theorem put_size {T : Type} (v : socow_vector T) (m : Mem T) (l : Loc) (d : List T) (e : Env)
    (sz : Nat) : (put v m l d e sz).1.size_ = sz := rfl

theorem put_env {T : Type} (v : socow_vector T) (m : Mem T) (l : Loc) (d : List T) (e : Env)
    (sz : Nat) : (put v m l d e sz).2.env = e := by
  cases l with
  | small => rfl
  | big a =>
    simp only [put, set_slots, Mem.set_env]
    split <;> rfl

theorem put_heap_length {T : Type} (v : socow_vector T) (m : Mem T) (l : Loc) (d : List T)
    (e : Env) (sz : Nat) : (put v m l d e sz).2.heap.length = m.heap.length := by
  cases l with
  | small => rfl
  | big a =>
    simp only [put, set_slots, Mem.set_env]
    split <;> simp [Mem.store]

theorem put_frame {T : Type} (v : socow_vector T) (m : Mem T) (l : Loc) (d : List T)
    (e : Env) (sz : Nat) (c : Nat) (h : l ≠ .big c) :
    (put v m l d e sz).2.heap[c]? = m.heap[c]? := by
  cases l with
  | small => rfl
  | big a =>
    have hne : a ≠ c := fun hh => h (by rw [hh])
    simp only [put, set_slots, Mem.set_env]
    split
    · simp [Mem.store, List.getElem?_set_ne hne]
    · rfl

theorem put_put {T : Type} {N : Nat} {v : socow_vector T} {m : Mem T} {l : Loc}
    {d : List T} {cap : Nat} (h : Stor N v m l d cap) (d1 d2 : List T) (e1 e2 : Env)
    (s1 s2 : Nat) :
    put (put v m l d1 e1 s1).1 (put v m l d1 e1 s1).2 l d2 e2 s2 = put v m l d2 e2 s2 := by
  rcases h with ⟨hs, hd, hl, hc⟩ | ⟨hs, hsm, a, b, hb, hl, ha, hlv, hd, hc, hr⟩
  · subst hl; simp [put, set_slots, Mem.set_env]
  · subst hl
    have hlt : a < m.heap.length := (List.getElem?_eq_some.mp ha).1
    simp [put, set_slots, Mem.set_env, ha, Mem.store, List.getElem?_set_self hlt]

theorem put_self {T : Type} {N : Nat} {v : socow_vector T} {m : Mem T} {l : Loc}
    {d : List T} {cap : Nat} (h : Stor N v m l d cap) :
    put v m l d m.env v.size_ = (v, m) := by
  rcases h with ⟨hs, hd, hl, hc⟩ | ⟨hs, hsm, a, b, hb, hl, ha, hlv, hd, hc, hr⟩
  · subst hl; subst hd; simp [put, set_slots, Mem.set_env]
  · subst hl; subst hd
    have hb2 : ({ b with data := b.data } : big_storage T) = b := by cases b; rfl
    have hset : m.heap.set a b = m.heap := by
      apply List.ext_getElem?
      intro i
      by_cases hi : a = i
      · subst hi
        rw [List.getElem?_set_self (List.getElem?_eq_some.mp ha).1, ha]
      · rw [List.getElem?_set_ne hi]
    simp [put, set_slots, Mem.set_env, ha, Mem.store, hb2, hset]

theorem data_stor {T : Type} {N : Nat} {v : socow_vector T} {m : Mem T} {l : Loc}
    {d : List T} {cap : Nat} (h : Stor N v m l d cap) :
    data N v m = .ok ⟨l, 0⟩ (v, m) := by
  rcases h with ⟨hs, hd, hl, hc⟩ | ⟨hs, hsm, a, b, hb, hl, ha, hlv, hd, hc, hr⟩
  · subst hl; simp [data, hs]
  · subst hl
    simp [data, hs, hb, Mem.deref, ha, hlv, big_storage.is_unique, hr]

theorem heap_released_big {T : Type} {v : socow_vector T} {m : Mem T} {a : Nat}
    {b : big_storage T} {s : List T} (h : BigAt v m a b s) :
    heap_released v m = m.heap.set a (released b) := by
  obtain ⟨hs, _, hb, _, ha, _⟩ := h
  simp [heap_released, hs, hb, ha]

theorem heap_released_small {T : Type} {N : Nat} {v : socow_vector T} (m : Mem T)
    {s : List T} (h : SmallAt N v s) : heap_released v m = m.heap := by
  simp [heap_released, h.1]

theorem deref_addr {T : Type} {v : socow_vector T} {m : Mem T} {a : Nat} {b : big_storage T}
    {s : List T} (h : BigAt v m a b s) : m.deref (some a) = some b := by
  have := deref_big h
  rwa [h.2.2.1] at this

theorem data_unique {T : Type} (N : Nat) {v : socow_vector T} {m : Mem T} {a : Nat}
    {b : big_storage T} {s : List T} (h : BigAt v m a b s) (hr : b.ref_count = 1) :
    data N v m = .ok ⟨.big a, 0⟩ (v, m) := by
  have hd := deref_addr h
  simp [data, h.1, hd, big_storage.is_unique, hr, h.2.2.1]

theorem data_shared {T : Type} (N : Nat) {v : socow_vector T} {m : Mem T} {a : Nat}
    {b : big_storage T} {s : List T} (h : BigAt v m a b s) (hr : 2 ≤ b.ref_count) :
    data N v m =
      if no_throw m.env s.length then
        .ok ⟨.big m.heap.length, 0⟩ (⟨false, s.length, [], some m.heap.length⟩,
          ⟨m.heap.set a { b with ref_count := b.ref_count - 1 } ++ [⟨b.capacity, 1, s, true⟩],
            copies m.env s.length⟩)
      else
        .thrown (v, ⟨m.heap ++ [⟨b.capacity, 1, [], false⟩],
          copies m.env m.env.throw_countdown⟩) := by
  have hd := deref_addr h
  have hne : b.ref_count ≠ 1 := by omega
  have hrel : released b = { b with ref_count := b.ref_count - 1 } := by
    simp [released, hne]
  have hmc := make_copy_eq (Or.inr ⟨a, b, h⟩ : Holds N v m s) b.capacity h.2.2.2.2.2.2.2.1
  rw [heap_released_big h, hrel] at hmc
  unfold data
  by_cases hnt : no_throw m.env s.length <;>
    simp [h.1, h.2.2.1, hd, capacity, big_storage.is_unique, hmc, hnt, hne]

theorem stor_or_shared {T : Type} {N : Nat} {v : socow_vector T} {m : Mem T} {s : List T}
    (h : Holds N v m s) :
    (∃ l cap, Stor N v m l s cap ∧ s.length ≤ cap ∧ capacity N v m = .ok cap (v, m)) ∨
    (∃ a b, BigAt v m a b s ∧ 2 ≤ b.ref_count) := by
  rcases h with h | ⟨a, b, h⟩
  · exact Or.inl ⟨.small, N, Or.inl ⟨h.1, h.2.1, rfl, rfl⟩, h.2.2.2, capacity_small m h⟩
  · by_cases hr : b.ref_count = 1
    · obtain ⟨hs, hsm, hb, hn, ha, hl, hdat, hc, _⟩ := id h
      exact Or.inl ⟨.big a, b.capacity,
        Or.inr ⟨hs, hsm, a, b, hb, rfl, ha, hl, hdat, rfl, hr⟩, hc, capacity_big N h⟩
    · exact Or.inr ⟨a, b, h, by have := h.2.2.2.2.2.2.2.2; omega⟩

theorem holds_of_stor {T : Type} {N : Nat} {v : socow_vector T} {m : Mem T} {l : Loc}
    {s : List T} {cap : Nat} (h : Stor N v m l s cap) (hn : v.size_ = s.length)
    (hc : s.length ≤ cap) : Holds N v m s := by
  rcases h with ⟨hs, hd, hl, hcap⟩ | ⟨hs, hsm, a, b, hb, hl, ha, hlv, hd, hcap, hr⟩
  · exact Or.inl ⟨hs, hd, hn, by omega⟩
  · exact Or.inr ⟨a, b, hs, hsm, hb, hn, ha, hlv, hd, by omega, by omega⟩

theorem capacity_stor {T : Type} {N : Nat} {v : socow_vector T} {m : Mem T} {l : Loc}
    {s : List T} {cap : Nat} (h : Stor N v m l s cap) :
    capacity N v m = .ok cap (v, m) := by
  rcases h with ⟨hs, hd, hl, hcap⟩ | ⟨hs, hsm, a, b, hb, hl, ha, hlv, hd, hcap, hr⟩
  · simp [capacity, hs, hcap]
  · simp [capacity, hs, hb, Mem.deref, ha, hlv, hcap]

/-- State reached by `data()` on a shared block: a fresh exclusive clone. -/
theorem stor_after_clone {T : Type} (N : Nat) (h0 : List (big_storage T)) (s : List T)
    (cap : Nat) (e : Env) (sm : Bool) (hsm : sm = false) :
    Stor N ⟨sm, s.length, [], some h0.length⟩ ⟨h0 ++ [⟨cap, 1, s, true⟩], e⟩
      (.big h0.length) s cap := by
  subst hsm
  exact Or.inr ⟨rfl, rfl, h0.length, ⟨cap, 1, s, true⟩, rfl, rfl, by simp, rfl, rfl, rfl, rfl⟩

/-! ## push_back -/

theorem no_throw_one_of_succ {e : Env} {n : Nat} (h : no_throw e (n + 1)) : no_throw e n := by
  unfold no_throw at *; omega

theorem no_throw_split (e : Env) (n k : Nat) :
    no_throw e (n + k) ↔ no_throw e n ∧ no_throw (copies e n) k := by
  unfold no_throw copies
  simp only
  omega

theorem throw_countdown_of_split {e : Env} {n : Nat}
    (h2 : ¬ no_throw (copies e n) 1) : e.throw_countdown = n + 1 := by
  unfold no_throw copies at *
  simp only at h2
  omega

theorem set_slots_eq_put {T : Type} (v : socow_vector T) (m : Mem T) (l : Loc) (d : List T)
    (e : Env) : set_slots v (m.set_env e) l d = put v m l d e v.size_ := by
  cases l with
  | small => rfl
  | big a =>
    simp only [put, set_slots, Mem.set_env]
    split <;> rfl

theorem construct_at_stor {T : Type} {N : Nat} {v : socow_vector T} {m : Mem T} {l : Loc}
    {d : List T} {cap : Nat} (h : Stor N v m l d cap) (elem : cref T) (x : T)
    (hread : read_ref v m elem = some x) (hlt : d.length < cap) :
    construct_at N v m ⟨l, d.length⟩ elem =
      if no_throw m.env 1 then .ok () (put v m l (d ++ [x]) (copies m.env 1) v.size_)
      else .thrown (v, m.set_env (copies m.env 1)) := by
  obtain ⟨h1, h2⟩ := stor_slots h
  unfold construct_at
  rw [hread]
  rcases element_copy_cases m.env with ⟨hn, hc⟩ | ⟨ht, hc⟩
  · simp [hc, hn, h1, h2, hlt, set_slots_eq_put]
  · have hn : ¬ no_throw m.env 1 := by unfold no_throw; omega
    simp [hc, hn, h1, h2, hlt]

theorem construct_at_tmp {T : Type} (N : Nat) (v : socow_vector T) (h0 : List (big_storage T))
    (e : Env) (d : List T) (cap : Nat) (elem : cref T) (x : T)
    (hread : read_ref v ⟨h0 ++ [⟨cap, 1, d, true⟩], e⟩ elem = some x) :
    construct_at N v ⟨h0 ++ [⟨cap, 1, d, true⟩], e⟩ ⟨.big h0.length, d.length⟩ elem =
      if no_throw e 1 then
        (if d.length < cap then .ok () (v, ⟨h0 ++ [⟨cap, 1, d ++ [x], true⟩], copies e 1⟩)
         else .fault)
      else
        (if d.length < cap then .thrown (v, ⟨h0 ++ [⟨cap, 1, d, true⟩], copies e 1⟩)
         else .fault) := by
  unfold construct_at
  rw [hread]
  rcases element_copy_cases e with ⟨hn, hc⟩ | ⟨ht, hc⟩
  · by_cases hlt : d.length < cap <;>
      simp [hc, hn, slots, slot_count, Mem.deref, hlt, set_slots, Mem.set_env, Mem.store,
        set_at_length]
  · have hn : ¬ no_throw e 1 := by unfold no_throw; omega
    by_cases hlt : d.length < cap <;>
      simp [hc, hn, slots, slot_count, Mem.deref, hlt, Mem.set_env]

theorem push_back_grow {T : Type} {N : Nat} {v : socow_vector T} {m : Mem T} {s : List T}
    (h : Holds N v m s) (hfull : capacity N v m = .ok s.length (v, m)) (elem : cref T) (x : T)
    (hread : read_ref v ⟨m.heap ++ [⟨s.length * 2, 1, s, true⟩], copies m.env s.length⟩ elem
      = some x) :
    push_back N v m elem =
      if no_throw m.env (s.length + 1) then
        (if 0 < s.length then
          .ok () (⟨false, s.length + 1, [], some m.heap.length⟩,
            ⟨heap_released v m ++ [⟨s.length * 2, 1, s ++ [x], true⟩],
              copies m.env (s.length + 1)⟩)
         else .fault)
      else
        (if 0 < s.length then
          .thrown (v, ⟨m.heap ++ [⟨s.length * 2, 1, [], false⟩],
            copies m.env m.env.throw_countdown⟩)
         else .fault) := by
  have hx := holds_extend h [⟨s.length * 2, 1, [], true⟩] m.env
  have hbs : base_slots v (make_storage (s.length * 2) m) = s := base_slots_holds hx
  have hn := size_holds h
  unfold push_back
  rw [hfull]
  simp only [hn, if_true, hbs]
  rw [show (make_storage (s.length * 2) m).env = m.env from rfl,
    copy_data_array_eq s (s.length * 2) s.length m.env (le_refl _) (by omega)]
  by_cases hnt : no_throw m.env s.length
  · have hst : ((make_storage (s.length * 2) m).store m.heap.length
        ⟨s.length * 2, 1, s, true⟩).set_env (copies m.env s.length) =
        ⟨m.heap ++ [⟨s.length * 2, 1, s, true⟩], copies m.env s.length⟩ := by
      simp [make_storage, Mem.store, Mem.set_env, set_at_length]
    simp only [hnt, if_true, List.take_length, hst]
    rw [construct_at_tmp N v m.heap (copies m.env s.length) s (s.length * 2) elem x hread]
    by_cases hn1 : no_throw (copies m.env s.length) 1
    · have hall : no_throw m.env (s.length + 1) := (no_throw_split _ _ _).mpr ⟨hnt, hn1⟩
      by_cases hpos : 0 < s.length
      · have hlt : s.length < s.length * 2 := by omega
        have hy := holds_extend h [⟨s.length * 2, 1, s ++ [x], true⟩]
          (copies m.env (s.length + 1))
        simp only [hn1, hall, hpos, hlt, if_true, copies_copies, destructor_holds hy,
          heap_released_extend h, hn]
      · have hlt : ¬ s.length < s.length * 2 := by omega
        simp [hn1, hall, hpos, hlt]
    · have hall : ¬ no_throw m.env (s.length + 1) := fun hh =>
        hn1 ((no_throw_split _ _ _).mp hh).2
      have htc := throw_countdown_of_split hn1
      by_cases hpos : 0 < s.length
      · have hlt : s.length < s.length * 2 := by omega
        simp [hn1, hall, hpos, hlt, clear_array_all s s.length rfl, Mem.store, set_at_length,
          operator_delete, copies_copies, htc]
      · have hlt : ¬ s.length < s.length * 2 := by omega
        simp [hn1, hall, hpos, hlt]
  · have hall : ¬ no_throw m.env (s.length + 1) := fun hh =>
      hnt ((no_throw_split _ _ _).mp hh).1
    have hpos : 0 < s.length := by
      unfold no_throw at hnt
      omega
    simp [hnt, hall, hpos, make_storage, Mem.store, Mem.set_env, set_at_length,
      operator_delete]

theorem push_back_in_place {T : Type} {N : Nat} {v : socow_vector T} {m : Mem T} {l : Loc}
    {s : List T} {cap : Nat} (h : Stor N v m l s cap) (hn : v.size_ = s.length)
    (hlt : s.length < cap) (elem : cref T) (x : T) (hread : read_ref v m elem = some x) :
    push_back N v m elem =
      if no_throw m.env 1 then .ok () (put v m l (s ++ [x]) (copies m.env 1) (s.length + 1))
      else .thrown (v, m.set_env (copies m.env 1)) := by
  unfold push_back
  rw [capacity_stor h]
  have hne : ¬ s.length = cap := by omega
  simp only [hn, hne, if_false, begin_, data_stor h, Nat.zero_add]
  rw [construct_at_stor h elem x hread hlt]
  by_cases hnt : no_throw m.env 1
  · simp [hnt, put, hn]
  · simp [hnt]

theorem push_back_shared {T : Type} (N : Nat) {v : socow_vector T} {m : Mem T} {a : Nat}
    {b : big_storage T} {s : List T} (h : BigAt v m a b s) (hr : 2 ≤ b.ref_count)
    (hlt : s.length < b.capacity) (elem : cref T) (x : T)
    (hread : read_ref ⟨false, s.length, [], some m.heap.length⟩
      ⟨m.heap.set a { b with ref_count := b.ref_count - 1 } ++ [⟨b.capacity, 1, s, true⟩],
        copies m.env s.length⟩ elem = some x) :
    push_back N v m elem =
      if no_throw m.env s.length then
        (if no_throw (copies m.env s.length) 1 then
          .ok () (⟨false, s.length + 1, [], some m.heap.length⟩,
            ⟨m.heap.set a { b with ref_count := b.ref_count - 1 } ++
              [⟨b.capacity, 1, s ++ [x], true⟩], copies m.env (s.length + 1)⟩)
         else
          .thrown (⟨false, s.length, [], some m.heap.length⟩,
            ⟨m.heap.set a { b with ref_count := b.ref_count - 1 } ++
              [⟨b.capacity, 1, s, true⟩], copies m.env (s.length + 1)⟩))
      else
        .thrown (v, ⟨m.heap ++ [⟨b.capacity, 1, [], false⟩],
          copies m.env m.env.throw_countdown⟩) := by
  have hst := stor_after_clone N (m.heap.set a { b with ref_count := b.ref_count - 1 }) s
    b.capacity (copies m.env s.length) false rfl
  simp only [List.length_set] at hst
  have hne : ¬ s.length = b.capacity := by omega
  unfold push_back
  rw [capacity_big N h]
  simp only [h.2.2.2.1, hne, if_false, begin_, data_shared N h hr]
  by_cases hnt : no_throw m.env s.length
  · simp only [hnt, if_true, Nat.zero_add]
    rw [construct_at_stor hst elem x hread hlt]
    by_cases hn1 : no_throw (copies m.env s.length) 1
    · simp [hn1, put, set_slots, Mem.set_env, Mem.store, copies_copies, set_at_length,
        List.getElem?_append_right]
    · simp [hn1, Mem.set_env, copies_copies]
  · simp [hnt]

/-- Every slot `i < |s|` of a handle holding `s` is read by the const
subscript as `s[i]`. -/
theorem index_const_holds {T : Type} {N : Nat} {v : socow_vector T} {m : Mem T} {s : List T}
    (h : Holds N v m s) (i : Nat) :
    ∃ p, index_const v m i = .ok p (v, m) ∧ load v m p = s[i]? := by
  rcases h with h | ⟨a, b, h⟩
  · refine ⟨⟨.small, i⟩, ?_, ?_⟩
    · simp [index_const, data_const, base, h.1]
    · simp [load, slots, h.2.1]
  · refine ⟨⟨.big a, i⟩, ?_, ?_⟩
    · simp [index_const, data_const, base, h.1, h.2.2.1]
    · simp [load, slots, deref_addr h, h.2.2.2.2.2.2.1]

theorem stor_of_bigAt {T : Type} (N : Nat) {v : socow_vector T} {m : Mem T} {a : Nat}
    {b : big_storage T} {s : List T} (h : BigAt v m a b s) (hr : b.ref_count = 1) :
    Stor N v m (.big a) s b.capacity := by
  obtain ⟨hs, hsm, hb, hn, ha, hl, hdat, hc, _⟩ := h
  exact Or.inr ⟨hs, hsm, a, b, hb, rfl, ha, hl, hdat, rfl, hr⟩

theorem stor_base {T : Type} {N : Nat} {v : socow_vector T} {m : Mem T} {l : Loc}
    {d : List T} {cap : Nat} (h : Stor N v m l d cap) : base v = some l := by
  rcases h with ⟨hs, hd, hl, hc⟩ | ⟨hs, hsm, a, b, hb, hl, ha, hlv, hd, hc, hr⟩
  · simp [base, hs, hl]
  · simp [base, hs, hl, hb]

theorem push_back_ok_stor {T : Type} (N : Nat) (v : socow_vector T) (m : Mem T) (s : List T)
    (x : T) (h : Holds N v m s) (v1 : socow_vector T) (m1 : Mem T)
    (hok : push_back N v m (.val x) = .ok () (v1, m1)) :
    ∃ l1 cap1 cap, Stor N v1 m1 l1 (s ++ [x]) cap1 ∧ s.length + 1 ≤ cap1 ∧
      v1.size_ = s.length + 1 ∧ capacity N v m = .ok cap (v, m) ∧
      cap1 = (if s.length = cap then s.length * 2 else cap) := by
  rcases stor_or_shared h with ⟨l, cap, hst, hle, hcap⟩ | ⟨a, b, hb, hr⟩
  · by_cases hfull : s.length = cap
    · subst hfull
      rw [push_back_grow h hcap (.val x) x rfl] at hok
      split at hok
      · split at hok
        · injection hok with _ hok
          injection hok with hv hm
          subst hv; subst hm
          have hbig : BigAt (⟨false, s.length + 1, [], some m.heap.length⟩ : socow_vector T)
              ⟨heap_released v m ++ [⟨s.length * 2, 1, s ++ [x], true⟩],
                copies m.env (s.length + 1)⟩ m.heap.length
              ⟨s.length * 2, 1, s ++ [x], true⟩ (s ++ [x]) := by
            refine ⟨rfl, rfl, rfl, by simp, ?_, rfl, rfl, by simp; omega, le_refl _⟩
            rw [← heap_released_length v m]
            simp
          exact ⟨_, _, s.length, stor_of_bigAt N hbig rfl, by simp; omega, rfl, hcap,
            by simp⟩
        · exact absurd hok (by simp)
      · split at hok <;> exact absurd hok (by simp)
    · rw [push_back_in_place hst (size_holds h) (by omega) (.val x) x rfl] at hok
      split at hok
      · injection hok with _ hok
        have hst2 := stor_put hst (s ++ [x]) (copies m.env 1) (s.length + 1)
        rw [hok] at hst2
        have hsz : v1.size_ = s.length + 1 := by
          have := put_size v m l (s ++ [x]) (copies m.env 1) (s.length + 1)
          rw [hok] at this
          exact this
        exact ⟨l, cap, cap, hst2, by omega, hsz, hcap, by simp [hfull]⟩
      · exact absurd hok (by simp)
  · have hcap := capacity_big N hb
    by_cases hfull : s.length = b.capacity
    · rw [← hfull] at hcap
      rw [push_back_grow h hcap (.val x) x rfl] at hok
      split at hok
      · split at hok
        · injection hok with _ hok
          injection hok with hv hm
          subst hv; subst hm
          have hbig : BigAt (⟨false, s.length + 1, [], some m.heap.length⟩ : socow_vector T)
              ⟨heap_released v m ++ [⟨s.length * 2, 1, s ++ [x], true⟩],
                copies m.env (s.length + 1)⟩ m.heap.length
              ⟨s.length * 2, 1, s ++ [x], true⟩ (s ++ [x]) := by
            refine ⟨rfl, rfl, rfl, by simp, ?_, rfl, rfl, by simp; omega, le_refl _⟩
            rw [← heap_released_length v m]
            simp
          exact ⟨_, _, s.length, stor_of_bigAt N hbig rfl, by simp; omega, rfl, hcap,
            by simp⟩
        · exact absurd hok (by simp)
      · split at hok <;> exact absurd hok (by simp)
    · have hlt : s.length < b.capacity := by
        have := hb.2.2.2.2.2.2.2.1; omega
      rw [push_back_shared N hb hr hlt (.val x) x rfl] at hok
      split at hok
      · split at hok
        · injection hok with _ hok
          injection hok with hv hm
          subst hv; subst hm
          have hbig : BigAt (⟨false, s.length + 1, [], some m.heap.length⟩ : socow_vector T)
              ⟨m.heap.set a { b with ref_count := b.ref_count - 1 } ++
                [⟨b.capacity, 1, s ++ [x], true⟩], copies m.env (s.length + 1)⟩ m.heap.length
              ⟨b.capacity, 1, s ++ [x], true⟩ (s ++ [x]) := by
            refine ⟨rfl, rfl, rfl, by simp, ?_, rfl, rfl, by simp; omega, le_refl _⟩
            rw [← List.length_set m.heap a { b with ref_count := b.ref_count - 1 }]
            simp
          exact ⟨_, _, b.capacity, stor_of_bigAt N hbig rfl, by simp; omega, rfl, hcap,
            by simp [hfull]⟩
        · exact absurd hok (by simp)
      · exact absurd hok (by simp)

theorem push_back_ok_holds {T : Type} (N : Nat) (v : socow_vector T) (m : Mem T) (s : List T)
    (x : T) (h : Holds N v m s) (v1 : socow_vector T) (m1 : Mem T)
    (hok : push_back N v m (.val x) = .ok () (v1, m1)) :
    Holds N v1 m1 (s ++ [x]) ∧ v1.size_ = s.length + 1 ∧
      ∃ cap, capacity N v m = .ok cap (v, m) ∧
        capacity N v1 m1 = .ok (if s.length = cap then s.length * 2 else cap) (v1, m1) := by
  obtain ⟨l1, cap1, cap, hst, hle, hsz, hcap, hc1⟩ := push_back_ok_stor N v m s x h v1 m1 hok
  refine ⟨holds_of_stor hst (by simp [hsz]) (by simpa using hle), hsz, cap, hcap, ?_⟩
  rw [capacity_stor hst, hc1]

theorem no_throw_of_zero {e : Env} (h : e.throw_countdown = 0) (k : Nat) : no_throw e k :=
  Or.inl h

theorem copies_countdown_zero {e : Env} (h : e.throw_countdown = 0) (k : Nat) :
    (copies e k).throw_countdown = 0 := by
  simp [copies, h]

theorem push_back_succeeds {T : Type} (N : Nat) (v : socow_vector T) (m : Mem T) (s : List T)
    (x : T) (h : Holds N v m s) (h0 : m.env.throw_countdown = 0) (cap : Nat)
    (hcap : capacity N v m = .ok cap (v, m)) (hpos : 0 < cap) :
    ∃ v1 m1, push_back N v m (.val x) = .ok () (v1, m1) ∧ m1.env.throw_countdown = 0 := by
  rcases stor_or_shared h with ⟨l, cap1, hst, hle, hcap1⟩ | ⟨a, b, hb, hr⟩
  · have hc : cap1 = cap := by
      rw [hcap1] at hcap; injection hcap
    subst hc
    by_cases hfull : s.length = cap1
    · subst hfull
      rw [push_back_grow h hcap (.val x) x rfl]
      simp only [no_throw_of_zero h0, hpos, if_true]
      exact ⟨_, _, rfl, copies_countdown_zero h0 _⟩
    · rw [push_back_in_place hst (size_holds h) (by omega) (.val x) x rfl]
      simp only [no_throw_of_zero h0, if_true]
      refine ⟨(put v m l (s ++ [x]) (copies m.env 1) (s.length + 1)).1,
        (put v m l (s ++ [x]) (copies m.env 1) (s.length + 1)).2, rfl, ?_⟩
      rw [put_env]
      exact copies_countdown_zero h0 _
  · have hcap1 := capacity_big N hb
    have hc : b.capacity = cap := by
      rw [hcap1] at hcap; injection hcap
    by_cases hfull : s.length = b.capacity
    · rw [← hfull] at hcap1
      rw [push_back_grow h hcap1 (.val x) x rfl]
      have hp : 0 < s.length := by omega
      simp only [no_throw_of_zero h0, hp, if_true]
      exact ⟨_, _, rfl, copies_countdown_zero h0 _⟩
    · have hlt : s.length < b.capacity := by
        have := hb.2.2.2.2.2.2.2.1; omega
      rw [push_back_shared N hb hr hlt (.val x) x rfl]
      simp only [no_throw_of_zero h0, no_throw_of_zero (copies_countdown_zero h0 _), if_true]
      exact ⟨_, _, rfl, copies_countdown_zero h0 _⟩

theorem push_all_holds {T : Type} (N : Nat) (xs : List T) :
    ∀ (v : socow_vector T) (m : Mem T) (s : List T) (cap : Nat), Holds N v m s →
      m.env.throw_countdown = 0 → capacity N v m = .ok cap (v, m) → 0 < cap →
      ∃ v1 m1, push_all N xs v m = .ok () (v1, m1) ∧ Holds N v1 m1 (s ++ xs) := by
  induction xs with
  | nil =>
    intro v m s cap h _ _ _
    exact ⟨v, m, rfl, by simpa using h⟩
  | cons x xs ih =>
    intro v m s cap h h0 hcap hpos
    obtain ⟨v1, m1, hok, h1⟩ := push_back_succeeds N v m s x h h0 cap hcap hpos
    obtain ⟨hh, _, cap1, hc1, hc2⟩ := push_back_ok_holds N v m s x h v1 m1 hok
    have hce : cap1 = cap := by
      rw [hc1] at hcap; injection hcap
    subst hce
    have hpos2 : 0 < (if s.length = cap1 then s.length * 2 else cap1) := by
      split <;> omega
    obtain ⟨v2, m2, hok2, h2⟩ := ih v1 m1 (s ++ [x]) _ hh h1 hc2 hpos2
    refine ⟨v2, m2, ?_, by simpa using h2⟩
    simp [push_all, hok, hok2]

theorem holds_default {T : Type} (N : Nat) (m : Mem T) : Holds N (default_ctor : socow_vector T) m [] :=
  Or.inl ⟨rfl, rfl, rfl, Nat.zero_le _⟩

/-- C1. For a container with inline capacity `N` holding `s` (small or big,
shared or exclusive) and a value `x`: a `push_back(x)` that returns normally
leaves the container holding `s ++ [x]` with size `|s| + 1`; it does return
normally when no copy failure is armed and the capacity is positive (which
`N ≥ 1` gives a small container); and for `N ≥ 1`, pushing `0, …, n-1` onto
an empty container returns normally with the container holding `0, …, n-1`,
every `a[i]` reading `i`. -/
theorem push_back_appends {T : Type} (N : Nat) (v : socow_vector T) (m : Mem T) (s : List T)
    (x : T) (h : Holds N v m s) :
    (∀ v1 m1, push_back N v m (.val x) = .ok () (v1, m1) →
      Holds N v1 m1 (s ++ [x]) ∧ v1.size_ = s.length + 1) ∧
    (m.env.throw_countdown = 0 → (∃ cap, capacity N v m = .ok cap (v, m) ∧ 0 < cap) →
      ∃ v1 m1, push_back N v m (.val x) = .ok () (v1, m1)) ∧
    (1 ≤ N → ∀ (n : Nat) (h0 : List (big_storage Nat)) (cc : Nat),
      ∃ a m1, push_all N (List.range n) default_ctor ⟨h0, ⟨0, cc⟩⟩ = .ok () (a, m1) ∧
        Holds N a m1 (List.range n) ∧ a.size_ = n ∧
        ∀ i, i < n → ∃ p, index_const a m1 i = .ok p (a, m1) ∧ load a m1 p = some i) := by
  refine ⟨?_, ?_, ?_⟩
  · intro v1 m1 hok
    obtain ⟨h1, h2, _⟩ := push_back_ok_holds N v m s x h v1 m1 hok
    exact ⟨h1, h2⟩
  · rintro h0 ⟨cap, hcap, hpos⟩
    obtain ⟨v1, m1, hok, _⟩ := push_back_succeeds N v m s x h h0 cap hcap hpos
    exact ⟨v1, m1, hok⟩
  · intro hN n h0 cc
    obtain ⟨a, m1, hok, hh⟩ := push_all_holds N (List.range n) default_ctor ⟨h0, ⟨0, cc⟩⟩ [] N
      (holds_default N _) rfl rfl hN
    simp only [List.nil_append] at hh
    refine ⟨a, m1, hok, hh, by simpa using size_holds hh, ?_⟩
    intro i hi
    obtain ⟨p, hp1, hp2⟩ := index_const_holds hh i
    refine ⟨p, hp1, ?_⟩
    rw [hp2]
    simp [hi]

/-! ## Element exchanges -/

theorem swap_idx_length {T : Type} (d : List T) (i j : Nat) :
    (swap_idx d i j).length = d.length := by
  unfold swap_idx
  split <;> simp

theorem std_swap_eq {T : Type} (d : List T) (i j : Nat) (e : Env) (hi : i < d.length)
    (hj : j < d.length) :
    (no_throw e 3 → std_swap d i j e = .ok () (swap_idx d i j, copies e 3)) ∧
    (¬ no_throw e 3 → ∃ d1, d1.length = d.length ∧
      std_swap d i j e = .thrown (d1, copies e e.throw_countdown)) := by
  obtain ⟨x, hx⟩ : ∃ x, d[i]? = some x := ⟨_, List.getElem?_eq_getElem hi⟩
  obtain ⟨y, hy⟩ : ∃ y, d[j]? = some y := ⟨_, List.getElem?_eq_getElem hj⟩
  unfold std_swap swap_idx
  rw [hx, hy]
  simp only
  rcases element_copy_cases e with ⟨hn1, hc1⟩ | ⟨ht1, hc1⟩
  · rcases element_copy_cases (copies e 1) with ⟨hn2, hc2⟩ | ⟨ht2, hc2⟩
    · rcases element_copy_cases (copies e 2) with ⟨hn3, hc3⟩ | ⟨ht3, hc3⟩
      · have h3 : no_throw e 3 := by
          unfold no_throw copies at *; simp only at hn2 hn3; omega
        refine ⟨fun _ => ?_, fun hh => absurd h3 hh⟩
        simp only [copies_copies] at hc2 hc3
        simp [hc1, hc2, hc3]
      · have h3 : ¬ no_throw e 3 := by
          unfold no_throw copies at *; simp only at hn2 ht3; omega
        have htc : e.throw_countdown = 3 := by
          unfold no_throw copies at *; simp only at hn2 ht3; omega
        refine ⟨fun hh => absurd hh h3, fun _ => ⟨d.set i y, by simp, ?_⟩⟩
        simp only [copies_copies] at hc2 hc3
        simp [hc1, hc2, hc3, htc]
    · have h3 : ¬ no_throw e 3 := by
        unfold no_throw copies at *; simp only at ht2; omega
      have htc : e.throw_countdown = 2 := by
        unfold no_throw copies at *; simp only at ht2; omega
      refine ⟨fun hh => absurd hh h3, fun _ => ⟨d, rfl, ?_⟩⟩
      simp only [copies_copies] at hc2
      simp [hc1, hc2, htc]
  · have h3 : ¬ no_throw e 3 := by
      unfold no_throw; omega
    refine ⟨fun hh => absurd hh h3, fun _ => ⟨d, rfl, ?_⟩⟩
    simp [hc1, ht1]

theorem swap_at_stor {T : Type} {N : Nat} {v : socow_vector T} {m : Mem T} {l : Loc}
    {d : List T} {cap : Nat} (h : Stor N v m l d cap) (i j : Nat) (hi : i < d.length)
    (hj : j < d.length) :
    (no_throw m.env 3 → swap_at v m ⟨l, 0⟩ i j =
      .ok () (put v m l (swap_idx d i j) (copies m.env 3) v.size_)) ∧
    (¬ no_throw m.env 3 → ∃ d1, d1.length = d.length ∧
      swap_at v m ⟨l, 0⟩ i j =
        .thrown (put v m l d1 (copies m.env m.env.throw_countdown) v.size_)) := by
  obtain ⟨h1, _⟩ := stor_slots h
  obtain ⟨hok, hth⟩ := std_swap_eq d i j m.env hi hj
  constructor
  · intro hn
    simp [swap_at, h1, hok hn, set_slots_eq_put]
  · intro hn
    obtain ⟨d1, hl, hd1⟩ := hth hn
    exact ⟨d1, hl, by simp [swap_at, h1, hd1, set_slots_eq_put]⟩

theorem insert_pure_length {T : Type} (k : Nat) :
    ∀ (j : Nat) (d : List T), (insert_pure k j d).length = d.length := by
  induction k with
  | zero => intro j d; rfl
  | succ k ih => intro j d; simp [insert_pure, ih, swap_idx_length]

theorem erase_pure_length {T : Type} (cnt k : Nat) :
    ∀ (i : Nat) (d : List T), (erase_pure cnt k i d).length = d.length := by
  induction k with
  | zero => intro i d; rfl
  | succ k ih => intro i d; simp [erase_pure, ih, swap_idx_length]

theorem insert_loop_stor {T : Type} {N : Nat} {l : Loc} {cap : Nat} (k : Nat) :
    ∀ (j : Nat) (v : socow_vector T) (m : Mem T) (d : List T), Stor N v m l d cap →
      k ≤ j → j < d.length →
      (no_throw m.env (3 * k) → insert_loop ⟨l, 0⟩ k j v m =
        .ok () (put v m l (insert_pure k j d) (copies m.env (3 * k)) v.size_)) ∧
      (¬ no_throw m.env (3 * k) → ∃ d1, d1.length = d.length ∧
        insert_loop ⟨l, 0⟩ k j v m =
          .thrown (put v m l d1 (copies m.env m.env.throw_countdown) v.size_)) := by
  induction k with
  | zero =>
    intro j v m d h _ _
    have h0 : no_throw m.env (3 * 0) := by unfold no_throw; omega
    refine ⟨fun _ => ?_, fun hn => absurd h0 hn⟩
    simp [insert_loop, insert_pure, copies_zero, put_self h]
  | succ k ih =>
    intro j v m d h hk hj
    obtain ⟨hok, hth⟩ := swap_at_stor h (j - 1) j (by omega) hj
    by_cases h3 : no_throw m.env 3
    · have hst := stor_put h (swap_idx d (j - 1) j) (copies m.env 3) v.size_
      obtain ⟨ihok, ihth⟩ := ih (j - 1) _ _ _ hst (by omega)
        (by rw [swap_idx_length]; omega)
      rw [put_env, put_size] at ihok ihth
      constructor
      · intro hn
        have hn2 : no_throw (copies m.env 3) (3 * k) :=
          ((no_throw_split m.env 3 (3 * k)).mp (by rw [show 3 + 3 * k = 3 * (k + 1) by ring]; exact hn)).2
        rw [insert_loop, hok h3]
        simp only
        rw [ihok hn2, put_put h, copies_copies, show 3 + 3 * k = 3 * (k + 1) by ring]
        rfl
      · intro hn
        have hn2 : ¬ no_throw (copies m.env 3) (3 * k) := fun hh =>
          hn (by rw [show 3 * (k + 1) = 3 + 3 * k by ring]; exact (no_throw_split m.env 3 (3 * k)).mpr ⟨h3, hh⟩)
        obtain ⟨d1, hl1, hd1⟩ := ihth hn2
        refine ⟨d1, by rw [hl1, swap_idx_length], ?_⟩
        rw [insert_loop, hok h3]
        simp only
        rw [hd1, put_put h, copies_copies]
        have hne : m.env.throw_countdown ≠ 0 := by
          unfold no_throw at hn; omega
        have h3lt : 3 < m.env.throw_countdown := by
          unfold no_throw at h3; omega
        have : 3 + (copies m.env 3).throw_countdown = m.env.throw_countdown := by
          simp only [copies]; omega
        rw [this]
    · have hn : ¬ no_throw m.env (3 * (k + 1)) := fun hh =>
        h3 ((no_throw_split m.env 3 (3 * k)).mp (by rw [show 3 + 3 * k = 3 * (k + 1) by ring]; exact hh)).1
      obtain ⟨d1, hl1, hd1⟩ := hth h3
      refine ⟨fun hh => absurd hh hn, fun _ => ⟨d1, hl1, ?_⟩⟩
      rw [insert_loop, hd1]

/-! ## The rotation of insert -/

theorem swap_idx_cons {T : Type} (a : T) (d : List T) (i j : Nat) :
    swap_idx (a :: d) (i + 1) (j + 1) = a :: swap_idx d i j := by
  unfold swap_idx
  simp only [List.getElem?_cons_succ]
  split <;> simp_all

theorem swap_idx_adjacent {T : Type} (A B : List T) (x y : T) :
    swap_idx (A ++ y :: x :: B) A.length (A.length + 1) = A ++ x :: y :: B := by
  induction A with
  | nil => simp [swap_idx]
  | cons a A ih =>
    simp only [List.cons_append, List.length_cons]
    rw [swap_idx_cons, ih]

theorem insert_pure_eq {T : Type} (k : Nat) :
    ∀ (pre mid post : List T) (x : T), mid.length = k →
      insert_pure k (pre.length + k) (pre ++ mid ++ x :: post) = pre ++ x :: mid ++ post := by
  induction k with
  | zero =>
    intro pre mid post x hm
    have : mid = [] := List.length_eq_zero.mp hm
    simp [insert_pure, this]
  | succ k ih =>
    intro pre mid post x hm
    obtain ⟨mid1, y, rfl⟩ : ∃ mid1 y, mid = mid1 ++ [y] := by
      have hne : mid ≠ [] := by intro h; simp [h] at hm
      exact ⟨mid.dropLast, mid.getLast hne, (List.dropLast_append_getLast hne).symm⟩
    have hm1 : mid1.length = k := by simpa using hm
    have hl : (pre ++ mid1).length = pre.length + k := by simp [hm1]
    have hsw : swap_idx (pre ++ (mid1 ++ [y]) ++ x :: post) (pre.length + (k + 1) - 1)
        (pre.length + (k + 1)) = pre ++ mid1 ++ x :: (y :: post) := by
      have := swap_idx_adjacent (pre ++ mid1) post x y
      rw [hl] at this
      rw [show pre.length + (k + 1) - 1 = pre.length + k by omega,
        show pre.length + (k + 1) = pre.length + k + 1 by omega, ← this]
      simp
    rw [insert_pure, hsw]
    have := ih pre mid1 (y :: post) x hm1
    rw [show pre.length + (k + 1) - 1 = pre.length + k by omega, this]
    simp

theorem insert_pure_spec {T : Type} (s : List T) (x : T) (i : Nat) (hi : i ≤ s.length) :
    insert_pure (s.length - i) s.length (s ++ [x]) = s.take i ++ x :: s.drop i := by
  have h := insert_pure_eq (s.length - i) (s.take i) (s.drop i) [] x (by simp)
  have hl : (s.take i).length + (s.length - i) = s.length := by
    simp; omega
  rw [hl] at h
  simpa using h

theorem ret_iterator_stor {T : Type} {N : Nat} {v : socow_vector T} {m : Mem T} {l : Loc}
    {d : List T} {cap : Nat} (h : Stor N v m l d cap) (p : Nat) :
    ∃ r, ret_iterator v p = some r := by
  rcases h with ⟨hs, hd, hl, hc⟩ | ⟨hs, hsm, a, b, hb, hl, ha, hlv, hd, hc, hr⟩
  · exact ⟨⟨.small, 0⟩, by simp [ret_iterator, hs]⟩
  · exact ⟨⟨.big a, p⟩, by simp [ret_iterator, hs, hb]⟩

theorem begin_const_holds {T : Type} {N : Nat} {v : socow_vector T} {m : Mem T} {s : List T}
    (h : Holds N v m s) : ∃ l, base v = some l ∧ begin_const v m = .ok ⟨l, 0⟩ (v, m) := by
  rcases h with h | ⟨a, b, h⟩
  · exact ⟨.small, by simp [base, h.1], by simp [begin_const, data_const, base, h.1]⟩
  · exact ⟨.big a, by simp [base, h.1, h.2.2.1],
      by simp [begin_const, data_const, base, h.1, h.2.2.1]⟩

/-- Outcome of `insert` in terms of the outcome of its `push_back`. -/
theorem insert_after_push {T : Type} {N : Nat} (v : socow_vector T) (m : Mem T) (l : Loc)
    (i : Nat) (x : T) (hl : base v = some l) (v1 : socow_vector T) (m1 : Mem T) (l1 : Loc)
    (d : List T) (cap1 : Nat) (hpb : push_back N v m (.val x) = .ok () (v1, m1))
    (hst : Stor N v1 m1 l1 d cap1) (hsz : v1.size_ = d.length) (hd : 0 < d.length) :
    (no_throw m1.env (3 * (d.length - 1 - i)) → ∃ r,
      insert N v m ⟨l, i⟩ (.val x) = .ok r
        (put v1 m1 l1 (insert_pure (d.length - 1 - i) (d.length - 1) d)
          (copies m1.env (3 * (d.length - 1 - i))) d.length)) ∧
    (¬ no_throw m1.env (3 * (d.length - 1 - i)) → ∃ d1, d1.length = d.length ∧
      insert N v m ⟨l, i⟩ (.val x) =
        .thrown (put v1 m1 l1 d1 (copies m1.env m1.env.throw_countdown) d.length)) := by
  have hsd : size_dec v1.size_ = d.length - 1 := by
    unfold size_dec
    rw [hsz, if_neg (by omega)]
  obtain ⟨hok, hth⟩ := insert_loop_stor (d.length - 1 - i) (d.length - 1) v1 m1 d hst
    (by omega) (by omega)
  have hpre : insert N v m ⟨l, i⟩ (.val x) =
      match insert_loop ⟨l1, 0⟩ (d.length - 1 - i) (d.length - 1) v1 m1 with
      | .fault => .fault
      | .thrown s => .thrown s
      | .ok _ (v3, m3) =>
        match ret_iterator v3 i with
        | some r => .ok r (v3, m3)
        | none => .fault := by
    simp [insert, ptr_diff, hl, hpb, data_stor hst, hsd]
  constructor
  · intro hn
    have hst3 := stor_put hst (insert_pure (d.length - 1 - i) (d.length - 1) d)
      (copies m1.env (3 * (d.length - 1 - i))) d.length
    obtain ⟨r, hr⟩ := ret_iterator_stor hst3 i
    refine ⟨r, ?_⟩
    rw [hpre, hok hn, hsz]
    simp only
    rw [hr]
  · intro hn
    obtain ⟨d1, hl1, hd1⟩ := hth hn
    refine ⟨d1, hl1, ?_⟩
    rw [hpre, hd1, hsz]

/-- C2. For a container holding `s = [e0..e(n-1)]` (small, exclusive big or
shared big), an index `i ≤ n` and a value `x`: an `insert` at position
`begin + i` that returns normally leaves the container holding
`[e0..e(i-1), x, ei..e(n-1)]` with size `n + 1`; and it does return normally
when no copy failure is armed and the capacity is positive. -/
theorem insert_inserts {T : Type} (N : Nat) (v : socow_vector T) (m : Mem T) (s : List T)
    (x : T) (i : Nat) (p : ptr) (h : Holds N v m s) (hp : begin_const v m = .ok p (v, m))
    (hi : i ≤ s.length) :
    (∀ r v3 m3, insert N v m ⟨p.loc, p.off + i⟩ (.val x) = .ok r (v3, m3) →
      Holds N v3 m3 (s.take i ++ x :: s.drop i) ∧ v3.size_ = s.length + 1) ∧
    (m.env.throw_countdown = 0 → (∃ cap, capacity N v m = .ok cap (v, m) ∧ 0 < cap) →
      ∃ r v3 m3, insert N v m ⟨p.loc, p.off + i⟩ (.val x) = .ok r (v3, m3)) := by
  obtain ⟨l, hl, hb⟩ := begin_const_holds h
  rw [hb] at hp
  injection hp with hp _
  subst hp
  simp only [Nat.zero_add]
  constructor
  · intro r v3 m3 hok
    cases hpb : push_back N v m (.val x) with
    | fault => simp [insert, ptr_diff, hl, hpb] at hok
    | thrown st => simp [insert, ptr_diff, hl, hpb] at hok
    | ok u st =>
      obtain ⟨v1, m1⟩ := st
      obtain ⟨l1, cap1, cap, hst, hle, hsz, _, _⟩ := push_back_ok_stor N v m s x h v1 m1 hpb
      have hlen : (s ++ [x]).length = s.length + 1 := by simp
      obtain ⟨hA, hB⟩ := insert_after_push v m l i x hl v1 m1 l1 (s ++ [x]) cap1 hpb hst
        (by rw [hsz, hlen]) (by rw [hlen]; omega)
      by_cases hn : no_throw m1.env (3 * ((s ++ [x]).length - 1 - i))
      · obtain ⟨r1, hr1⟩ := hA hn
        rw [hr1] at hok
        injection hok with _ hst3
        have hput := stor_put hst (insert_pure ((s ++ [x]).length - 1 - i)
          ((s ++ [x]).length - 1) (s ++ [x]))
          (copies m1.env (3 * ((s ++ [x]).length - 1 - i))) (s ++ [x]).length
        rw [hst3] at hput
        have hsz3 : v3.size_ = s.length + 1 := by
          have := put_size v1 m1 l1 (insert_pure ((s ++ [x]).length - 1 - i)
            ((s ++ [x]).length - 1) (s ++ [x]))
            (copies m1.env (3 * ((s ++ [x]).length - 1 - i))) (s ++ [x]).length
          rw [hst3, hlen] at this
          exact this
        have hpure : insert_pure ((s ++ [x]).length - 1 - i) ((s ++ [x]).length - 1)
            (s ++ [x]) = s.take i ++ x :: s.drop i := by
          rw [hlen, Nat.add_sub_cancel]
          exact insert_pure_spec s x i hi
        rw [hpure] at hput
        refine ⟨holds_of_stor hput ?_ ?_, hsz3⟩
        · rw [hsz3]; simp; omega
        · simp; omega
      · obtain ⟨d1, _, hd1⟩ := hB hn
        rw [hd1] at hok
        exact absurd hok (by simp)
  · rintro h0 ⟨cap, hcap, hpos⟩
    obtain ⟨v1, m1, hpb, h1⟩ := push_back_succeeds N v m s x h h0 cap hcap hpos
    obtain ⟨l1, cap1, _, hst, hle, hsz, _, _⟩ := push_back_ok_stor N v m s x h v1 m1 hpb
    have hlen : (s ++ [x]).length = s.length + 1 := by simp
    obtain ⟨hA, _⟩ := insert_after_push v m l i x hl v1 m1 l1 (s ++ [x]) cap1 hpb hst
      (by rw [hsz, hlen]) (by rw [hlen]; omega)
    obtain ⟨r1, hr1⟩ := hA (no_throw_of_zero h1 _)
    exact ⟨r1, _, _, hr1⟩

/-! ## The shift of erase -/

theorem swap_idx_getElem? {T : Type} (d : List T) (i j p : Nat) (hi : i < d.length)
    (hj : j < d.length) :
    (swap_idx d i j)[p]? = if p = j then d[i]? else if p = i then d[j]? else d[p]? := by
  obtain ⟨x, hx⟩ : ∃ x, d[i]? = some x := ⟨_, List.getElem?_eq_getElem hi⟩
  obtain ⟨y, hy⟩ : ∃ y, d[j]? = some y := ⟨_, List.getElem?_eq_getElem hj⟩
  unfold swap_idx
  rw [hx, hy]
  simp only
  by_cases h1 : p = j
  · subst h1
    simp [List.getElem?_set_self, hj]
  · by_cases h2 : p = i
    · subst h2
      rw [List.getElem?_set_ne (Ne.symm h1), List.getElem?_set_self hi]
      simp [h1]
    · rw [List.getElem?_set_ne (Ne.symm h1), List.getElem?_set_ne (Ne.symm h2)]
      simp [h1, h2]

theorem swap_idx_take {T : Type} (d : List T) (i j : Nat) (y : T) (hij : i < j)
    (hy : d[j]? = some y) : (swap_idx d i j).take (i + 1) = d.take i ++ [y] := by
  have hj : j < d.length := (List.getElem?_eq_some.mp hy).1
  apply List.ext_getElem?
  intro p
  rw [List.getElem?_take, swap_idx_getElem? d i j p (by omega) hj]
  by_cases h1 : p < i
  · have h2 : p ≠ j := by omega
    have h3 : p ≠ i := by omega
    rw [List.getElem?_append_left (by simp; omega)]
    simp [h2, h3, List.getElem?_take, h1, show p < i + 1 by omega]
  · by_cases h2 : p = i
    · subst h2
      have h3 : p ≠ j := by omega
      rw [List.getElem?_append_right (by simp)]
      simp [h3, hy, show min p d.length = p by omega]
    · rw [List.getElem?_append_right (by simp; omega)]
      have h4 : ¬ p < i + 1 := by omega
      simp only [h4, if_false]
      rw [List.getElem?_eq_none]
      simp
      omega

theorem swap_idx_drop {T : Type} (d : List T) (i j : Nat) (hij : i < j)
    (hj : j < d.length) : (swap_idx d i j).drop (j + 1) = d.drop (j + 1) := by
  apply List.ext_getElem?
  intro p
  rw [List.getElem?_drop, List.getElem?_drop, swap_idx_getElem? d i j _ (by omega) hj]
  simp [show j + 1 + p ≠ j by omega, show j + 1 + p ≠ i by omega]

theorem erase_pure_take {T : Type} (cnt : Nat) (hc : 0 < cnt) (k : Nat) :
    ∀ (f : Nat) (d : List T), f + cnt + k ≤ d.length →
      (erase_pure cnt k f d).take (f + k) = d.take f ++ (d.drop (f + cnt)).take k := by
  induction k with
  | zero => intro f d _; simp [erase_pure]
  | succ k ih =>
    intro f d hlen
    obtain ⟨y, hy⟩ : ∃ y, d[f + cnt]? = some y :=
      ⟨_, List.getElem?_eq_getElem (by omega : f + cnt < d.length)⟩
    have h1 := ih (f + 1) (swap_idx d f (f + cnt)) (by rw [swap_idx_length]; omega)
    rw [swap_idx_take d f (f + cnt) y (by omega) hy] at h1
    have h2 : (swap_idx d f (f + cnt)).drop (f + 1 + cnt) = d.drop (f + cnt + 1) := by
      rw [show f + 1 + cnt = f + cnt + 1 by omega]
      exact swap_idx_drop d f (f + cnt) (by omega) (by omega)
    rw [h2] at h1
    rw [erase_pure, show f + (k + 1) = f + 1 + k by omega, h1,
      drop_of_getElem? d (f + cnt) y hy]
    simp

theorem erase_pure_spec {T : Type} (s : List T) (f t : Nat) (hft : f < t) (ht : t ≤ s.length) :
    (erase_pure (t - f) (s.length - (t - f) - f) f s).take (s.length - (t - f)) =
      s.take f ++ s.drop t := by
  have h := erase_pure_take (t - f) (by omega) (s.length - (t - f) - f) f s (by omega)
  rw [show f + (s.length - (t - f) - f) = s.length - (t - f) by omega,
    show f + (t - f) = t by omega] at h
  have h3 : (s.drop t).take (s.length - (t - f) - f) = s.drop t :=
    List.take_of_length_le (by rw [List.length_drop]; omega)
  rw [h, h3]

/-! ## pop_back and erase -/

theorem stor_resize {T : Type} {N : Nat} {v : socow_vector T} {m : Mem T} {l : Loc}
    {d : List T} {cap : Nat} (h : Stor N v m l d cap) (k : Nat) :
    Stor N { v with size_ := k } m l d cap := by
  rcases h with ⟨hs, hd, hl, hc⟩ | ⟨hs, hsm, a, b, hb, hl, ha, hlv, hd, hc, hr⟩
  · exact Or.inl ⟨hs, hd, hl, hc⟩
  · exact Or.inr ⟨hs, hsm, a, b, hb, hl, ha, hlv, hd, hc, hr⟩

theorem set_slots_resize {T : Type} (v : socow_vector T) (m : Mem T) (l : Loc) (d : List T)
    (k : Nat) : set_slots { v with size_ := k } m l d = put v m l d m.env k := by
  cases l with
  | small => rfl
  | big a =>
    simp only [put, set_slots, Mem.set_env]
    split <;> rfl

theorem pop_back_stor {T : Type} {N : Nat} {v : socow_vector T} {m : Mem T} {l : Loc}
    {d : List T} {cap : Nat} (h : Stor N v m l d cap) (hn : v.size_ = d.length)
    (hpos : 0 < d.length) :
    pop_back N v m = .ok () (put v m l d.dropLast m.env (d.length - 1)) := by
  have hsd : size_dec v.size_ = d.length - 1 := by
    unfold size_dec
    rw [hn, if_neg (by omega)]
  obtain ⟨h1, _⟩ := stor_slots (stor_resize h (d.length - 1))
  unfold pop_back
  rw [data_stor h]
  simp only [hsd, destroy_at, Nat.zero_add, h1]
  rw [if_pos (by omega), set_slots_resize]

theorem pop_back_loop_stor {T : Type} {N : Nat} {l : Loc} {cap : Nat} (k : Nat) :
    ∀ (v : socow_vector T) (m : Mem T) (d : List T), Stor N v m l d cap →
      v.size_ = d.length → k ≤ d.length →
      pop_back_loop N k v m = .ok () (put v m l (d.take (d.length - k)) m.env (d.length - k)) := by
  induction k with
  | zero =>
    intro v m d h hn _
    have := put_self h
    rw [hn] at this
    simp [pop_back_loop, this]
  | succ k ih =>
    intro v m d h hn hk
    have hst := stor_put h d.dropLast m.env (d.length - 1)
    have h1 := ih _ _ d.dropLast hst (by rw [put_size]; simp) (by simp; omega)
    rw [pop_back_loop, pop_back_stor h hn (by omega)]
    simp only
    rw [h1, put_put h, put_env]
    have e1 : d.dropLast.length - k = d.length - (k + 1) := by simp; omega
    have e2 : d.dropLast.take (d.length - (k + 1)) = d.take (d.length - (k + 1)) := by
      rw [List.dropLast_eq_take, List.take_take]
      congr 1
      omega
    rw [e1, e2]

theorem erase_loop_stor {T : Type} {N : Nat} {l : Loc} {cap : Nat} (cnt k : Nat) :
    ∀ (i : Nat) (v : socow_vector T) (m : Mem T) (d : List T), Stor N v m l d cap →
      i + cnt + k ≤ d.length →
      (no_throw m.env (3 * k) → erase_loop ⟨l, 0⟩ cnt k i v m =
        .ok () (put v m l (erase_pure cnt k i d) (copies m.env (3 * k)) v.size_)) ∧
      (¬ no_throw m.env (3 * k) → ∃ d1, d1.length = d.length ∧
        erase_loop ⟨l, 0⟩ cnt k i v m =
          .thrown (put v m l d1 (copies m.env m.env.throw_countdown) v.size_)) := by
  induction k with
  | zero =>
    intro i v m d h _
    have h0 : no_throw m.env (3 * 0) := by unfold no_throw; omega
    refine ⟨fun _ => ?_, fun hn => absurd h0 hn⟩
    simp [erase_loop, erase_pure, copies_zero, put_self h]
  | succ k ih =>
    intro i v m d h hlen
    obtain ⟨hok, hth⟩ := swap_at_stor h i (i + cnt) (by omega) (by omega)
    by_cases h3 : no_throw m.env 3
    · have hst := stor_put h (swap_idx d i (i + cnt)) (copies m.env 3) v.size_
      obtain ⟨ihok, ihth⟩ := ih (i + 1) _ _ _ hst (by rw [swap_idx_length]; omega)
      rw [put_env, put_size] at ihok ihth
      constructor
      · intro hn
        have hn2 : no_throw (copies m.env 3) (3 * k) :=
          ((no_throw_split m.env 3 (3 * k)).mp
            (by rw [show 3 + 3 * k = 3 * (k + 1) by ring]; exact hn)).2
        rw [erase_loop, hok h3]
        simp only
        rw [ihok hn2, put_put h, copies_copies, show 3 + 3 * k = 3 * (k + 1) by ring]
        rfl
      · intro hn
        have hn2 : ¬ no_throw (copies m.env 3) (3 * k) := fun hh =>
          hn (by rw [show 3 * (k + 1) = 3 + 3 * k by ring];
                 exact (no_throw_split m.env 3 (3 * k)).mpr ⟨h3, hh⟩)
        obtain ⟨d1, hl1, hd1⟩ := ihth hn2
        refine ⟨d1, by rw [hl1, swap_idx_length], ?_⟩
        rw [erase_loop, hok h3]
        simp only
        rw [hd1, put_put h, copies_copies]
        have h3lt : 3 < m.env.throw_countdown := by
          unfold no_throw at h3 hn; omega
        have : 3 + (copies m.env 3).throw_countdown = m.env.throw_countdown := by
          simp only [copies]; omega
        rw [this]
    · have hn : ¬ no_throw m.env (3 * (k + 1)) := fun hh =>
        h3 ((no_throw_split m.env 3 (3 * k)).mp
          (by rw [show 3 + 3 * k = 3 * (k + 1) by ring]; exact hh)).1
      obtain ⟨d1, hl1, hd1⟩ := hth h3
      refine ⟨fun hh => absurd hh hn, fun _ => ⟨d1, hl1, ?_⟩⟩
      rw [erase_loop, hd1]

/-- A successful `data()` leaves the handle with exclusive storage holding
the same sequence, at the same capacity. -/
theorem data_ok_stor {T : Type} {N : Nat} {v : socow_vector T} {m : Mem T} {s : List T}
    (h : Holds N v m s) (p : ptr) (v1 : socow_vector T) (m1 : Mem T)
    (hok : data N v m = .ok p (v1, m1)) :
    ∃ cap, Stor N v1 m1 p.loc s cap ∧ p.off = 0 ∧ s.length ≤ cap ∧ v1.size_ = s.length ∧
      capacity N v m = .ok cap (v, m) := by
  rcases stor_or_shared h with ⟨l, cap, hst, hle, hcap⟩ | ⟨a, b, hb, hr⟩
  · rw [data_stor hst] at hok
    injection hok with hp hs
    injection hs with hv hm
    subst hp; subst hv; subst hm
    exact ⟨cap, hst, rfl, hle, size_holds h, hcap⟩
  · rw [data_shared N hb hr] at hok
    split at hok
    · injection hok with hp hs
      injection hs with hv hm
      subst hp; subst hv; subst hm
      have hst := stor_after_clone N (m.heap.set a { b with ref_count := b.ref_count - 1 }) s
        b.capacity (copies m.env s.length) false rfl
      simp only [List.length_set] at hst
      exact ⟨b.capacity, hst, rfl, hb.2.2.2.2.2.2.2.1, rfl, capacity_big N hb⟩
    · exact absurd hok (by simp)

theorem data_succeeds {T : Type} {N : Nat} {v : socow_vector T} {m : Mem T} {s : List T}
    (h : Holds N v m s) (h0 : m.env.throw_countdown = 0) :
    ∃ p v1 m1, data N v m = .ok p (v1, m1) ∧ m1.env.throw_countdown = 0 := by
  rcases stor_or_shared h with ⟨l, cap, hst, hle, hcap⟩ | ⟨a, b, hb, hr⟩
  · exact ⟨_, _, _, data_stor hst, h0⟩
  · rw [data_shared N hb hr]
    simp only [no_throw_of_zero h0, if_true]
    exact ⟨_, _, _, rfl, copies_countdown_zero h0 _⟩

/-- Outcome of `erase(first, last)` on a non-empty range in terms of the
outcome of its `data()` call. -/
theorem erase_range_after_data {T : Type} {N : Nat} (v : socow_vector T) (m : Mem T)
    (s : List T) (l : Loc) (f t : Nat) (hl : base v = some l) (hft : f < t)
    (ht : t ≤ s.length) (v1 : socow_vector T) (m1 : Mem T) (l1 : Loc) (cap1 : Nat)
    (hd : data N v m = .ok ⟨l1, 0⟩ (v1, m1)) (hst : Stor N v1 m1 l1 s cap1)
    (hsz : v1.size_ = s.length) :
    (no_throw m1.env (3 * (s.length - (t - f) - f)) → ∃ r,
      erase_range N v m ⟨l, f⟩ ⟨l, t⟩ = .ok r
        (put v1 m1 l1 (s.take f ++ s.drop t) (copies m1.env (3 * (s.length - (t - f) - f)))
          (s.length - (t - f)))) ∧
    (¬ no_throw m1.env (3 * (s.length - (t - f) - f)) → ∃ d1, d1.length = s.length ∧
      erase_range N v m ⟨l, f⟩ ⟨l, t⟩ =
        .thrown (put v1 m1 l1 d1 (copies m1.env m1.env.throw_countdown) s.length)) := by
  obtain ⟨hok, hth⟩ := erase_loop_stor (t - f) (s.length - (t - f) - f) f v1 m1 s hst
    (by omega)
  have hne : ¬ t - f = 0 := by omega
  have hcond : t - f ≤ s.length ∧ f ≤ s.length - (t - f) := by omega
  have hpre : erase_range N v m ⟨l, f⟩ ⟨l, t⟩ =
      match erase_loop ⟨l1, 0⟩ (t - f) (s.length - (t - f) - f) f v1 m1 with
      | .fault => .fault
      | .thrown st => .thrown st
      | .ok _ (v2, m2) =>
        match pop_back_loop N (t - f) v2 m2 with
        | .fault => .fault
        | .thrown st => .thrown st
        | .ok _ (v3, m3) =>
          match ret_iterator v3 f with
          | some r => .ok r (v3, m3)
          | none => .fault := by
    simp [erase_range, ptr_diff, ptr_sub, hl, show f ≤ t by omega, hne, hd, hsz, hcond]
  constructor
  · intro hn
    have hst2 := stor_put hst (erase_pure (t - f) (s.length - (t - f) - f) f s)
      (copies m1.env (3 * (s.length - (t - f) - f))) v1.size_
    have hlen := erase_pure_length (t - f) (s.length - (t - f) - f) f s
    have hpop := pop_back_loop_stor (t - f) _ _ _ hst2 (by rw [put_size, hsz, hlen])
      (by rw [hlen]; omega)
    rw [put_put hst, put_env, hlen, erase_pure_spec s f t hft ht] at hpop
    have hst3 := stor_put hst (s.take f ++ s.drop t)
      (copies m1.env (3 * (s.length - (t - f) - f))) (s.length - (t - f))
    obtain ⟨r, hr⟩ := ret_iterator_stor hst3 f
    refine ⟨r, ?_⟩
    rw [hpre, hok hn]
    simp only
    rw [hpop]
    simp only
    rw [hr]
  · intro hn
    obtain ⟨d1, hl1, hd1⟩ := hth hn
    refine ⟨d1, hl1, ?_⟩
    rw [hpre, hd1, hsz]

/-- C3. For a container holding `s` of length `n` and indices `f ≤ t ≤ n`:
an `erase(begin + f, begin + t)` that returns normally leaves the container
holding `s[0..f) ++ s[t..n)` with size `n - (t - f)`; it does return normally
when no copy failure is armed; and the single-position `erase(begin + i)`
with `i < n` is `erase(begin + i, begin + i + 1)`. -/
theorem erase_range_erases {T : Type} (N : Nat) (v : socow_vector T) (m : Mem T) (s : List T)
    (f t : Nat) (p : ptr) (h : Holds N v m s) (hp : begin_const v m = .ok p (v, m))
    (hft : f ≤ t) (ht : t ≤ s.length) :
    (∀ r v3 m3, erase_range N v m ⟨p.loc, p.off + f⟩ ⟨p.loc, p.off + t⟩ = .ok r (v3, m3) →
      Holds N v3 m3 (s.take f ++ s.drop t) ∧ v3.size_ = s.length - (t - f)) ∧
    (m.env.throw_countdown = 0 →
      ∃ r v3 m3, erase_range N v m ⟨p.loc, p.off + f⟩ ⟨p.loc, p.off + t⟩ = .ok r (v3, m3)) ∧
    (∀ i, i < s.length →
      erase N v m ⟨p.loc, p.off + i⟩ =
        erase_range N v m ⟨p.loc, p.off + i⟩ ⟨p.loc, p.off + (i + 1)⟩) := by
  obtain ⟨l, hl, hb⟩ := begin_const_holds h
  rw [hb] at hp
  injection hp with hp _
  subst hp
  simp only [Nat.zero_add]
  have hsz := size_holds h
  refine ⟨?_, ?_, ?_⟩
  · intro r v3 m3 hok
    by_cases hemp : f = t
    · subst hemp
      cases hd : data N v m with
      | fault => simp [erase_range, ptr_diff, ptr_sub, hl, begin_, hd] at hok
      | thrown st => simp [erase_range, ptr_diff, ptr_sub, hl, begin_, hd] at hok
      | ok q st =>
        obtain ⟨v1, m1⟩ := st
        obtain ⟨cap, hst, _, hle, hsz1, _⟩ := data_ok_stor h q v1 m1 hd
        simp [erase_range, ptr_diff, ptr_sub, hl, begin_, hd] at hok
        obtain ⟨_, hv, hm⟩ := hok
        subst hv; subst hm
        simp only [List.take_append_drop, Nat.sub_self, Nat.sub_zero]
        exact ⟨holds_of_stor hst hsz1 hle, hsz1⟩
    · have hlt : f < t := by omega
      have hne : ¬ t - f = 0 := by omega
      cases hd : data N v m with
      | fault => simp [erase_range, ptr_diff, ptr_sub, hl, hft, hne, hd] at hok
      | thrown st => simp [erase_range, ptr_diff, ptr_sub, hl, hft, hne, hd] at hok
      | ok q st =>
        obtain ⟨v1, m1⟩ := st
        obtain ⟨cap, hst, hq, hle, hsz1, _⟩ := data_ok_stor h q v1 m1 hd
        obtain ⟨ql, qo⟩ := q
        simp only at hq hst
        subst hq
        obtain ⟨hA, hB⟩ := erase_range_after_data v m s l f t hl hlt ht v1 m1 ql cap hd hst hsz1
        by_cases hn : no_throw m1.env (3 * (s.length - (t - f) - f))
        · obtain ⟨r1, hr1⟩ := hA hn
          rw [hr1] at hok
          injection hok with _ hst3
          have hput := stor_put hst (s.take f ++ s.drop t)
            (copies m1.env (3 * (s.length - (t - f) - f))) (s.length - (t - f))
          have hps := put_size v1 m1 ql (s.take f ++ s.drop t)
            (copies m1.env (3 * (s.length - (t - f) - f))) (s.length - (t - f))
          rw [hst3] at hput hps
          simp only at hput hps
          refine ⟨holds_of_stor hput ?_ ?_, hps⟩
          · rw [hps]; simp; omega
          · simp; omega
        · obtain ⟨d1, _, hd1⟩ := hB hn
          rw [hd1] at hok
          exact absurd hok (by simp)
  · intro h0
    obtain ⟨q, v1, m1, hd, h1⟩ := data_succeeds (N := N) h h0
    by_cases hemp : f = t
    · subst hemp
      exact ⟨⟨q.loc, q.off + f⟩, v1, m1,
        by simp [erase_range, ptr_diff, ptr_sub, hl, begin_, hd]⟩
    · obtain ⟨cap, hst, hq, hle, hsz1, _⟩ := data_ok_stor h q v1 m1 hd
      obtain ⟨ql, qo⟩ := q
      simp only at hq hst
      subst hq
      obtain ⟨hA, _⟩ := erase_range_after_data v m s l f t hl (by omega) ht v1 m1 ql cap hd
        hst hsz1
      obtain ⟨r1, hr1⟩ := hA (no_throw_of_zero h1 _)
      exact ⟨r1, _, _, hr1⟩
  · intro i hi
    have hne : (⟨l, i⟩ : ptr) ≠ ⟨l, v.size_⟩ := by
      intro hh
      injection hh with _ hh
      omega
    simp [erase, hl, hne]

/-! ## Mutable and const access -/

theorem access_eq {T : Type} (N : Nat) (v : socow_vector T) (m : Mem T) (acc : accessor) :
    access N v m acc =
      match data N v m with
      | .ok p s => .ok ⟨p.loc, p.off + acc.offset s.1.size_⟩ s
      | .thrown s => .thrown s
      | .fault => .fault := by
  cases acc <;> simp only [access, index, front, back, begin_, end_, accessor.offset]
  all_goals (cases data N v m <;> rfl)

theorem copy_ctor_big {T : Type} (N : Nat) {a : socow_vector T} {m : Mem T} {A : Nat}
    {c : big_storage T} {s : List T} (h : BigAt a m A c s) :
    copy_ctor N a m = .ok ⟨false, s.length, [], some A⟩
      ⟨m.heap.set A { c with ref_count := c.ref_count + 1 }, m.env⟩ := by
  have hd := deref_addr h
  obtain ⟨hs, _, hb, hn, _⟩ := h
  simp [copy_ctor, hs, hb, hd, hn, Mem.store]

theorem copy_ctor_small {T : Type} {N : Nat} {a : socow_vector T} (m : Mem T) {s : List T}
    (h : SmallAt N a s) :
    copy_ctor N a m =
      if no_throw m.env s.length then .ok ⟨true, s.length, s, none⟩ ⟨m.heap, copies m.env s.length⟩
      else .thrown ⟨m.heap, copies m.env m.env.throw_countdown⟩ := by
  obtain ⟨hs, hd, hn, hc⟩ := h
  unfold copy_ctor
  simp only [hs, if_true, hd, hn]
  rw [copy_data_array_eq s N s.length m.env (le_refl _) hc]
  by_cases hnt : no_throw m.env s.length <;> simp [hnt, Mem.set_env]

theorem bigAt_set {T : Type} {v : socow_vector T} {m : Mem T} {A : Nat} {c : big_storage T}
    {s : List T} (h : BigAt v m A c s) (c1 : big_storage T) (e : Env) (hl : c1.live = true)
    (hd : c1.data = s) (hc : s.length ≤ c1.capacity) (hr : 1 ≤ c1.ref_count) :
    BigAt v ⟨m.heap.set A c1, e⟩ A c1 s := by
  have hlt := addr_lt h
  obtain ⟨hs, hsm, hb, hn, _⟩ := h
  exact ⟨hs, hsm, hb, hn, by simp [List.getElem?_set_self hlt], hl, hd, hc, hr⟩

/-- C5. Copy construction from a big container copies no element (the element
statics are untouched, so it returns normally whatever failure is armed),
gives a handle with the same size whose storage is the same block as the
source's, and raises the reference count of that block by exactly one; copy
construction from a small container whose copies do not fail copies its
`size` elements into the inline storage of the new handle and allocates
nothing. -/
theorem copy_ctor_shares {T : Type} (N : Nat) (a : socow_vector T) (m : Mem T) (s : List T) :
    (∀ A c, BigAt a m A c s →
      ∃ b m1, copy_ctor N a m = .ok b m1 ∧ m1.env = m.env ∧
        m1.heap = m.heap.set A { c with ref_count := c.ref_count + 1 } ∧
        b.size_ = a.size_ ∧
        data_const b m1 = .ok ⟨.big A, 0⟩ (b, m1) ∧
        data_const a m1 = .ok ⟨.big A, 0⟩ (a, m1) ∧
        BigAt b m1 A { c with ref_count := c.ref_count + 1 } s ∧
        BigAt a m1 A { c with ref_count := c.ref_count + 1 } s) ∧
    (SmallAt N a s → no_throw m.env s.length →
      ∃ b, copy_ctor N a m = .ok b ⟨m.heap, copies m.env s.length⟩ ∧
        SmallAt N b s ∧ b.big = none ∧
        (copies m.env s.length).copy_counter = m.env.copy_counter + s.length) := by
  constructor
  · intro A c h
    have hb := bigAt_set h { c with ref_count := c.ref_count + 1 } m.env h.2.2.2.2.2.1
      h.2.2.2.2.2.2.1 h.2.2.2.2.2.2.2.1 (by simp)
    refine ⟨_, _, copy_ctor_big N h, rfl, rfl, h.2.2.2.1.symm, ?_, ?_, ?_, hb⟩
    · simp [data_const, base]
    · simp [data_const, base, h.1, h.2.2.1]
    · exact ⟨rfl, rfl, rfl, rfl, hb.2.2.2.2.1, hb.2.2.2.2.2⟩
  · intro h hn
    refine ⟨⟨true, s.length, s, none⟩, ?_, ⟨rfl, rfl, rfl, h.2.2.2⟩, rfl, rfl⟩
    rw [copy_ctor_small m h, if_pos hn]

/-- C7. The const observers return the state they were given: the handle
(hence its block reference and size) and the memory (hence every element,
every reference count and the copy counter) are unchanged, for a shared or
an exclusive container; they return the storage address, the addresses of
the slots, the size, the emptiness and the capacity. -/
theorem const_observers_pure {T : Type} (N : Nat) (v : socow_vector T) (m : Mem T)
    (s : List T) (h : Holds N v m s) :
    ∃ l cap, base v = some l ∧ s.length ≤ cap ∧
      data_const v m = .ok ⟨l, 0⟩ (v, m) ∧
      (∀ i, index_const v m i = .ok ⟨l, i⟩ (v, m) ∧ load v m ⟨l, i⟩ = s[i]?) ∧
      front_const v m = .ok ⟨l, 0⟩ (v, m) ∧
      back_const v m = .ok ⟨l, size_dec s.length⟩ (v, m) ∧
      begin_const v m = .ok ⟨l, 0⟩ (v, m) ∧
      end_const v m = .ok ⟨l, s.length⟩ (v, m) ∧
      size v m = .ok s.length (v, m) ∧
      empty v m = .ok (s.length == 0) (v, m) ∧
      capacity N v m = .ok cap (v, m) := by
  have hn := size_holds h
  rcases h with h | ⟨a, b, h⟩
  · have hb : base v = some .small := by simp [base, h.1]
    refine ⟨.small, N, hb, h.2.2.2, ?_, ?_, ?_, ?_, ?_, ?_, ?_, ?_, capacity_small m h⟩
    · simp [data_const, hb]
    · intro i
      exact ⟨by simp [index_const, data_const, hb], by simp [load, slots, h.2.1]⟩
    · simp [front_const, data_const, hb]
    · simp [back_const, data_const, hb, hn]
    · simp [begin_const, data_const, hb]
    · simp [end_const, data_const, hb, hn]
    · simp [size, hn]
    · simp [empty, hn]
  · have hb : base v = some (.big a) := by simp [base, h.1, h.2.2.1]
    refine ⟨.big a, b.capacity, hb, h.2.2.2.2.2.2.2.1, ?_, ?_, ?_, ?_, ?_, ?_, ?_, ?_,
      capacity_big N h⟩
    · simp [data_const, hb]
    · intro i
      exact ⟨by simp [index_const, data_const, hb],
        by simp [load, slots, deref_addr h, h.2.2.2.2.2.2.1]⟩
    · simp [front_const, data_const, hb]
    · simp [back_const, data_const, hb, hn]
    · simp [begin_const, data_const, hb]
    · simp [end_const, data_const, hb, hn]
    · simp [size, hn]
    · simp [empty, hn]

theorem holds_env {T : Type} {N : Nat} {v : socow_vector T} {m : Mem T} {s : List T}
    (h : Holds N v m s) (e : Env) : Holds N v ⟨m.heap, e⟩ s := by
  have := holds_extend h [] e
  simpa using this

theorem bigAt_after_clone {T : Type} (h0 : List (big_storage T)) (s : List T) (cap : Nat)
    (e : Env) (hc : s.length ≤ cap) :
    BigAt (⟨false, s.length, [], some h0.length⟩ : socow_vector T)
      ⟨h0 ++ [⟨cap, 1, s, true⟩], e⟩ h0.length ⟨cap, 1, s, true⟩ s :=
  ⟨rfl, rfl, rfl, rfl, by simp, rfl, rfl, hc, le_refl _⟩

/-- C6. A mutable access (`data`, `operator[]`, `front`, `back`, `begin`,
`end`) on a big container whose block has a reference count above one and
whose clone does not fail performs exactly `size` element copies and moves
the handle to a fresh block of the same capacity holding the same elements,
the former sharers keep the old block, so the storage addresses differ; when
the reference count is one the access returns the same block and leaves the
whole state, copy counter included, unchanged. -/
theorem mutable_access_unshares {T : Type} (N : Nat) (v : socow_vector T) (m : Mem T)
    (A : Nat) (c : big_storage T) (s : List T) (h : BigAt v m A c s) (acc : accessor) :
    (2 ≤ c.ref_count → no_throw m.env s.length →
      ∃ p v1 m1, access N v m acc = .ok p (v1, m1) ∧
        m1.env.copy_counter = m.env.copy_counter + s.length ∧
        p.loc = .big m.heap.length ∧ m.heap[m.heap.length]? = none ∧
        data_const v1 m1 = .ok ⟨.big m.heap.length, 0⟩ (v1, m1) ∧
        BigAt v1 m1 m.heap.length ⟨c.capacity, 1, s, true⟩ s ∧
        ∀ w, BigAt w m A c s →
          BigAt w m1 A { c with ref_count := c.ref_count - 1 } s ∧
          data_const w m1 = .ok ⟨.big A, 0⟩ (w, m1) ∧
          (⟨.big A, 0⟩ : ptr) ≠ ⟨.big m.heap.length, 0⟩) ∧
    (c.ref_count = 1 →
      access N v m acc = .ok ⟨.big A, acc.offset s.length⟩ (v, m)) := by
  have hlt := addr_lt h
  constructor
  · intro hr hn
    have hbig := bigAt_after_clone (m.heap.set A { c with ref_count := c.ref_count - 1 }) s
      c.capacity (copies m.env s.length) h.2.2.2.2.2.2.2.1
    simp only [List.length_set] at hbig
    refine ⟨⟨.big m.heap.length, 0 + acc.offset s.length⟩,
      ⟨false, s.length, [], some m.heap.length⟩,
      ⟨m.heap.set A { c with ref_count := c.ref_count - 1 } ++ [⟨c.capacity, 1, s, true⟩],
        copies m.env s.length⟩, ?_, rfl, rfl, by simp, by simp [data_const, base], hbig, ?_⟩
    · rw [access_eq, data_shared N h hr, if_pos hn]
    · intro w hw
      have hw2 := bigAt_extend (bigAt_set hw { c with ref_count := c.ref_count - 1 } m.env
        hw.2.2.2.2.2.1 hw.2.2.2.2.2.2.1 hw.2.2.2.2.2.2.2.1 (by simp; omega))
        [⟨c.capacity, 1, s, true⟩] (copies m.env s.length)
      refine ⟨hw2, by simp [data_const, base, hw.1, hw.2.2.1], ?_⟩
      intro hh
      injection hh with hh _
      injection hh with hh
      omega
  · intro hr
    rw [access_eq, data_unique N h hr]
    simp [h.2.2.2.1]

/-- C9. Unshare-on-write is all-or-nothing: for a big container whose block
has a reference count above one, when the `k`-th element copy of the clone
fails (`1 ≤ k ≤ size`), `pop_back`, `erase`, `clear` and every mutable access
throw and leave the handle as it was (same block, same size) and the old heap
as it was (same elements, same reference count); the block allocated for the
clone is deleted with no element left in it. -/
theorem unshare_all_or_nothing {T : Type} (N : Nat) (v : socow_vector T) (m : Mem T)
    (A : Nat) (c : big_storage T) (s : List T) (h : BigAt v m A c s)
    (hr : 2 ≤ c.ref_count) (hk1 : 1 ≤ m.env.throw_countdown)
    (hk2 : m.env.throw_countdown ≤ s.length) :
    pop_back N v m = .thrown (v, ⟨m.heap ++ [⟨c.capacity, 1, [], false⟩],
      copies m.env m.env.throw_countdown⟩) ∧
    (∀ f t, f ≤ t → erase_range N v m ⟨.big A, f⟩ ⟨.big A, t⟩ =
      .thrown (v, ⟨m.heap ++ [⟨c.capacity, 1, [], false⟩],
        copies m.env m.env.throw_countdown⟩)) ∧
    (∀ i, erase N v m ⟨.big A, i⟩ = .thrown (v, ⟨m.heap ++ [⟨c.capacity, 1, [], false⟩],
      copies m.env m.env.throw_countdown⟩)) ∧
    clear N v m = .thrown (v, ⟨m.heap ++ [⟨c.capacity, 1, [], false⟩],
      copies m.env m.env.throw_countdown⟩) ∧
    (∀ acc, access N v m acc = .thrown (v, ⟨m.heap ++ [⟨c.capacity, 1, [], false⟩],
      copies m.env m.env.throw_countdown⟩)) ∧
    BigAt v ⟨m.heap ++ [⟨c.capacity, 1, [], false⟩], copies m.env m.env.throw_countdown⟩
      A c s := by
  have hn : ¬ no_throw m.env s.length := by unfold no_throw; omega
  have hd := data_shared N h hr
  rw [if_neg hn] at hd
  have hb : base v = some (.big A) := by simp [base, h.1, h.2.2.1]
  have her : ∀ f t, f ≤ t → erase_range N v m ⟨.big A, f⟩ ⟨.big A, t⟩ =
      .thrown (v, ⟨m.heap ++ [⟨c.capacity, 1, [], false⟩],
        copies m.env m.env.throw_countdown⟩) := by
    intro f t hft
    by_cases h0 : t - f = 0 <;> simp [erase_range, ptr_diff, ptr_sub, hb, hft, h0, begin_, hd]
  refine ⟨?_, her, ?_, ?_, ?_, bigAt_extend h _ _⟩
  · simp [pop_back, hd]
  · intro i
    by_cases hi : (⟨.big A, i⟩ : ptr) = ⟨.big A, v.size_⟩
    · simp [erase, hb, hi, end_, hd]
    · simp only [erase, hb, hi, if_false]
      exact her i (i + 1) (by omega)
  · simp [clear, begin_, hd]
  · intro acc
    rw [access_eq, hd]

theorem capacity_extend {T : Type} {N : Nat} {v : socow_vector T} {m : Mem T} {s : List T}
    (h : Holds N v m s) (cap : Nat) (hcap : capacity N v m = .ok cap (v, m))
    (l : List (big_storage T)) (e : Env) :
    capacity N v ⟨m.heap ++ l, e⟩ = .ok cap (v, ⟨m.heap ++ l, e⟩) := by
  rcases h with hs | ⟨a, b, hb⟩
  · have h1 := capacity_small m hs
    rw [hcap] at h1
    injection h1 with h1
    rw [capacity_small _ hs, h1]
  · have h1 := capacity_big N hb
    rw [hcap] at h1
    injection h1 with h1
    rw [capacity_big N (bigAt_extend hb l e), h1]

theorem capacity_env {T : Type} {N : Nat} {v : socow_vector T} {m : Mem T} {s : List T}
    (h : Holds N v m s) (cap : Nat) (hcap : capacity N v m = .ok cap (v, m)) (e : Env) :
    capacity N v ⟨m.heap, e⟩ = .ok cap (v, ⟨m.heap, e⟩) := by
  have := capacity_extend h cap hcap [] e
  simpa using this

/-- C8 (amended). When `push_back` throws, the container has the size, the
capacity, the representation and the element values it had before the call.
The handle and the old heap are untouched and the only trace is the block
that was allocated, deleted with no element left in it, except in one case:
the container was big, shared and not full and the copy that failed is the
construction of the new element, after the unshare clone succeeded; the
handle then references the fresh clone (same capacity, same elements, held
by it alone) and the old block has lost one reference. -/
theorem push_back_strong {T : Type} (N : Nat) (v : socow_vector T) (m : Mem T) (s : List T)
    (x : T) (v1 : socow_vector T) (m1 : Mem T) (h : Holds N v m s)
    (hth : push_back N v m (.val x) = .thrown (v1, m1)) :
    Holds N v1 m1 s ∧ v1.size_ = v.size_ ∧ v1.is_small = v.is_small ∧
    (∃ cap, capacity N v m = .ok cap (v, m) ∧ capacity N v1 m1 = .ok cap (v1, m1)) ∧
    ((v1 = v ∧ (m1.heap = m.heap ∨ ∃ cap1, m1.heap = m.heap ++ [⟨cap1, 1, [], false⟩])) ∨
     (∃ A c, BigAt v m A c s ∧ 2 ≤ c.ref_count ∧ s.length < c.capacity ∧
        m.env.throw_countdown = s.length + 1 ∧
        v1 = ⟨false, s.length, [], some m.heap.length⟩ ∧
        m1.heap = m.heap.set A { c with ref_count := c.ref_count - 1 } ++
          [⟨c.capacity, 1, s, true⟩])) := by
  have hgrow : ∀ cap, capacity N v m = .ok cap (v, m) → s.length = cap →
      Holds N v1 m1 s ∧ v1.size_ = v.size_ ∧ v1.is_small = v.is_small ∧
      (∃ cap, capacity N v m = .ok cap (v, m) ∧ capacity N v1 m1 = .ok cap (v1, m1)) ∧
      (v1 = v ∧ (m1.heap = m.heap ∨ ∃ cap1, m1.heap = m.heap ++ [⟨cap1, 1, [], false⟩])) := by
    intro cap hcap hfull
    subst hfull
    rw [push_back_grow h hcap (.val x) x rfl] at hth
    split at hth
    · split at hth <;> exact absurd hth (by simp)
    · have hpos : 0 < s.length := by
        by_contra hp
        rw [if_neg hp] at hth
        exact absurd hth (by simp)
      rw [if_pos hpos] at hth
      injection hth with hth
      injection hth with hv hm
      subst hv; subst hm
      have hx := holds_extend h [⟨s.length * 2, 1, [], false⟩]
        (copies m.env m.env.throw_countdown)
      exact ⟨hx, rfl, rfl, ⟨s.length, hcap, capacity_extend h _ hcap _ _⟩, rfl,
        Or.inr ⟨_, rfl⟩⟩
  rcases stor_or_shared h with ⟨l, cap, hst, hle, hcap⟩ | ⟨A, c, hb, hr⟩
  · by_cases hfull : s.length = cap
    · obtain ⟨h1, h2, h3, h4, h5⟩ := hgrow cap hcap hfull
      exact ⟨h1, h2, h3, h4, Or.inl h5⟩
    · rw [push_back_in_place hst (size_holds h) (by omega) (.val x) x rfl] at hth
      split at hth
      · exact absurd hth (by simp)
      · injection hth with hth
        injection hth with hv hm
        subst hv; subst hm
        have hx := holds_env h (copies m.env 1)
        exact ⟨hx, rfl, rfl, ⟨cap, hcap, capacity_env h cap hcap _⟩,
          Or.inl ⟨rfl, Or.inl rfl⟩⟩
  · have hcap := capacity_big N hb
    by_cases hfull : s.length = c.capacity
    · obtain ⟨h1, h2, h3, h4, h5⟩ := hgrow c.capacity hcap hfull
      exact ⟨h1, h2, h3, h4, Or.inl h5⟩
    · have hlt : s.length < c.capacity := by
        have := hb.2.2.2.2.2.2.2.1; omega
      rw [push_back_shared N hb hr hlt (.val x) x rfl] at hth
      split at hth
      · rename_i hn
        split at hth
        · exact absurd hth (by simp)
        · rename_i hn1
          injection hth with hth
          injection hth with hv hm
          subst hv; subst hm
          have hbig := bigAt_after_clone
            (m.heap.set A { c with ref_count := c.ref_count - 1 }) s c.capacity
            (copies m.env (s.length + 1)) hb.2.2.2.2.2.2.2.1
          simp only [List.length_set] at hbig
          refine ⟨Or.inr ⟨_, _, hbig⟩, hb.2.2.2.1.symm, hb.1.symm,
            ⟨c.capacity, hcap, by rw [capacity_big N hbig]⟩,
            Or.inr ⟨A, c, hb, hr, hlt, throw_countdown_of_split hn1, rfl, rfl⟩⟩
      · injection hth with hth
        injection hth with hv hm
        subst hv; subst hm
        have hb2 := bigAt_extend hb [⟨c.capacity, 1, [], false⟩]
          (copies m.env m.env.throw_countdown)
        exact ⟨Or.inr ⟨_, _, hb2⟩, rfl, rfl, ⟨c.capacity, hcap, capacity_big N hb2⟩,
          Or.inl ⟨rfl, Or.inr ⟨_, rfl⟩⟩⟩


/-! ## Frame: what an operation leaves alone -/

theorem sameCell_forget {T : Type} {α : Type} (A : Nat) (m0 : Mem T) (r : Res (St T) α)
    (h : SameCell A m0 r) : SameCell A m0 (forget r) := by
  cases r <;> exact h

theorem assign_at_frame {T : Type} {N : Nat} {v : socow_vector T} {m : Mem T} {l : Loc}
    {d : List T} {cap : Nat} (h : Stor N v m l d cap) (A : Nat) (hA : l ≠ .big A) (off : Nat)
    (x : T) : SameCell A m (assign_at v m ⟨l, off⟩ x) := by
  obtain ⟨h1, _⟩ := stor_slots h
  unfold assign_at
  simp only [h1]
  split
  · split
    · exact rfl
    · simp only [SameCell]
      rw [set_slots_eq_put]
      exact put_frame v m l _ _ _ A hA
  · trivial

theorem pop_back_frame {T : Type} {N : Nat} {v : socow_vector T} {m : Mem T} {l : Loc}
    {d : List T} {cap : Nat} (h : Stor N v m l d cap) (A : Nat) (hA : l ≠ .big A) :
    SameCell A m (pop_back N v m) := by
  obtain ⟨h1, _⟩ := stor_slots (stor_resize h (size_dec v.size_))
  unfold pop_back
  rw [data_stor h]
  simp only [destroy_at, h1]
  split
  · rename_i st hst
    split at hst
    · injection hst with hst
      subst hst
      simp only [SameCell]
      rw [set_slots_resize]
      exact put_frame v m l _ _ _ A hA
    · exact absurd hst (by simp)
  · trivial

theorem erase_range_frame {T : Type} {N : Nat} (v : socow_vector T) (m : Mem T) (s : List T)
    (l : Loc) (f t : Nat) (hl : base v = some l) (v1 : socow_vector T) (m1 : Mem T)
    (l1 : Loc) (cap1 : Nat) (hd : data N v m = .ok ⟨l1, 0⟩ (v1, m1))
    (hst : Stor N v1 m1 l1 s cap1) (hsz : v1.size_ = s.length) (A : Nat)
    (hA : l1 ≠ .big A) :
    SameCell A m1 (erase_range N v m ⟨l, f⟩ ⟨l, t⟩) := by
  by_cases hft : f ≤ t
  · by_cases h0 : t - f = 0
    · simp [erase_range, ptr_diff, ptr_sub, hl, hft, h0, begin_, hd, SameCell]
    · by_cases ht : t ≤ s.length
      · obtain ⟨hA1, hB1⟩ := erase_range_after_data v m s l f t hl (by omega) ht v1 m1 l1
          cap1 hd hst hsz
        by_cases hn : no_throw m1.env (3 * (s.length - (t - f) - f))
        · obtain ⟨r, hr⟩ := hA1 hn
          rw [hr]
          exact put_frame v1 m1 l1 _ _ _ A hA
        · obtain ⟨d1, _, hd1⟩ := hB1 hn
          rw [hd1]
          exact put_frame v1 m1 l1 _ _ _ A hA
      · have hg : ¬ (t - f ≤ s.length ∧ f ≤ s.length - (t - f)) := by omega
        have hpre : erase_range N v m ⟨l, f⟩ ⟨l, t⟩ = .fault := by
          unfold erase_range
          simp only [ptr_diff, ptr_sub, hl, hft, and_self, if_true, h0, if_false, hd, hsz,
            hg, Nat.zero_le]
        rw [hpre]
        trivial
  · simp [erase_range, ptr_diff, ptr_sub, hl, hft, SameCell]

theorem erase_frame {T : Type} {N : Nat} (v : socow_vector T) (m : Mem T) (s : List T)
    (l : Loc) (i : Nat) (hl : base v = some l) (v1 : socow_vector T) (m1 : Mem T)
    (l1 : Loc) (cap1 : Nat) (hd : data N v m = .ok ⟨l1, 0⟩ (v1, m1))
    (hst : Stor N v1 m1 l1 s cap1) (hsz : v1.size_ = s.length) (A : Nat)
    (hA : l1 ≠ .big A) :
    SameCell A m1 (erase N v m ⟨l, i⟩) := by
  unfold erase
  simp only [hl]
  split
  · simp [end_, hd, SameCell]
  · exact erase_range_frame v m s l i (i + 1) hl v1 m1 l1 cap1 hd hst hsz A hA

theorem clear_frame {T : Type} {N : Nat} (v : socow_vector T) (m : Mem T) (s : List T)
    (v1 : socow_vector T) (m1 : Mem T)
    (l1 : Loc) (cap1 : Nat) (hd : data N v m = .ok ⟨l1, 0⟩ (v1, m1))
    (hst : Stor N v1 m1 l1 s cap1) (hsz : v1.size_ = s.length) (A : Nat)
    (hA : l1 ≠ .big A) :
    SameCell A m1 (clear N v m) := by
  have h2 := erase_range_frame v1 m1 s l1 0 v1.size_ (stor_base hst) v1 m1 l1 cap1
    (data_stor hst) hst hsz A hA
  unfold clear
  simp only [begin_, hd, end_, data_stor hst, Nat.zero_add]
  cases he : erase_range N v1 m1 ⟨l1, 0⟩ ⟨l1, v1.size_⟩ with
  | fault => trivial
  | thrown st => rw [he] at h2; exact h2
  | ok r st => rw [he] at h2; exact h2

theorem write_frame {T : Type} [Layout T] {N : Nat} (v : socow_vector T) (m : Mem T) (s : List T)
    (v1 : socow_vector T) (m1 : Mem T)
    (l1 : Loc) (cap1 : Nat) (hd : data N v m = .ok ⟨l1, 0⟩ (v1, m1))
    (hst : Stor N v1 m1 l1 s cap1) (A : Nat) (hA : l1 ≠ .big A) (acc : accessor)
    (fwd bwd : Nat) (x : T) :
    SameCell A m1 (apply_op N v m (.write acc fwd bwd x)) := by
  simp only [apply_op, access_eq, hd]
  exact assign_at_frame hst A hA _ x

theorem pop_back_frame_data {T : Type} {N : Nat} (v : socow_vector T) (m : Mem T)
    (s : List T) (v1 : socow_vector T) (m1 : Mem T)
    (l1 : Loc) (cap1 : Nat) (hd : data N v m = .ok ⟨l1, 0⟩ (v1, m1))
    (hst : Stor N v1 m1 l1 s cap1) (A : Nat) (hA : l1 ≠ .big A) :
    SameCell A m1 (pop_back N v m) := by
  have h1 := pop_back_frame hst A hA
  have : pop_back N v m = pop_back N v1 m1 := by
    simp [pop_back, hd, data_stor hst]
  rw [this]
  exact h1

theorem kept_clone {T : Type} {v : socow_vector T} {m : Mem T} {A : Nat} {c : big_storage T}
    {s : List T} (h : BigAt v m A c s) (hr : 2 ≤ c.ref_count) (l : List (big_storage T))
    (e : Env) :
    Kept A s c.capacity ⟨m.heap.set A { c with ref_count := c.ref_count - 1 } ++ l, e⟩ := by
  have hlt := addr_lt h
  refine ⟨{ c with ref_count := c.ref_count - 1 }, ?_, h.2.2.2.2.2.1, h.2.2.2.2.2.2.1, rfl,
    by simp; omega⟩
  simp only
  rw [List.getElem?_append_left (by simpa using hlt), List.getElem?_set_self hlt]

theorem kept_extend {T : Type} {v : socow_vector T} {m : Mem T} {A : Nat} {c : big_storage T}
    {s : List T} (h : BigAt v m A c s) (l : List (big_storage T)) (e : Env) :
    Kept A s c.capacity ⟨m.heap ++ l, e⟩ := by
  have hlt := addr_lt h
  refine ⟨c, ?_, h.2.2.2.2.2.1, h.2.2.2.2.2.2.1, rfl, h.2.2.2.2.2.2.2.2⟩
  simp only
  rw [List.getElem?_append_left hlt]
  exact h.2.2.2.2.1

theorem kept_same {T : Type} {A : Nat} {s : List T} {cap : Nat} {m1 m2 : Mem T}
    (h : Kept A s cap m1) (he : m2.heap[A]? = m1.heap[A]?) : Kept A s cap m2 := by
  obtain ⟨c, hc, hrest⟩ := h
  exact ⟨c, by rw [he, hc], hrest⟩

theorem kept_of_sameCell {T : Type} {α : Type} {A : Nat} {s : List T} {cap : Nat}
    {m1 : Mem T} {r : Res (St T) α} (hk : Kept A s cap m1) (h : SameCell A m1 r)
    (v2 : socow_vector T) (m2 : Mem T)
    (ho : (∃ a, r = .ok a (v2, m2)) ∨ r = .thrown (v2, m2)) : Kept A s cap m2 := by
  rcases ho with ⟨a, ho⟩ | ho
  · rw [ho] at h
    exact kept_same hk h
  · rw [ho] at h
    exact kept_same hk h

theorem released_shared {T : Type} (c : big_storage T) (hr : 2 ≤ c.ref_count) :
    released c = { c with ref_count := c.ref_count - 1 } := by
  have : c.ref_count ≠ 1 := by omega
  simp [released, this]

/-- Outcomes of a call: the states it can end in. -/
theorem outcome_unit {T : Type} (r : Res (St T) Unit) (v2 : socow_vector T) (m2 : Mem T)
    (h : r = .ok () (v2, m2) ∨ r = .thrown (v2, m2)) :
    (∃ a, r = .ok a (v2, m2)) ∨ r = .thrown (v2, m2) := by
  rcases h with h | h
  · exact Or.inl ⟨(), h⟩
  · exact Or.inr h

theorem forget_outcome {T : Type} {α : Type} (r : Res (St T) α) (v2 : socow_vector T)
    (m2 : Mem T) (h : forget r = .ok () (v2, m2) ∨ forget r = .thrown (v2, m2)) :
    (∃ a, r = .ok a (v2, m2)) ∨ r = .thrown (v2, m2) := by
  cases r with
  | ok a st =>
    rcases h with h | h
    · simp only [forget] at h
      injection h with _ h
      exact Or.inl ⟨a, by rw [h]⟩
    · simp [forget] at h
  | thrown st =>
    rcases h with h | h
    · simp [forget] at h
    · simp only [forget] at h
      injection h with h
      exact Or.inr (by rw [h])
  | fault => simp [forget] at h

theorem push_back_shared_forms {T : Type} (N : Nat) {v : socow_vector T} {m : Mem T}
    {A : Nat} {c : big_storage T} {s : List T} (h : BigAt v m A c s) (hr : 2 ≤ c.ref_count)
    (x : T) :
    (∃ cap1 e, s.length + 1 ≤ cap1 ∧ push_back N v m (.val x) =
      .ok () (⟨false, s.length + 1, [], some m.heap.length⟩,
        ⟨m.heap.set A { c with ref_count := c.ref_count - 1 } ++
          [⟨cap1, 1, s ++ [x], true⟩], e⟩)) ∨
    (∃ v1 l e, push_back N v m (.val x) =
      .thrown (v1, ⟨m.heap.set A { c with ref_count := c.ref_count - 1 } ++ l, e⟩)) ∨
    (∃ l e, push_back N v m (.val x) = .thrown (v, ⟨m.heap ++ l, e⟩)) ∨
    push_back N v m (.val x) = .fault := by
  have hH : Holds N v m s := Or.inr ⟨A, c, h⟩
  have hcap := capacity_big N h
  by_cases hfull : s.length = c.capacity
  · rw [← hfull] at hcap
    rw [push_back_grow hH hcap (.val x) x rfl, heap_released_big h, released_shared c hr]
    by_cases hn : no_throw m.env (s.length + 1)
    · by_cases hp : 0 < s.length
      · exact Or.inl ⟨s.length * 2, copies m.env (s.length + 1), by omega, by simp [hn, hp]⟩
      · exact Or.inr (Or.inr (Or.inr (by simp [hn, hp])))
    · by_cases hp : 0 < s.length
      · exact Or.inr (Or.inr (Or.inl ⟨[⟨s.length * 2, 1, [], false⟩],
          copies m.env m.env.throw_countdown, by simp [hn, hp]⟩))
      · exact Or.inr (Or.inr (Or.inr (by simp [hn, hp])))
  · have hlt : s.length < c.capacity := by
      have := h.2.2.2.2.2.2.2.1; omega
    rw [push_back_shared N h hr hlt (.val x) x rfl]
    by_cases hn : no_throw m.env s.length
    · by_cases hn1 : no_throw (copies m.env s.length) 1
      · exact Or.inl ⟨c.capacity, copies m.env (s.length + 1), by omega, by simp [hn, hn1]⟩
      · exact Or.inr (Or.inl ⟨⟨false, s.length, [], some m.heap.length⟩,
          [⟨c.capacity, 1, s, true⟩], copies m.env (s.length + 1), by simp [hn, hn1]⟩)
    · exact Or.inr (Or.inr (Or.inl ⟨[⟨c.capacity, 1, [], false⟩],
        copies m.env m.env.throw_countdown, by simp [hn]⟩))

theorem reserve_shared {T : Type} [Layout T] (N : Nat) {v : socow_vector T} {m : Mem T}
    {A : Nat} {c : big_storage T} {s : List T} (h : BigAt v m A c s) (hr : 2 ≤ c.ref_count)
    (k : Nat) :
    reserve N v m k =
      if storage_fits T (max k c.capacity) then
        (if no_throw m.env s.length then
          .ok () (⟨false, s.length, [], some m.heap.length⟩,
            ⟨m.heap.set A { c with ref_count := c.ref_count - 1 } ++
              [⟨max k c.capacity, 1, s, true⟩], copies m.env s.length⟩)
        else
          .thrown (v, ⟨m.heap ++ [⟨max k c.capacity, 1, [], false⟩],
            copies m.env m.env.throw_countdown⟩))
      else .fault := by
  have hH : Holds N v m s := Or.inr ⟨A, c, h⟩
  have hmc := make_copy_eq hH (max k c.capacity)
    (le_trans h.2.2.2.2.2.2.2.1 (le_max_right _ _))
  rw [heap_released_big h, released_shared c hr] at hmc
  have hne : c.ref_count ≠ 1 := by omega
  unfold reserve
  rw [capacity_big N h]
  simp only [h.1, deref_big h, Option.map_some', Option.getD_some, big_storage.is_unique]
  by_cases hfit : storage_fits T (max k c.capacity) = true
  · by_cases hn : no_throw m.env s.length <;> simp [hne, hmc, hn, hfit]
  · simp [hne, hfit]

theorem shrink_to_fit_shared {T : Type} (N : Nat) {v : socow_vector T} {m : Mem T}
    {A : Nat} {c : big_storage T} {s : List T} (h : BigAt v m A c s) (hr : 2 ≤ c.ref_count) :
    shrink_to_fit N v m =
      if s.length = c.capacity then .ok () (v, m)
      else if s.length ≤ N then
        (if no_throw m.env s.length then
          .ok () (⟨true, s.length, s, none⟩,
            ⟨m.heap.set A { c with ref_count := c.ref_count - 1 }, copies m.env s.length⟩)
         else .thrown (v, ⟨m.heap, copies m.env m.env.throw_countdown⟩))
      else
        (if no_throw m.env s.length then
          .ok () (⟨false, s.length, [], some m.heap.length⟩,
            ⟨m.heap.set A { c with ref_count := c.ref_count - 1 } ++
              [⟨s.length, 1, s, true⟩], copies m.env s.length⟩)
         else
          .thrown (v, ⟨m.heap ++ [⟨s.length, 1, [], false⟩],
            copies m.env m.env.throw_countdown⟩)) := by
  have hH : Holds N v m s := Or.inr ⟨A, c, h⟩
  have hmc := make_copy_eq hH s.length (le_refl _)
  rw [heap_released_big h, released_shared c hr] at hmc
  have hd := deref_addr h
  obtain ⟨hs, hsm, hb, hn, ha, hl, hdat, hc, _⟩ := id h
  unfold shrink_to_fit
  rw [capacity_big N h]
  simp only [hn, hs]
  by_cases hfull : s.length = c.capacity
  · simp [hfull]
  · simp only [hfull, if_false, Bool.false_eq_true]
    by_cases hsmall : s.length ≤ N
    · simp only [hsmall, if_true, hb, hd, hdat, hsm]
      rw [copy_data_array_eq s N s.length m.env (le_refl _) hsmall]
      have h0 : size_dec c.ref_count ≠ 0 := by
        unfold size_dec; rw [if_neg (by omega)]; omega
      have h1 : size_dec c.ref_count = c.ref_count - 1 := by
        unfold size_dec; rw [if_neg (by omega)]
      by_cases hnt : no_throw m.env s.length
      · have h2 : ¬ c.ref_count - 1 = 0 := by omega
        simp [hnt, big_storage.unshare, big_storage.does_not_exists, h0, h1, h2, Mem.store,
          Mem.set_env, hdat]
      · simp only [hnt, if_false, Mem.set_env]
        congr 2
        cases v
        simp_all
    · simp only [hsmall, if_false, hmc, hs]

/-- A mutating operation on a handle that shares the block at `A` leaves that
block live, with its slots and capacity, and referenced. -/
theorem op_kept_shared {T : Type} [Layout T] (N : Nat) (v : socow_vector T) (m : Mem T) (A : Nat)
    (c : big_storage T) (s : List T) (h : BigAt v m A c s) (hr : 2 ≤ c.ref_count)
    (op : mut_op T) (v2 : socow_vector T) (m2 : Mem T)
    (ho : apply_op N v m op = .ok () (v2, m2) ∨ apply_op N v m op = .thrown (v2, m2)) :
    Kept A s c.capacity m2 := by
  have hlt := addr_lt h
  have hH : Holds N v m s := Or.inr ⟨A, c, h⟩
  have hbase : base v = some (.big A) := by simp [base, h.1, h.2.2.1]
  have hbc : begin_const v m = .ok ⟨.big A, 0⟩ (v, m) := by
    simp [begin_const, data_const, hbase]
  have hcap := capacity_big N h
  have hle := h.2.2.2.2.2.2.2.1
  have hne : Loc.big m.heap.length ≠ Loc.big A := by
    intro hh; injection hh with hh; omega
  have hst := stor_after_clone N (m.heap.set A { c with ref_count := c.ref_count - 1 }) s
    c.capacity (copies m.env s.length) false rfl
  simp only [List.length_set] at hst
  have hk1 := kept_clone h hr [⟨c.capacity, 1, s, true⟩] (copies m.env s.length)
  have hkth := kept_extend h [⟨c.capacity, 1, [], false⟩] (copies m.env m.env.throw_countdown)
  have hd := data_shared N h hr
  -- the operations that start with `data()`
  have via_data : ∀ {α : Type} (r : Res (St T) α),
      (∀ v1 m1 l1 cap1, data N v m = .ok ⟨l1, 0⟩ (v1, m1) → Stor N v1 m1 l1 s cap1 →
        v1.size_ = s.length → l1 ≠ .big A → SameCell A m1 r) →
      (∀ st, data N v m = .thrown st → r = .thrown st ∨ r = .fault) →
      ((∃ a, r = .ok a (v2, m2)) ∨ r = .thrown (v2, m2)) → Kept A s c.capacity m2 := by
    intro α r hok hth hout
    by_cases hn : no_throw m.env s.length
    · rw [if_pos hn] at hd
      exact kept_of_sameCell hk1 (hok _ _ _ _ hd hst rfl hne) v2 m2 hout
    · rw [if_neg hn] at hd
      rcases hth _ hd with hr1 | hr1
      · rcases hout with ⟨a, hout⟩ | hout
        · rw [hr1] at hout; exact absurd hout (by simp)
        · rw [hr1] at hout
          injection hout with hout
          injection hout with _ hm
          rw [← hm]
          exact hkth
      · rcases hout with ⟨a, hout⟩ | hout <;> (rw [hr1] at hout; exact absurd hout (by simp))
  cases op with
  | write acc fwd bwd x =>
    refine via_data _ (fun v1 m1 l1 cap1 hd1 hs1 _ hA =>
      write_frame v m s v1 m1 l1 cap1 hd1 hs1 A hA acc fwd bwd x) ?_ (outcome_unit _ _ _ ho)
    intro st hdt
    left
    simp [apply_op, access_eq, hdt]
  | pop_back =>
    refine via_data _ (fun v1 m1 l1 cap1 hd1 hs1 _ hA =>
      pop_back_frame_data v m s v1 m1 l1 cap1 hd1 hs1 A hA) ?_ (outcome_unit _ _ _ ho)
    intro st hdt
    left
    simp [apply_op, pop_back, hdt]
  | erase i =>
    simp only [apply_op, hbc, Nat.zero_add] at ho
    refine via_data _ (fun v1 m1 l1 cap1 hd1 hs1 hz hA =>
      erase_frame v m s (.big A) i hbase v1 m1 l1 cap1 hd1 hs1 hz A hA) ?_
      (forget_outcome _ _ _ ho)
    intro st hdt
    unfold erase
    simp only [hbase]
    split
    · left; simp [end_, hdt]
    · by_cases h0 : i + 1 - i = 0
      · omega
      · left
        simp [erase_range, ptr_diff, ptr_sub, hbase, h0, hdt]
  | erase_range f t =>
    simp only [apply_op, hbc, Nat.zero_add] at ho
    refine via_data _ (fun v1 m1 l1 cap1 hd1 hs1 hz hA =>
      erase_range_frame v m s (.big A) f t hbase v1 m1 l1 cap1 hd1 hs1 hz A hA) ?_
      (forget_outcome _ _ _ ho)
    intro st hdt
    by_cases hft : f ≤ t
    · left
      by_cases h0 : t - f = 0 <;>
        simp [erase_range, ptr_diff, ptr_sub, hbase, hft, h0, begin_, hdt]
    · right
      simp [erase_range, ptr_diff, ptr_sub, hbase, hft]
  | clear =>
    refine via_data _ (fun v1 m1 l1 cap1 hd1 hs1 hz hA =>
      clear_frame v m s v1 m1 l1 cap1 hd1 hs1 hz A hA) ?_ (outcome_unit _ _ _ ho)
    intro st hdt
    left
    simp [apply_op, clear, begin_, hdt]
  | push_back x =>
    simp only [apply_op] at ho
    rcases push_back_shared_forms N h hr x with ⟨cap1, e, _, hp⟩ | ⟨v1, l, e, hp⟩ |
        ⟨l, e, hp⟩ | hp
    · rw [hp] at ho
      rcases ho with ho | ho
      · injection ho with _ ho; injection ho with _ hm
        rw [← hm]; exact kept_clone h hr _ _
      · exact absurd ho (by simp)
    · rw [hp] at ho
      rcases ho with ho | ho
      · exact absurd ho (by simp)
      · injection ho with ho; injection ho with _ hm
        rw [← hm]; exact kept_clone h hr _ _
    · rw [hp] at ho
      rcases ho with ho | ho
      · exact absurd ho (by simp)
      · injection ho with ho; injection ho with _ hm
        rw [← hm]; exact kept_extend h _ _
    · rw [hp] at ho
      rcases ho with ho | ho <;> exact absurd ho (by simp)
  | insert i x =>
    simp only [apply_op, hbc, Nat.zero_add] at ho
    have hout := forget_outcome _ _ _ ho
    rcases push_back_shared_forms N h hr x with ⟨cap1, e, hc1, hp⟩ | ⟨v1, l, e, hp⟩ |
        ⟨l, e, hp⟩ | hp
    · have hst1 := stor_after_clone N (m.heap.set A { c with ref_count := c.ref_count - 1 })
        (s ++ [x]) cap1 e false rfl
      simp only [List.length_set, List.length_append, List.length_singleton] at hst1
      obtain ⟨hA1, hB1⟩ := insert_after_push v m (.big A) i x hbase _ _ _ (s ++ [x]) cap1 hp
        hst1 (by simp) (by simp)
      have hk := kept_clone h hr [⟨cap1, 1, s ++ [x], true⟩] e
      by_cases hn : no_throw e (3 * ((s ++ [x]).length - 1 - i))
      · obtain ⟨r, hr1⟩ := hA1 hn
        refine kept_of_sameCell hk (r := insert N v m ⟨.big A, i⟩ (.val x)) ?_ v2 m2 hout
        rw [hr1]
        exact put_frame _ _ _ _ _ _ A hne
      · obtain ⟨d1, _, hd1⟩ := hB1 hn
        refine kept_of_sameCell hk (r := insert N v m ⟨.big A, i⟩ (.val x)) ?_ v2 m2 hout
        rw [hd1]
        exact put_frame _ _ _ _ _ _ A hne
    · have hi : insert N v m ⟨.big A, i⟩ (.val x) = .thrown (v1,
          ⟨m.heap.set A { c with ref_count := c.ref_count - 1 } ++ l, e⟩) := by
        simp [insert, ptr_diff, hbase, hp]
      rw [hi] at hout
      rcases hout with ⟨a, hout⟩ | hout
      · exact absurd hout (by simp)
      · injection hout with hout; injection hout with _ hm
        rw [← hm]; exact kept_clone h hr _ _
    · have hi : insert N v m ⟨.big A, i⟩ (.val x) = .thrown (v, ⟨m.heap ++ l, e⟩) := by
        simp [insert, ptr_diff, hbase, hp]
      rw [hi] at hout
      rcases hout with ⟨a, hout⟩ | hout
      · exact absurd hout (by simp)
      · injection hout with hout; injection hout with _ hm
        rw [← hm]; exact kept_extend h _ _
    · have hi : insert N v m ⟨.big A, i⟩ (.val x) = .fault := by
        simp [insert, ptr_diff, hbase, hp]
      rw [hi] at hout
      rcases hout with ⟨a, hout⟩ | hout <;> exact absurd hout (by simp)
  | reserve k =>
    simp only [apply_op, reserve_shared N h hr k] at ho
    have hfit : storage_fits T (max k c.capacity) = true := by
      by_contra hfit
      rw [if_neg hfit] at ho
      rcases ho with ho | ho <;> exact absurd ho (by simp)
    rw [if_pos hfit] at ho
    split at ho
    · rcases ho with ho | ho
      · injection ho with _ ho; injection ho with _ hm
        rw [← hm]; exact kept_clone h hr _ _
      · exact absurd ho (by simp)
    · rcases ho with ho | ho
      · exact absurd ho (by simp)
      · injection ho with ho; injection ho with _ hm
        rw [← hm]; exact kept_extend h _ _
  | shrink_to_fit =>
    have hk0 : Kept A s c.capacity m := by
      have := kept_extend h [] m.env
      simpa using this
    have hkenv : ∀ e, Kept A s c.capacity ⟨m.heap, e⟩ := by
      intro e
      have := kept_extend h [] e
      simpa using this
    have hkset : ∀ e, Kept A s c.capacity
        ⟨m.heap.set A { c with ref_count := c.ref_count - 1 }, e⟩ := by
      intro e
      have := kept_clone h hr [] e
      simpa using this
    simp only [apply_op, shrink_to_fit_shared N h hr] at ho
    split at ho
    · rcases ho with ho | ho
      · injection ho with _ ho; injection ho with _ hm
        rw [← hm]; exact hk0
      · exact absurd ho (by simp)
    · split at ho
      · split at ho
        · rcases ho with ho | ho
          · injection ho with _ ho; injection ho with _ hm
            rw [← hm]; exact hkset _
          · exact absurd ho (by simp)
        · rcases ho with ho | ho
          · exact absurd ho (by simp)
          · injection ho with ho; injection ho with _ hm
            rw [← hm]; exact hkenv _
      · split at ho
        · rcases ho with ho | ho
          · injection ho with _ ho; injection ho with _ hm
            rw [← hm]; exact kept_clone h hr _ _
          · exact absurd ho (by simp)
        · rcases ho with ho | ho
          · exact absurd ho (by simp)
          · injection ho with ho; injection ho with _ hm
            rw [← hm]; exact kept_extend h _ _

theorem holds_of_kept {T : Type} (N : Nat) {w : socow_vector T} {m : Mem T} {A : Nat}
    {c : big_storage T} {s : List T} (h : BigAt w m A c s) {m2 : Mem T}
    (hk : Kept A s c.capacity m2) : Holds N w m2 s := by
  obtain ⟨c2, h1, h2, h3, h4, h5⟩ := hk
  obtain ⟨hs, hsm, hb, hn, _, _, _, hc, _⟩ := h
  exact Or.inr ⟨A, c2, hs, hsm, hb, hn, h1, h2, h3, by rw [h4]; exact hc, h5⟩

/-- C4. Value independence.  Let `a` hold `s` and let `b` be constructed as a
copy of `a`.  Then both hold `s`, and whatever single mutating operation
(element write through an access path, `push_back`, `pop_back`, `insert`,
`erase`, `clear`, `reserve`, `shrink_to_fit`) is applied to `b`, and whether
it returns normally or throws, `a` still has the size `|s|` and holds `s`;
and symmetrically for an operation applied to `a`, observed through `b`. -/
theorem copy_value_independence {T : Type} [Layout T] (N : Nat) (a : socow_vector T) (m : Mem T)
    (s : List T) (b : socow_vector T) (m1 : Mem T) (op : mut_op T) (h : Holds N a m s)
    (hc : copy_ctor N a m = .ok b m1) :
    Holds N a m1 s ∧ Holds N b m1 s ∧
    (∀ b2 m2, apply_op N b m1 op = .ok () (b2, m2) ∨ apply_op N b m1 op = .thrown (b2, m2) →
      Holds N a m2 s ∧ a.size_ = s.length) ∧
    (∀ a2 m2, apply_op N a m1 op = .ok () (a2, m2) ∨ apply_op N a m1 op = .thrown (a2, m2) →
      Holds N b m2 s ∧ b.size_ = s.length) := by
  rcases h with hs | ⟨A, c, hb⟩
  · rw [copy_ctor_small m hs] at hc
    split at hc
    · injection hc with hb _
      subst hb
      have hbs : SmallAt N (⟨true, s.length, s, none⟩ : socow_vector T) s :=
        ⟨rfl, rfl, rfl, hs.2.2.2⟩
      exact ⟨Or.inl hs, Or.inl hbs, fun _ _ _ => ⟨Or.inl hs, hs.2.2.1⟩,
        fun _ _ _ => ⟨Or.inl hbs, rfl⟩⟩
    · exact absurd hc (by simp)
  · rw [copy_ctor_big N hb] at hc
    injection hc with hbv hm
    subst hbv; subst hm
    have ha1 := bigAt_set hb { c with ref_count := c.ref_count + 1 } m.env hb.2.2.2.2.2.1
      hb.2.2.2.2.2.2.1 hb.2.2.2.2.2.2.2.1 (by simp)
    have hb1 : BigAt (⟨false, s.length, [], some A⟩ : socow_vector T)
        ⟨m.heap.set A { c with ref_count := c.ref_count + 1 }, m.env⟩ A
        { c with ref_count := c.ref_count + 1 } s :=
      ⟨rfl, rfl, rfl, rfl, ha1.2.2.2.2.1, ha1.2.2.2.2.2⟩
    have hr : 2 ≤ ({ c with ref_count := c.ref_count + 1 } : big_storage T).ref_count := by
      have := hb.2.2.2.2.2.2.2.2
      simp only
      omega
    refine ⟨Or.inr ⟨A, _, ha1⟩, Or.inr ⟨A, _, hb1⟩, ?_, ?_⟩
    · intro b2 m2 ho
      exact ⟨holds_of_kept N ha1 (op_kept_shared N _ _ A _ s hb1 hr op b2 m2 ho),
        hb.2.2.2.1⟩
    · intro a2 m2 ho
      exact ⟨holds_of_kept N hb1 (op_kept_shared N _ _ A _ s ha1 hr op a2 m2 ho), rfl⟩


/-! ## Comparison -/

theorem eq_loop_eq {T : Type} [DecidableEq T] (k : Nat) :
    ∀ (i : Nat) (a b : List T), i + k = a.length → a.length = b.length →
      eq_loop a b k i = some (decide (a.drop i = b.drop i)) := by
  induction k with
  | zero =>
    intro i a b h1 h2
    have ha : a.drop i = [] := List.drop_eq_nil_of_le (by omega)
    have hb : b.drop i = [] := List.drop_eq_nil_of_le (by omega)
    simp [eq_loop, ha, hb]
  | succ k ih =>
    intro i a b h1 h2
    obtain ⟨x, hx⟩ : ∃ x, a[i]? = some x := ⟨_, List.getElem?_eq_getElem (by omega)⟩
    obtain ⟨y, hy⟩ : ∃ y, b[i]? = some y := ⟨_, List.getElem?_eq_getElem (by omega)⟩
    rw [eq_loop, hx, hy, drop_of_getElem? a i x hx, drop_of_getElem? b i y hy]
    simp only
    by_cases hxy : x = y
    · subst hxy
      simp only [ne_eq, not_true_eq_false, if_false]
      rw [ih (i + 1) a b (by omega) h2]
      simp
    · simp [hxy]

theorem operator_eq_holds {T : Type} [DecidableEq T] {N : Nat} {a b : socow_vector T}
    {m : Mem T} {sa sb : List T} (ha : Holds N a m sa) (hb : Holds N b m sb) :
    operator_eq a b m = some (decide (sa = sb)) := by
  unfold operator_eq
  rw [size_holds ha, size_holds hb, base_slots_holds ha, base_slots_holds hb]
  by_cases hlen : sa.length = sb.length
  · simp only [hlen, ne_eq, not_true_eq_false, if_false]
    rw [← hlen, eq_loop_eq sa.length 0 sa sb (by omega) hlen]
    simp
  · have hne : sa ≠ sb := fun h => hlen (by rw [h])
    simp [hlen, hne]

/-! ## swap -/

theorem std_swap2_eq {T : Type} (d1 d2 : List T) (i j : Nat) (e : Env) (x y : T)
    (hx : d1[i]? = some x) (hy : d2[j]? = some y) :
    (no_throw e 3 → std_swap2 d1 d2 i j e = .ok () (d1.set i y, d2.set j x, copies e 3)) ∧
    (¬ no_throw e 3 → ∃ d3, d3.length = d1.length ∧
      std_swap2 d1 d2 i j e = .thrown (d3, d2, copies e e.throw_countdown)) := by
  unfold std_swap2
  rw [hx, hy]
  simp only
  rcases element_copy_cases e with ⟨hn1, hc1⟩ | ⟨ht1, hc1⟩
  · rcases element_copy_cases (copies e 1) with ⟨hn2, hc2⟩ | ⟨ht2, hc2⟩
    · rcases element_copy_cases (copies e 2) with ⟨hn3, hc3⟩ | ⟨ht3, hc3⟩
      · have h3 : no_throw e 3 := by
          unfold no_throw copies at *; simp only at hn2 hn3; omega
        refine ⟨fun _ => ?_, fun hh => absurd h3 hh⟩
        simp only [copies_copies] at hc2 hc3
        simp [hc1, hc2, hc3]
      · have h3 : ¬ no_throw e 3 := by
          unfold no_throw copies at *; simp only at hn2 ht3; omega
        have htc : e.throw_countdown = 3 := by
          unfold no_throw copies at *; simp only at hn2 ht3; omega
        refine ⟨fun hh => absurd hh h3, fun _ => ⟨d1.set i y, by simp, ?_⟩⟩
        simp only [copies_copies] at hc2 hc3
        simp [hc1, hc2, hc3, htc]
    · have h3 : ¬ no_throw e 3 := by
        unfold no_throw copies at *; simp only at ht2; omega
      have htc : e.throw_countdown = 2 := by
        unfold no_throw copies at *; simp only at ht2; omega
      refine ⟨fun hh => absurd hh h3, fun _ => ⟨d1, rfl, ?_⟩⟩
      simp only [copies_copies] at hc2
      simp [hc1, hc2, htc]
  · have h3 : ¬ no_throw e 3 := by
      unfold no_throw; omega
    refine ⟨fun hh => absurd hh h3, fun _ => ⟨d1, rfl, ?_⟩⟩
    simp [hc1, ht1]

theorem swap_small_pure_length {T : Type} (k : Nat) :
    ∀ (i : Nat) (d1 d2 : List T),
      (swap_small_pure k i d1 d2).1.length = d1.length ∧
      (swap_small_pure k i d1 d2).2.length = d2.length := by
  induction k with
  | zero => intro i d1 d2; exact ⟨rfl, rfl⟩
  | succ k ih =>
    intro i d1 d2
    unfold swap_small_pure
    split
    · rename_i x y _ _
      have := ih (i + 1) (d1.set i y) (d2.set i x)
      simpa using this
    · exact ⟨rfl, rfl⟩

/-- The first loop of the both-small branch of `swap`. -/
theorem swap_small_loop_eq {T : Type} (k : Nat) :
    ∀ (i : Nat) (v o : socow_vector T) (m : Mem T), i + k ≤ v.small.length →
      i + k ≤ o.small.length →
      (no_throw m.env (3 * k) → swap_small_loop k i v o m =
        .ok () ({ v with small := (swap_small_pure k i v.small o.small).1 },
          { o with small := (swap_small_pure k i v.small o.small).2 },
          m.set_env (copies m.env (3 * k)))) ∧
      (¬ no_throw m.env (3 * k) → ∃ d1 d2, d1.length = v.small.length ∧
        d2.length = o.small.length ∧
        swap_small_loop k i v o m =
          .thrown ({ v with small := d1 }, { o with small := d2 },
            m.set_env (copies m.env m.env.throw_countdown))) := by
  induction k with
  | zero =>
    intro i v o m _ _
    have h0 : no_throw m.env (3 * 0) := by unfold no_throw; omega
    refine ⟨fun _ => ?_, fun hn => absurd h0 hn⟩
    simp [swap_small_loop, swap_small_pure, copies_zero, Mem.set_env]
  | succ k ih =>
    intro i v o m h1 h2
    obtain ⟨x, hx⟩ : ∃ x, v.small[i]? = some x := ⟨_, List.getElem?_eq_getElem (by omega)⟩
    obtain ⟨y, hy⟩ : ∃ y, o.small[i]? = some y := ⟨_, List.getElem?_eq_getElem (by omega)⟩
    obtain ⟨hok, hth⟩ := std_swap2_eq v.small o.small i i m.env x y hx hy
    by_cases h3 : no_throw m.env 3
    · obtain ⟨ihok, ihth⟩ := ih (i + 1) { v with small := v.small.set i y }
        { o with small := o.small.set i x } (m.set_env (copies m.env 3))
        (by simp; omega) (by simp; omega)
      simp only [Mem.set_env] at ihok ihth
      constructor
      · intro hn
        have hn2 : no_throw (copies m.env 3) (3 * k) :=
          ((no_throw_split m.env 3 (3 * k)).mp
            (by rw [show 3 + 3 * k = 3 * (k + 1) by ring]; exact hn)).2
        rw [swap_small_loop, hok h3]
        simp only [Mem.set_env]
        rw [ihok hn2, copies_copies, show 3 + 3 * k = 3 * (k + 1) by ring]
        simp [swap_small_pure, hx, hy]
      · intro hn
        have hn2 : ¬ no_throw (copies m.env 3) (3 * k) := fun hh =>
          hn (by rw [show 3 * (k + 1) = 3 + 3 * k by ring];
                 exact (no_throw_split m.env 3 (3 * k)).mpr ⟨h3, hh⟩)
        obtain ⟨d1, d2, hl1, hl2, hd⟩ := ihth hn2
        refine ⟨d1, d2, by simpa using hl1, by simpa using hl2, ?_⟩
        rw [swap_small_loop, hok h3]
        simp only [Mem.set_env]
        rw [hd, copies_copies]
        have h3lt : 3 < m.env.throw_countdown := by
          unfold no_throw at h3 hn; omega
        have : 3 + (copies m.env 3).throw_countdown = m.env.throw_countdown := by
          simp only [copies]; omega
        rw [this]
    · have hn : ¬ no_throw m.env (3 * (k + 1)) := fun hh =>
        h3 ((no_throw_split m.env 3 (3 * k)).mp
          (by rw [show 3 + 3 * k = 3 * (k + 1) by ring]; exact hh)).1
      obtain ⟨d3, hl3, hd3⟩ := hth h3
      refine ⟨fun hh => absurd hh hn, fun _ => ⟨d3, o.small, hl3, rfl, ?_⟩⟩
      rw [swap_small_loop, hd3]

theorem swap_small_pure_cons {T : Type} (k : Nat) :
    ∀ (i : Nat) (a b : T) (d1 d2 : List T),
      swap_small_pure k (i + 1) (a :: d1) (b :: d2) =
        (a :: (swap_small_pure k i d1 d2).1, b :: (swap_small_pure k i d1 d2).2) := by
  induction k with
  | zero => intro i a b d1 d2; rfl
  | succ k ih =>
    intro i a b d1 d2
    simp only [swap_small_pure, List.getElem?_cons_succ]
    split
    · rename_i x y hx hy
      simp only [List.set_cons_succ]
      rw [ih]
    · rfl

theorem swap_small_pure_spec {T : Type} (d1 : List T) :
    ∀ (d2 : List T),
      swap_small_pure (min d1.length d2.length) 0 d1 d2 =
        (d2.take (min d1.length d2.length) ++ d1.drop (min d1.length d2.length),
         d1.take (min d1.length d2.length) ++ d2.drop (min d1.length d2.length)) := by
  induction d1 with
  | nil => intro d2; simp [swap_small_pure]
  | cons a d1 ih =>
    intro d2
    cases d2 with
    | nil => simp [swap_small_pure]
    | cons b d2 =>
      have hmin : min (a :: d1).length (b :: d2).length = min d1.length d2.length + 1 := by
        simp only [List.length_cons]; omega
      rw [hmin]
      simp only [swap_small_pure, List.getElem?_cons_zero, List.set_cons_zero]
      rw [swap_small_pure_cons, ih d2]
      simp

theorem stor_small {T : Type} (N : Nat) (v : socow_vector T) (m : Mem T)
    (h : v.is_small = true) : Stor N v m .small v.small N :=
  Or.inl ⟨h, rfl, rfl, rfl⟩

theorem put_small {T : Type} (v : socow_vector T) (m : Mem T) (d : List T) (e : Env)
    (sz : Nat) :
    put v m .small d e sz = ({ v with small := d, size_ := sz }, m.set_env e) := rfl

/-- The second loop of the both-small branch of `swap`. -/
theorem swap_push_loop_eq {T : Type} (N : Nat) (k : Nat) :
    ∀ (i : Nat) (l b : socow_vector T) (m : Mem T), l.is_small = true →
      l.size_ = l.small.length → b.is_small = true → i + k ≤ b.small.length →
      l.small.length + k ≤ N →
      (no_throw m.env k → swap_push_loop N k i l b m =
        .ok () ({ l with small := l.small ++ (b.small.drop i).take k,
                         size_ := l.small.length + k }, b,
          m.set_env (copies m.env k))) ∧
      (¬ no_throw m.env k → ∃ l1 m1, swap_push_loop N k i l b m = .thrown (l1, b, m1)) := by
  induction k with
  | zero =>
    intro i l b m hl hsz _ _ _
    have h0 : no_throw m.env 0 := by unfold no_throw; omega
    refine ⟨fun _ => ?_, fun hn => absurd h0 hn⟩
    have : ({ l with small := l.small, size_ := l.small.length } : socow_vector T) = l := by
      cases l; simp_all
    simp [swap_push_loop, copies_zero, Mem.set_env, this]
  | succ k ih =>
    intro i l b m hl hsz hb hik hcap
    obtain ⟨x, hx⟩ : ∃ x, b.small[i]? = some x := ⟨_, List.getElem?_eq_getElem (by omega)⟩
    have hidx : index N b m i = .ok ⟨.small, i⟩ (b, m) := by
      simp [index, data, hb]
    have hload : load b m ⟨.small, i⟩ = some x := by
      simp [load, slots, hx]
    have hpb := push_back_in_place (stor_small N l m hl) hsz (by omega) (.val x) x rfl
    rw [put_small] at hpb
    have hpre : swap_push_loop N (k + 1) i l b m =
        match push_back N l m (.val x) with
        | .fault => .fault
        | .thrown (l1, m2) => .thrown (l1, b, m2)
        | .ok _ (l1, m2) => swap_push_loop N k (i + 1) l1 b m2 := by
      rw [swap_push_loop, hidx]
      simp only [hload]
    by_cases h1 : no_throw m.env 1
    · rw [if_pos h1] at hpb
      obtain ⟨ihok, ihth⟩ := ih (i + 1)
        { l with small := l.small ++ [x], size_ := l.small.length + 1 } b
        (m.set_env (copies m.env 1)) hl (by simp) hb (by omega) (by simp; omega)
      simp only [Mem.set_env] at ihok ihth
      constructor
      · intro hn
        have hn2 : no_throw (copies m.env 1) k :=
          ((no_throw_split m.env 1 k).mp (by rw [Nat.add_comm]; exact hn)).2
        rw [hpre, hpb]
        simp only [Mem.set_env]
        rw [ihok hn2, copies_copies, drop_of_getElem? b.small i x hx]
        simp [Nat.add_comm, Nat.add_assoc]
        omega
      · intro hn
        have hn2 : ¬ no_throw (copies m.env 1) k := fun hh =>
          hn (by rw [Nat.add_comm]; exact (no_throw_split m.env 1 k).mpr ⟨h1, hh⟩)
        obtain ⟨l1, m1, hd⟩ := ihth hn2
        refine ⟨l1, m1, ?_⟩
        rw [hpre, hpb]
        simp only [Mem.set_env]
        rw [hd]
    · rw [if_neg h1] at hpb
      have hn : ¬ no_throw m.env (k + 1) := fun hh =>
        h1 ((no_throw_split m.env 1 k).mp (by rw [Nat.add_comm]; exact hh)).1
      refine ⟨fun hh => absurd hh hn, fun _ => ⟨l, m.set_env (copies m.env 1), ?_⟩⟩
      rw [hpre, hpb]

/-- The both-small branch of `swap` on two valid small containers. -/
theorem swap_small_small {T : Type} {N : Nat} {a b : socow_vector T} (m : Mem T)
    {sa sb : List T} (ha : SmallAt N a sa) (hb : SmallAt N b sb) :
    (no_throw m.env (3 * min sa.length sb.length +
        (max sa.length sb.length - min sa.length sb.length)) →
      swap N a b m = .ok () ({ a with small := sb, size_ := sb.length },
        { b with small := sa, size_ := sa.length },
        ⟨m.heap, copies m.env (3 * min sa.length sb.length +
          (max sa.length sb.length - min sa.length sb.length))⟩)) ∧
    (¬ no_throw m.env (3 * min sa.length sb.length +
        (max sa.length sb.length - min sa.length sb.length)) →
      ∃ st, swap N a b m = .thrown st) := by
  obtain ⟨ia, na, da, ga⟩ := a
  obtain ⟨ib, nb, db, gb⟩ := b
  obtain ⟨h1, h2, h3, h4⟩ := ha
  obtain ⟨h5, h6, h7, h8⟩ := hb
  simp only at h1 h2 h3 h5 h6 h7
  subst h1 h2 h3 h5 h6 h7
  obtain ⟨l1ok, l1th⟩ := swap_small_loop_eq (min da.length db.length) 0
    (⟨true, da.length, da, ga⟩ : socow_vector T) ⟨true, db.length, db, gb⟩ m
    (by simp) (by simp)
  simp only [swap_small_pure_spec] at l1ok
  have hpre : swap N (⟨true, da.length, da, ga⟩ : socow_vector T) ⟨true, db.length, db, gb⟩ m
      = match swap_small_loop (min da.length db.length) 0
          (⟨true, da.length, da, ga⟩ : socow_vector T) ⟨true, db.length, db, gb⟩ m with
        | .fault => .fault
        | .thrown s => .thrown s
        | .ok _ (v1, o1, m1) =>
          if o1.size_ < v1.size_ then
            match swap_push_loop N (max v1.size_ o1.size_ - min v1.size_ o1.size_)
                (min v1.size_ o1.size_) o1 v1 m1 with
            | .fault => .fault
            | .thrown (l, b, m2) => .thrown (b, l, m2)
            | .ok _ (l, b, m2) =>
              match pop_back_loop N (max v1.size_ o1.size_ - min v1.size_ o1.size_) b m2 with
              | .fault => .fault
              | .thrown (b1, m3) => .thrown (b1, l, m3)
              | .ok _ (b1, m3) => .ok () (b1, l, m3)
          else
            match swap_push_loop N (max v1.size_ o1.size_ - min v1.size_ o1.size_)
                (min v1.size_ o1.size_) v1 o1 m1 with
            | .fault => .fault
            | .thrown (l, b, m2) => .thrown (l, b, m2)
            | .ok _ (l, b, m2) =>
              match pop_back_loop N (max v1.size_ o1.size_ - min v1.size_ o1.size_) b m2 with
              | .fault => .fault
              | .thrown (b1, m3) => .thrown (l, b1, m3)
              | .ok _ (b1, m3) => .ok () (l, b1, m3) := by
    simp only [swap, Bool.and_self, if_true]
  rw [hpre]
  by_cases hn1 : no_throw m.env (3 * min da.length db.length)
  · rw [l1ok hn1]
    simp only [Mem.set_env]
    by_cases hlt : db.length < da.length
    · have hmin : min da.length db.length = db.length := by omega
      have hmax : max da.length db.length = da.length := by omega
      simp only [hlt, if_true, hmin, hmax]
      have hA1 : List.take db.length db ++ List.drop db.length da = db ++ da.drop db.length := by
        simp
      have hB1 : List.take db.length da ++ List.drop db.length db = da.take db.length := by
        simp
      rw [hA1, hB1]
      obtain ⟨pok, pth⟩ := swap_push_loop_eq N (da.length - db.length) db.length
        (⟨true, db.length, da.take db.length, gb⟩ : socow_vector T)
        ⟨true, da.length, db ++ da.drop db.length, ga⟩
        ⟨m.heap, copies m.env (3 * db.length)⟩ rfl (by simp; omega) rfl (by simp)
        (by simp; omega)
      by_cases hn2 : no_throw (copies m.env (3 * db.length)) (da.length - db.length)
      · have hall : no_throw m.env (3 * db.length + (da.length - db.length)) :=
          (no_throw_split _ _ _).mpr ⟨by rw [hmin] at hn1; exact hn1, hn2⟩
        refine ⟨fun _ => ?_, fun hh => absurd hall hh⟩
        rw [pok hn2]
        simp only [Mem.set_env]
        have hst := stor_small N (⟨true, da.length, db ++ da.drop db.length, ga⟩ : socow_vector T)
          ⟨m.heap, copies (copies m.env (3 * db.length)) (da.length - db.length)⟩ rfl
        have hpop := pop_back_loop_stor (da.length - db.length) _ _ _ hst (by simp; omega)
          (by simp)
        rw [hpop, put_small]
        simp only [Mem.set_env, copies_copies]
        have e1 : (db ++ da.drop db.length).length - (da.length - db.length) = db.length := by
          simp
        have e2 : List.take db.length (db ++ da.drop db.length) = db := by simp
        have e3 : List.take db.length da ++
            List.take (da.length - db.length) (List.drop db.length (db ++ da.drop db.length))
            = da := by
          have t1 : List.take (da.length - db.length) (List.drop db.length da) =
              List.drop db.length da := List.take_of_length_le (by simp)
          simp only [List.drop_left]
          rw [t1, List.take_append_drop]
        have e4 : (List.take db.length da).length + (da.length - db.length) = da.length := by
          simp; omega
        rw [e1, e2, e3, e4]
      · have hall : ¬ no_throw m.env (3 * db.length + (da.length - db.length)) := fun hh =>
          hn2 ((no_throw_split _ _ _).mp hh).2
        refine ⟨fun hh => absurd hh hall, fun _ => ?_⟩
        obtain ⟨l1, m1, hd⟩ := pth hn2
        rw [hd]
        exact ⟨_, rfl⟩
    · have hmin : min da.length db.length = da.length := by omega
      have hmax : max da.length db.length = db.length := by omega
      simp only [hlt, if_false, hmin, hmax]
      have hA1 : List.take da.length db ++ List.drop da.length da = db.take da.length := by
        simp
      have hB1 : List.take da.length da ++ List.drop da.length db = da ++ db.drop da.length := by
        simp
      rw [hA1, hB1]
      obtain ⟨pok, pth⟩ := swap_push_loop_eq N (db.length - da.length) da.length
        (⟨true, da.length, db.take da.length, ga⟩ : socow_vector T)
        ⟨true, db.length, da ++ db.drop da.length, gb⟩
        ⟨m.heap, copies m.env (3 * da.length)⟩ rfl (by simp; omega) rfl (by simp)
        (by simp; omega)
      by_cases hn2 : no_throw (copies m.env (3 * da.length)) (db.length - da.length)
      · have hall : no_throw m.env (3 * da.length + (db.length - da.length)) :=
          (no_throw_split _ _ _).mpr ⟨by rw [hmin] at hn1; exact hn1, hn2⟩
        refine ⟨fun _ => ?_, fun hh => absurd hall hh⟩
        rw [pok hn2]
        simp only [Mem.set_env]
        have hst := stor_small N (⟨true, db.length, da ++ db.drop da.length, gb⟩ : socow_vector T)
          ⟨m.heap, copies (copies m.env (3 * da.length)) (db.length - da.length)⟩ rfl
        have hpop := pop_back_loop_stor (db.length - da.length) _ _ _ hst (by simp; omega)
          (by simp)
        rw [hpop, put_small]
        simp only [Mem.set_env, copies_copies]
        have e1 : (da ++ db.drop da.length).length - (db.length - da.length) = da.length := by
          simp
        have e2 : List.take da.length (da ++ db.drop da.length) = da := by simp
        have e3 : List.take da.length db ++
            List.take (db.length - da.length) (List.drop da.length (da ++ db.drop da.length))
            = db := by
          have t1 : List.take (db.length - da.length) (List.drop da.length db) =
              List.drop da.length db := List.take_of_length_le (by simp)
          simp only [List.drop_left]
          rw [t1, List.take_append_drop]
        have e4 : (List.take da.length db).length + (db.length - da.length) = db.length := by
          simp; omega
        rw [e1, e2, e3, e4]
      · have hall : ¬ no_throw m.env (3 * da.length + (db.length - da.length)) := fun hh =>
          hn2 ((no_throw_split _ _ _).mp hh).2
        refine ⟨fun hh => absurd hh hall, fun _ => ?_⟩
        obtain ⟨l1, m1, hd⟩ := pth hn2
        rw [hd]
        exact ⟨_, rfl⟩
  · have hall : ¬ no_throw m.env (3 * min da.length db.length +
        (max da.length db.length - min da.length db.length)) := fun hh =>
      hn1 ((no_throw_split _ _ _).mp hh).1
    refine ⟨fun hh => absurd hh hall, fun _ => ?_⟩
    obtain ⟨d1, d2, _, _, hd⟩ := l1th hn1
    rw [hd]
    exact ⟨_, rfl⟩

theorem swap_small_big {T : Type} {N : Nat} {a b : socow_vector T} {m : Mem T}
    {sa sb : List T} {B : Nat} {c : big_storage T} (ha : SmallAt N a sa)
    (hb : BigAt b m B c sb) :
    swap N a b m =
      if no_throw m.env sa.length then
        .ok () (⟨false, sb.length, [], some B⟩, ⟨true, sa.length, sa, none⟩,
          ⟨m.heap, copies m.env sa.length⟩)
      else .thrown (a, b, ⟨m.heap, copies m.env m.env.throw_countdown⟩) := by
  obtain ⟨h1, h2, h3, h4⟩ := ha
  obtain ⟨h5, h6, h7, h8, _⟩ := hb
  unfold swap
  simp only [h1, h5, Bool.and_false, Bool.false_eq_true, if_false, Bool.not_true,
    Bool.false_and, if_true, swap_stat_dyn, h2, h6, h3]
  rw [copy_data_array_eq sa N sa.length m.env (le_refl _) h4]
  by_cases hn : no_throw m.env sa.length
  · simp [hn, clear_array_all sa sa.length rfl, h7, h8, h1, h5, Mem.set_env]
  · simp only [hn, if_false, Mem.set_env]
    congr 2
    cases b
    simp_all

theorem swap_big_small {T : Type} {N : Nat} {a b : socow_vector T} {m : Mem T}
    {sa sb : List T} {A : Nat} {c : big_storage T} (ha : BigAt a m A c sa)
    (hb : SmallAt N b sb) :
    swap N a b m =
      if no_throw m.env sb.length then
        .ok () (⟨true, sb.length, sb, none⟩, ⟨false, sa.length, [], some A⟩,
          ⟨m.heap, copies m.env sb.length⟩)
      else .thrown (a, b, ⟨m.heap, copies m.env m.env.throw_countdown⟩) := by
  obtain ⟨h1, h2, h3, h4⟩ := hb
  obtain ⟨h5, h6, h7, h8, _⟩ := ha
  unfold swap
  simp only [h1, h5, Bool.false_and, Bool.false_eq_true, if_false, Bool.not_false,
    Bool.not_true, Bool.and_false, swap_stat_dyn, h2, h6, h3]
  rw [copy_data_array_eq sb N sb.length m.env (le_refl _) h4]
  by_cases hn : no_throw m.env sb.length
  · simp [hn, clear_array_all sb sb.length rfl, h7, h8, h1, h5, Mem.set_env]
  · simp only [hn, if_false, Mem.set_env]
    congr 2
    cases a
    simp_all

theorem swap_big_big {T : Type} {N : Nat} {a b : socow_vector T} {m : Mem T}
    {sa sb : List T} {A B : Nat} {c d : big_storage T} (ha : BigAt a m A c sa)
    (hb : BigAt b m B d sb) :
    swap N a b m =
      .ok () (⟨false, sb.length, [], some B⟩, ⟨false, sa.length, [], some A⟩, m) := by
  obtain ⟨h1, h2, h3, h4, _⟩ := ha
  obtain ⟨h5, h6, h7, h8, _⟩ := hb
  unfold swap
  simp [h1, h5, h2, h6, h3, h7, h4, h8]

theorem bigAt_rehandle {T : Type} {v : socow_vector T} {m : Mem T} {A : Nat}
    {c : big_storage T} {s : List T} (h : BigAt v m A c s) (e : Env) :
    BigAt (⟨false, s.length, [], some A⟩ : socow_vector T) ⟨m.heap, e⟩ A c s :=
  ⟨rfl, rfl, rfl, rfl, h.2.2.2.2.1, h.2.2.2.2.2⟩

/-- A `swap` that returns normally exchanges the two sequences, leaves the
heap alone, and leaves no failure armed if none was. -/
theorem swap_ok_holds {T : Type} {N : Nat} {a b : socow_vector T} {m : Mem T}
    {sa sb : List T} (ha : Holds N a m sa) (hb : Holds N b m sb) (a1 b1 : socow_vector T)
    (m1 : Mem T) (hok : swap N a b m = .ok () (a1, b1, m1)) :
    Holds N a1 m1 sb ∧ Holds N b1 m1 sa ∧ a1.size_ = sb.length ∧ b1.size_ = sa.length ∧
      m1.heap = m.heap ∧ (m.env.throw_countdown = 0 → m1.env.throw_countdown = 0) := by
  rcases ha with ha | ⟨A, c, ha⟩ <;> rcases hb with hb | ⟨B, d, hb⟩
  · obtain ⟨h1, h2⟩ := swap_small_small m ha hb
    by_cases hn : no_throw m.env (3 * min sa.length sb.length +
        (max sa.length sb.length - min sa.length sb.length))
    · rw [h1 hn] at hok
      injection hok with _ hok
      injection hok with hx hok
      injection hok with hy hm
      subst hx; subst hy; subst hm
      exact ⟨Or.inl ⟨ha.1, rfl, rfl, hb.2.2.2⟩, Or.inl ⟨hb.1, rfl, rfl, ha.2.2.2⟩, rfl, rfl,
        rfl, fun h0 => copies_countdown_zero h0 _⟩
    · obtain ⟨st, hst⟩ := h2 hn
      rw [hst] at hok
      exact absurd hok (by simp)
  · rw [swap_small_big ha hb] at hok
    split at hok
    · injection hok with _ hok
      injection hok with hx hok
      injection hok with hy hm
      subst hx; subst hy; subst hm
      exact ⟨Or.inr ⟨B, d, bigAt_rehandle hb _⟩, Or.inl ⟨rfl, rfl, rfl, ha.2.2.2⟩, rfl, rfl,
        rfl, fun h0 => copies_countdown_zero h0 _⟩
    · exact absurd hok (by simp)
  · rw [swap_big_small ha hb] at hok
    split at hok
    · injection hok with _ hok
      injection hok with hx hok
      injection hok with hy hm
      subst hx; subst hy; subst hm
      exact ⟨Or.inl ⟨rfl, rfl, rfl, hb.2.2.2⟩, Or.inr ⟨A, c, bigAt_rehandle ha _⟩, rfl, rfl,
        rfl, fun h0 => copies_countdown_zero h0 _⟩
    · exact absurd hok (by simp)
  · rw [swap_big_big ha hb] at hok
    injection hok with _ hok
    injection hok with hx hok
    injection hok with hy hm
    subst hx; subst hy; subst hm
    have e1 := bigAt_rehandle hb m.env
    have e2 := bigAt_rehandle ha m.env
    exact ⟨Or.inr ⟨B, d, e1⟩, Or.inr ⟨A, c, e2⟩, rfl, rfl, rfl, fun h0 => h0⟩

theorem swap_succeeds {T : Type} {N : Nat} {a b : socow_vector T} {m : Mem T}
    {sa sb : List T} (ha : Holds N a m sa) (hb : Holds N b m sb)
    (h0 : m.env.throw_countdown = 0) :
    ∃ a1 b1 m1, swap N a b m = .ok () (a1, b1, m1) := by
  rcases ha with ha | ⟨A, c, ha⟩ <;> rcases hb with hb | ⟨B, d, hb⟩
  · exact ⟨_, _, _, (swap_small_small m ha hb).1 (no_throw_of_zero h0 _)⟩
  · rw [swap_small_big ha hb, if_pos (no_throw_of_zero h0 _)]
    exact ⟨_, _, _, rfl⟩
  · rw [swap_big_small ha hb, if_pos (no_throw_of_zero h0 _)]
    exact ⟨_, _, _, rfl⟩
  · rw [swap_big_big ha hb]
    exact ⟨_, _, _, rfl⟩

/-- C12. For two containers `a` holding `sa` and `b` holding `sb`, in any of
the three pairings of representations: a `swap` that returns normally leaves
`a` holding `sb` and `b` holding `sa`, with the sizes exchanged; a second
`swap` that returns normally leaves `a` holding `sa` and `b` holding `sb`
again; and both swaps return normally when no copy failure is armed. -/
theorem swap_exchanges {T : Type} (N : Nat) (a b : socow_vector T) (m : Mem T)
    (sa sb : List T) (ha : Holds N a m sa) (hb : Holds N b m sb) :
    (∀ a1 b1 m1, swap N a b m = .ok () (a1, b1, m1) →
      Holds N a1 m1 sb ∧ Holds N b1 m1 sa ∧ a1.size_ = sb.length ∧ b1.size_ = sa.length ∧
      ∀ a2 b2 m2, swap N a1 b1 m1 = .ok () (a2, b2, m2) →
        Holds N a2 m2 sa ∧ Holds N b2 m2 sb ∧ a2.size_ = sa.length ∧ b2.size_ = sb.length) ∧
    (m.env.throw_countdown = 0 →
      ∃ a1 b1 m1 a2 b2 m2, swap N a b m = .ok () (a1, b1, m1) ∧
        swap N a1 b1 m1 = .ok () (a2, b2, m2)) := by
  constructor
  · intro a1 b1 m1 hok
    obtain ⟨h1, h2, h3, h4, _, _⟩ := swap_ok_holds ha hb a1 b1 m1 hok
    refine ⟨h1, h2, h3, h4, ?_⟩
    intro a2 b2 m2 hok2
    obtain ⟨k1, k2, k3, k4, _, _⟩ := swap_ok_holds h1 h2 a2 b2 m2 hok2
    exact ⟨k1, k2, k3, k4⟩
  · intro h0
    obtain ⟨a1, b1, m1, hok⟩ := swap_succeeds ha hb h0
    obtain ⟨h1, h2, _, _, _, h5⟩ := swap_ok_holds ha hb a1 b1 m1 hok
    obtain ⟨a2, b2, m2, hok2⟩ := swap_succeeds h1 h2 (h5 h0)
    exact ⟨a1, b1, m1, a2, b2, m2, hok, hok2⟩

/-- C13. A `swap` between a small and a big container during which an element
copy fails (the `k`-th of the transfer of the small side, `1 ≤ k ≤` its size)
throws and is a no-op: both handles are returned as they were (same
representation, size, elements and block reference) and the heap is
unchanged. -/
theorem swap_small_big_noop {T : Type} (N : Nat) (a b : socow_vector T) (m : Mem T)
    (sa sb : List T) (B : Nat) (c : big_storage T) (ha : SmallAt N a sa)
    (hb : BigAt b m B c sb) (hk1 : 1 ≤ m.env.throw_countdown)
    (hk2 : m.env.throw_countdown ≤ sa.length) :
    swap N a b m = .thrown (a, b, ⟨m.heap, copies m.env m.env.throw_countdown⟩) ∧
    swap N b a m = .thrown (b, a, ⟨m.heap, copies m.env m.env.throw_countdown⟩) ∧
    Holds N a ⟨m.heap, copies m.env m.env.throw_countdown⟩ sa ∧
    Holds N b ⟨m.heap, copies m.env m.env.throw_countdown⟩ sb := by
  have hn : ¬ no_throw m.env sa.length := by unfold no_throw; omega
  refine ⟨?_, ?_, Or.inl ha, holds_env (Or.inr ⟨B, c, hb⟩) _⟩
  · rw [swap_small_big ha hb, if_neg hn]
  · rw [swap_big_small hb ha, if_neg hn]

/-! ## Copy assignment -/

theorem holds_heap_eq {T : Type} {N : Nat} {v : socow_vector T} {m m1 : Mem T} {s : List T}
    (h : Holds N v m s) (he : m1.heap = m.heap) : Holds N v m1 s := by
  rcases h with h | ⟨A, c, h⟩
  · exact Or.inl h
  · obtain ⟨h1, h2, h3, h4, h5, h6⟩ := h
    exact Or.inr ⟨A, c, h1, h2, h3, h4, by rw [he]; exact h5, h6⟩

theorem holds_set_count {T : Type} {N : Nat} {w : socow_vector T} {m : Mem T} {s : List T}
    (h : Holds N w m s) (A : Nat) (c : big_storage T) (hA : m.heap[A]? = some c) (r : Nat)
    (hr : 1 ≤ r) (e : Env) :
    Holds N w ⟨m.heap.set A { c with ref_count := r }, e⟩ s := by
  rcases h with h | ⟨B, d, h⟩
  · exact Or.inl h
  · obtain ⟨h1, h2, h3, h4, h5, h6, h7, h8, h9⟩ := h
    have hlt : A < m.heap.length := (List.getElem?_eq_some.mp hA).1
    by_cases hAB : A = B
    · subst hAB
      have hcd : c = d := by rw [hA] at h5; injection h5
      subst hcd
      exact Or.inr ⟨A, { c with ref_count := r }, h1, h2, h3, h4,
        by simp [List.getElem?_set_self hlt], h6, h7, h8, hr⟩
    · exact Or.inr ⟨B, d, h1, h2, h3, h4,
        by simp only; rw [List.getElem?_set_ne hAB]; exact h5, h6, h7, h8, h9⟩

theorem holds_after_release {T : Type} {N : Nat} {w t : socow_vector T} {m : Mem T}
    {s st : List T} (hw : Holds N w m s) (ht : Holds N t m st) (hne : s ≠ st) (e : Env) :
    Holds N w ⟨heap_released t m, e⟩ s := by
  rcases ht with ht | ⟨B, d, ht⟩
  · rw [heap_released_small m ht]
    exact holds_heap_eq hw rfl
  · rw [heap_released_big ht]
    rcases hw with hw | ⟨A, c, hw⟩
    · exact Or.inl hw
    · obtain ⟨h1, h2, h3, h4, h5, h6, h7, h8, h9⟩ := hw
      have hAB : B ≠ A := by
        intro hh
        subst hh
        have hcd : c = d := by
          have := ht.2.2.2.2.1
          rw [h5] at this; injection this
        subst hcd
        exact hne (h7.symm.trans ht.2.2.2.2.2.2.1)
      exact Or.inr ⟨A, c, h1, h2, h3, h4,
        by simp only; rw [List.getElem?_set_ne hAB]; exact h5, h6, h7, h8, h9⟩

/-- A copy construction that returns normally gives a handle holding the
sequence of its source and keeps every valid handle valid. -/
theorem copy_ctor_ok_holds {T : Type} {N : Nat} {o : socow_vector T} {m : Mem T}
    {so : List T} (ho : Holds N o m so) (t : socow_vector T) (m1 : Mem T)
    (hc : copy_ctor N o m = .ok t m1) :
    Holds N t m1 so ∧ (∀ w s, Holds N w m s → Holds N w m1 s) ∧
      (m.env.throw_countdown = 0 → m1.env.throw_countdown = 0) := by
  rcases ho with ho | ⟨A, c, ho⟩
  · rw [copy_ctor_small m ho] at hc
    split at hc
    · injection hc with ht hm
      subst ht; subst hm
      exact ⟨Or.inl ⟨rfl, rfl, rfl, ho.2.2.2⟩, fun w s hw => holds_heap_eq hw rfl,
        fun h0 => copies_countdown_zero h0 _⟩
    · exact absurd hc (by simp)
  · rw [copy_ctor_big N ho] at hc
    injection hc with ht hm
    subst ht; subst hm
    have hb := bigAt_set ho { c with ref_count := c.ref_count + 1 } m.env ho.2.2.2.2.2.1
      ho.2.2.2.2.2.2.1 ho.2.2.2.2.2.2.2.1 (by simp)
    refine ⟨Or.inr ⟨A, _, ⟨rfl, rfl, rfl, rfl, hb.2.2.2.2.1, hb.2.2.2.2.2⟩⟩, ?_, fun h0 => h0⟩
    intro w s hw
    exact holds_set_count hw A c ho.2.2.2.2.1 (c.ref_count + 1) (by omega) m.env

theorem copy_ctor_succeeds {T : Type} {N : Nat} {o : socow_vector T} {m : Mem T}
    {so : List T} (ho : Holds N o m so) (h0 : m.env.throw_countdown = 0) :
    ∃ t m1, copy_ctor N o m = .ok t m1 := by
  rcases ho with ho | ⟨A, c, ho⟩
  · rw [copy_ctor_small m ho, if_pos (no_throw_of_zero h0 _)]
    exact ⟨_, _, rfl⟩
  · rw [copy_ctor_big N ho]
    exact ⟨_, _, rfl⟩

/-- C11. For `this` holding `sv` and `other` holding `so`: an assignment
`this = other` that returns normally leaves `this` with the size and the
elements of `other`, in order, and leaves `other` as it was; the assignment
returns normally when no copy failure is armed; and the self-assignment
returns the state unchanged. -/
theorem assign_copies {T : Type} [DecidableEq T] (N : Nat) (v o : socow_vector T)
    (m : Mem T) (sv so : List T) (hv : Holds N v m sv) (ho : Holds N o m so) :
    (∀ v1 o1 m1, operator_assign N v o m = .ok () (v1, o1, m1) →
      Holds N v1 m1 so ∧ v1.size_ = so.length ∧ o1 = o ∧ Holds N o m1 so) ∧
    (m.env.throw_countdown = 0 → ∃ v1 o1 m1, operator_assign N v o m = .ok () (v1, o1, m1)) ∧
    operator_assign N v v m = .ok () (v, v, m) := by
  refine ⟨?_, ?_, ?_⟩
  · intro v1 o1 m1 hok
    unfold operator_assign at hok
    rw [operator_eq_holds hv ho] at hok
    by_cases heq : sv = so
    · subst heq
      simp only [decide_True] at hok
      injection hok with _ hok
      injection hok with h1 hok
      injection hok with h2 h3
      subst h1; subst h2; subst h3
      exact ⟨hv, size_holds hv, rfl, ho⟩
    · simp only [heq, decide_False] at hok
      cases hc : copy_ctor N o m with
      | fault => rw [hc] at hok; exact absurd hok (by simp)
      | thrown st => rw [hc] at hok; exact absurd hok (by simp)
      | ok t mc =>
        rw [hc] at hok
        simp only at hok
        obtain ⟨ht, hkeep, _⟩ := copy_ctor_ok_holds ho t mc hc
        cases hs : swap N t v mc with
        | fault => rw [hs] at hok; exact absurd hok (by simp)
        | thrown st =>
          rw [hs] at hok
          obtain ⟨t1, v2, m2⟩ := st
          simp only at hok
          split at hok <;> exact absurd hok (by simp)
        | ok u st =>
          rw [hs] at hok
          obtain ⟨t1, v2, m2⟩ := st
          simp only at hok
          obtain ⟨k1, k2, k3, _, k5, _⟩ := swap_ok_holds ht (hkeep v sv hv) t1 v2 m2 hs
          rw [destructor_holds k1] at hok
          simp only at hok
          injection hok with _ hok
          injection hok with h1 hok
          injection hok with h2 h3
          subst h1; subst h2; subst h3
          have hne : so ≠ sv := fun h => heq h.symm
          exact ⟨holds_after_release k2 k1 hne _, by
            have := size_holds k2
            simpa using this, rfl,
            holds_after_release (holds_heap_eq (hkeep o so ho) k5) k1 hne _⟩
  · intro h0
    unfold operator_assign
    rw [operator_eq_holds hv ho]
    by_cases heq : sv = so
    · simp only [heq, decide_True]
      exact ⟨_, _, _, rfl⟩
    · simp only [heq, decide_False]
      obtain ⟨t, mc, hc⟩ := copy_ctor_succeeds (N := N) ho h0
      obtain ⟨ht, hkeep, h1⟩ := copy_ctor_ok_holds ho t mc hc
      obtain ⟨t1, v2, m2, hs⟩ := swap_succeeds ht (hkeep v sv hv) (h1 h0)
      obtain ⟨k1, _⟩ := swap_ok_holds ht (hkeep v sv hv) t1 v2 m2 hs
      rw [hc]
      simp only
      rw [hs]
      simp only
      rw [destructor_holds k1]
      exact ⟨_, _, _, rfl⟩
  · unfold operator_assign
    rw [operator_eq_holds hv hv]
    simp

/-! ## reserve -/

theorem reserve_noop {T : Type} [Layout T] {N : Nat} {v : socow_vector T} {m : Mem T} {l : Loc}
    {s : List T} {cap : Nat} (h : Stor N v m l s cap) (k : Nat) (hk : k ≤ cap) :
    reserve N v m k = .ok () (v, m) := by
  have hnk : ¬ k > cap := by omega
  unfold reserve
  rw [capacity_stor h]
  rcases h with ⟨hs, hd, hl, hc⟩ | ⟨hs, hsm, a, b, hb, hl, ha, hlv, hd, hc, hr⟩
  · simp [hs, hnk]
  · simp [hs, hb, Mem.deref, ha, hlv, big_storage.is_unique, hr, hnk]

theorem reserve_grow {T : Type} [Layout T] {N : Nat} {v : socow_vector T} {m : Mem T} {l : Loc}
    {s : List T} {cap : Nat} (h : Stor N v m l s cap) (hn : v.size_ = s.length)
    (hle : s.length ≤ cap) (k : Nat) (hk : cap < k) :
    reserve N v m k =
      if storage_fits T k then
        (if no_throw m.env s.length then
          .ok () (⟨false, s.length, [], some m.heap.length⟩,
            ⟨heap_released v m ++ [⟨k, 1, s, true⟩], copies m.env s.length⟩)
        else
          .thrown (v, ⟨m.heap ++ [⟨k, 1, [], false⟩], copies m.env m.env.throw_countdown⟩))
      else .fault := by
  have hH := holds_of_stor h hn hle
  have hmc := make_copy_eq hH k (by omega)
  have hmax : max k cap = k := by omega
  have hgt : k > cap := hk
  unfold reserve
  rw [capacity_stor h]
  simp only [hgt, decide_True, Bool.or_true, if_true, hmax, hmc]
  by_cases hfit : storage_fits T k = true
  · by_cases hnt : no_throw m.env s.length <;> simp [hnt, hfit]
  · simp [hfit]

/-- After a `reserve(k)` that returns normally the capacity is at least `k`,
the container owns its storage exclusively (it is small, or its block has
reference count one), and its size and elements are unchanged; `reserve`
returns normally when no copy failure is armed and the byte count of a block
of `max k capacity()` elements does not wrap. -/
theorem reserve_ensures {T : Type} [Layout T] (N : Nat) (v : socow_vector T) (m : Mem T)
    (s : List T) (k : Nat) (h : Holds N v m s) :
    (∀ v1 m1, reserve N v m k = .ok () (v1, m1) →
      ∃ l cap1, Stor N v1 m1 l s cap1 ∧ capacity N v1 m1 = .ok cap1 (v1, m1) ∧ k ≤ cap1 ∧
        v1.size_ = s.length ∧ Holds N v1 m1 s) ∧
    (m.env.throw_countdown = 0 →
      (∀ cap, capacity N v m = .ok cap (v, m) → storage_fits T (max k cap) = true) →
      ∃ v1 m1, reserve N v m k = .ok () (v1, m1)) := by
  have hcl : ∀ (h0 : List (big_storage T)) (cap1 : Nat) (e : Env), s.length ≤ cap1 →
      k ≤ cap1 → ∀ (v1 : socow_vector T) (m1 : Mem T),
      v1 = ⟨false, s.length, [], some h0.length⟩ →
      m1 = ⟨h0 ++ [⟨cap1, 1, s, true⟩], e⟩ →
      ∃ l cap2, Stor N v1 m1 l s cap2 ∧ capacity N v1 m1 = .ok cap2 (v1, m1) ∧ k ≤ cap2 ∧
        v1.size_ = s.length ∧ Holds N v1 m1 s := by
    intro h0 cap1 e hc1 hk1 v1 m1 hv hm
    subst hv; subst hm
    have hst := stor_after_clone N h0 s cap1 e false rfl
    exact ⟨_, cap1, hst, capacity_stor hst, hk1, rfl, holds_of_stor hst rfl hc1⟩
  rcases stor_or_shared h with ⟨l, cap, hst, hle, hcap⟩ | ⟨A, c, hb, hr⟩
  · by_cases hk : k ≤ cap
    · rw [reserve_noop hst k hk]
      refine ⟨?_, fun _ _ => ⟨_, _, rfl⟩⟩
      intro v1 m1 hok
      injection hok with _ hok
      injection hok with hv hm
      subst hv; subst hm
      exact ⟨l, cap, hst, hcap, hk, size_holds h, h⟩
    · rw [reserve_grow hst (size_holds h) hle k (by omega)]
      constructor
      · intro v1 m1 hok
        have hfit : storage_fits T k = true := by
          by_contra hfit
          rw [if_neg hfit] at hok
          exact absurd hok (by simp)
        rw [if_pos hfit] at hok
        split at hok
        · injection hok with _ hok
          injection hok with hv hm
          subst hv; subst hm
          exact hcl (heap_released v m) k (copies m.env s.length) (by omega) (le_refl _) _ _
            (by rw [heap_released_length]) rfl
        · exact absurd hok (by simp)
      · intro h0 hfit
        have hmax : max k cap = k := by omega
        have hf := hfit cap hcap
        rw [hmax] at hf
        rw [if_pos hf, if_pos (no_throw_of_zero h0 _)]
        exact ⟨_, _, rfl⟩
  · rw [reserve_shared N hb hr k]
    constructor
    · intro v1 m1 hok
      have hfit : storage_fits T (max k c.capacity) = true := by
        by_contra hfit
        rw [if_neg hfit] at hok
        exact absurd hok (by simp)
      rw [if_pos hfit] at hok
      split at hok
      · injection hok with _ hok
        injection hok with hv hm
        subst hv; subst hm
        exact hcl (m.heap.set A { c with ref_count := c.ref_count - 1 }) (max k c.capacity)
          (copies m.env s.length) (le_trans hb.2.2.2.2.2.2.2.1 (le_max_right _ _))
          (le_max_left _ _) _ _ (by rw [List.length_set]) rfl
      · exact absurd hok (by simp)
    · intro h0 hfit
      rw [if_pos (hfit c.capacity (capacity_big N hb)), if_pos (no_throw_of_zero h0 _)]
      exact ⟨_, _, rfl⟩

/-- C15. On a container that owns its storage exclusively (small, or big with
reference count one) and has capacity at least `k`, `reserve(k)` returns the
state unchanged: representation, capacity, storage, size, elements and copy
counter. -/
theorem reserve_superfluous {T : Type} [Layout T] (N : Nat) (v : socow_vector T) (m : Mem T)
    (l : Loc)
    (s : List T) (cap k : Nat) (h : Stor N v m l s cap) (hk : k ≤ cap) :
    reserve N v m k = .ok () (v, m) ∧ capacity N v m = .ok cap (v, m) :=
  ⟨reserve_noop h k hk, capacity_stor h⟩

/-! ## shrink_to_fit -/

theorem shrink_to_fit_small {T : Type} {N : Nat} {v : socow_vector T} (m : Mem T)
    {s : List T} (h : SmallAt N v s) : shrink_to_fit N v m = .ok () (v, m) := by
  unfold shrink_to_fit
  rw [capacity_small m h]
  simp [h.1]

theorem shrink_to_fit_big {T : Type} (N : Nat) {v : socow_vector T} {m : Mem T}
    {A : Nat} {c : big_storage T} {s : List T} (h : BigAt v m A c s) :
    shrink_to_fit N v m =
      if s.length = c.capacity then .ok () (v, m)
      else if s.length ≤ N then
        (if no_throw m.env s.length then
          .ok () (⟨true, s.length, s, none⟩,
            ⟨m.heap.set A (released c), copies m.env s.length⟩)
         else .thrown (v, ⟨m.heap, copies m.env m.env.throw_countdown⟩))
      else
        (if no_throw m.env s.length then
          .ok () (⟨false, s.length, [], some m.heap.length⟩,
            ⟨m.heap.set A (released c) ++ [⟨s.length, 1, s, true⟩], copies m.env s.length⟩)
         else
          .thrown (v, ⟨m.heap ++ [⟨s.length, 1, [], false⟩],
            copies m.env m.env.throw_countdown⟩)) := by
  by_cases hr : 2 ≤ c.ref_count
  · rw [shrink_to_fit_shared N h hr, released_shared c hr]
  · have hr1 : c.ref_count = 1 := by have := h.2.2.2.2.2.2.2.2; omega
    have hH : Holds N v m s := Or.inr ⟨A, c, h⟩
    have hmc := make_copy_eq hH s.length (le_refl _)
    rw [heap_released_big h] at hmc
    have hd := deref_addr h
    have hlt := addr_lt h
    obtain ⟨hs, hsm, hb, hn, ha, hl, hdat, hc, _⟩ := id h
    unfold shrink_to_fit
    rw [capacity_big N h]
    simp only [hn, hs]
    by_cases hfull : s.length = c.capacity
    · simp [hfull]
    · simp only [hfull, if_false, Bool.false_eq_true]
      by_cases hsmall : s.length ≤ N
      · simp only [hsmall, if_true, hb, hd, hdat, hsm]
        rw [copy_data_array_eq s N s.length m.env (le_refl _) hsmall]
        have h0 : size_dec c.ref_count = 0 := by
          unfold size_dec; rw [hr1]; simp
        have h01 : size_dec 1 = 0 := by rw [← hr1]; exact h0
        by_cases hnt : no_throw m.env s.length
        · have hca : clear_array s s.length = some [] := clear_array_all s s.length rfl
          simp [hnt, big_storage.unshare, big_storage.does_not_exists, h0, Mem.store,
            Mem.set_env, hdat, hca, operator_delete, hlt, released, hr1, h01]
        · simp only [hnt, if_false, Mem.set_env]
          congr 2
          cases v
          simp_all
      · simp only [hsmall, if_false, hmc, hs]

/-- C16. Let a valid container hold `s`, a big one with capacity above the
inline capacity `N`.  After a `shrink_to_fit` that returns normally the
container holds `s` with the same size; when `N < |s|` its capacity is `|s|`;
when `|s| ≤ N` it is small, with capacity `N`.  The call returns normally
when no copy failure is armed. -/
theorem shrink_to_fit_fits {T : Type} (N : Nat) (v : socow_vector T) (m : Mem T) (s : List T)
    (h : Holds N v m s) (hcap : ∀ A c, BigAt v m A c s → N < c.capacity) :
    (∀ v1 m1, shrink_to_fit N v m = .ok () (v1, m1) →
      Holds N v1 m1 s ∧ v1.size_ = s.length ∧
      (N < s.length → capacity N v1 m1 = .ok s.length (v1, m1)) ∧
      (s.length ≤ N → v1.is_small = true ∧ capacity N v1 m1 = .ok N (v1, m1))) ∧
    (m.env.throw_countdown = 0 → ∃ v1 m1, shrink_to_fit N v m = .ok () (v1, m1)) := by
  rcases h with hs | ⟨A, c, hb⟩
  · rw [shrink_to_fit_small m hs]
    refine ⟨?_, fun _ => ⟨_, _, rfl⟩⟩
    intro v1 m1 hok
    injection hok with _ hok
    injection hok with hv hm
    subst hv; subst hm
    have hle := hs.2.2.2
    exact ⟨Or.inl hs, hs.2.2.1, fun hlt => absurd hlt (by omega),
      fun _ => ⟨hs.1, capacity_small m hs⟩⟩
  · have hN := hcap A c hb
    rw [shrink_to_fit_big N hb]
    constructor
    · intro v1 m1 hok
      split at hok
      · rename_i hfull
        injection hok with _ hok
        injection hok with hv hm
        subst hv; subst hm
        refine ⟨Or.inr ⟨A, c, hb⟩, hb.2.2.2.1, fun _ => ?_, fun hle => absurd hle (by omega)⟩
        rw [capacity_big N hb, hfull]
      · split at hok
        · rename_i hfull hsmall
          split at hok
          · injection hok with _ hok
            injection hok with hv hm
            subst hv; subst hm
            have hsm : SmallAt N (⟨true, s.length, s, none⟩ : socow_vector T) s :=
              ⟨rfl, rfl, rfl, hsmall⟩
            exact ⟨Or.inl hsm, rfl, fun hlt => absurd hlt (by omega),
              fun _ => ⟨rfl, capacity_small _ hsm⟩⟩
          · exact absurd hok (by simp)
        · rename_i hfull hsmall
          split at hok
          · injection hok with _ hok
            injection hok with hv hm
            subst hv; subst hm
            have hl : (m.heap.set A (released c)).length = m.heap.length := List.length_set _ _ _
            have hba := bigAt_after_clone (m.heap.set A (released c)) s s.length
              (copies m.env s.length) (le_refl _)
            rw [hl] at hba
            refine ⟨Or.inr ⟨_, _, hba⟩, rfl, fun _ => ?_, fun hle => absurd hle hsmall⟩
            rw [capacity_big N hba]
          · exact absurd hok (by simp)
    · intro h0
      rw [if_pos (no_throw_of_zero h0 _), if_pos (no_throw_of_zero h0 _)]
      split
      · exact ⟨_, _, rfl⟩
      · split
        · exact ⟨_, _, rfl⟩
        · exact ⟨_, _, rfl⟩

/-- C17. Strong guarantee of `shrink_to_fit` on a big container holding `s`
in the block at `A`: a call that throws leaves the handle as it was, still
referencing the block at `A`, which is unchanged (capacity, reference count,
elements), as is every other block that existed; any block added is freed.
When the size differs from the capacity and one of the `|s|` element copies
is set to fail, the call does throw. -/
theorem shrink_to_fit_strong {T : Type} (N : Nat) (v : socow_vector T) (m : Mem T) (A : Nat)
    (c : big_storage T) (s : List T) (h : BigAt v m A c s) :
    (∀ v1 m1, shrink_to_fit N v m = .thrown (v1, m1) →
      v1 = v ∧ BigAt v m1 A c s ∧ capacity N v m1 = .ok c.capacity (v, m1) ∧
      v.size_ = s.length ∧
      (∀ B, B < m.heap.length → m1.heap[B]? = m.heap[B]?) ∧
      (∀ B b, m.heap.length ≤ B → m1.heap[B]? = some b → b.live = false)) ∧
    (s.length ≠ c.capacity → 1 ≤ m.env.throw_countdown →
      m.env.throw_countdown ≤ s.length → ∃ m1, shrink_to_fit N v m = .thrown (v, m1)) := by
  rw [shrink_to_fit_big N h]
  constructor
  · intro v1 m1 hthr
    split at hthr
    · exact absurd hthr (by simp)
    · split at hthr
      · split at hthr
        · exact absurd hthr (by simp)
        · injection hthr with hthr
          injection hthr with hv hm
          subst hv; subst hm
          have hb : BigAt v ⟨m.heap, copies m.env m.env.throw_countdown⟩ A c s :=
            ⟨h.1, h.2.1, h.2.2.1, h.2.2.2.1, h.2.2.2.2.1, h.2.2.2.2.2⟩
          refine ⟨rfl, hb, capacity_big N hb, h.2.2.2.1, fun B _ => rfl, ?_⟩
          intro B b hB hget
          have : m.heap[B]? = none := List.getElem?_eq_none hB
          simp only at hget
          rw [this] at hget
          exact absurd hget (by simp)
      · split at hthr
        · exact absurd hthr (by simp)
        · injection hthr with hthr
          injection hthr with hv hm
          subst hv; subst hm
          have hb := bigAt_extend h [⟨s.length, 1, [], false⟩]
            (copies m.env m.env.throw_countdown)
          refine ⟨rfl, hb, capacity_big N hb, h.2.2.2.1, ?_, ?_⟩
          · intro B hB
            simp only
            rw [List.getElem?_append_left hB]
          · intro B b hB hget
            simp only at hget
            rw [List.getElem?_append_right hB] at hget
            by_cases h0 : B - m.heap.length = 0
            · rw [h0] at hget
              simp at hget
              rw [← hget]
            · have : [(⟨s.length, 1, [], false⟩ : big_storage T)][B - m.heap.length]? = none :=
                List.getElem?_eq_none (by simp; omega)
              rw [this] at hget
              exact absurd hget (by simp)
  · intro hne h1 h2
    have hnt : ¬ no_throw m.env s.length := by
      unfold no_throw; omega
    rw [if_neg hne, if_neg hnt, if_neg hnt]
    split
    · exact ⟨_, rfl⟩
    · exact ⟨_, rfl⟩

/-! ## clear and pop_back -/

theorem clear_after_data {T : Type} {N : Nat} (v : socow_vector T) (m : Mem T) (s : List T)
    (v1 : socow_vector T) (m1 : Mem T) (l1 : Loc) (cap1 : Nat)
    (hd : data N v m = .ok ⟨l1, 0⟩ (v1, m1)) (hst : Stor N v1 m1 l1 s cap1)
    (hsz : v1.size_ = s.length) :
    clear N v m = .ok () (put v1 m1 l1 [] m1.env 0) := by
  unfold clear
  simp only [begin_, hd, end_, data_stor hst, Nat.zero_add, hsz]
  by_cases hpos : 0 < s.length
  · have hnt : no_throw m1.env (3 * (s.length - (s.length - 0) - 0)) := by
      unfold no_throw; omega
    obtain ⟨r, hr⟩ := (erase_range_after_data v1 m1 s l1 0 s.length (stor_base hst) hpos
      (le_refl _) v1 m1 l1 cap1 (data_stor hst) hst hsz).1 hnt
    rw [hr]
    simp [copies_zero]
  · have hnil : s = [] := List.length_eq_zero.mp (by omega)
    subst hnil
    have hps := put_self hst
    rw [hsz] at hps
    simp only [List.length_nil] at hps ⊢
    rw [hps]
    unfold erase_range
    simp [ptr_diff, ptr_sub, stor_base hst, begin_, data_stor hst]

theorem pop_back_after_data {T : Type} {N : Nat} (v : socow_vector T) (m : Mem T)
    (s : List T) (v1 : socow_vector T) (m1 : Mem T) (l1 : Loc) (cap1 : Nat)
    (hd : data N v m = .ok ⟨l1, 0⟩ (v1, m1)) (hst : Stor N v1 m1 l1 s cap1)
    (hsz : v1.size_ = s.length) (hpos : 0 < s.length) :
    pop_back N v m = .ok () (put v1 m1 l1 s.dropLast m1.env (s.length - 1)) := by
  have : pop_back N v m = pop_back N v1 m1 := by
    simp [pop_back, hd, data_stor hst]
  rw [this]
  exact pop_back_stor hst hsz hpos

/-- C18. After a `clear` that returns normally the container is empty
(`size() = 0`, `empty()` true), its capacity is the capacity before the call,
and every other handle that shared its block still holds all the elements.
The call returns normally when no copy failure is armed. -/
theorem clear_empties {T : Type} [Layout T] (N : Nat) (v : socow_vector T) (m : Mem T) (s : List T)
    (h : Holds N v m s) :
    (∀ v1 m1, clear N v m = .ok () (v1, m1) →
      Holds N v1 m1 [] ∧ size v1 m1 = .ok 0 (v1, m1) ∧ empty v1 m1 = .ok true (v1, m1) ∧
      (∃ cap, capacity N v m = .ok cap (v, m) ∧ capacity N v1 m1 = .ok cap (v1, m1)) ∧
      (∀ w A c, BigAt v m A c s → BigAt w m A c s → 2 ≤ c.ref_count →
        Holds N w m1 s ∧ w.size_ = s.length)) ∧
    (m.env.throw_countdown = 0 → ∃ v1 m1, clear N v m = .ok () (v1, m1)) := by
  constructor
  · intro v1 m1 hok
    have hshare : ∀ w A c, BigAt v m A c s → BigAt w m A c s → 2 ≤ c.ref_count →
        Holds N w m1 s ∧ w.size_ = s.length := by
      intro w A c hv hw hr
      exact ⟨holds_of_kept N hw (op_kept_shared N v m A c s hv hr .clear v1 m1 (Or.inl hok)),
        hw.2.2.2.1⟩
    cases hd : data N v m with
    | fault => simp [clear, begin_, hd] at hok
    | thrown st => simp [clear, begin_, hd] at hok
    | ok p st =>
      obtain ⟨v2, m2⟩ := st
      obtain ⟨cap, hst, hoff, hle, hsz, hcap⟩ := data_ok_stor h p v2 m2 hd
      have hp : p = ⟨p.loc, 0⟩ := by cases p; simp_all
      rw [hp] at hd
      rw [clear_after_data v m s v2 m2 p.loc cap hd hst hsz] at hok
      injection hok with _ hok
      have hst1 := stor_put hst [] m2.env 0
      rw [hok] at hst1
      have hs1 : v1.size_ = 0 := by
        have := put_size v2 m2 p.loc ([] : List T) m2.env 0
        rw [hok] at this
        exact this
      refine ⟨holds_of_stor hst1 hs1 (Nat.zero_le _), ?_, ?_, ⟨cap, hcap, capacity_stor hst1⟩,
        hshare⟩
      · simp [size, hs1]
      · simp [empty, hs1]
  · intro h0
    obtain ⟨p, v2, m2, hd, _⟩ := data_succeeds h h0
    obtain ⟨cap, hst, hoff, hle, hsz, hcap⟩ := data_ok_stor h p v2 m2 hd
    have hp : p = ⟨p.loc, 0⟩ := by cases p; simp_all
    rw [hp] at hd
    rw [clear_after_data v m s v2 m2 p.loc cap hd hst hsz]
    exact ⟨_, _, rfl⟩

/-- C19. For a container holding the non-empty sequence `s`: after a
`pop_back` that returns normally it holds `s` without its last element, its
size is `|s| - 1`, its capacity is the capacity before the call, and every
other handle that shared its block still holds `s` with size `|s|`.  The call
returns normally when no copy failure is armed. -/
theorem pop_back_removes_last {T : Type} [Layout T] (N : Nat) (v : socow_vector T) (m : Mem T)
    (s : List T) (h : Holds N v m s) (hne : s ≠ []) :
    (∀ v1 m1, pop_back N v m = .ok () (v1, m1) →
      Holds N v1 m1 s.dropLast ∧ v1.size_ = s.length - 1 ∧
      (∃ cap, capacity N v m = .ok cap (v, m) ∧ capacity N v1 m1 = .ok cap (v1, m1)) ∧
      (∀ w A c, BigAt v m A c s → BigAt w m A c s → 2 ≤ c.ref_count →
        Holds N w m1 s ∧ w.size_ = s.length)) ∧
    (m.env.throw_countdown = 0 → ∃ v1 m1, pop_back N v m = .ok () (v1, m1)) := by
  have hpos : 0 < s.length := List.length_pos.mpr hne
  constructor
  · intro v1 m1 hok
    have hshare : ∀ w A c, BigAt v m A c s → BigAt w m A c s → 2 ≤ c.ref_count →
        Holds N w m1 s ∧ w.size_ = s.length := by
      intro w A c hv hw hr
      exact ⟨holds_of_kept N hw
        (op_kept_shared N v m A c s hv hr .pop_back v1 m1 (Or.inl hok)), hw.2.2.2.1⟩
    cases hd : data N v m with
    | fault => simp [pop_back, hd] at hok
    | thrown st => simp [pop_back, hd] at hok
    | ok p st =>
      obtain ⟨v2, m2⟩ := st
      obtain ⟨cap, hst, hoff, hle, hsz, hcap⟩ := data_ok_stor h p v2 m2 hd
      have hp : p = ⟨p.loc, 0⟩ := by cases p; simp_all
      rw [hp] at hd
      rw [pop_back_after_data v m s v2 m2 p.loc cap hd hst hsz hpos] at hok
      injection hok with _ hok
      have hst1 := stor_put hst s.dropLast m2.env (s.length - 1)
      rw [hok] at hst1
      have hs1 : v1.size_ = s.length - 1 := by
        have := put_size v2 m2 p.loc s.dropLast m2.env (s.length - 1)
        rw [hok] at this
        exact this
      exact ⟨holds_of_stor hst1 (by rw [hs1]; simp) (by simp; omega), hs1,
        ⟨cap, hcap, capacity_stor hst1⟩, hshare⟩
  · intro h0
    obtain ⟨p, v2, m2, hd, _⟩ := data_succeeds h h0
    obtain ⟨cap, hst, hoff, hle, hsz, hcap⟩ := data_ok_stor h p v2 m2 hd
    have hp : p = ⟨p.loc, 0⟩ := by cases p; simp_all
    rw [hp] at hd
    rw [pop_back_after_data v m s v2 m2 p.loc cap hd hst hsz hpos]
    exact ⟨_, _, rfl⟩

/-- The value `insert` returns is the value of `is_small ? small : big->data + p`
on the final handle: the start of the inline array when the handle is small. -/
theorem insert_ret_small {T : Type} (N : Nat) (v : socow_vector T) (m : Mem T) (pos : ptr)
    (x : cref T) (r : ptr) (v3 : socow_vector T) (m3 : Mem T)
    (hok : insert N v m pos x = .ok r (v3, m3)) (hs : v3.is_small = true) :
    r = ⟨.small, 0⟩ := by
  unfold insert at hok
  split at hok
  · exact absurd hok (by simp)
  · split at hok
    · exact absurd hok (by simp)
    · exact absurd hok (by simp)
    · split at hok
      · exact absurd hok (by simp)
      · exact absurd hok (by simp)
      · split at hok
        · exact absurd hok (by simp)
        · exact absurd hok (by simp)
        · split at hok
          · rename_i r1 hr
            injection hok with h1 h2
            injection h2 with h3 h4
            subst h1; subst h3
            simp [ret_iterator, hs] at hr
            exact hr.symm
          · exact absurd hok (by simp)

/-- C20, evaluation of the code: on the small container `[41, 43]` with inline
capacity 3, `insert(begin() + 1, 42)` returns normally, leaves `[41, 42, 43]`
and returns `begin() + 0`, which addresses `41`, while the inserted element is
at `begin() + 1`; on a big container holding the same elements the same call
returns `begin() + 1`. -/
theorem insert_small_returns_begin :
    insert 3 (⟨true, 2, [41, 43], none⟩ : socow_vector Nat) ⟨[], ⟨0, 0⟩⟩ ⟨.small, 1⟩ (.val 42) =
      .ok ⟨.small, 0⟩ (⟨true, 3, [41, 42, 43], none⟩, ⟨[], ⟨0, 4⟩⟩) ∧
    begin_const (⟨true, 3, [41, 42, 43], none⟩ : socow_vector Nat) ⟨[], ⟨0, 4⟩⟩ =
      .ok ⟨.small, 0⟩ (⟨true, 3, [41, 42, 43], none⟩, ⟨[], ⟨0, 4⟩⟩) ∧
    (⟨.small, 0⟩ : ptr) ≠ ⟨.small, 0 + 1⟩ ∧
    read_ref (⟨true, 3, [41, 42, 43], none⟩ : socow_vector Nat) ⟨[], ⟨0, 4⟩⟩ (.slot .small 0) =
      some 41 ∧
    read_ref (⟨true, 3, [41, 42, 43], none⟩ : socow_vector Nat) ⟨[], ⟨0, 4⟩⟩ (.slot .small 1) =
      some 42 ∧
    insert 1 (⟨false, 2, [], some 0⟩ : socow_vector Nat) ⟨[⟨4, 1, [41, 43], true⟩], ⟨0, 0⟩⟩
        ⟨.big 0, 1⟩ (.val 42) =
      .ok ⟨.big 0, 0 + 1⟩ (⟨false, 3, [], some 0⟩, ⟨[⟨4, 1, [41, 42, 43], true⟩], ⟨0, 4⟩⟩) := by
  decide

/-- C21, evaluation of the code: on the small container `[10, 11, 12]` with
inline capacity 3, `erase(begin() + 1, begin() + 2)` returns normally, leaves
`[10, 12]` and returns `begin() + 0` rather than `begin() + 1`; on the big
container `[100, 101, 102, 103, 104]` erasing `[1, 4)` returns `begin() + 1`. -/
theorem erase_range_small_returns_begin :
    erase_range 3 (⟨true, 3, [10, 11, 12], none⟩ : socow_vector Nat) ⟨[], ⟨0, 0⟩⟩
        ⟨.small, 1⟩ ⟨.small, 2⟩ =
      .ok ⟨.small, 0⟩ (⟨true, 2, [10, 12], none⟩, ⟨[], ⟨0, 3⟩⟩) ∧
    begin_const (⟨true, 2, [10, 12], none⟩ : socow_vector Nat) ⟨[], ⟨0, 3⟩⟩ =
      .ok ⟨.small, 0⟩ (⟨true, 2, [10, 12], none⟩, ⟨[], ⟨0, 3⟩⟩) ∧
    (⟨.small, 0⟩ : ptr) ≠ ⟨.small, 0 + 1⟩ ∧
    erase_range 3 (⟨false, 5, [], some 0⟩ : socow_vector Nat)
        ⟨[⟨6, 1, [100, 101, 102, 103, 104], true⟩], ⟨0, 0⟩⟩ ⟨.big 0, 1⟩ ⟨.big 0, 4⟩ =
      .ok ⟨.big 0, 0 + 1⟩ (⟨false, 2, [], some 0⟩, ⟨[⟨6, 1, [100, 104], true⟩], ⟨0, 3⟩⟩) := by
  decide

/-- C23. No evaluation of `a != b` returns: whatever the two containers and
however deep the nested calls are allowed to go, no call has returned. -/
theorem operator_ne_never_returns {T : Type} [DecidableEq T] (a b : socow_vector T)
    (m : Mem T) (fuel : Nat) : operator_ne a b m fuel = none := by
  induction fuel with
  | zero => rfl
  | succ k ih => simpa [operator_ne] using ih

/-- C28, evaluation of the code: with inline capacity 0 the empty container has
`size() = capacity() = 0`, so `push_back` takes the growth branch with new
capacity `0 * 2 = 0`; the block it allocates has no slot, and constructing the
new element at index 0 of it is outside the allocation. -/
theorem push_back_zero_capacity :
    capacity 0 (default_ctor : socow_vector Nat) ⟨[], ⟨0, 0⟩⟩ =
      .ok 0 (default_ctor, ⟨[], ⟨0, 0⟩⟩) ∧
    slot_count 0 (make_storage ((default_ctor : socow_vector Nat).size_ * 2)
      (⟨[], ⟨0, 0⟩⟩ : Mem Nat)) (.big 0) = some 0 ∧
    construct_at 0 (default_ctor : socow_vector Nat)
      (make_storage ((default_ctor : socow_vector Nat).size_ * 2) (⟨[], ⟨0, 0⟩⟩ : Mem Nat))
      ⟨.big 0, 0⟩ (.val 7) = .fault ∧
    push_back 0 (default_ctor : socow_vector Nat) ⟨[], ⟨0, 0⟩⟩ (.val 7) = .fault := by
  decide

/-! ## A reference into the container as the argument of push_back -/

theorem read_slot {T : Type} (v : socow_vector T) (m : Mem T) (l : Loc) (s : List T)
    (i : Nat) (x : T) (hs : slots v m l = some s) (hi : s[i]? = some x) :
    read_ref v m (.slot l i) = some x := by
  simp [read_ref, hs, hi]

theorem slots_of_holds {T : Type} {N : Nat} {v : socow_vector T} {m : Mem T} {s : List T}
    {l : Loc} (h : Holds N v m s) (hl : base v = some l) : slots v m l = some s := by
  rcases h with h | ⟨A, c, h⟩
  · have : l = .small := by
      simp [base, h.1] at hl
      exact hl.symm
    subst this
    simp [slots, h.2.1]
  · have : l = .big A := by
      simp [base, h.1, h.2.2.1] at hl
      exact hl.symm
    subst this
    simp [slots, deref_addr h, h.2.2.2.2.2.2.1]

theorem slots_of_kept {T : Type} (v : socow_vector T) {m : Mem T} {A : Nat} {s : List T}
    {cap : Nat} (h : Kept A s cap m) : slots v m (.big A) = some s := by
  obtain ⟨c, h1, h2, h3, _⟩ := h
  simp [slots, Mem.deref, h1, h2, h3]

theorem push_back_slot_eq {T : Type} (N : Nat) (v : socow_vector T) (m : Mem T) (s : List T)
    (l : Loc) (i : Nat) (x : T) (h : Holds N v m s) (hl : base v = some l)
    (hi : s[i]? = some x) :
    push_back N v m (.slot l i) = push_back N v m (.val x) := by
  have hgrow : capacity N v m = .ok s.length (v, m) →
      push_back N v m (.slot l i) = push_back N v m (.val x) := by
    intro hfull
    rw [push_back_grow h hfull (.slot l i) x
        (read_slot _ _ l s i x (slots_of_holds (holds_extend h _ _) hl) hi),
      push_back_grow h hfull (.val x) x rfl]
  rcases stor_or_shared h with ⟨l0, cap, hst, hle, hcap⟩ | ⟨A, c, hb, hr⟩
  · by_cases hfull : s.length = cap
    · exact hgrow (by rw [hcap, hfull])
    · rw [push_back_in_place hst (size_holds h) (by omega) (.slot l i) x
          (read_slot _ _ l s i x (slots_of_holds h hl) hi),
        push_back_in_place hst (size_holds h) (by omega) (.val x) x rfl]
  · have hcap := capacity_big N hb
    have hle := hb.2.2.2.2.2.2.2.1
    by_cases hfull : s.length = c.capacity
    · exact hgrow (by rw [hcap, hfull])
    · have hlA : l = .big A := by
        simp [base, hb.1, hb.2.2.1] at hl
        exact hl.symm
      subst hlA
      rw [push_back_shared N hb hr (by omega) (.slot (.big A) i) x
          (read_slot _ _ (.big A) s i x (slots_of_kept _ (kept_clone hb hr _ _)) hi),
        push_back_shared N hb hr (by omega) (.val x) x rfl]

/-- C27. For a container holding `s` and an index `i < |s|`, `push_back` with
the argument a reference to the container's own slot `i` (in its inline array,
its exclusive block or its shared block) behaves as `push_back` of the value
`s[i]`: a call that returns normally leaves the container holding
`s ++ [s[i]]` with size `|s| + 1`, and the call returns normally when no copy
failure is armed. -/
theorem push_back_from_self {T : Type} (N : Nat) (v : socow_vector T) (m : Mem T)
    (s : List T) (l : Loc) (i : Nat) (x : T) (h : Holds N v m s) (hl : base v = some l)
    (hi : s[i]? = some x) :
    push_back N v m (.slot l i) = push_back N v m (.val x) ∧
    (∀ v1 m1, push_back N v m (.slot l i) = .ok () (v1, m1) →
      Holds N v1 m1 (s ++ [x]) ∧ v1.size_ = s.length + 1) ∧
    (m.env.throw_countdown = 0 → ∃ v1 m1, push_back N v m (.slot l i) = .ok () (v1, m1)) := by
  have heq := push_back_slot_eq N v m s l i x h hl hi
  refine ⟨heq, ?_, ?_⟩
  · intro v1 m1 hok
    rw [heq] at hok
    obtain ⟨h1, h2, _⟩ := push_back_ok_holds N v m s x h v1 m1 hok
    exact ⟨h1, h2⟩
  · intro h0
    have hpos : 0 < s.length := by
      have := (List.getElem?_eq_some.mp hi).1
      omega
    have hc : ∃ cap, capacity N v m = .ok cap (v, m) ∧ s.length ≤ cap := by
      rcases stor_or_shared h with ⟨l0, cap, hst, hle, hcap⟩ | ⟨A, c, hb, hr⟩
      · exact ⟨cap, hcap, hle⟩
      · exact ⟨c.capacity, capacity_big N hb, hb.2.2.2.2.2.2.2.1⟩
    obtain ⟨cap, hcap, hle⟩ := hc
    obtain ⟨v1, m1, hok, _⟩ := push_back_succeeds N v m s x h h0 cap hcap (by omega)
    rw [heq]
    exact ⟨v1, m1, hok⟩

/-! ## Operations that work in place on exclusive storage -/

theorem put_same {T : Type} {N : Nat} {v : socow_vector T} {m : Mem T} {l : Loc}
    {d : List T} {cap : Nat} (h : Stor N v m l d cap) (e : Env) :
    put v m l d e v.size_ = (v, m.set_env e) := by
  rcases h with ⟨hs, hd, hl, hc⟩ | ⟨hs, hsm, a, b, hb, hl, ha, hlv, hd, hc, hr⟩
  · subst hl; subst hd; simp [put, set_slots, Mem.set_env]
  · subst hl; subst hd
    have hb2 : ({ b with data := b.data } : big_storage T) = b := by cases b; rfl
    have hset : m.heap.set a b = m.heap := by
      apply List.ext_getElem?
      intro i
      by_cases hi : a = i
      · subst hi
        rw [List.getElem?_set_self (List.getElem?_eq_some.mp ha).1, ha]
      · rw [List.getElem?_set_ne hi]
    simp [put, set_slots, Mem.set_env, ha, Mem.store, hb2, hset]

theorem inPlace_forget {T α : Type} {v : socow_vector T} {m : Mem T} {l : Loc} {cap : Nat}
    {r : Res (St T) α} (h : InPlace v m l cap r) : InPlace v m l cap (forget r) := by
  cases r <;> exact h

theorem inPlace_put_ok {T α : Type} (v : socow_vector T) (m : Mem T) (l : Loc) (cap : Nat)
    (a : α) (d : List T) (e : Env) (sz : Nat) (hsz : sz = d.length) (hle : d.length ≤ cap) :
    InPlace v m l cap (.ok a (put v m l d e sz) : Res (St T) α) := by
  subst hsz
  exact ⟨d, e, hle, rfl⟩

theorem inPlace_put_thrown {T α : Type} (v : socow_vector T) (m : Mem T) (l : Loc) (cap : Nat)
    (d : List T) (e : Env) (sz : Nat) (hsz : sz = d.length) (hle : d.length ≤ cap) :
    InPlace v m l cap (.thrown (put v m l d e sz) : Res (St T) α) := by
  subst hsz
  exact ⟨d, e, hle, rfl⟩

/-- An in-place call started in a state that was itself reached in place. -/
theorem inPlace_trans {T α : Type} {N : Nat} {v : socow_vector T} {m : Mem T} {l : Loc}
    {d0 : List T} {cap : Nat} (h : Stor N v m l d0 cap) (d1 : List T) (e1 : Env) (s1 : Nat)
    {r : Res (St T) α}
    (hr : InPlace (put v m l d1 e1 s1).1 (put v m l d1 e1 s1).2 l cap r) :
    InPlace v m l cap r := by
  cases r with
  | fault => trivial
  | ok a st =>
    obtain ⟨d, e, hle, hst⟩ := hr
    exact ⟨d, e, hle, by rw [hst, put_put h]⟩
  | thrown st =>
    obtain ⟨d, e, hle, hst⟩ := hr
    exact ⟨d, e, hle, by rw [hst, put_put h]⟩

theorem assign_at_inPlace {T : Type} {N : Nat} {v : socow_vector T} {m : Mem T} {l : Loc}
    {d : List T} {cap : Nat} (h : Stor N v m l d cap) (hsz : v.size_ = d.length)
    (hle : d.length ≤ cap) (off : Nat) (x : T) :
    InPlace v m l cap (assign_at v m ⟨l, off⟩ x) := by
  obtain ⟨h1, _⟩ := stor_slots h
  unfold assign_at
  simp only [h1]
  split
  · split
    · refine ⟨d, (element_copy m.env).1, hle, ?_⟩
      rw [← hsz, put_same h]
    · rw [set_slots_eq_put]
      exact inPlace_put_ok v m l cap () _ _ _ (by simp [hsz]) (by simpa using hle)
  · trivial

theorem pop_back_inPlace {T : Type} {N : Nat} {v : socow_vector T} {m : Mem T} {l : Loc}
    {d : List T} {cap : Nat} (h : Stor N v m l d cap) (hsz : v.size_ = d.length)
    (hle : d.length ≤ cap) : InPlace v m l cap (pop_back N v m) := by
  by_cases hpos : 0 < d.length
  · rw [pop_back_stor h hsz hpos]
    exact inPlace_put_ok v m l cap () _ _ _ (by simp) (by simp; omega)
  · obtain ⟨h1, _⟩ := stor_slots (stor_resize h (size_dec v.size_))
    have hnil : d = [] := List.length_eq_zero.mp (by omega)
    subst hnil
    unfold pop_back
    rw [data_stor h]
    simp [destroy_at, h1, InPlace]

theorem swap_at_inPlace {T : Type} {N : Nat} {v : socow_vector T} {m : Mem T} {l : Loc}
    {d : List T} {cap : Nat} (h : Stor N v m l d cap) (hsz : v.size_ = d.length)
    (hle : d.length ≤ cap) (i j : Nat) : InPlace v m l cap (swap_at v m ⟨l, 0⟩ i j) := by
  by_cases hi : i < d.length
  · by_cases hj : j < d.length
    · obtain ⟨hA, hB⟩ := swap_at_stor h i j hi hj
      by_cases hn : no_throw m.env 3
      · rw [hA hn]
        exact inPlace_put_ok v m l cap () _ _ _ (by simp [hsz, swap_idx_length]) (by
          simpa [swap_idx_length] using hle)
      · obtain ⟨d1, hl1, hd1⟩ := hB hn
        rw [hd1]
        exact inPlace_put_thrown v m l cap _ _ _ (by rw [hsz, hl1]) (by rw [hl1]; exact hle)
    · obtain ⟨h1, _⟩ := stor_slots h
      have hf : std_swap d i j m.env = .fault := by
        have : d[j]? = none := List.getElem?_eq_none (by omega)
        unfold std_swap
        rw [this]
        cases d[i]? <;> rfl
      simp [swap_at, h1, hf, InPlace]
  · obtain ⟨h1, _⟩ := stor_slots h
    have hf : std_swap d i j m.env = .fault := by
      have : d[i]? = none := List.getElem?_eq_none (by omega)
      unfold std_swap
      rw [this]
    simp [swap_at, h1, hf, InPlace]

theorem erase_range_inPlace {T : Type} {N : Nat} (v : socow_vector T) (m : Mem T) (s : List T)
    (l : Loc) (f t : Nat) (hl : base v = some l) (v1 : socow_vector T) (m1 : Mem T)
    (l1 : Loc) (cap1 : Nat) (hd : data N v m = .ok ⟨l1, 0⟩ (v1, m1))
    (hst : Stor N v1 m1 l1 s cap1) (hsz : v1.size_ = s.length) (hle : s.length ≤ cap1) :
    InPlace v1 m1 l1 cap1 (erase_range N v m ⟨l, f⟩ ⟨l, t⟩) := by
  by_cases hft : f ≤ t
  · by_cases h0 : t - f = 0
    · have hpre : erase_range N v m ⟨l, f⟩ ⟨l, t⟩ = .ok ⟨l1, 0 + f⟩ (v1, m1) := by
        simp [erase_range, ptr_diff, ptr_sub, hl, hft, h0, begin_, hd]
      rw [hpre]
      exact ⟨s, m1.env, hle, by rw [← hsz, put_self hst]⟩
    · by_cases ht : t ≤ s.length
      · obtain ⟨hA1, hB1⟩ := erase_range_after_data v m s l f t hl (by omega) ht v1 m1 l1
          cap1 hd hst hsz
        by_cases hn : no_throw m1.env (3 * (s.length - (t - f) - f))
        · obtain ⟨r, hr⟩ := hA1 hn
          rw [hr]
          exact inPlace_put_ok v1 m1 l1 cap1 r _ _ _ (by simp; omega) (by simp; omega)
        · obtain ⟨d1, hl1, hd1⟩ := hB1 hn
          rw [hd1]
          exact inPlace_put_thrown v1 m1 l1 cap1 _ _ _ hl1.symm (by rw [hl1]; exact hle)
      · have hg : ¬ (t - f ≤ s.length ∧ f ≤ s.length - (t - f)) := by omega
        have hpre : erase_range N v m ⟨l, f⟩ ⟨l, t⟩ = .fault := by
          unfold erase_range
          simp only [ptr_diff, ptr_sub, hl, hft, and_self, if_true, h0, if_false, hd, hsz,
            hg, Nat.zero_le]
        rw [hpre]
        trivial
  · simp [erase_range, ptr_diff, ptr_sub, hl, hft, InPlace]

theorem erase_inPlace {T : Type} {N : Nat} (v : socow_vector T) (m : Mem T) (s : List T)
    (l : Loc) (i : Nat) (hl : base v = some l) (v1 : socow_vector T) (m1 : Mem T)
    (l1 : Loc) (cap1 : Nat) (hd : data N v m = .ok ⟨l1, 0⟩ (v1, m1))
    (hst : Stor N v1 m1 l1 s cap1) (hsz : v1.size_ = s.length) (hle : s.length ≤ cap1) :
    InPlace v1 m1 l1 cap1 (erase N v m ⟨l, i⟩) := by
  unfold erase
  simp only [hl]
  split
  · simp only [end_, hd]
    exact ⟨s, m1.env, hle, by rw [← hsz, put_self hst]⟩
  · exact erase_range_inPlace v m s l i (i + 1) hl v1 m1 l1 cap1 hd hst hsz hle

theorem clear_inPlace {T : Type} {N : Nat} (v : socow_vector T) (m : Mem T) (s : List T)
    (v1 : socow_vector T) (m1 : Mem T) (l1 : Loc) (cap1 : Nat)
    (hd : data N v m = .ok ⟨l1, 0⟩ (v1, m1)) (hst : Stor N v1 m1 l1 s cap1)
    (hsz : v1.size_ = s.length) (hle : s.length ≤ cap1) :
    InPlace v1 m1 l1 cap1 (clear N v m) := by
  have h2 := erase_range_inPlace v1 m1 s l1 0 v1.size_ (stor_base hst) v1 m1 l1 cap1
    (data_stor hst) hst hsz hle
  unfold clear
  simp only [begin_, hd, end_, data_stor hst, Nat.zero_add]
  cases he : erase_range N v1 m1 ⟨l1, 0⟩ ⟨l1, v1.size_⟩ with
  | fault => trivial
  | thrown st => rw [he] at h2; exact h2
  | ok r st => rw [he] at h2; exact h2

theorem write_inPlace {T : Type} [Layout T] {N : Nat} (v : socow_vector T) (m : Mem T) (s : List T)
    (v1 : socow_vector T) (m1 : Mem T) (l1 : Loc) (cap1 : Nat)
    (hd : data N v m = .ok ⟨l1, 0⟩ (v1, m1)) (hst : Stor N v1 m1 l1 s cap1)
    (hsz : v1.size_ = s.length) (hle : s.length ≤ cap1) (acc : accessor) (fwd bwd : Nat)
    (x : T) : InPlace v1 m1 l1 cap1 (apply_op N v m (.write acc fwd bwd x)) := by
  simp only [apply_op, access_eq, hd]
  exact assign_at_inPlace hst hsz hle _ x

theorem pop_back_inPlace_data {T : Type} {N : Nat} (v : socow_vector T) (m : Mem T)
    (s : List T) (v1 : socow_vector T) (m1 : Mem T) (l1 : Loc) (cap1 : Nat)
    (hd : data N v m = .ok ⟨l1, 0⟩ (v1, m1)) (hst : Stor N v1 m1 l1 s cap1)
    (hsz : v1.size_ = s.length) (hle : s.length ≤ cap1) :
    InPlace v1 m1 l1 cap1 (pop_back N v m) := by
  have : pop_back N v m = pop_back N v1 m1 := by
    simp [pop_back, hd, data_stor hst]
  rw [this]
  exact pop_back_inPlace hst hsz hle

theorem insert_inPlace {T : Type} {N : Nat} (v : socow_vector T) (m : Mem T) (l : Loc)
    (i : Nat) (x : T) (hl : base v = some l) (v1 : socow_vector T) (m1 : Mem T) (l1 : Loc)
    (d : List T) (cap1 : Nat) (hpb : push_back N v m (.val x) = .ok () (v1, m1))
    (hst : Stor N v1 m1 l1 d cap1) (hsz : v1.size_ = d.length) (hd : 0 < d.length)
    (hle : d.length ≤ cap1) :
    InPlace v1 m1 l1 cap1 (insert N v m ⟨l, i⟩ (.val x)) := by
  obtain ⟨hA, hB⟩ := insert_after_push v m l i x hl v1 m1 l1 d cap1 hpb hst hsz hd
  by_cases hn : no_throw m1.env (3 * (d.length - 1 - i))
  · obtain ⟨r, hr⟩ := hA hn
    rw [hr]
    exact inPlace_put_ok v1 m1 l1 cap1 r _ _ _ (by rw [insert_pure_length])
      (by rw [insert_pure_length]; exact hle)
  · obtain ⟨d1, hl1, hd1⟩ := hB hn
    rw [hd1]
    exact inPlace_put_thrown v1 m1 l1 cap1 _ _ _ hl1.symm (by rw [hl1]; exact hle)

theorem insert_thrown_of_push {T : Type} {N : Nat} (v : socow_vector T) (m : Mem T) (l : Loc)
    (i : Nat) (x : T) (hl : base v = some l) (st : St T)
    (hpb : push_back N v m (.val x) = .thrown st) :
    insert N v m ⟨l, i⟩ (.val x) = .thrown st := by
  simp [insert, ptr_diff, hl, hpb]

theorem insert_fault_of_push {T : Type} {N : Nat} (v : socow_vector T) (m : Mem T) (pos : ptr)
    (x : T) (hpb : push_back N v m (.val x) = .fault) :
    insert N v m pos (.val x) = .fault := by
  unfold insert
  split
  · rfl
  · rw [hpb]

/-- Where a call that works in place ends: the handle still owns the same
array, exclusively and with the same capacity, and no block was added. -/
theorem inPlace_outcome {T α : Type} {N : Nat} {v : socow_vector T} {m : Mem T} {l : Loc}
    {d0 : List T} {cap : Nat} (hst : Stor N v m l d0 cap) {r : Res (St T) α}
    (h : InPlace v m l cap r) (v2 : socow_vector T) (m2 : Mem T)
    (ho : (∃ a, r = .ok a (v2, m2)) ∨ r = .thrown (v2, m2)) :
    ∃ d e, d.length ≤ cap ∧ (v2, m2) = put v m l d e d.length ∧ Stor N v2 m2 l d cap ∧
      v2.size_ = d.length ∧ m2.heap.length = m.heap.length := by
  have key : ∀ d e, d.length ≤ cap → (v2, m2) = put v m l d e d.length →
      ∃ d e, d.length ≤ cap ∧ (v2, m2) = put v m l d e d.length ∧ Stor N v2 m2 l d cap ∧
        v2.size_ = d.length ∧ m2.heap.length = m.heap.length := by
    intro d e hle hp
    have h1 := stor_put hst d e d.length
    have h2 := put_size v m l d e d.length
    have h3 := put_heap_length v m l d e d.length
    rw [← hp] at h1 h2 h3
    exact ⟨d, e, hle, hp, h1, h2, h3⟩
  rcases ho with ⟨a, ho⟩ | ho
  · rw [ho] at h
    obtain ⟨d, e, hle, hp⟩ := h
    exact key d e hle hp
  · rw [ho] at h
    obtain ⟨d, e, hle, hp⟩ := h
    exact key d e hle hp

theorem push_back_inPlace {T : Type} {N : Nat} {v : socow_vector T} {m : Mem T} {l : Loc}
    {s : List T} {cap : Nat} (h : Stor N v m l s cap) (hn : v.size_ = s.length)
    (hlt : s.length < cap) (x : T) : InPlace v m l cap (push_back N v m (.val x)) := by
  rw [push_back_in_place h hn hlt (.val x) x rfl]
  split
  · exact inPlace_put_ok v m l cap () _ _ _ (by simp) (by simp; omega)
  · exact ⟨s, copies m.env 1, by omega, by rw [← hn, put_same h]⟩

theorem insert_inPlace_room {T : Type} {N : Nat} {v : socow_vector T} {m : Mem T} {l : Loc}
    {s : List T} {cap : Nat} (h : Stor N v m l s cap) (hn : v.size_ = s.length)
    (hlt : s.length < cap) (i : Nat) (x : T) :
    InPlace v m l cap (insert N v m ⟨l, i⟩ (.val x)) := by
  have hl := stor_base h
  have hpb := push_back_in_place h hn hlt (.val x) x rfl
  by_cases hnt : no_throw m.env 1
  · rw [if_pos hnt] at hpb
    have hst1 := stor_put h (s ++ [x]) (copies m.env 1) (s.length + 1)
    have h1 := insert_inPlace v m l i x hl _ _ l (s ++ [x]) cap hpb hst1 (by simp [put_size])
      (by simp) (by simp; omega)
    exact inPlace_trans h _ _ _ h1
  · rw [if_neg hnt] at hpb
    rw [insert_thrown_of_push v m l i x hl _ hpb]
    exact ⟨s, copies m.env 1, by omega, by rw [← hn, put_same h]⟩

/-- C26. For a big container that owns its block `A` exclusively: a
`push_back` or an `insert` with `size() < capacity()`, and an `erase` of one
position, however they end, leave the container on the block `A`, still
exclusive and of the same capacity, with `data()` unchanged and without any
block added to the heap; and each of them returns normally when no copy
failure is armed (for `insert` at an index `i ≤ |s|`, for `erase` at an index
`i < |s|`). -/
theorem exclusive_big_keeps_buffer {T : Type} (N : Nat) (v : socow_vector T) (m : Mem T)
    (A : Nat) (c : big_storage T) (s : List T) (h : BigAt v m A c s) (hr : c.ref_count = 1) :
    data_const v m = .ok ⟨.big A, 0⟩ (v, m) ∧
    (∀ (r : Res (St T) Unit),
      ((∃ x, s.length < c.capacity ∧ r = push_back N v m (.val x)) ∨
       (∃ i x, s.length < c.capacity ∧ r = forget (insert N v m ⟨.big A, i⟩ (.val x))) ∨
       (∃ i, r = forget (erase N v m ⟨.big A, i⟩))) →
      ∀ v2 m2, r = .ok () (v2, m2) ∨ r = .thrown (v2, m2) →
        (∃ d, Stor N v2 m2 (.big A) d c.capacity) ∧ m2.heap.length = m.heap.length ∧
        data_const v2 m2 = .ok ⟨.big A, 0⟩ (v2, m2)) ∧
    (m.env.throw_countdown = 0 →
      (s.length < c.capacity → ∀ x, ∃ v2 m2, push_back N v m (.val x) = .ok () (v2, m2)) ∧
      (s.length < c.capacity → ∀ i x, i ≤ s.length →
        ∃ p v2 m2, insert N v m ⟨.big A, i⟩ (.val x) = .ok p (v2, m2)) ∧
      (∀ i, i < s.length → ∃ p v2 m2, erase N v m ⟨.big A, i⟩ = .ok p (v2, m2))) := by
  have hst := stor_of_bigAt N h hr
  have hH : Holds N v m s := Or.inr ⟨A, c, h⟩
  have hsz := h.2.2.2.1
  have hle := h.2.2.2.2.2.2.2.1
  have hbase : base v = some (.big A) := stor_base hst
  have hbc : begin_const v m = .ok ⟨.big A, 0⟩ (v, m) := by
    simp [begin_const, data_const, hbase]
  have hdc : ∀ (v2 : socow_vector T) (m2 : Mem T) (d : List T),
      Stor N v2 m2 (.big A) d c.capacity → data_const v2 m2 = .ok ⟨.big A, 0⟩ (v2, m2) := by
    intro v2 m2 d h2
    simp [data_const, stor_base h2]
  refine ⟨hdc v m s hst, ?_, ?_⟩
  · intro r hr0 v2 m2 ho
    have hin : InPlace v m (.big A) c.capacity r := by
      rcases hr0 with ⟨x, hlt, rfl⟩ | ⟨i, x, hlt, rfl⟩ | ⟨i, rfl⟩
      · exact push_back_inPlace hst hsz hlt x
      · exact inPlace_forget (insert_inPlace_room hst hsz hlt i x)
      · exact inPlace_forget (erase_inPlace v m s (.big A) i hbase v m (.big A) c.capacity
          (data_stor hst) hst hsz hle)
    obtain ⟨d, e, _, _, h2, _, h4⟩ := inPlace_outcome hst hin v2 m2 (outcome_unit r v2 m2 ho)
    exact ⟨⟨d, h2⟩, h4, hdc v2 m2 d h2⟩
  · intro h0
    refine ⟨?_, ?_, ?_⟩
    · intro hlt x
      obtain ⟨v2, m2, hok, _⟩ := push_back_succeeds N v m s x hH h0 c.capacity
        (capacity_big N h) (by omega)
      exact ⟨v2, m2, hok⟩
    · intro hlt i x hi
      have := (insert_inserts N v m s x i ⟨.big A, 0⟩ hH hbc hi).2 h0
        ⟨c.capacity, capacity_big N h, by omega⟩
      simpa using this
    · intro i hi
      have h3 := erase_range_erases N v m s i (i + 1) ⟨.big A, 0⟩ hH hbc (by omega) (by omega)
      have h4 := h3.2.1 h0
      have h5 := h3.2.2 i hi
      simp only [Nat.zero_add] at h4 h5
      rw [h5]
      exact h4

/-! ## erase of an empty range -/

theorem erase_range_empty_eq {T : Type} (N : Nat) (v : socow_vector T) (m : Mem T) (l : Loc)
    (i : Nat) (hl : base v = some l) :
    erase_range N v m ⟨l, i⟩ ⟨l, i⟩ =
      match data N v m with
      | .ok p st => .ok ⟨p.loc, p.off + i⟩ st
      | .thrown st => .thrown st
      | .fault => .fault := by
  simp [erase_range, ptr_diff, ptr_sub, hl, begin_]

/-- C22, amended. `erase(first, first)` at index `i` of a container holding
`s`.  On exclusive storage (small, or big with reference count one) the call
returns the state unchanged and returns `first`.  In general a call that
returns normally leaves size, elements and capacity unchanged and returns the
position of index `i` in the storage the container then has; on a shared block
that storage is a fresh exclusive block.  A call that throws leaves the handle
and its elements unchanged.  The call returns normally when no copy failure is
armed. -/
theorem erase_empty_range {T : Type} (N : Nat) (v : socow_vector T) (m : Mem T) (s : List T)
    (l : Loc) (i : Nat) (h : Holds N v m s) (hl : base v = some l) :
    (∀ l0 cap, Stor N v m l0 s cap → erase_range N v m ⟨l, i⟩ ⟨l, i⟩ = .ok ⟨l, i⟩ (v, m)) ∧
    (∀ r v1 m1, erase_range N v m ⟨l, i⟩ ⟨l, i⟩ = .ok r (v1, m1) →
      Holds N v1 m1 s ∧ v1.size_ = s.length ∧
      (∃ cap, capacity N v m = .ok cap (v, m) ∧ capacity N v1 m1 = .ok cap (v1, m1)) ∧
      (∃ l1 cap, Stor N v1 m1 l1 s cap ∧ r = ⟨l1, i⟩) ∧
      (∀ A c, BigAt v m A c s → 2 ≤ c.ref_count → v1.big = some m.heap.length)) ∧
    (∀ v1 m1, erase_range N v m ⟨l, i⟩ ⟨l, i⟩ = .thrown (v1, m1) →
      v1 = v ∧ Holds N v m1 s) ∧
    (m.env.throw_countdown = 0 →
      ∃ r v1 m1, erase_range N v m ⟨l, i⟩ ⟨l, i⟩ = .ok r (v1, m1)) := by
  have hpre := erase_range_empty_eq N v m l i hl
  refine ⟨?_, ?_, ?_, ?_⟩
  · intro l0 cap hst
    have : l0 = l := by
      have := stor_base hst
      rw [hl] at this
      injection this with this
      exact this.symm
    subst this
    rw [hpre, data_stor hst]
    simp
  · intro r v1 m1 hok
    rw [hpre] at hok
    cases hd : data N v m with
    | fault => rw [hd] at hok; exact absurd hok (by simp)
    | thrown st => rw [hd] at hok; exact absurd hok (by simp)
    | ok p st =>
      obtain ⟨v2, m2⟩ := st
      rw [hd] at hok
      simp only at hok
      injection hok with hr hst2
      injection hst2 with hv hm
      subst hv; subst hm
      obtain ⟨cap, hst, hoff, hle, hsz, hcap⟩ := data_ok_stor h p v2 m2 hd
      refine ⟨holds_of_stor hst hsz hle, hsz, ⟨cap, hcap, capacity_stor hst⟩,
        ⟨p.loc, cap, hst, by rw [← hr, hoff, Nat.zero_add]⟩, ?_⟩
      intro A c hb hrc
      rw [data_shared N hb hrc] at hd
      split at hd
      · injection hd with _ hd
        injection hd with hv _
        rw [← hv]
      · exact absurd hd (by simp)
  · intro v1 m1 hth
    rw [hpre] at hth
    rcases stor_or_shared h with ⟨l0, cap, hst, hle, hcap⟩ | ⟨A, c, hb, hrc⟩
    · rw [data_stor hst] at hth
      exact absurd hth (by simp)
    · rw [data_shared N hb hrc] at hth
      by_cases hn : no_throw m.env s.length
      · rw [if_pos hn] at hth
        exact absurd hth (by simp)
      · rw [if_neg hn] at hth
        simp only at hth
        injection hth with hth
        injection hth with hv hm
        subst hv; subst hm
        exact ⟨rfl, holds_extend h _ _⟩
  · intro h0
    obtain ⟨p, v1, m1, hd, _⟩ := data_succeeds h h0
    rw [hpre, hd]
    exact ⟨_, _, _, rfl⟩

/-! ## Capacity after an operation -/

theorem data_not_ok {T α : Type} {N : Nat} {v : socow_vector T} {m : Mem T}
    (r : Res (St T) α) (v2 : socow_vector T) (m2 : Mem T) (a : α)
    (hr : r = .ok a (v2, m2))
    (hth : ∀ st, data N v m = .thrown st → r = .thrown st ∨ r = .fault)
    (hf : data N v m = .fault → r = .fault) :
    ∃ p v1 m1, data N v m = .ok p (v1, m1) := by
  cases hd : data N v m with
  | fault => rw [hf hd] at hr; exact absurd hr (by simp)
  | thrown st =>
    rcases hth st hd with h1 | h1
    · rw [h1] at hr; exact absurd hr (by simp)
    · rw [h1] at hr; exact absurd hr (by simp)
  | ok p st => exact ⟨p, st.1, st.2, rfl⟩

/-- A mutating operation other than `push_back`, `insert`, `reserve` and
`shrink_to_fit`: `data()` (through the access paths), then work in place. -/
theorem op_after_data {T : Type} [Layout T] (N : Nat) (v : socow_vector T) (m : Mem T) (s : List T)
    (h : Holds N v m s) (op : mut_op T)
    (hop : (∃ acc fwd bwd x, op = .write acc fwd bwd x) ∨ op = .pop_back ∨
      (∃ i, op = .erase i) ∨ (∃ f t, op = .erase_range f t) ∨ op = .clear) :
    (∀ st, data N v m = .thrown st →
      apply_op N v m op = .thrown st ∨ apply_op N v m op = .fault) ∧
    (data N v m = .fault → apply_op N v m op = .fault) ∧
    (∀ v1 m1 l1 cap1, data N v m = .ok ⟨l1, 0⟩ (v1, m1) → Stor N v1 m1 l1 s cap1 →
      v1.size_ = s.length → s.length ≤ cap1 → InPlace v1 m1 l1 cap1 (apply_op N v m op)) := by
  obtain ⟨l, hl, hbc⟩ := begin_const_holds h
  rcases hop with ⟨acc, fwd, bwd, x, rfl⟩ | rfl | ⟨i, rfl⟩ | ⟨f, t, rfl⟩ | rfl
  · refine ⟨?_, ?_, ?_⟩
    · intro st hd
      exact Or.inl (by simp [apply_op, access_eq, hd])
    · intro hd
      simp [apply_op, access_eq, hd]
    · intro v1 m1 l1 cap1 hd hst hsz hle
      exact write_inPlace v m s v1 m1 l1 cap1 hd hst hsz hle acc fwd bwd x
  · refine ⟨?_, ?_, ?_⟩
    · intro st hd
      exact Or.inl (by simp [apply_op, pop_back, hd])
    · intro hd
      simp [apply_op, pop_back, hd]
    · intro v1 m1 l1 cap1 hd hst hsz hle
      exact pop_back_inPlace_data v m s v1 m1 l1 cap1 hd hst hsz hle
  · refine ⟨?_, ?_, ?_⟩
    · intro st hd
      refine Or.inl ?_
      simp only [apply_op, hbc, Nat.zero_add, erase, hl]
      split
      · simp [end_, hd, forget]
      · simp only [erase_range, ptr_diff, hl, if_true, ptr_sub, and_self, Nat.le_add_right,
          Nat.add_sub_cancel_left, begin_, hd]
        simp [forget]
    · intro hd
      simp only [apply_op, hbc, Nat.zero_add, erase, hl]
      split
      · simp [end_, hd, forget]
      · simp only [erase_range, ptr_diff, hl, if_true, ptr_sub, and_self, Nat.le_add_right,
          Nat.add_sub_cancel_left, begin_, hd]
        simp [forget]
    · intro v1 m1 l1 cap1 hd hst hsz hle
      simp only [apply_op, hbc, Nat.zero_add]
      exact inPlace_forget (erase_inPlace v m s l i hl v1 m1 l1 cap1 hd hst hsz hle)
  · refine ⟨?_, ?_, ?_⟩
    · intro st hd
      simp only [apply_op, hbc, Nat.zero_add, erase_range, ptr_diff, hl, if_true, ptr_sub,
        true_and, begin_, hd]
      split
      · split <;> simp [forget]
      · exact Or.inr rfl
    · intro hd
      simp only [apply_op, hbc, Nat.zero_add, erase_range, ptr_diff, hl, if_true, ptr_sub,
        true_and, begin_, hd]
      split
      · split <;> simp [forget]
      · rfl
    · intro v1 m1 l1 cap1 hd hst hsz hle
      simp only [apply_op, hbc, Nat.zero_add]
      exact inPlace_forget (erase_range_inPlace v m s l f t hl v1 m1 l1 cap1 hd hst hsz hle)
  · refine ⟨?_, ?_, ?_⟩
    · intro st hd
      exact Or.inl (by simp [apply_op, clear, begin_, hd])
    · intro hd
      simp [apply_op, clear, begin_, hd]
    · intro v1 m1 l1 cap1 hd hst hsz hle
      exact clear_inPlace v m s v1 m1 l1 cap1 hd hst hsz hle

theorem capacity_inj {T : Type} {N : Nat} {v : socow_vector T} {m : Mem T} {c1 c2 : Nat}
    (h1 : capacity N v m = .ok c1 (v, m)) (h2 : capacity N v m = .ok c2 (v, m)) : c1 = c2 := by
  rw [h1] at h2
  injection h2

theorem reserve_ok_capacity {T : Type} [Layout T] (N : Nat) (v : socow_vector T) (m : Mem T)
    (s : List T)
    (k cap : Nat) (h : Holds N v m s) (hc : capacity N v m = .ok cap (v, m))
    (v1 : socow_vector T) (m1 : Mem T) (hok : reserve N v m k = .ok () (v1, m1)) :
    ∃ cap1, capacity N v1 m1 = .ok cap1 (v1, m1) ∧ cap ≤ cap1 := by
  rcases stor_or_shared h with ⟨l, cap0, hst, hle, hcap⟩ | ⟨A, c, hb, hr⟩
  · have hcc := capacity_inj hcap hc
    subst hcc
    by_cases hk : k ≤ cap0
    · rw [reserve_noop hst k hk] at hok
      injection hok with _ hok
      injection hok with hv hm
      subst hv; subst hm
      exact ⟨cap0, hcap, le_refl _⟩
    · rw [reserve_grow hst (size_holds h) hle k (by omega)] at hok
      have hfit : storage_fits T k = true := by
        by_contra hfit
        rw [if_neg hfit] at hok
        exact absurd hok (by simp)
      rw [if_pos hfit] at hok
      split at hok
      · injection hok with _ hok
        injection hok with hv hm
        subst hv; subst hm
        have hst1 := stor_after_clone N (heap_released v m) s k (copies m.env s.length)
          false rfl
        rw [heap_released_length] at hst1
        exact ⟨k, capacity_stor hst1, by omega⟩
      · exact absurd hok (by simp)
  · have hcc := capacity_inj (capacity_big N hb) hc
    rw [reserve_shared N hb hr k] at hok
    have hfit : storage_fits T (max k c.capacity) = true := by
      by_contra hfit
      rw [if_neg hfit] at hok
      exact absurd hok (by simp)
    rw [if_pos hfit] at hok
    split at hok
    · injection hok with _ hok
      injection hok with hv hm
      subst hv; subst hm
      have hst1 := stor_after_clone N (m.heap.set A { c with ref_count := c.ref_count - 1 }) s
        (max k c.capacity) (copies m.env s.length) false rfl
      rw [List.length_set] at hst1
      exact ⟨max k c.capacity, capacity_stor hst1, by rw [← hcc]; exact le_max_right _ _⟩
    · exact absurd hok (by simp)

/-! ## What a member function does to its handle and the heap -/

theorem put_clone {T : Type} (h0 : List (big_storage T)) (cap n : Nat) (d0 d : List T)
    (e0 e : Env) (sz : Nat) :
    put (⟨false, n, [], some h0.length⟩ : socow_vector T) ⟨h0 ++ [⟨cap, 1, d0, true⟩], e0⟩
        (.big h0.length) d e sz =
      (⟨false, sz, [], some h0.length⟩, ⟨h0 ++ [⟨cap, 1, d, true⟩], e⟩) := by
  simp [put, set_slots, Mem.set_env, Mem.store, getElem?_at_length, set_at_length]

theorem stor_unique {T : Type} {N : Nat} {v : socow_vector T} {m : Mem T} {l l1 : Loc}
    {d d1 : List T} {cap cap1 : Nat} (h : Stor N v m l d cap) (h1 : Stor N v m l1 d1 cap1) :
    l1 = l ∧ cap1 = cap := by
  have hb := stor_base h
  rw [stor_base h1] at hb
  injection hb with hb
  exact ⟨hb, capacity_inj (capacity_stor h1) (capacity_stor h)⟩

theorem effect_then_inPlace {T α : Type} {N : Nat} {v : socow_vector T} {m : Mem T}
    {s : List T} {v1 : socow_vector T} {m1 : Mem T} {l1 : Loc} {d1 : List T} {cap1 : Nat}
    (h1 : EffIn N v m v1 m1 ∨ EffMoved N v m s v1 m1) (hst : Stor N v1 m1 l1 d1 cap1)
    {r : Res (St T) α} (hin : InPlace v1 m1 l1 cap1 r) (v2 : socow_vector T) (m2 : Mem T)
    (ho : (∃ a, r = .ok a (v2, m2)) ∨ r = .thrown (v2, m2)) :
    EffIn N v m v2 m2 ∨ EffMoved N v m s v2 m2 := by
  obtain ⟨d, e, hle, hp, _, _, _⟩ := inPlace_outcome hst hin v2 m2 ho
  rcases h1 with ⟨l, cap, d0, dd, ee, hs0, hle0, hp0⟩ | ⟨cap0, dd, ee, hle0, hv1, hm1, why⟩
  · have hv1 : v1 = (put v m l dd ee dd.length).1 := by rw [← hp0]
    have hm1 : m1 = (put v m l dd ee dd.length).2 := by rw [← hp0]
    have hst0 := stor_put hs0 dd ee dd.length
    rw [← hv1, ← hm1] at hst0
    obtain ⟨hl, hc⟩ := stor_unique hst0 hst
    subst hl; subst hc
    refine Or.inl ⟨l1, cap1, d0, d, e, hs0, hle, ?_⟩
    rw [hp, hv1, hm1, put_put hs0]
  · have hlen := heap_released_length v m
    have hst0 := stor_after_clone N (heap_released v m) dd cap0 ee false rfl
    rw [hlen, ← hv1, ← hm1] at hst0
    obtain ⟨hl, hc⟩ := stor_unique hst0 hst
    subst hl; subst hc
    refine Or.inr ⟨cap1, d, e, hle, ?_, ?_, why⟩
    · have := congrArg Prod.fst hp
      simp only at this
      rw [this, hv1, hm1, ← hlen, put_clone]
    · have := congrArg Prod.snd hp
      simp only at this
      rw [this, hv1, hm1, ← hlen, put_clone]

theorem effect_after_data {T α : Type} (N : Nat) (v : socow_vector T) (m : Mem T) (s : List T)
    (h : Holds N v m s) (r : Res (St T) α)
    (hth : ∀ st, data N v m = .thrown st → r = .thrown st ∨ r = .fault)
    (hin : ∀ v1 m1 l1 cap1, data N v m = .ok ⟨l1, 0⟩ (v1, m1) → Stor N v1 m1 l1 s cap1 →
      v1.size_ = s.length → s.length ≤ cap1 → InPlace v1 m1 l1 cap1 r)
    (v2 : socow_vector T) (m2 : Mem T)
    (ho : (∃ a, r = .ok a (v2, m2)) ∨ r = .thrown (v2, m2)) : Effect N v m s v2 m2 := by
  rcases stor_or_shared h with ⟨l, cap, hst, hle, hcap⟩ | ⟨A, c, hb, hr⟩
  · have h1 := hin v m l cap (data_stor hst) hst (size_holds h) hle
    obtain ⟨d, e, hle1, hp, _, _, _⟩ := inPlace_outcome hst h1 v2 m2 ho
    exact Or.inl ⟨l, cap, s, d, e, hst, hle1, hp⟩
  · have hd := data_shared N hb hr
    have hcle := hb.2.2.2.2.2.2.2.1
    by_cases hn : no_throw m.env s.length
    · rw [if_pos hn] at hd
      have hst1 := stor_after_clone N (m.heap.set A { c with ref_count := c.ref_count - 1 }) s
        c.capacity (copies m.env s.length) false rfl
      rw [List.length_set] at hst1
      have h1 := hin _ _ _ _ hd hst1 rfl hcle
      have hmv : EffMoved N v m s (⟨false, s.length, [], some m.heap.length⟩ : socow_vector T)
          ⟨m.heap.set A { c with ref_count := c.ref_count - 1 } ++
            [⟨c.capacity, 1, s, true⟩], copies m.env s.length⟩ :=
        ⟨c.capacity, s, copies m.env s.length, hcle, rfl,
          by rw [heap_released_big hb, released_shared c hr], Or.inl ⟨A, c, hb, le_refl _⟩⟩
      rcases effect_then_inPlace (Or.inr hmv) hst1 h1 v2 m2 ho with h2 | h2
      · exact Or.inl h2
      · exact Or.inr (Or.inr (Or.inl h2))
    · rw [if_neg hn] at hd
      have hsame : ∀ st, r = .thrown st → (∃ a, r = .ok a (v2, m2)) ∨ r = .thrown (v2, m2) →
          st = (v2, m2) := by
        intro st hst ho2
        rcases ho2 with ⟨a, h2⟩ | h2
        · rw [hst] at h2; exact absurd h2 (by simp)
        · rw [hst] at h2; injection h2
      rcases hth _ hd with h3 | h3
      · have := hsame _ h3 ho
        injection this with hv hm
        refine Or.inr (Or.inl ⟨hv.symm, [⟨c.capacity, 1, [], false⟩], _, hm.symm, ?_⟩)
        intro b hb1
        simp at hb1
        rw [hb1]
      · rcases ho with ⟨a, h2⟩ | h2
        · rw [h3] at h2; exact absurd h2 (by simp)
        · rw [h3] at h2; exact absurd h2 (by simp)

theorem access_effect {T : Type} (N : Nat) (v : socow_vector T) (m : Mem T) (s : List T)
    (h : Holds N v m s) (acc : accessor) (v2 : socow_vector T) (m2 : Mem T)
    (ho : (∃ p, access N v m acc = .ok p (v2, m2)) ∨ access N v m acc = .thrown (v2, m2)) :
    Effect N v m s v2 m2 := by
  refine effect_after_data N v m s h (access N v m acc) ?_ ?_ v2 m2 ho
  · intro st hd
    exact Or.inl (by rw [access_eq, hd])
  · intro v1 m1 l1 cap1 hd hst hsz hle
    rw [access_eq, hd]
    exact ⟨s, m1.env, hle, by rw [← hsz, put_self hst]⟩

theorem effSame_env {T : Type} (v : socow_vector T) (m : Mem T) (e : Env) :
    EffSame v m v ⟨m.heap, e⟩ :=
  ⟨rfl, [], e, by simp, by simp⟩

theorem effSame_dead {T : Type} (v : socow_vector T) (m : Mem T) (cap : Nat) (e : Env) :
    EffSame v m v ⟨m.heap ++ [⟨cap, 1, [], false⟩], e⟩ :=
  ⟨rfl, [⟨cap, 1, [], false⟩], e, rfl, by
    intro b hb
    simp at hb
    rw [hb]⟩

theorem push_back_effect {T : Type} (N : Nat) (v : socow_vector T) (m : Mem T) (s : List T)
    (x : T) (h : Holds N v m s) (v2 : socow_vector T) (m2 : Mem T) :
    (push_back N v m (.val x) = .ok () (v2, m2) →
      EffIn N v m v2 m2 ∨ EffMoved N v m s v2 m2) ∧
    (push_back N v m (.val x) = .thrown (v2, m2) → Effect N v m s v2 m2) := by
  have hgrow : capacity N v m = .ok s.length (v, m) →
      (push_back N v m (.val x) = .ok () (v2, m2) →
        EffIn N v m v2 m2 ∨ EffMoved N v m s v2 m2) ∧
      (push_back N v m (.val x) = .thrown (v2, m2) → Effect N v m s v2 m2) := by
    intro hfull
    rw [push_back_grow h hfull (.val x) x rfl]
    constructor
    · intro hok
      split at hok
      · split at hok
        · injection hok with _ hok
          injection hok with hv hm
          refine Or.inr ⟨s.length * 2, s ++ [x], _, by simp; omega, by rw [← hv]; simp,
            hm.symm, ?_⟩
          rcases h with hs | ⟨A, c, hb⟩
          · have := capacity_inj (capacity_small m hs) hfull
            exact Or.inr (Or.inr (by rw [this]))
          · have := capacity_inj (capacity_big N hb) hfull
            exact Or.inl ⟨A, c, hb, by omega⟩
        · exact absurd hok (by simp)
      · split at hok <;> exact absurd hok (by simp)
    · intro hth
      split at hth
      · split at hth <;> exact absurd hth (by simp)
      · have hpos : 0 < s.length := by
          by_contra hp
          rw [if_neg hp] at hth
          exact absurd hth (by simp)
        rw [if_pos hpos] at hth
        injection hth with hth
        injection hth with hv hm
        rw [← hv, ← hm]
        exact Or.inr (Or.inl (effSame_dead v m _ _))
  rcases stor_or_shared h with ⟨l, cap, hst, hle, hcap⟩ | ⟨A, c, hb, hr⟩
  · by_cases hfull : s.length = cap
    · exact hgrow (by rw [hcap, hfull])
    · rw [push_back_in_place hst (size_holds h) (by omega) (.val x) x rfl]
      constructor
      · intro hok
        split at hok
        · injection hok with _ hok
          exact Or.inl ⟨l, cap, s, s ++ [x], copies m.env 1, hst, by simp; omega,
            by rw [← hok]; simp⟩
        · exact absurd hok (by simp)
      · intro hth
        split at hth
        · exact absurd hth (by simp)
        · injection hth with hth
          injection hth with hv hm
          rw [← hv, ← hm]
          exact Or.inr (Or.inl (effSame_env v m _))
  · have hcap := capacity_big N hb
    have hle := hb.2.2.2.2.2.2.2.1
    by_cases hfull : s.length = c.capacity
    · exact hgrow (by rw [hcap, hfull])
    · rw [push_back_shared N hb hr (by omega) (.val x) x rfl]
      have hrel : heap_released v m = m.heap.set A { c with ref_count := c.ref_count - 1 } := by
        rw [heap_released_big hb, released_shared c hr]
      constructor
      · intro hok
        split at hok
        · split at hok
          · injection hok with _ hok
            injection hok with hv hm
            exact Or.inr ⟨c.capacity, s ++ [x], _, by simp; omega, by rw [← hv]; simp,
              by rw [← hm, hrel], Or.inl ⟨A, c, hb, le_refl _⟩⟩
          · exact absurd hok (by simp)
        · exact absurd hok (by simp)
      · intro hth
        split at hth
        · split at hth
          · exact absurd hth (by simp)
          · injection hth with hth
            injection hth with hv hm
            exact Or.inr (Or.inr (Or.inl ⟨c.capacity, s, _, hle, hv.symm,
              by rw [← hm, hrel], Or.inl ⟨A, c, hb, le_refl _⟩⟩))
        · injection hth with hth
          injection hth with hv hm
          rw [← hv, ← hm]
          exact Or.inr (Or.inl (effSame_dead v m _ _))

theorem reserve_effect {T : Type} [Layout T] (N : Nat) (v : socow_vector T) (m : Mem T) (s : List T)
    (k : Nat) (h : Holds N v m s) (v2 : socow_vector T) (m2 : Mem T)
    (ho : reserve N v m k = .ok () (v2, m2) ∨ reserve N v m k = .thrown (v2, m2)) :
    Effect N v m s v2 m2 := by
  have hout : ∀ (cap1 : Nat) (hr : List (big_storage T)), heap_released v m = hr →
      s.length ≤ cap1 →
      ((∃ A c, BigAt v m A c s ∧ c.capacity ≤ cap1) ∨ N < cap1 ∨ cap1 = N * 2) →
      reserve N v m k =
        (if storage_fits T cap1 then
          (if no_throw m.env s.length then
            .ok () (⟨false, s.length, [], some m.heap.length⟩,
              ⟨hr ++ [⟨cap1, 1, s, true⟩], copies m.env s.length⟩)
          else
            .thrown (v, ⟨m.heap ++ [⟨cap1, 1, [], false⟩],
              copies m.env m.env.throw_countdown⟩))
        else .fault) →
      Effect N v m s v2 m2 := by
    intro cap1 hr hrel hle why heq
    rw [heq] at ho
    have hfit : storage_fits T cap1 = true := by
      by_contra hfit
      rw [if_neg hfit] at ho
      rcases ho with ho | ho <;> exact absurd ho (by simp)
    rw [if_pos hfit] at ho
    split at ho
    · rcases ho with ho | ho
      · injection ho with _ ho
        injection ho with hv hm
        exact Or.inr (Or.inr (Or.inl ⟨cap1, s, _, hle, hv.symm, by rw [← hm, hrel], why⟩))
      · exact absurd ho (by simp)
    · rcases ho with ho | ho
      · exact absurd ho (by simp)
      · injection ho with ho
        injection ho with hv hm
        rw [← hv, ← hm]
        exact Or.inr (Or.inl (effSame_dead v m _ _))
  rcases stor_or_shared h with ⟨l, cap, hst, hle, hcap⟩ | ⟨A, c, hb, hr⟩
  · by_cases hk : k ≤ cap
    · rw [reserve_noop hst k hk] at ho
      rcases ho with ho | ho
      · injection ho with _ ho
        injection ho with hv hm
        rw [← hv, ← hm]
        exact Or.inr (Or.inl (effSame_env v m _))
      · exact absurd ho (by simp)
    · refine hout k _ rfl (by omega) ?_ (reserve_grow hst (size_holds h) hle k (by omega))
      rcases h with hs | ⟨A, c, hb⟩
      · have := capacity_inj (capacity_small m hs) hcap
        exact Or.inr (Or.inl (by omega))
      · have := capacity_inj (capacity_big N hb) hcap
        exact Or.inl ⟨A, c, hb, by omega⟩
  · exact hout (max k c.capacity) _ (by rw [heap_released_big hb, released_shared c hr])
      (le_trans hb.2.2.2.2.2.2.2.1 (le_max_right _ _)) (Or.inl ⟨A, c, hb, le_max_right _ _⟩)
      (reserve_shared N hb hr k)

theorem shrink_to_fit_effect {T : Type} (N : Nat) (v : socow_vector T) (m : Mem T)
    (s : List T) (h : Holds N v m s) (v2 : socow_vector T) (m2 : Mem T)
    (ho : shrink_to_fit N v m = .ok () (v2, m2) ∨ shrink_to_fit N v m = .thrown (v2, m2)) :
    Effect N v m s v2 m2 := by
  have hsame : (.ok () (v, m) : Res (St T) Unit) = .ok () (v2, m2) ∨
      (.ok () (v, m) : Res (St T) Unit) = .thrown (v2, m2) → Effect N v m s v2 m2 := by
    intro ho
    rcases ho with ho | ho
    · injection ho with _ ho
      injection ho with hv hm
      rw [← hv, ← hm]
      exact Or.inr (Or.inl (effSame_env v m _))
    · exact absurd ho (by simp)
  rcases h with hs | ⟨A, c, hb⟩
  · rw [shrink_to_fit_small m hs] at ho
    exact hsame ho
  · rw [shrink_to_fit_big N hb] at ho
    split at ho
    · exact hsame ho
    · split at ho
      · rename_i hfull hsmall
        split at ho
        · rcases ho with ho | ho
          · injection ho with _ ho
            injection ho with hv hm
            exact Or.inr (Or.inr (Or.inr ⟨A, c, _, hb, hsmall, hv.symm, hm.symm⟩))
          · exact absurd ho (by simp)
        · rcases ho with ho | ho
          · exact absurd ho (by simp)
          · injection ho with ho
            injection ho with hv hm
            rw [← hv, ← hm]
            exact Or.inr (Or.inl (effSame_env v m _))
      · rename_i hfull hsmall
        split at ho
        · rcases ho with ho | ho
          · injection ho with _ ho
            injection ho with hv hm
            exact Or.inr (Or.inr (Or.inl ⟨s.length, s, _, le_refl _, hv.symm,
              by rw [← hm, heap_released_big hb], Or.inr (Or.inl (by omega))⟩))
          · exact absurd ho (by simp)
        · rcases ho with ho | ho
          · exact absurd ho (by simp)
          · injection ho with ho
            injection ho with hv hm
            rw [← hv, ← hm]
            exact Or.inr (Or.inl (effSame_dead v m _ _))

/-- Every mutating operation on a valid handle, however it ends, has one of
the four effects. -/
theorem apply_op_effect {T : Type} [Layout T] (N : Nat) (v : socow_vector T) (m : Mem T)
    (s : List T)
    (h : Holds N v m s) (op : mut_op T) (v2 : socow_vector T) (m2 : Mem T)
    (ho : apply_op N v m op = .ok () (v2, m2) ∨ apply_op N v m op = .thrown (v2, m2)) :
    Effect N v m s v2 m2 := by
  have hdata : ∀ (op : mut_op T),
      ((∃ acc fwd bwd x, op = .write acc fwd bwd x) ∨ op = .pop_back ∨
        (∃ i, op = .erase i) ∨ (∃ f t, op = .erase_range f t) ∨ op = .clear) →
      (apply_op N v m op = .ok () (v2, m2) ∨ apply_op N v m op = .thrown (v2, m2)) →
      Effect N v m s v2 m2 := by
    intro op hop ho
    obtain ⟨hth, _, hin⟩ := op_after_data N v m s h op hop
    exact effect_after_data N v m s h (apply_op N v m op) hth hin v2 m2
      (outcome_unit _ v2 m2 ho)
  cases op with
  | write acc fwd bwd x => exact hdata _ (Or.inl ⟨acc, fwd, bwd, x, rfl⟩) ho
  | pop_back => exact hdata _ (Or.inr (Or.inl rfl)) ho
  | erase i => exact hdata _ (Or.inr (Or.inr (Or.inl ⟨i, rfl⟩))) ho
  | erase_range f t => exact hdata _ (Or.inr (Or.inr (Or.inr (Or.inl ⟨f, t, rfl⟩)))) ho
  | clear => exact hdata _ (Or.inr (Or.inr (Or.inr (Or.inr rfl)))) ho
  | shrink_to_fit => exact shrink_to_fit_effect N v m s h v2 m2 ho
  | reserve k => exact reserve_effect N v m s k h v2 m2 ho
  | push_back x =>
    rcases ho with ho | ho
    · rcases (push_back_effect N v m s x h v2 m2).1 ho with h1 | h1
      · exact Or.inl h1
      · exact Or.inr (Or.inr (Or.inl h1))
    · exact (push_back_effect N v m s x h v2 m2).2 ho
  | insert i x =>
    obtain ⟨l, hl, hbc⟩ := begin_const_holds h
    simp only [apply_op, hbc, Nat.zero_add] at ho
    cases hpb : push_back N v m (.val x) with
    | fault =>
      rw [insert_fault_of_push v m _ x hpb] at ho
      rcases ho with ho | ho <;> exact absurd ho (by simp [forget])
    | thrown st =>
      rw [insert_thrown_of_push v m l i x hl st hpb] at ho
      rcases ho with ho | ho
      · exact absurd ho (by simp [forget])
      · simp only [forget] at ho
        injection ho with ho
        rw [ho] at hpb
        exact (push_back_effect N v m s x h v2 m2).2 hpb
    | ok u st =>
      obtain ⟨v1, m1⟩ := st
      obtain ⟨l1, cap1, cap0, hst, hle, hsz, _, _⟩ := push_back_ok_stor N v m s x h v1 m1 hpb
      have hin := insert_inPlace v m l i x hl v1 m1 l1 (s ++ [x]) cap1 hpb hst
        (by simp [hsz]) (by simp) (by simpa using hle)
      rcases effect_then_inPlace ((push_back_effect N v m s x h v1 m1).1 hpb) hst hin v2 m2
        (forget_outcome _ v2 m2 ho) with h1 | h1
      · exact Or.inl h1
      · exact Or.inr (Or.inr (Or.inl h1))

/-! ## Counting the handles that reference a block -/

theorem refs_cons {T : Type} (a : socow_vector T) (t : List (socow_vector T)) (A : Nat) :
    refs (a :: t) A = refs t A + (if tgt a = some A then 1 else 0) := by
  simp [refs, List.countP_cons]

theorem refs_set {T : Type} (objs : List (socow_vector T)) (i : Nat) (v v2 : socow_vector T)
    (A : Nat) (h : objs[i]? = some v) :
    refs (objs.set i v2) A + (if tgt v = some A then 1 else 0) =
      refs objs A + (if tgt v2 = some A then 1 else 0) := by
  induction objs generalizing i with
  | nil => simp at h
  | cons a t ih =>
    cases i with
    | zero =>
      simp only [List.getElem?_cons_zero, Option.some.injEq] at h
      subst h
      simp only [List.set_cons_zero, refs_cons]
      omega
    | succ k =>
      simp only [List.getElem?_cons_succ] at h
      have := ih k h
      simp only [List.set_cons_succ, refs_cons]
      omega

theorem refs_append_one {T : Type} (objs : List (socow_vector T)) (w : socow_vector T)
    (A : Nat) : refs (objs ++ [w]) A = refs objs A + (if tgt w = some A then 1 else 0) := by
  induction objs with
  | nil => simp [refs, List.countP_cons]
  | cons a t ih =>
    simp only [List.cons_append, refs_cons, ih]
    omega

theorem refs_eraseIdx {T : Type} (objs : List (socow_vector T)) (i : Nat) (v : socow_vector T)
    (A : Nat) (h : objs[i]? = some v) :
    refs (objs.eraseIdx i) A + (if tgt v = some A then 1 else 0) = refs objs A := by
  induction objs generalizing i with
  | nil => simp at h
  | cons a t ih =>
    cases i with
    | zero =>
      simp only [List.getElem?_cons_zero, Option.some.injEq] at h
      subst h
      simp only [List.eraseIdx_cons_zero, refs_cons]
    | succ k =>
      simp only [List.getElem?_cons_succ] at h
      have := ih k h
      simp only [List.eraseIdx_cons_succ, refs_cons]
      omega

theorem mem_of_get {α : Type} {l : List α} {i : Nat} {a : α} (h : l[i]? = some a) : a ∈ l :=
  List.mem_iff_getElem?.mpr ⟨i, h⟩

theorem refs_pos {T : Type} (objs : List (socow_vector T)) (j : Nat) (w : socow_vector T)
    (A : Nat) (h : objs[j]? = some w) (ht : tgt w = some A) : 1 ≤ refs objs A := by
  have hm : w ∈ objs := mem_of_get h
  exact List.countP_pos_iff.mpr ⟨w, hm, by simp [ht]⟩

theorem refs_zero {T : Type} (objs : List (socow_vector T)) (A : Nat)
    (h : ∀ w ∈ objs, tgt w ≠ some A) : refs objs A = 0 := by
  apply List.countP_eq_zero.mpr
  intro w hw
  simp [h w hw]

theorem refs_two {T : Type} (objs : List (socow_vector T)) (i j : Nat) (v w : socow_vector T)
    (A : Nat) (hi : objs[i]? = some v) (hj : objs[j]? = some w) (hne : j ≠ i)
    (hv : tgt v = some A) (hw : tgt w = some A) : 2 ≤ refs objs A := by
  have h1 := refs_set objs i v default_ctor A hi
  have h2 : (objs.set i default_ctor)[j]? = some w := by
    rw [List.getElem?_set_ne (Ne.symm hne)]
    exact hj
  have h3 := refs_pos _ j w A h2 hw
  have h4 : tgt (default_ctor : socow_vector T) ≠ some A := by simp [tgt, default_ctor]
  rw [if_pos hv, if_neg h4] at h1
  omega

theorem mem_set_cases {α : Type} (l : List α) (i : Nat) (a w : α) (h : w ∈ l.set i a) :
    w = a ∨ ∃ j, j ≠ i ∧ l[j]? = some w := by
  obtain ⟨j, hj⟩ := List.mem_iff_getElem?.mp h
  by_cases hij : i = j
  · subst hij
    by_cases hlt : i < l.length
    · rw [List.getElem?_set_self hlt] at hj
      injection hj with hj
      exact Or.inl hj.symm
    · rw [List.getElem?_eq_none (by simp; omega)] at hj
      exact absurd hj (by simp)
  · rw [List.getElem?_set_ne hij] at hj
    exact Or.inr ⟨j, fun hh => hij hh.symm, hj⟩

theorem tgt_big {T : Type} {v : socow_vector T} {m : Mem T} {A : Nat} {c : big_storage T}
    {s : List T} (h : BigAt v m A c s) : tgt v = some A := by
  simp [tgt, h.1, h.2.2.1]

theorem tgt_small {T : Type} {N : Nat} {v : socow_vector T} {s : List T} (h : SmallAt N v s) :
    tgt v = none := by
  simp [tgt, h.1]

theorem holds_tgt {T : Type} {N : Nat} {w : socow_vector T} {m : Mem T} {s : List T} {B : Nat}
    (h : Holds N w m s) (ht : tgt w = some B) : ∃ b, BigAt w m B b s := by
  rcases h with h | ⟨A, c, h⟩
  · rw [tgt_small h] at ht
    exact absurd ht (by simp)
  · rw [tgt_big h] at ht
    injection ht with ht
    subst ht
    exact ⟨c, h⟩

/-- The invariant after a call on the object at index `i`, from what the call
did cell by cell: the other blocks are as they were; the block of the handle
keeps its reference count if the handle stays on it, and has been released
once if the handle left it; a block that is new and live is referenced by the
handle alone. -/
theorem inv_cells {T : Type} (N : Nat) (objs : List (socow_vector T)) (m : Mem T) (i : Nat)
    (v v2 : socow_vector T) (m2 : Mem T) (hv : Valid N ⟨objs, m⟩) (hr : RefInv ⟨objs, m⟩)
    (hi : objs[i]? = some v) (H1 : ∃ s2, Holds N v2 m2 s2)
    (H2 : ∀ B b, m.heap[B]? = some b → tgt v ≠ some B → m2.heap[B]? = some b)
    (H3 : ∀ A c, tgt v = some A → m.heap[A]? = some c →
      (tgt v2 = some A ∧ ∃ c2, m2.heap[A]? = some c2 ∧ c2.ref_count = c.ref_count ∧
        (2 ≤ c.ref_count → c2 = c)) ∨
      (tgt v2 ≠ some A ∧ m2.heap[A]? = some (released c)))
    (H4 : ∀ B b, m.heap.length ≤ B → m2.heap[B]? = some b → b.live = true →
      tgt v2 = some B ∧ b.ref_count = 1)
    (H5 : ∀ B, tgt v2 = some B → tgt v = some B ∨ m.heap.length ≤ B) :
    Valid N ⟨objs.set i v2, m2⟩ ∧ RefInv ⟨objs.set i v2, m2⟩ := by
  obtain ⟨sv, hsv⟩ := hv v (mem_of_get hi)
  have hlt : ∀ (w : socow_vector T) (B : Nat), w ∈ objs → tgt w = some B →
      B < m.heap.length := by
    intro w B hw ht
    obtain ⟨sw, hsw⟩ := hv w hw
    obtain ⟨b, hb⟩ := holds_tgt hsw ht
    exact addr_lt hb
  constructor
  · intro w hw
    simp only at hw
    rcases mem_set_cases objs i v2 w hw with rfl | ⟨j, hji, hj⟩
    · exact H1
    · obtain ⟨sw, hsw⟩ := hv w (mem_of_get hj)
      refine ⟨sw, ?_⟩
      rcases hsw with hsw | ⟨B, b, hb⟩
      · exact Or.inl hsw
      · obtain ⟨h1, h2, h3, h4, h5, h6, h7, h8, h9⟩ := id hb
        by_cases hvB : tgt v = some B
        · have h2r := refs_two objs i j v w B hi hj hji hvB (tgt_big hb)
          have hrc : 2 ≤ b.ref_count := by
            have := (hr B b h5 h6).1
            simp only at this
            omega
          rcases H3 B b hvB h5 with ⟨_, c2, hc2, _, hsame⟩ | ⟨_, hrel⟩
          · rw [hsame hrc] at hc2
            exact Or.inr ⟨B, b, h1, h2, h3, h4, hc2, h6, h7, h8, h9⟩
          · rw [released_shared b hrc] at hrel
            exact Or.inr ⟨B, _, h1, h2, h3, h4, hrel, h6, h7, h8, by simp; omega⟩
        · exact Or.inr ⟨B, b, h1, h2, h3, h4, H2 B b h5 hvB, h6, h7, h8, h9⟩
  · intro B b2 hb2 hlive
    simp only at hb2 ⊢
    have hset := refs_set objs i v v2 B hi
    by_cases hB : B < m.heap.length
    · obtain ⟨b, hb⟩ : ∃ b, m.heap[B]? = some b := ⟨m.heap[B], List.getElem?_eq_getElem hB⟩
      by_cases hvB : tgt v = some B
      · obtain ⟨c, hc⟩ := holds_tgt hsv hvB
        have hcb : m.heap[B]? = some c := hc.2.2.2.2.1
        have hcl : c.live = true := hc.2.2.2.2.2.1
        obtain ⟨hrc, hpos⟩ := hr B c hcb hcl
        simp only at hrc
        rcases H3 B c hvB hcb with ⟨ht2, c2, hc2, hrc2, _⟩ | ⟨ht2, hrel⟩
        · rw [hc2] at hb2
          injection hb2 with hb2
          subst hb2
          rw [if_pos hvB, if_pos ht2] at hset
          exact ⟨by omega, by omega⟩
        · rw [hrel] at hb2
          injection hb2 with hb2
          subst hb2
          rw [if_pos hvB, if_neg ht2] at hset
          by_cases h1 : c.ref_count = 1
          · simp [released, h1] at hlive
          · simp only [released, h1, if_false]
            exact ⟨by omega, by omega⟩
      · have hsame := H2 B b hb hvB
        rw [hsame] at hb2
        injection hb2 with hb2
        subst hb2
        have ht2 : tgt v2 ≠ some B := by
          intro hh
          rcases H5 B hh with h5 | h5
          · exact hvB h5
          · omega
        rw [if_neg hvB, if_neg ht2] at hset
        obtain ⟨hrc, hpos⟩ := hr B b hb hlive
        simp only at hrc
        exact ⟨by omega, hpos⟩
    · obtain ⟨ht2, hone⟩ := H4 B b2 (by omega) hb2 hlive
      have hvB : tgt v ≠ some B := fun hh => hB (hlt v B (mem_of_get hi) hh)
      have hz : refs objs B = 0 := refs_zero objs B (fun w hw hh => hB (hlt w B hw hh))
      rw [if_neg hvB, if_pos ht2] at hset
      exact ⟨by omega, by omega⟩

theorem put_tgt {T : Type} (v : socow_vector T) (m : Mem T) (l : Loc) (d : List T) (e : Env)
    (sz : Nat) : tgt (put v m l d e sz).1 = tgt v := by
  cases l with
  | small => rfl
  | big a =>
    simp only [put, set_slots, Mem.set_env]
    split <;> rfl

theorem heap_released_frame {T : Type} (v : socow_vector T) (m : Mem T) (B : Nat)
    (h : tgt v ≠ some B) : (heap_released v m)[B]? = m.heap[B]? := by
  unfold heap_released
  split
  · rfl
  · rename_i hs
    split
    · rename_i a ha
      have hne : a ≠ B := by
        intro hh
        apply h
        simp [tgt, hs, ha, hh]
      split
      · rw [List.getElem?_set_ne hne]
      · rfl
    · rfl

theorem heap_released_own {T : Type} (v : socow_vector T) (m : Mem T) (A : Nat)
    (c : big_storage T) (h : tgt v = some A) (hc : m.heap[A]? = some c) :
    (heap_released v m)[A]? = some (released c) := by
  have hs : v.is_small = false := by
    cases hv : v.is_small
    · rfl
    · simp [tgt, hv] at h
  have hb : v.big = some A := by simpa [tgt, hs] using h
  simp only [heap_released, hs, hb, hc]
  exact List.getElem?_set_self (List.getElem?_eq_some.mp hc).1

theorem stor_tgt_big {T : Type} {N : Nat} {v : socow_vector T} {m : Mem T} {l : Loc}
    {d : List T} {cap : Nat} {A : Nat} (h : Stor N v m l d cap) (ht : tgt v = some A) :
    l = .big A ∧ ∃ b, m.heap[A]? = some b ∧ b.ref_count = 1 := by
  rcases h with ⟨hs, _, _, _⟩ | ⟨hs, _, a, b, hb, hl, ha, _, _, _, hr⟩
  · simp [tgt, hs] at ht
  · have : a = A := by
      have h2 : tgt v = some a := by simp [tgt, hs, hb]
      rw [h2] at ht
      injection ht
    subst this
    exact ⟨hl, b, ha, hr⟩

theorem stor_big_tgt {T : Type} {N : Nat} {v : socow_vector T} {m : Mem T} {d : List T}
    {cap : Nat} {A : Nat} (h : Stor N v m (.big A) d cap) : tgt v = some A := by
  rcases h with ⟨_, _, hl, _⟩ | ⟨hs, _, a, b, hb, hl, _⟩
  · exact absurd hl (by simp)
  · injection hl with hl
    subst hl
    simp [tgt, hs, hb]

/-- The invariant is kept by a call on the object at index `i` that has one of
the four effects. -/
theorem inv_effect {T : Type} (N : Nat) (objs : List (socow_vector T)) (m : Mem T) (i : Nat)
    (v : socow_vector T) (s : List T) (v2 : socow_vector T) (m2 : Mem T)
    (hv : Valid N ⟨objs, m⟩) (hr : RefInv ⟨objs, m⟩) (hi : objs[i]? = some v)
    (hs : Holds N v m s) (he : Effect N v m s v2 m2) :
    Valid N ⟨objs.set i v2, m2⟩ ∧ RefInv ⟨objs.set i v2, m2⟩ := by
  rcases he with ⟨l, cap, d0, d, e, hst, hle, hp⟩ | ⟨hv2, ext, e, hm2, hdead⟩ |
    ⟨cap1, d, e, hle, hv2, hm2, _⟩ | ⟨A, c, e, hb, hle, hv2, hm2⟩
  · have hv2 : v2 = (put v m l d e d.length).1 := by rw [← hp]
    have hm2 : m2 = (put v m l d e d.length).2 := by rw [← hp]
    have hst2 := stor_put hst d e d.length
    rw [← hv2, ← hm2] at hst2
    have ht : tgt v2 = tgt v := by rw [hv2, put_tgt]
    have hlen : m2.heap.length = m.heap.length := by rw [hm2, put_heap_length]
    refine inv_cells N objs m i v v2 m2 hv hr hi
      ⟨d, holds_of_stor hst2 (by rw [hv2]; rfl) hle⟩ ?_ ?_ ?_ ?_
    · intro B b hb hne
      have hl : l ≠ .big B := by
        intro hh
        subst hh
        exact hne (stor_big_tgt hst)
      rw [hm2, put_frame v m l d e d.length B hl]
      exact hb
    · intro A c htA hc
      obtain ⟨hl, b, hb, hr1⟩ := stor_tgt_big hst htA
      rw [hc] at hb
      injection hb with hb
      subst hb
      have ht2 : tgt v2 = some A := by rw [ht, htA]
      obtain ⟨_, b2, hb2, hr2⟩ := stor_tgt_big hst2 ht2
      exact Or.inl ⟨ht2, b2, hb2, by rw [hr2, hr1], fun h2 => absurd h2 (by omega)⟩
    · intro B b hB hb _
      rw [List.getElem?_eq_none (by omega)] at hb
      exact absurd hb (by simp)
    · intro B hB
      exact Or.inl (by rw [← ht, hB])
  · subst hv2
    subst hm2
    refine inv_cells N objs m i v2 v2 _ hv hr hi ⟨s, holds_extend hs ext e⟩ ?_ ?_ ?_ ?_
    · intro B b hb _
      simp only
      rw [List.getElem?_append_left (List.getElem?_eq_some.mp hb).1]
      exact hb
    · intro A c htA hc
      refine Or.inl ⟨htA, c, ?_, rfl, fun _ => rfl⟩
      simp only
      rw [List.getElem?_append_left (List.getElem?_eq_some.mp hc).1]
      exact hc
    · intro B b hB hb hlive
      simp only at hb
      rw [List.getElem?_append_right hB] at hb
      have := hdead b (mem_of_get hb)
      rw [this] at hlive
      exact absurd hlive (by simp)
    · intro B hB
      exact Or.inl hB
  · have hlen := heap_released_length v m
    have hbig := bigAt_after_clone (heap_released v m) d cap1 e hle
    rw [hlen, ← hv2, ← hm2] at hbig
    have ht2 : tgt v2 = some m.heap.length := by rw [hv2]; rfl
    refine inv_cells N objs m i v v2 m2 hv hr hi ⟨d, Or.inr ⟨_, _, hbig⟩⟩ ?_ ?_ ?_ ?_
    · intro B b hb hne
      rw [hm2]
      simp only
      rw [List.getElem?_append_left (by rw [hlen]; exact (List.getElem?_eq_some.mp hb).1),
        heap_released_frame v m B hne]
      exact hb
    · intro A c htA hc
      have hA := (List.getElem?_eq_some.mp hc).1
      refine Or.inr ⟨?_, ?_⟩
      · rw [ht2]
        intro hh
        injection hh with hh
        omega
      · rw [hm2]
        simp only
        rw [List.getElem?_append_left (by rw [hlen]; exact hA)]
        exact heap_released_own v m A c htA hc
    · intro B b hB hb _
      rw [hm2] at hb
      simp only at hb
      rw [List.getElem?_append_right (by rw [hlen]; exact hB), hlen] at hb
      by_cases h0 : B - m.heap.length = 0
      · rw [h0] at hb
        simp only [List.getElem?_cons_zero, Option.some.injEq] at hb
        have hBe : B = m.heap.length := by omega
        rw [← hb, hBe]
        exact ⟨ht2, rfl⟩
      · rw [List.getElem?_eq_none (by simp; omega)] at hb
        exact absurd hb (by simp)
    · intro B hB
      rw [ht2] at hB
      injection hB with hB
      exact Or.inr (by omega)
  · have ht2 : tgt v2 = none := by rw [hv2]; rfl
    have hA := addr_lt hb
    refine inv_cells N objs m i v v2 m2 hv hr hi
      ⟨s, Or.inl (by rw [hv2]; exact ⟨rfl, rfl, rfl, hle⟩)⟩ ?_ ?_ ?_ ?_
    · intro B b hbB hne
      have hAB : A ≠ B := by
        intro hh
        subst hh
        exact hne (tgt_big hb)
      rw [hm2]
      simp only
      rw [List.getElem?_set_ne hAB]
      exact hbB
    · intro A1 c1 htA hc
      have hAA : A1 = A := by
        rw [tgt_big hb] at htA
        injection htA with htA
        exact htA.symm
      subst hAA
      have hcc : c1 = c := by
        rw [hb.2.2.2.2.1] at hc
        injection hc with hc
        exact hc.symm
      subst hcc
      refine Or.inr ⟨by rw [ht2]; simp, ?_⟩
      rw [hm2]
      exact List.getElem?_set_self hA
    · intro B b hB hbB _
      rw [hm2] at hbB
      simp only at hbB
      rw [List.getElem?_eq_none (by simp; omega)] at hbB
      exact absurd hbB (by simp)
    · intro B hB
      rw [ht2] at hB
      exact absurd hB (by simp)

/-! ## The invariant under construction, copy and destruction -/

theorem set_same {α : Type} (l : List α) (i : Nat) (a : α) (h : l[i]? = some a) :
    l.set i a = l := by
  apply List.ext_getElem?
  intro j
  by_cases hij : i = j
  · subst hij
    rw [List.getElem?_set_self (List.getElem?_eq_some.mp h).1, h]
  · rw [List.getElem?_set_ne hij]

theorem eraseIdx_set_self {α : Type} (l : List α) (i : Nat) (a : α) :
    (l.set i a).eraseIdx i = l.eraseIdx i := by
  induction l generalizing i with
  | nil => rfl
  | cons x t ih =>
    cases i with
    | zero => rfl
    | succ k => simp [ih k]

theorem inv_env {T : Type} (N : Nat) (objs : List (socow_vector T)) (m : Mem T) (e : Env)
    (hv : Valid N ⟨objs, m⟩) (hr : RefInv ⟨objs, m⟩) :
    Valid N ⟨objs, ⟨m.heap, e⟩⟩ ∧ RefInv ⟨objs, ⟨m.heap, e⟩⟩ := by
  constructor
  · intro w hw
    obtain ⟨s, hs⟩ := hv w hw
    exact ⟨s, holds_env hs e⟩
  · exact hr

theorem inv_append_small {T : Type} (N : Nat) (objs : List (socow_vector T)) (m : Mem T)
    (t : socow_vector T) (s : List T) (ht : SmallAt N t s)
    (hv : Valid N ⟨objs, m⟩) (hr : RefInv ⟨objs, m⟩) :
    Valid N ⟨objs ++ [t], m⟩ ∧ RefInv ⟨objs ++ [t], m⟩ := by
  constructor
  · intro w hw
    simp only [List.mem_append, List.mem_singleton] at hw
    rcases hw with hw | rfl
    · exact hv w hw
    · exact ⟨s, Or.inl ht⟩
  · intro B b hb hl
    simp only at hb ⊢
    rw [refs_append_one, tgt_small ht]
    simpa using hr B b hb hl

theorem inv_erase_small {T : Type} (N : Nat) (objs : List (socow_vector T)) (m : Mem T)
    (i : Nat) (w : socow_vector T) (hi : objs[i]? = some w) (ht : tgt w = none)
    (hv : Valid N ⟨objs, m⟩) (hr : RefInv ⟨objs, m⟩) :
    Valid N ⟨objs.eraseIdx i, m⟩ ∧ RefInv ⟨objs.eraseIdx i, m⟩ := by
  constructor
  · intro u hu
    exact hv u (List.mem_of_mem_eraseIdx hu)
  · intro B b hb hl
    simp only at hb ⊢
    have := refs_eraseIdx objs i w B hi
    rw [ht] at this
    simp only [reduceCtorEq, if_false, Nat.add_zero] at this
    rw [this]
    exact hr B b hb hl

/-- The copy constructor keeps the invariant, whether it returns the new
object or throws. -/
theorem inv_copy {T : Type} (N : Nat) (objs : List (socow_vector T)) (m : Mem T) (j : Nat)
    (o : socow_vector T) (hv : Valid N ⟨objs, m⟩) (hr : RefInv ⟨objs, m⟩)
    (hj : objs[j]? = some o) :
    (∀ t m1, copy_ctor N o m = .ok t m1 →
      Valid N ⟨objs ++ [t], m1⟩ ∧ RefInv ⟨objs ++ [t], m1⟩) ∧
    (∀ m1, copy_ctor N o m = .thrown m1 → Valid N ⟨objs, m1⟩ ∧ RefInv ⟨objs, m1⟩) := by
  obtain ⟨so, hso⟩ := hv o (mem_of_get hj)
  rcases hso with hs | ⟨A, c, hb⟩
  · rw [copy_ctor_small m hs]
    constructor
    · intro t m1 hok
      split at hok
      · injection hok with ht hm
        subst ht; subst hm
        obtain ⟨h1, h2⟩ := inv_env N objs m (copies m.env so.length) hv hr
        exact inv_append_small N objs _ _ so ⟨rfl, rfl, rfl, hs.2.2.2⟩ h1 h2
      · exact absurd hok (by simp)
    · intro m1 hth
      split at hth
      · exact absurd hth (by simp)
      · injection hth with hm
        subst hm
        exact inv_env N objs m _ hv hr
  · rw [copy_ctor_big N hb]
    constructor
    · intro t m1 hok
      injection hok with ht hm
      subst ht; subst hm
      have hA := addr_lt hb
      have hcb := hb.2.2.2.2.1
      have hcl := hb.2.2.2.2.2.1
      constructor
      · intro w hw
        simp only [List.mem_append, List.mem_singleton] at hw
        rcases hw with hw | rfl
        · obtain ⟨s, hs⟩ := hv w hw
          exact ⟨s, holds_set_count hs A c hcb (c.ref_count + 1) (by omega) m.env⟩
        · refine ⟨so, Or.inr ⟨A, { c with ref_count := c.ref_count + 1 }, rfl, rfl, rfl, rfl,
            ?_, hcl, hb.2.2.2.2.2.2.1, hb.2.2.2.2.2.2.2.1, by simp⟩⟩
          exact List.getElem?_set_self hA
      · intro B b hbB hl
        simp only at hbB ⊢
        rw [refs_append_one]
        by_cases hAB : A = B
        · subst hAB
          rw [List.getElem?_set_self hA] at hbB
          injection hbB with hbB
          subst hbB
          have := hr A c hcb hcl
          simp only at this
          simp only [tgt, Bool.false_eq_true, if_false, if_true]
          exact ⟨by omega, by omega⟩
        · rw [List.getElem?_set_ne hAB] at hbB
          have := hr B b hbB hl
          simp only at this
          have hne : tgt (⟨false, so.length, [], some A⟩ : socow_vector T) ≠ some B := by
            simp [tgt, hAB]
          rw [if_neg hne]
          exact this
    · intro m1 hth
      exact absurd hth (by simp)

/-- The destructor keeps the invariant for the objects that remain. -/
theorem inv_destroy {T : Type} (N : Nat) (objs : List (socow_vector T)) (m : Mem T) (i : Nat)
    (v : socow_vector T) (hv : Valid N ⟨objs, m⟩) (hr : RefInv ⟨objs, m⟩)
    (hi : objs[i]? = some v) :
    ∃ v1, destructor v m = some (v1, ⟨heap_released v m, m.env⟩) ∧
      Valid N ⟨objs.eraseIdx i, ⟨heap_released v m, m.env⟩⟩ ∧
      RefInv ⟨objs.eraseIdx i, ⟨heap_released v m, m.env⟩⟩ := by
  obtain ⟨s, hs⟩ := hv v (mem_of_get hi)
  refine ⟨_, destructor_holds hs, ?_⟩
  have hlen := heap_released_length v m
  have h1 := inv_cells N objs m i v default_ctor ⟨heap_released v m, m.env⟩ hv hr hi
    ⟨[], holds_default N _⟩ ?_ ?_ ?_ ?_
  · have hget : (objs.set i default_ctor)[i]? = some (default_ctor : socow_vector T) :=
      List.getElem?_set_self (List.getElem?_eq_some.mp hi).1
    have h2 := inv_erase_small N _ _ i default_ctor hget rfl h1.1 h1.2
    rw [eraseIdx_set_self] at h2
    exact h2
  · intro B b hb hne
    simp only
    rw [heap_released_frame v m B hne]
    exact hb
  · intro A c htA hc
    exact Or.inr ⟨by simp [tgt, default_ctor], heap_released_own v m A c htA hc⟩
  · intro B b hB hb _
    simp only at hb
    rw [List.getElem?_eq_none (by omega)] at hb
    exact absurd hb (by simp)
  · intro B hB
    simp [tgt, default_ctor] at hB

/-! ## The invariant under swap -/

theorem swap_push_loop_thrown {T : Type} (N : Nat) (k : Nat) :
    ∀ (i : Nat) (l b : socow_vector T) (m : Mem T), l.is_small = true →
      l.size_ = l.small.length → b.is_small = true → i + k ≤ b.small.length →
      l.small.length + k ≤ N →
      ∀ l1 b1 m1, swap_push_loop N k i l b m = .thrown (l1, b1, m1) →
        b1 = b ∧ m1.heap = m.heap ∧ l1.is_small = true ∧ l1.size_ = l1.small.length ∧
          l1.small.length ≤ N := by
  induction k with
  | zero =>
    intro i l b m _ _ _ _ _ l1 b1 m1 hth
    simp [swap_push_loop] at hth
  | succ k ih =>
    intro i l b m hl hsz hb hik hcap l1 b1 m1 hth
    obtain ⟨x, hx⟩ : ∃ x, b.small[i]? = some x := ⟨_, List.getElem?_eq_getElem (by omega)⟩
    have hidx : index N b m i = .ok ⟨.small, i⟩ (b, m) := by
      simp [index, data, hb]
    have hload : load b m ⟨.small, i⟩ = some x := by
      simp [load, slots, hx]
    have hpb := push_back_in_place (stor_small N l m hl) hsz (by omega) (.val x) x rfl
    rw [put_small] at hpb
    have hpre : swap_push_loop N (k + 1) i l b m =
        match push_back N l m (.val x) with
        | .fault => .fault
        | .thrown (l1, m2) => .thrown (l1, b, m2)
        | .ok _ (l1, m2) => swap_push_loop N k (i + 1) l1 b m2 := by
      rw [swap_push_loop, hidx]
      simp only [hload]
    rw [hpre, hpb] at hth
    by_cases h1 : no_throw m.env 1
    · rw [if_pos h1] at hth
      simp only at hth
      exact ih (i + 1) { l with small := l.small ++ [x], size_ := l.small.length + 1 } b
        (m.set_env (copies m.env 1)) hl (by simp) hb (by omega) (by simp; omega) l1 b1 m1 hth
    · rw [if_neg h1] at hth
      simp only at hth
      injection hth with hth
      injection hth with h2 h3
      injection h3 with h3 h4
      subst h2; subst h3; subst h4
      exact ⟨rfl, rfl, hl, hsz, by omega⟩

theorem swap_small_small_thrown {T : Type} {N : Nat} {a b : socow_vector T} (m : Mem T)
    {sa sb : List T} (ha : SmallAt N a sa) (hb : SmallAt N b sb) (a1 b1 : socow_vector T)
    (m1 : Mem T) (hth : swap N a b m = .thrown (a1, b1, m1)) :
    m1.heap = m.heap ∧ (∃ s, SmallAt N a1 s) ∧ ∃ s, SmallAt N b1 s := by
  obtain ⟨hokall, _⟩ := swap_small_small m ha hb
  obtain ⟨ia, na, da, ga⟩ := a
  obtain ⟨ib, nb, db, gb⟩ := b
  obtain ⟨h1, h2, h3, h4⟩ := ha
  obtain ⟨h5, h6, h7, h8⟩ := hb
  simp only at h1 h2 h3 h5 h6 h7
  subst h1 h2 h3 h5 h6 h7
  obtain ⟨l1ok, l1th⟩ := swap_small_loop_eq (min da.length db.length) 0
    (⟨true, da.length, da, ga⟩ : socow_vector T) ⟨true, db.length, db, gb⟩ m
    (by simp) (by simp)
  simp only [swap_small_pure_spec] at l1ok
  have hpre : swap N (⟨true, da.length, da, ga⟩ : socow_vector T) ⟨true, db.length, db, gb⟩ m
      = match swap_small_loop (min da.length db.length) 0
          (⟨true, da.length, da, ga⟩ : socow_vector T) ⟨true, db.length, db, gb⟩ m with
        | .fault => .fault
        | .thrown s => .thrown s
        | .ok _ (v1, o1, m1) =>
          if o1.size_ < v1.size_ then
            match swap_push_loop N (max v1.size_ o1.size_ - min v1.size_ o1.size_)
                (min v1.size_ o1.size_) o1 v1 m1 with
            | .fault => .fault
            | .thrown (l, b, m2) => .thrown (b, l, m2)
            | .ok _ (l, b, m2) =>
              match pop_back_loop N (max v1.size_ o1.size_ - min v1.size_ o1.size_) b m2 with
              | .fault => .fault
              | .thrown (b1, m3) => .thrown (b1, l, m3)
              | .ok _ (b1, m3) => .ok () (b1, l, m3)
          else
            match swap_push_loop N (max v1.size_ o1.size_ - min v1.size_ o1.size_)
                (min v1.size_ o1.size_) v1 o1 m1 with
            | .fault => .fault
            | .thrown (l, b, m2) => .thrown (l, b, m2)
            | .ok _ (l, b, m2) =>
              match pop_back_loop N (max v1.size_ o1.size_ - min v1.size_ o1.size_) b m2 with
              | .fault => .fault
              | .thrown (b1, m3) => .thrown (l, b1, m3)
              | .ok _ (b1, m3) => .ok () (l, b1, m3) := by
    simp only [swap, Bool.and_self, if_true]
  by_cases hn1 : no_throw m.env (3 * min da.length db.length)
  · by_cases hlt : db.length < da.length
    · have hmin : min da.length db.length = db.length := by omega
      have hmax : max da.length db.length = da.length := by omega
      by_cases hn2 : no_throw (copies m.env (3 * db.length)) (da.length - db.length)
      · have hall : no_throw m.env (3 * min da.length db.length +
            (max da.length db.length - min da.length db.length)) := by
          rw [hmin, hmax]
          exact (no_throw_split _ _ _).mpr ⟨by rw [hmin] at hn1; exact hn1, hn2⟩
        rw [hokall hall] at hth
        exact absurd hth (by simp)
      · rw [hpre, l1ok hn1] at hth
        simp only [Mem.set_env, hlt, if_true, hmin, hmax] at hth
        have hA1 : List.take db.length db ++ List.drop db.length da =
            db ++ da.drop db.length := by simp
        have hB1 : List.take db.length da ++ List.drop db.length db = da.take db.length := by
          simp
        rw [hA1, hB1] at hth
        cases hp : swap_push_loop N (da.length - db.length) db.length
            (⟨true, db.length, da.take db.length, gb⟩ : socow_vector T)
            ⟨true, da.length, db ++ da.drop db.length, ga⟩
            ⟨m.heap, copies m.env (3 * db.length)⟩ with
        | fault => rw [hp] at hth; exact absurd hth (by simp)
        | ok u st =>
          obtain ⟨_, pth⟩ := swap_push_loop_eq N (da.length - db.length) db.length
            (⟨true, db.length, da.take db.length, gb⟩ : socow_vector T)
            ⟨true, da.length, db ++ da.drop db.length, ga⟩
            ⟨m.heap, copies m.env (3 * db.length)⟩ rfl (by simp; omega) rfl (by simp)
            (by simp; omega)
          obtain ⟨l1, m2, hd⟩ := pth hn2
          rw [hd] at hp
          exact absurd hp (by simp)
        | thrown st =>
          obtain ⟨l, bb, m2⟩ := st
          rw [hp] at hth
          simp only at hth
          injection hth with hth
          injection hth with e1 e2
          injection e2 with e2 e3
          subst e1; subst e2; subst e3
          obtain ⟨q1, q2, q3, q4, q5⟩ := swap_push_loop_thrown N (da.length - db.length)
            db.length (⟨true, db.length, da.take db.length, gb⟩ : socow_vector T)
            ⟨true, da.length, db ++ da.drop db.length, ga⟩
            ⟨m.heap, copies m.env (3 * db.length)⟩ rfl (by simp; omega) rfl (by simp)
            (by simp; omega) _ _ _ hp
          subst q1
          exact ⟨q2, ⟨_, rfl, rfl, by simp; omega, by simp; omega⟩, ⟨_, q3, rfl, q4, q5⟩⟩
    · have hmin : min da.length db.length = da.length := by omega
      have hmax : max da.length db.length = db.length := by omega
      by_cases hn2 : no_throw (copies m.env (3 * da.length)) (db.length - da.length)
      · have hall : no_throw m.env (3 * min da.length db.length +
            (max da.length db.length - min da.length db.length)) := by
          rw [hmin, hmax]
          exact (no_throw_split _ _ _).mpr ⟨by rw [hmin] at hn1; exact hn1, hn2⟩
        rw [hokall hall] at hth
        exact absurd hth (by simp)
      · rw [hpre, l1ok hn1] at hth
        simp only [Mem.set_env, hlt, if_false, hmin, hmax] at hth
        have hA1 : List.take da.length db ++ List.drop da.length da = db.take da.length := by
          simp
        have hB1 : List.take da.length da ++ List.drop da.length db =
            da ++ db.drop da.length := by simp
        rw [hA1, hB1] at hth
        cases hp : swap_push_loop N (db.length - da.length) da.length
            (⟨true, da.length, db.take da.length, ga⟩ : socow_vector T)
            ⟨true, db.length, da ++ db.drop da.length, gb⟩
            ⟨m.heap, copies m.env (3 * da.length)⟩ with
        | fault => rw [hp] at hth; exact absurd hth (by simp)
        | ok u st =>
          obtain ⟨_, pth⟩ := swap_push_loop_eq N (db.length - da.length) da.length
            (⟨true, da.length, db.take da.length, ga⟩ : socow_vector T)
            ⟨true, db.length, da ++ db.drop da.length, gb⟩
            ⟨m.heap, copies m.env (3 * da.length)⟩ rfl (by simp; omega) rfl (by simp)
            (by simp; omega)
          obtain ⟨l1, m2, hd⟩ := pth hn2
          rw [hd] at hp
          exact absurd hp (by simp)
        | thrown st =>
          obtain ⟨l, bb, m2⟩ := st
          rw [hp] at hth
          simp only at hth
          injection hth with hth
          injection hth with e1 e2
          injection e2 with e2 e3
          subst e1; subst e2; subst e3
          obtain ⟨q1, q2, q3, q4, q5⟩ := swap_push_loop_thrown N (db.length - da.length)
            da.length (⟨true, da.length, db.take da.length, ga⟩ : socow_vector T)
            ⟨true, db.length, da ++ db.drop da.length, gb⟩
            ⟨m.heap, copies m.env (3 * da.length)⟩ rfl (by simp; omega) rfl (by simp)
            (by simp; omega) _ _ _ hp
          subst q1
          exact ⟨q2, ⟨_, q3, rfl, q4, q5⟩, ⟨_, rfl, rfl, by simp; omega, by simp; omega⟩⟩
  · obtain ⟨d1, d2, hl1, hl2, hd⟩ := l1th hn1
    rw [hpre, hd] at hth
    simp only at hth
    injection hth with hth
    injection hth with e1 e2
    injection e2 with e2 e3
    subst e1; subst e2; subst e3
    simp only at hl1 hl2
    exact ⟨rfl, ⟨d1, rfl, rfl, hl1.symm, by rw [hl1]; exact h4⟩,
      ⟨d2, rfl, rfl, hl2.symm, by rw [hl2]; exact h8⟩⟩

theorem holds_small_of_tgt {T : Type} {N : Nat} {w : socow_vector T} {m : Mem T} {s : List T}
    (h : Holds N w m s) (ht : tgt w = none) : SmallAt N w s := by
  rcases h with h | ⟨A, c, h⟩
  · exact h
  · rw [tgt_big h] at ht
    exact absurd ht (by simp)

/-- However a `swap` of two valid handles ends, the heap is as before, both
handles are valid, and they have exchanged the blocks they reference or kept
them. -/
theorem swap_outcome {T : Type} (N : Nat) (a b : socow_vector T) (m : Mem T) (sa sb : List T)
    (ha : Holds N a m sa) (hb : Holds N b m sb) (a1 b1 : socow_vector T) (m1 : Mem T)
    (ho : swap N a b m = .ok () (a1, b1, m1) ∨ swap N a b m = .thrown (a1, b1, m1)) :
    m1.heap = m.heap ∧ (∃ s, Holds N a1 m1 s) ∧ (∃ s, Holds N b1 m1 s) ∧
      ((tgt a1 = tgt b ∧ tgt b1 = tgt a) ∨ (tgt a1 = tgt a ∧ tgt b1 = tgt b)) := by
  have hsame : ∀ e, (a1, b1, m1) = (a, b, (⟨m.heap, e⟩ : Mem T)) →
      m1.heap = m.heap ∧ (∃ s, Holds N a1 m1 s) ∧ (∃ s, Holds N b1 m1 s) ∧
        ((tgt a1 = tgt b ∧ tgt b1 = tgt a) ∨ (tgt a1 = tgt a ∧ tgt b1 = tgt b)) := by
    intro e he
    injection he with h1 h2
    injection h2 with h2 h3
    subst h1; subst h2; subst h3
    exact ⟨rfl, ⟨sa, holds_env ha e⟩, ⟨sb, holds_env hb e⟩, Or.inr ⟨rfl, rfl⟩⟩
  rcases ho with hok | hth
  · obtain ⟨h1, h2, _, _, h5, _⟩ := swap_ok_holds ha hb a1 b1 m1 hok
    refine ⟨h5, ⟨sb, h1⟩, ⟨sa, h2⟩, Or.inl ?_⟩
    rcases ha with ha | ⟨A, c, ha⟩
    · rcases hb with hb | ⟨B, d, hb⟩
      · by_cases hn : no_throw m.env (3 * min sa.length sb.length +
            (max sa.length sb.length - min sa.length sb.length))
        · rw [(swap_small_small m ha hb).1 hn] at hok
          injection hok with _ hok
          injection hok with e1 e2
          injection e2 with e2 _
          subst e1; subst e2
          simp [tgt, ha.1, hb.1]
        · obtain ⟨st, hst⟩ := (swap_small_small m ha hb).2 hn
          rw [hst] at hok
          exact absurd hok (by simp)
      · rw [swap_small_big ha hb] at hok
        split at hok
        · injection hok with _ hok
          injection hok with e1 e2
          injection e2 with e2 _
          subst e1; subst e2
          simp [tgt, ha.1, hb.1, hb.2.2.1]
        · exact absurd hok (by simp)
    · rcases hb with hb | ⟨B, d, hb⟩
      · rw [swap_big_small ha hb] at hok
        split at hok
        · injection hok with _ hok
          injection hok with e1 e2
          injection e2 with e2 _
          subst e1; subst e2
          simp [tgt, ha.1, hb.1, ha.2.2.1]
        · exact absurd hok (by simp)
      · rw [swap_big_big ha hb] at hok
        injection hok with _ hok
        injection hok with e1 e2
        injection e2 with e2 _
        subst e1; subst e2
        simp [tgt, ha.1, hb.1, ha.2.2.1, hb.2.2.1]
  · rcases ha with ha | ⟨A, c, ha⟩
    · rcases hb with hb | ⟨B, d, hb⟩
      · obtain ⟨h1, ⟨s1, h2⟩, ⟨s2, h3⟩⟩ := swap_small_small_thrown m ha hb a1 b1 m1 hth
        exact ⟨h1, ⟨s1, Or.inl h2⟩, ⟨s2, Or.inl h3⟩,
          Or.inr ⟨by rw [tgt_small h2, tgt_small ha], by rw [tgt_small h3, tgt_small hb]⟩⟩
      · rw [swap_small_big ha hb] at hth
        split at hth
        · exact absurd hth (by simp)
        · injection hth with hth
          exact hsame _ hth.symm
    · rcases hb with hb | ⟨B, d, hb⟩
      · rw [swap_big_small ha hb] at hth
        split at hth
        · exact absurd hth (by simp)
        · injection hth with hth
          exact hsame _ hth.symm
      · rw [swap_big_big ha hb] at hth
        exact absurd hth (by simp)

/-- The invariant is kept by `objs[i].swap(objs[j])`, however it ends. -/
theorem inv_swap {T : Type} (N : Nat) (objs : List (socow_vector T)) (m : Mem T) (i j : Nat)
    (v o : socow_vector T) (hv : Valid N ⟨objs, m⟩) (hr : RefInv ⟨objs, m⟩)
    (hi : objs[i]? = some v) (hj : objs[j]? = some o) (v1 o1 : socow_vector T) (m1 : Mem T)
    (ho : swap N v o m = .ok () (v1, o1, m1) ∨ swap N v o m = .thrown (v1, o1, m1)) :
    Valid N ⟨(objs.set j o1).set i v1, m1⟩ ∧ RefInv ⟨(objs.set j o1).set i v1, m1⟩ := by
  obtain ⟨sv, hsv⟩ := hv v (mem_of_get hi)
  obtain ⟨so, hso⟩ := hv o (mem_of_get hj)
  obtain ⟨hheap, hv1, ho1, htg⟩ := swap_outcome N v o m sv so hsv hso v1 o1 m1 ho
  have hjl := (List.getElem?_eq_some.mp hj).1
  constructor
  · intro w hw
    simp only at hw
    rcases mem_set_cases _ i v1 w hw with rfl | ⟨k, _, hk⟩
    · exact hv1
    · have hw2 : w ∈ objs.set j o1 := mem_of_get hk
      rcases mem_set_cases _ j o1 w hw2 with rfl | ⟨k2, _, hk2⟩
      · exact ho1
      · obtain ⟨s, hs⟩ := hv w (mem_of_get hk2)
        exact ⟨s, holds_heap_eq hs hheap⟩
  · intro B b hb hl
    simp only at hb ⊢
    rw [hheap] at hb
    obtain ⟨h1, h2⟩ := hr B b hb hl
    simp only at h1
    refine ⟨?_, h2⟩
    rw [h1]
    have e2 := refs_set objs j o o1 B hj
    by_cases hij : i = j
    · subst hij
      have hvo : v = o := by
        rw [hi] at hj
        injection hj
      subst hvo
      have e1 := refs_set (objs.set i o1) i o1 v1 B (List.getElem?_set_self hjl)
      rcases htg with ⟨t1, t2⟩ | ⟨t1, t2⟩
      · rw [t1] at e1
        omega
      · rw [t1] at e1
        omega
    · have hget : (objs.set j o1)[i]? = some v := by
        rw [List.getElem?_set_ne (fun hh => hij hh.symm)]
        exact hi
      have e1 := refs_set (objs.set j o1) i v v1 B hget
      rcases htg with ⟨t1, t2⟩ | ⟨t1, t2⟩
      · rw [t1] at e1
        rw [t2] at e2
        omega
      · rw [t1] at e1
        rw [t2] at e2
        omega

/-! ## The invariant under copy assignment, and in every reachable state -/

theorem eraseIdx_length_append {α : Type} (l : List α) (x : α) :
    (l ++ [x]).eraseIdx l.length = l := by
  induction l with
  | nil => rfl
  | cons a t ih => simp [ih]

theorem assign_list {α : Type} (l : List α) (t t1 a : α) (i : Nat) (hi : i < l.length) :
    (((l ++ [t]).set i a).set l.length t1).eraseIdx l.length = l.set i a := by
  have h1 : (l ++ [t]).set i a = l.set i a ++ [t] := List.set_append_left i a hi
  have h2 : (l.set i a ++ [t]).set l.length t1 = l.set i a ++ [t1] := by
    have := set_at_length (l.set i a) t t1
    rw [List.length_set] at this
    exact this
  rw [h1, h2]
  have := eraseIdx_length_append (l.set i a) t1
  rw [List.length_set] at this
  exact this

theorem copy_ctor_tgt {T : Type} {N : Nat} {o : socow_vector T} {m : Mem T} {so : List T}
    (ho : Holds N o m so) (t : socow_vector T) (m1 : Mem T)
    (hc : copy_ctor N o m = .ok t m1) : tgt t = tgt o := by
  rcases ho with hs | ⟨A, c, hb⟩
  · rw [copy_ctor_small m hs] at hc
    split at hc
    · injection hc with ht _
      rw [← ht, tgt_small hs]
      rfl
    · exact absurd hc (by simp)
  · rw [copy_ctor_big N hb] at hc
    injection hc with ht _
    rw [← ht, tgt_big hb]
    rfl

/-- The invariant is kept by `objs[i] = objs[j]`, however it ends; the target
then references the block it had or the block of the source. -/
theorem inv_assign {T : Type} [DecidableEq T] (N : Nat) (objs : List (socow_vector T))
    (m : Mem T) (i j : Nat) (v o : socow_vector T) (hv : Valid N ⟨objs, m⟩)
    (hr : RefInv ⟨objs, m⟩) (hi : objs[i]? = some v) (hj : objs[j]? = some o)
    (v1 o1 : socow_vector T) (m1 : Mem T)
    (ho : operator_assign N v o m = .ok () (v1, o1, m1) ∨
      operator_assign N v o m = .thrown (v1, o1, m1)) :
    Valid N ⟨objs.set i v1, m1⟩ ∧ RefInv ⟨objs.set i v1, m1⟩ ∧
      (tgt v1 = tgt v ∨ tgt v1 = tgt o) := by
  obtain ⟨sv, hsv⟩ := hv v (mem_of_get hi)
  obtain ⟨so, hso⟩ := hv o (mem_of_get hj)
  have hil := (List.getElem?_eq_some.mp hi).1
  have heq := operator_eq_holds hsv hso
  simp only at heq
  unfold operator_assign at ho
  rw [heq] at ho
  by_cases hss : sv = so
  · simp only [hss, decide_True] at ho
    rcases ho with ho | ho
    · injection ho with _ ho
      injection ho with e1 e2
      injection e2 with _ e3
      subst e1; subst e3
      rw [set_same objs i v hi]
      exact ⟨hv, hr, Or.inl rfl⟩
    · exact absurd ho (by simp)
  · simp only [hss, decide_False] at ho
    obtain ⟨hcok, hcth⟩ := inv_copy N objs m j o hv hr hj
    cases hc : copy_ctor N o m with
    | fault =>
      rw [hc] at ho
      rcases ho with ho | ho <;> exact absurd ho (by simp)
    | thrown m2 =>
      rw [hc] at ho
      simp only at ho
      rcases ho with ho | ho
      · exact absurd ho (by simp)
      · injection ho with ho
        injection ho with e1 e2
        injection e2 with _ e3
        subst e1; subst e3
        rw [set_same objs i v hi]
        exact ⟨(hcth m2 hc).1, (hcth m2 hc).2, Or.inl rfl⟩
    | ok temp m2 =>
      rw [hc] at ho
      simp only at ho
      obtain ⟨hv2, hr2⟩ := hcok temp m2 hc
      have hgt : (objs ++ [temp])[objs.length]? = some temp := getElem?_at_length objs temp
      have hgi : (objs ++ [temp])[i]? = some v := by
        rw [List.getElem?_append_left hil]
        exact hi
      have hfin : ∀ (temp1 v2 : socow_vector T) (m3 : Mem T),
          (swap N temp v m2 = .ok () (temp1, v2, m3) ∨
            swap N temp v m2 = .thrown (temp1, v2, m3)) →
          ∃ t2, destructor temp1 m3 = some (t2, ⟨heap_released temp1 m3, m3.env⟩) ∧
            Valid N ⟨objs.set i v2, ⟨heap_released temp1 m3, m3.env⟩⟩ ∧
            RefInv ⟨objs.set i v2, ⟨heap_released temp1 m3, m3.env⟩⟩ ∧
            (tgt v2 = tgt v ∨ tgt v2 = tgt o) := by
        intro temp1 v2 m3 hs
        have htg : tgt v2 = tgt v ∨ tgt v2 = tgt o := by
          obtain ⟨st, hst⟩ := hv2 temp (by simp)
          obtain ⟨sv2, hsv2⟩ := hv2 v (mem_of_get hgi)
          obtain ⟨_, _, _, h4⟩ := swap_outcome N temp v m2 st sv2 hst hsv2 temp1 v2 m3 hs
          rcases h4 with ⟨_, h5⟩ | ⟨_, h5⟩
          · exact Or.inr (by rw [h5, copy_ctor_tgt hso temp m2 hc])
          · exact Or.inl h5
        obtain ⟨hv3, hr3⟩ := inv_swap N (objs ++ [temp]) m2 objs.length i temp v hv2 hr2 hgt hgi
          temp1 v2 m3 hs
        have hg3 : (((objs ++ [temp]).set i v2).set objs.length temp1)[objs.length]? =
            some temp1 := List.getElem?_set_self (by simp)
        obtain ⟨t2, hd, hv4, hr4⟩ := inv_destroy N _ m3 objs.length temp1 hv3 hr3 hg3
        rw [assign_list objs temp temp1 v2 i hil] at hv4 hr4
        exact ⟨t2, hd, hv4, hr4, htg⟩
      cases hs : swap N temp v m2 with
      | fault =>
        rw [hs] at ho
        rcases ho with ho | ho <;> exact absurd ho (by simp)
      | ok u st =>
        obtain ⟨temp1, v2, m3⟩ := st
        obtain ⟨t2, hd, hv4, hr4, htg⟩ := hfin temp1 v2 m3 (Or.inl hs)
        rw [hs] at ho
        simp only [hd] at ho
        rcases ho with ho | ho
        · injection ho with _ ho
          injection ho with e1 e2
          injection e2 with _ e3
          subst e1; subst e3
          exact ⟨hv4, hr4, htg⟩
        · exact absurd ho (by simp)
      | thrown st =>
        obtain ⟨temp1, v2, m3⟩ := st
        obtain ⟨t2, hd, hv4, hr4, htg⟩ := hfin temp1 v2 m3 (Or.inr hs)
        rw [hs] at ho
        simp only [hd] at ho
        rcases ho with ho | ho
        · exact absurd ho (by simp)
        · injection ho with ho
          injection ho with e1 e2
          injection e2 with _ e3
          subst e1; subst e3
          exact ⟨hv4, hr4, htg⟩

/-- Every call of a program keeps the invariant, whether it returns or
throws. -/
theorem inv_run {T : Type} [Layout T] [DecidableEq T] (N : Nat) (sys : Sys T) (c : call T)
    (sys1 : Sys T)
    (hv : Valid N sys) (hr : RefInv sys)
    (ho : run N sys c = .ok () sys1 ∨ run N sys c = .thrown sys1) :
    Valid N sys1 ∧ RefInv sys1 := by
  obtain ⟨objs, m⟩ := sys
  cases c with
  | arm k =>
    simp only [run] at ho
    rcases ho with ho | ho
    · injection ho with _ ho
      subst ho
      exact inv_env N objs m _ hv hr
    · exact absurd ho (by simp)
  | construct =>
    simp only [run] at ho
    rcases ho with ho | ho
    · injection ho with _ ho
      subst ho
      exact inv_append_small N objs m default_ctor [] ⟨rfl, rfl, rfl, Nat.zero_le _⟩ hv hr
    · exact absurd ho (by simp)
  | copy j =>
    simp only [run] at ho
    cases hj : objs[j]? with
    | none => rw [hj] at ho; rcases ho with ho | ho <;> exact absurd ho (by simp)
    | some o =>
      rw [hj] at ho
      simp only at ho
      obtain ⟨hcok, hcth⟩ := inv_copy N objs m j o hv hr hj
      cases hc : copy_ctor N o m with
      | fault => rw [hc] at ho; rcases ho with ho | ho <;> exact absurd ho (by simp)
      | thrown m2 =>
        rw [hc] at ho
        rcases ho with ho | ho
        · exact absurd ho (by simp)
        · injection ho with ho
          subst ho
          exact hcth m2 hc
      | ok t m2 =>
        rw [hc] at ho
        rcases ho with ho | ho
        · injection ho with _ ho
          subst ho
          exact hcok t m2 hc
        · exact absurd ho (by simp)
  | destroy i =>
    simp only [run] at ho
    cases hi : objs[i]? with
    | none => rw [hi] at ho; rcases ho with ho | ho <;> exact absurd ho (by simp)
    | some v =>
      rw [hi] at ho
      simp only at ho
      obtain ⟨v1, hd, hv2, hr2⟩ := inv_destroy N objs m i v hv hr hi
      rw [hd] at ho
      rcases ho with ho | ho
      · injection ho with _ ho
        subst ho
        exact ⟨hv2, hr2⟩
      · exact absurd ho (by simp)
  | assign i j =>
    simp only [run] at ho
    cases hi : objs[i]? with
    | none => rw [hi] at ho; rcases ho with ho | ho <;> exact absurd ho (by simp)
    | some v =>
      cases hj : objs[j]? with
      | none => rw [hi, hj] at ho; rcases ho with ho | ho <;> exact absurd ho (by simp)
      | some o =>
        rw [hi, hj] at ho
        simp only at ho
        cases ha : operator_assign N v o m with
        | fault => rw [ha] at ho; rcases ho with ho | ho <;> exact absurd ho (by simp)
        | ok u st =>
          obtain ⟨v1, o1, m1⟩ := st
          rw [ha] at ho
          rcases ho with ho | ho
          · injection ho with _ ho
            subst ho
            have h3 := inv_assign N objs m i j v o hv hr hi hj v1 o1 m1 (Or.inl ha)
            exact ⟨h3.1, h3.2.1⟩
          · exact absurd ho (by simp)
        | thrown st =>
          obtain ⟨v1, o1, m1⟩ := st
          rw [ha] at ho
          rcases ho with ho | ho
          · exact absurd ho (by simp)
          · injection ho with ho
            subst ho
            have h3 := inv_assign N objs m i j v o hv hr hi hj v1 o1 m1 (Or.inr ha)
            exact ⟨h3.1, h3.2.1⟩
  | swap i j =>
    simp only [run] at ho
    cases hi : objs[i]? with
    | none => rw [hi] at ho; rcases ho with ho | ho <;> exact absurd ho (by simp)
    | some v =>
      cases hj : objs[j]? with
      | none => rw [hi, hj] at ho; rcases ho with ho | ho <;> exact absurd ho (by simp)
      | some o =>
        rw [hi, hj] at ho
        simp only at ho
        cases ha : swap N v o m with
        | fault => rw [ha] at ho; rcases ho with ho | ho <;> exact absurd ho (by simp)
        | ok u st =>
          obtain ⟨v1, o1, m1⟩ := st
          rw [ha] at ho
          rcases ho with ho | ho
          · injection ho with _ ho
            subst ho
            exact inv_swap N objs m i j v o hv hr hi hj v1 o1 m1 (Or.inl ha)
          · exact absurd ho (by simp)
        | thrown st =>
          obtain ⟨v1, o1, m1⟩ := st
          rw [ha] at ho
          rcases ho with ho | ho
          · exact absurd ho (by simp)
          · injection ho with ho
            subst ho
            exact inv_swap N objs m i j v o hv hr hi hj v1 o1 m1 (Or.inr ha)
  | mutate i op =>
    simp only [run] at ho
    cases hi : objs[i]? with
    | none => rw [hi] at ho; rcases ho with ho | ho <;> exact absurd ho (by simp)
    | some v =>
      rw [hi] at ho
      simp only at ho
      obtain ⟨s, hs⟩ := hv v (mem_of_get hi)
      cases ha : apply_op N v m op with
      | fault => rw [ha] at ho; rcases ho with ho | ho <;> exact absurd ho (by simp)
      | ok u st =>
        obtain ⟨v1, m1⟩ := st
        rw [ha] at ho
        rcases ho with ho | ho
        · injection ho with _ ho
          subst ho
          exact inv_effect N objs m i v s v1 m1 hv hr hi hs
            (apply_op_effect N v m s hs op v1 m1 (Or.inl ha))
        · exact absurd ho (by simp)
      | thrown st =>
        obtain ⟨v1, m1⟩ := st
        rw [ha] at ho
        rcases ho with ho | ho
        · exact absurd ho (by simp)
        · injection ho with ho
          subst ho
          exact inv_effect N objs m i v s v1 m1 hv hr hi hs
            (apply_op_effect N v m s hs op v1 m1 (Or.inr ha))
  | access i acc =>
    simp only [run] at ho
    cases hi : objs[i]? with
    | none => rw [hi] at ho; rcases ho with ho | ho <;> exact absurd ho (by simp)
    | some v =>
      rw [hi] at ho
      simp only at ho
      obtain ⟨s, hs⟩ := hv v (mem_of_get hi)
      cases ha : access N v m acc with
      | fault => rw [ha] at ho; rcases ho with ho | ho <;> exact absurd ho (by simp)
      | ok p st =>
        obtain ⟨v1, m1⟩ := st
        rw [ha] at ho
        rcases ho with ho | ho
        · injection ho with _ ho
          subst ho
          exact inv_effect N objs m i v s v1 m1 hv hr hi hs
            (access_effect N v m s hs acc v1 m1 (Or.inl ⟨p, ha⟩))
        · exact absurd ho (by simp)
      | thrown st =>
        obtain ⟨v1, m1⟩ := st
        rw [ha] at ho
        rcases ho with ho | ho
        · exact absurd ho (by simp)
        · injection ho with ho
          subst ho
          exact inv_effect N objs m i v s v1 m1 hv hr hi hs
            (access_effect N v m s hs acc v1 m1 (Or.inr ha))

theorem reachable_inv {T : Type} [Layout T] [DecidableEq T] (N : Nat) (sys : Sys T)
    (h : Reachable N sys) : Valid N sys ∧ RefInv sys := by
  induction h with
  | init e =>
    constructor
    · intro w hw
      simp at hw
    · intro A b hb _
      simp at hb
  | step_ok sys c sys1 _ hrun ih => exact inv_run N sys c sys1 ih.1 ih.2 (Or.inl hrun)
  | step_thrown sys c sys1 _ hrun ih => exact inv_run N sys c sys1 ih.1 ih.2 (Or.inr hrun)

/-- C29. In every reachable state: a live block has a reference count of at
least one, equal to the number of the handles that reference it; every big
handle references a live block; and a block is freed exactly when no handle
references it. -/
theorem refcount_invariant {T : Type} [Layout T] [DecidableEq T] (N : Nat) (sys : Sys T)
    (h : Reachable N sys) :
    (∀ A b, sys.mem.heap[A]? = some b → b.live = true →
      b.ref_count = refs sys.objs A ∧ 1 ≤ b.ref_count) ∧
    (∀ v ∈ sys.objs, ∀ A, tgt v = some A →
      ∃ b, sys.mem.heap[A]? = some b ∧ b.live = true) ∧
    (∀ A b, sys.mem.heap[A]? = some b → (b.live = false ↔ refs sys.objs A = 0)) := by
  obtain ⟨hv, hr⟩ := reachable_inv N sys h
  have hbig : ∀ v ∈ sys.objs, ∀ A, tgt v = some A →
      ∃ b, sys.mem.heap[A]? = some b ∧ b.live = true := by
    intro v hvm A ht
    obtain ⟨s, hs⟩ := hv v hvm
    obtain ⟨b, hb⟩ := holds_tgt hs ht
    exact ⟨b, hb.2.2.2.2.1, hb.2.2.2.2.2.1⟩
  refine ⟨hr, hbig, ?_⟩
  intro A b hb
  constructor
  · intro hdead
    apply refs_zero
    intro w hw ht
    obtain ⟨b1, hb1, hl1⟩ := hbig w hw A ht
    rw [hb] at hb1
    injection hb1 with hb1
    subst hb1
    rw [hdead] at hl1
    exact absurd hl1 (by simp)
  · intro hz
    cases hl : b.live
    · rfl
    · have := hr A b hb hl
      omega

/-! ## Containers that stay within the inline capacity -/

theorem capInv_heap {T : Type} {N : Nat} {m m1 : Mem T} (hc : CapInv N m)
    (h : m1.heap = m.heap) : CapInv N m1 := by
  intro A b hb hl
  rw [h] at hb
  exact hc A b hb hl

theorem capInv_set {T : Type} {N : Nat} {m : Mem T} (hc : CapInv N m) (A : Nat)
    (b1 : big_storage T) (e : Env) (hb : b1.live = true → N < b1.capacity) :
    CapInv N ⟨m.heap.set A b1, e⟩ := by
  intro B b hB hl
  simp only at hB
  by_cases hAB : A = B
  · subst hAB
    rw [List.getElem?_set] at hB
    simp only [if_true] at hB
    split at hB
    · injection hB with hB
      subst hB
      exact hb hl
    · exact absurd hB (by simp)
  · rw [List.getElem?_set_ne hAB] at hB
    exact hc B b hB hl

theorem capInv_append {T : Type} {N : Nat} (heap : List (big_storage T)) (e0 : Env)
    (hh : CapInv N ⟨heap, e0⟩) (ext : List (big_storage T)) (e : Env)
    (hx : ∀ b ∈ ext, b.live = true → N < b.capacity) : CapInv N ⟨heap ++ ext, e⟩ := by
  intro B b hB hl
  simp only at hB
  rcases Nat.lt_or_ge B heap.length with h1 | h1
  · rw [List.getElem?_append_left h1] at hB
    exact hh B b hB hl
  · rw [List.getElem?_append_right h1] at hB
    exact hx b (mem_of_get hB) hl

theorem capInv_released {T : Type} {N : Nat} {m : Mem T} (hc : CapInv N m)
    (v : socow_vector T) (e : Env) : CapInv N ⟨heap_released v m, e⟩ := by
  unfold heap_released
  split
  · exact capInv_heap hc rfl
  · split
    · rename_i a _
      split
      · rename_i b hb
        refine capInv_set hc a (released b) e ?_
        intro hl
        unfold released at hl ⊢
        split at hl
        · exact absurd hl (by simp)
        · rw [if_neg (by assumption)]
          exact hc a b hb hl
      · exact capInv_heap hc rfl
    · exact capInv_heap hc rfl

theorem capInv_put {T : Type} {N : Nat} {m : Mem T} (hc : CapInv N m) (v : socow_vector T)
    (l : Loc) (d : List T) (e : Env) (sz : Nat) : CapInv N (put v m l d e sz).2 := by
  cases l with
  | small =>
    rw [put_small]
    exact capInv_heap hc rfl
  | big a =>
    simp only [put, set_slots, Mem.set_env]
    split
    · rename_i b hb
      exact capInv_set hc a _ e (fun hl => hc a b hb hl)
    · exact capInv_heap hc rfl

/-- A call with one of the four effects, on a handle of a heap whose live
blocks are above the inline capacity, leaves such a heap. -/
theorem capInv_effect {T : Type} (N : Nat) (hN : 1 ≤ N) (v : socow_vector T) (m : Mem T)
    (s : List T) (v2 : socow_vector T) (m2 : Mem T) (hc : CapInv N m)
    (he : Effect N v m s v2 m2) : CapInv N m2 := by
  rcases he with ⟨l, cap, d0, d, e, _, _, hp⟩ | ⟨_, ext, e, hm, hd⟩ |
    ⟨cap1, d, e, _, _, hm, hcap⟩ | ⟨A, c, e, hb, _, _, hm⟩
  · have h2 : m2 = (put v m l d e d.length).2 := by rw [← hp]
    rw [h2]
    exact capInv_put hc v l d e d.length
  · rw [hm]
    refine capInv_append m.heap m.env (capInv_heap hc rfl) ext e ?_
    intro b hb hl
    rw [hd b hb] at hl
    exact absurd hl (by simp)
  · rw [hm]
    refine capInv_append _ m.env (capInv_released hc v m.env) _ e ?_
    intro b hb _
    simp only [List.mem_singleton] at hb
    subst hb
    simp only
    rcases hcap with ⟨A, c, hb, hle⟩ | hlt | heq
    · have := hc A c hb.2.2.2.2.1 hb.2.2.2.2.2.1
      omega
    · exact hlt
    · omega
  · rw [hm]
    refine capInv_set hc A (released c) e ?_
    intro hl
    unfold released at hl ⊢
    split at hl
    · exact absurd hl (by simp)
    · rw [if_neg (by assumption)]
      exact hc A c hb.2.2.2.2.1 hl

theorem capInv_copy {T : Type} (N : Nat) (o : socow_vector T) (m : Mem T) (so : List T)
    (h : Holds N o m so) (hc : CapInv N m) :
    (∀ t m1, copy_ctor N o m = .ok t m1 → CapInv N m1) ∧
    (∀ m1, copy_ctor N o m = .thrown m1 → CapInv N m1) := by
  rcases h with hs | ⟨A, c, hb⟩
  · rw [copy_ctor_small m hs]
    constructor
    · intro t m1 hok
      split at hok
      · injection hok with _ hm
        rw [← hm]
        exact capInv_heap hc rfl
      · exact absurd hok (by simp)
    · intro m1 hth
      split at hth
      · exact absurd hth (by simp)
      · injection hth with hm
        rw [← hm]
        exact capInv_heap hc rfl
  · rw [copy_ctor_big N hb]
    constructor
    · intro t m1 hok
      injection hok with _ hm
      rw [← hm]
      exact capInv_set hc A _ m.env (fun hl => hc A c hb.2.2.2.2.1 hl)
    · intro m1 hth
      exact absurd hth (by simp)

/-- Copy assignment `objs[i] = objs[j]`, however it ends, leaves the live
blocks above the inline capacity. -/
theorem capInv_assign {T : Type} [DecidableEq T] (N : Nat) (objs : List (socow_vector T))
    (m : Mem T) (i j : Nat) (v o : socow_vector T) (hv : Valid N ⟨objs, m⟩)
    (hr : RefInv ⟨objs, m⟩) (hcap : CapInv N m) (hi : objs[i]? = some v)
    (hj : objs[j]? = some o) (v1 o1 : socow_vector T) (m1 : Mem T)
    (ho : operator_assign N v o m = .ok () (v1, o1, m1) ∨
      operator_assign N v o m = .thrown (v1, o1, m1)) : CapInv N m1 := by
  obtain ⟨sv, hsv⟩ := hv v (mem_of_get hi)
  obtain ⟨so, hso⟩ := hv o (mem_of_get hj)
  have hil := (List.getElem?_eq_some.mp hi).1
  have heq := operator_eq_holds hsv hso
  simp only at heq
  unfold operator_assign at ho
  rw [heq] at ho
  by_cases hss : sv = so
  · simp only [hss, decide_True] at ho
    rcases ho with ho | ho
    · injection ho with _ ho
      injection ho with e1 e2
      injection e2 with _ e3
      subst e3
      exact hcap
    · exact absurd ho (by simp)
  · simp only [hss, decide_False] at ho
    obtain ⟨hcok, hcth⟩ := inv_copy N objs m j o hv hr hj
    obtain ⟨hkok, hkth⟩ := capInv_copy N o m so hso hcap
    cases hc : copy_ctor N o m with
    | fault =>
      rw [hc] at ho
      rcases ho with ho | ho <;> exact absurd ho (by simp)
    | thrown m2 =>
      rw [hc] at ho
      simp only at ho
      rcases ho with ho | ho
      · exact absurd ho (by simp)
      · injection ho with ho
        injection ho with e1 e2
        injection e2 with _ e3
        subst e3
        exact hkth m2 hc
    | ok temp m2 =>
      rw [hc] at ho
      simp only at ho
      obtain ⟨hv2, hr2⟩ := hcok temp m2 hc
      have hk2 := hkok temp m2 hc
      have hgi : (objs ++ [temp])[i]? = some v := by
        rw [List.getElem?_append_left hil]
        exact hi
      have hfin : ∀ (temp1 v2 : socow_vector T) (m3 : Mem T),
          (swap N temp v m2 = .ok () (temp1, v2, m3) ∨
            swap N temp v m2 = .thrown (temp1, v2, m3)) →
          ∃ t2, destructor temp1 m3 = some (t2, ⟨heap_released temp1 m3, m3.env⟩) ∧
            CapInv N ⟨heap_released temp1 m3, m3.env⟩ := by
        intro temp1 v2 m3 hs
        obtain ⟨st, hst⟩ := hv2 temp (by simp)
        obtain ⟨sv2, hsv2⟩ := hv2 v (mem_of_get hgi)
        obtain ⟨hh, ⟨s1, hs1⟩, _, _⟩ := swap_outcome N temp v m2 st sv2 hst hsv2 temp1 v2 m3 hs
        exact ⟨_, destructor_holds hs1, capInv_released (capInv_heap hk2 hh) temp1 m3.env⟩
      cases hs : swap N temp v m2 with
      | fault =>
        rw [hs] at ho
        rcases ho with ho | ho <;> exact absurd ho (by simp)
      | ok u st =>
        obtain ⟨temp1, v2, m3⟩ := st
        obtain ⟨t2, hd, hk4⟩ := hfin temp1 v2 m3 (Or.inl hs)
        rw [hs] at ho
        simp only [hd] at ho
        rcases ho with ho | ho
        · injection ho with _ ho
          injection ho with e1 e2
          injection e2 with _ e3
          subst e3
          exact hk4
        · exact absurd ho (by simp)
      | thrown st =>
        obtain ⟨temp1, v2, m3⟩ := st
        obtain ⟨t2, hd, hk4⟩ := hfin temp1 v2 m3 (Or.inr hs)
        rw [hs] at ho
        simp only [hd] at ho
        rcases ho with ho | ho
        · exact absurd ho (by simp)
        · injection ho with ho
          injection ho with e1 e2
          injection e2 with _ e3
          subst e3
          exact hk4

/-- Every call of a program, whether it returns or throws, leaves the live
blocks above the inline capacity, when the inline capacity is at least one. -/
theorem capInv_run {T : Type} [Layout T] [DecidableEq T] (N : Nat) (hN : 1 ≤ N) (sys : Sys T)
    (c : call T)
    (sys1 : Sys T) (hv : Valid N sys) (hr : RefInv sys) (hcap : CapInv N sys.mem)
    (ho : run N sys c = .ok () sys1 ∨ run N sys c = .thrown sys1) : CapInv N sys1.mem := by
  obtain ⟨objs, m⟩ := sys
  simp only at hcap
  cases c with
  | arm k =>
    simp only [run] at ho
    rcases ho with ho | ho
    · injection ho with _ ho
      subst ho
      exact capInv_heap hcap rfl
    · exact absurd ho (by simp)
  | construct =>
    simp only [run] at ho
    rcases ho with ho | ho
    · injection ho with _ ho
      subst ho
      exact hcap
    · exact absurd ho (by simp)
  | copy j =>
    simp only [run] at ho
    cases hj : objs[j]? with
    | none => rw [hj] at ho; rcases ho with ho | ho <;> exact absurd ho (by simp)
    | some o =>
      rw [hj] at ho
      simp only at ho
      obtain ⟨so, hso⟩ := hv o (mem_of_get hj)
      obtain ⟨hcok, hcth⟩ := capInv_copy N o m so hso hcap
      cases hc : copy_ctor N o m with
      | fault => rw [hc] at ho; rcases ho with ho | ho <;> exact absurd ho (by simp)
      | thrown m2 =>
        rw [hc] at ho
        rcases ho with ho | ho
        · exact absurd ho (by simp)
        · injection ho with ho
          subst ho
          exact hcth m2 hc
      | ok t m2 =>
        rw [hc] at ho
        rcases ho with ho | ho
        · injection ho with _ ho
          subst ho
          exact hcok t m2 hc
        · exact absurd ho (by simp)
  | destroy i =>
    simp only [run] at ho
    cases hi : objs[i]? with
    | none => rw [hi] at ho; rcases ho with ho | ho <;> exact absurd ho (by simp)
    | some v =>
      rw [hi] at ho
      simp only at ho
      obtain ⟨s, hs⟩ := hv v (mem_of_get hi)
      rw [destructor_holds hs] at ho
      rcases ho with ho | ho
      · injection ho with _ ho
        subst ho
        exact capInv_released hcap v m.env
      · exact absurd ho (by simp)
  | assign i j =>
    simp only [run] at ho
    cases hi : objs[i]? with
    | none => rw [hi] at ho; rcases ho with ho | ho <;> exact absurd ho (by simp)
    | some v =>
      cases hj : objs[j]? with
      | none => rw [hi, hj] at ho; rcases ho with ho | ho <;> exact absurd ho (by simp)
      | some o =>
        rw [hi, hj] at ho
        simp only at ho
        cases ha : operator_assign N v o m with
        | fault => rw [ha] at ho; rcases ho with ho | ho <;> exact absurd ho (by simp)
        | ok u st =>
          obtain ⟨v1, o1, m1⟩ := st
          rw [ha] at ho
          rcases ho with ho | ho
          · injection ho with _ ho
            subst ho
            exact capInv_assign N objs m i j v o hv hr hcap hi hj v1 o1 m1 (Or.inl ha)
          · exact absurd ho (by simp)
        | thrown st =>
          obtain ⟨v1, o1, m1⟩ := st
          rw [ha] at ho
          rcases ho with ho | ho
          · exact absurd ho (by simp)
          · injection ho with ho
            subst ho
            exact capInv_assign N objs m i j v o hv hr hcap hi hj v1 o1 m1 (Or.inr ha)
  | swap i j =>
    simp only [run] at ho
    cases hi : objs[i]? with
    | none => rw [hi] at ho; rcases ho with ho | ho <;> exact absurd ho (by simp)
    | some v =>
      cases hj : objs[j]? with
      | none => rw [hi, hj] at ho; rcases ho with ho | ho <;> exact absurd ho (by simp)
      | some o =>
        rw [hi, hj] at ho
        simp only at ho
        obtain ⟨sv, hsv⟩ := hv v (mem_of_get hi)
        obtain ⟨so, hso⟩ := hv o (mem_of_get hj)
        cases ha : swap N v o m with
        | fault => rw [ha] at ho; rcases ho with ho | ho <;> exact absurd ho (by simp)
        | ok u st =>
          obtain ⟨v1, o1, m1⟩ := st
          rw [ha] at ho
          rcases ho with ho | ho
          · injection ho with _ ho
            subst ho
            exact capInv_heap hcap (swap_outcome N v o m sv so hsv hso v1 o1 m1 (Or.inl ha)).1
          · exact absurd ho (by simp)
        | thrown st =>
          obtain ⟨v1, o1, m1⟩ := st
          rw [ha] at ho
          rcases ho with ho | ho
          · exact absurd ho (by simp)
          · injection ho with ho
            subst ho
            exact capInv_heap hcap (swap_outcome N v o m sv so hsv hso v1 o1 m1 (Or.inr ha)).1
  | mutate i op =>
    simp only [run] at ho
    cases hi : objs[i]? with
    | none => rw [hi] at ho; rcases ho with ho | ho <;> exact absurd ho (by simp)
    | some v =>
      rw [hi] at ho
      simp only at ho
      obtain ⟨s, hs⟩ := hv v (mem_of_get hi)
      cases ha : apply_op N v m op with
      | fault => rw [ha] at ho; rcases ho with ho | ho <;> exact absurd ho (by simp)
      | ok u st =>
        obtain ⟨v1, m1⟩ := st
        rw [ha] at ho
        rcases ho with ho | ho
        · injection ho with _ ho
          subst ho
          exact capInv_effect N hN v m s v1 m1 hcap
            (apply_op_effect N v m s hs op v1 m1 (Or.inl ha))
        · exact absurd ho (by simp)
      | thrown st =>
        obtain ⟨v1, m1⟩ := st
        rw [ha] at ho
        rcases ho with ho | ho
        · exact absurd ho (by simp)
        · injection ho with ho
          subst ho
          exact capInv_effect N hN v m s v1 m1 hcap
            (apply_op_effect N v m s hs op v1 m1 (Or.inr ha))
  | access i acc =>
    simp only [run] at ho
    cases hi : objs[i]? with
    | none => rw [hi] at ho; rcases ho with ho | ho <;> exact absurd ho (by simp)
    | some v =>
      rw [hi] at ho
      simp only at ho
      obtain ⟨s, hs⟩ := hv v (mem_of_get hi)
      cases ha : access N v m acc with
      | fault => rw [ha] at ho; rcases ho with ho | ho <;> exact absurd ho (by simp)
      | ok p st =>
        obtain ⟨v1, m1⟩ := st
        rw [ha] at ho
        rcases ho with ho | ho
        · injection ho with _ ho
          subst ho
          exact capInv_effect N hN v m s v1 m1 hcap
            (access_effect N v m s hs acc v1 m1 (Or.inl ⟨p, ha⟩))
        · exact absurd ho (by simp)
      | thrown st =>
        obtain ⟨v1, m1⟩ := st
        rw [ha] at ho
        rcases ho with ho | ho
        · exact absurd ho (by simp)
        · injection ho with ho
          subst ho
          exact capInv_effect N hN v m s v1 m1 hcap
            (access_effect N v m s hs acc v1 m1 (Or.inr ha))

theorem reachable_cap {T : Type} [Layout T] [DecidableEq T] (N : Nat) (hN : 1 ≤ N) (sys : Sys T)
    (h : Reachable N sys) : CapInv N sys.mem := by
  induction h with
  | init e =>
    intro A b hb _
    simp at hb
  | step_ok sys c sys1 hp hrun ih =>
    obtain ⟨hv, hr⟩ := reachable_inv N sys hp
    exact capInv_run N hN sys c sys1 hv hr ih (Or.inl hrun)
  | step_thrown sys c sys1 hp hrun ih =>
    obtain ⟨hv, hr⟩ := reachable_inv N sys hp
    exact capInv_run N hN sys c sys1 hv hr ih (Or.inr hrun)

/-- C31. For an inline capacity of at least one, in every reachable state: a
big handle has a capacity above the inline capacity; `push_back` on a full
small container, when it returns normally, leaves a big container of capacity
twice the inline capacity, and it returns normally when no copy failure is
armed; `reserve` that returns normally never lowers the capacity, and turns a
small container into a big one only for a request above its capacity; and
`shrink_to_fit` that returns normally leaves a big container only with a size
above the inline capacity. -/
theorem big_capacity_above_inline {T : Type} [Layout T] [DecidableEq T] (N : Nat) (sys : Sys T)
    (hN : 1 ≤ N) (h : Reachable N sys) :
    (∀ v ∈ sys.objs, v.is_small = false →
      ∃ cap, capacity N v sys.mem = .ok cap (v, sys.mem) ∧ N < cap) ∧
    (∀ v ∈ sys.objs, v.is_small = true → v.size_ = N → ∀ x,
      (∀ v1 m1, push_back N v sys.mem (.val x) = .ok () (v1, m1) →
        v1.is_small = false ∧ capacity N v1 m1 = .ok (N * 2) (v1, m1)) ∧
      (sys.mem.env.throw_countdown = 0 →
        ∃ v1 m1, push_back N v sys.mem (.val x) = .ok () (v1, m1))) ∧
    (∀ v ∈ sys.objs, ∀ k cap v1 m1, capacity N v sys.mem = .ok cap (v, sys.mem) →
      reserve N v sys.mem k = .ok () (v1, m1) →
      (∃ cap1, capacity N v1 m1 = .ok cap1 (v1, m1) ∧ cap ≤ cap1) ∧
      (v.is_small = true → v1.is_small = false → cap < k)) ∧
    (∀ v ∈ sys.objs, ∀ v1 m1, shrink_to_fit N v sys.mem = .ok () (v1, m1) →
      v1.is_small = false → N < v1.size_) := by
  obtain ⟨hv, _⟩ := reachable_inv N sys h
  have hcap := reachable_cap N hN sys h
  have hsmall : ∀ v ∈ sys.objs, v.is_small = true → ∃ s, SmallAt N v s := by
    intro v hvm hs
    obtain ⟨s, hH⟩ := hv v hvm
    rcases hH with h1 | ⟨A, c, hb⟩
    · exact ⟨s, h1⟩
    · rw [hb.1] at hs
      exact absurd hs (by simp)
  refine ⟨?_, ?_, ?_, ?_⟩
  · intro v hvm hs
    obtain ⟨s, hH⟩ := hv v hvm
    rcases hH with h1 | ⟨A, c, hb⟩
    · rw [h1.1] at hs
      exact absurd hs (by simp)
    · exact ⟨c.capacity, capacity_big N hb, hcap A c hb.2.2.2.2.1 hb.2.2.2.2.2.1⟩
  · intro v hvm hs hsz x
    obtain ⟨s, h1⟩ := hsmall v hvm hs
    have hlen : s.length = N := by rw [← h1.2.2.1, hsz]
    have hc0 : capacity N v sys.mem = .ok s.length (v, sys.mem) := by
      rw [capacity_small sys.mem h1, hlen]
    constructor
    · intro v1 m1 hok
      obtain ⟨l1, cap1, cap, hst, _, _, hc, hc1⟩ :=
        push_back_ok_stor N v sys.mem s x (Or.inl h1) v1 m1 hok
      have hcN : s.length = cap := capacity_inj hc0 hc
      rw [if_pos hcN, hlen] at hc1
      have hcs := capacity_stor hst
      rw [hc1] at hcs
      refine ⟨?_, hcs⟩
      rcases hst with ⟨_, _, _, h2⟩ | ⟨h2, _⟩
      · omega
      · exact h2
    · intro h0
      rw [push_back_grow (Or.inl h1) hc0 (.val x) x rfl]
      have hpos : 0 < s.length := by omega
      simp only [no_throw_of_zero h0, hpos, if_true]
      exact ⟨_, _, rfl⟩
  · intro v hvm k cap v1 m1 hc hok
    obtain ⟨s, hH⟩ := hv v hvm
    refine ⟨reserve_ok_capacity N v sys.mem s k cap hH hc v1 m1 hok, ?_⟩
    intro hs hs1
    obtain ⟨s0, h1⟩ := hsmall v hvm hs
    have hcN : N = cap := capacity_inj (capacity_small sys.mem h1) hc
    by_contra hk
    have hst : Stor N v sys.mem .small s0 N := Or.inl ⟨h1.1, h1.2.1, rfl, rfl⟩
    rw [reserve_noop hst k (by omega)] at hok
    injection hok with _ hok
    injection hok with hv1 _
    rw [← hv1, hs] at hs1
    exact absurd hs1 (by simp)
  · intro v hvm v1 m1 hok hs1
    obtain ⟨s, hH⟩ := hv v hvm
    rcases hH with h1 | ⟨A, c, hb⟩
    · rw [shrink_to_fit_small sys.mem h1] at hok
      injection hok with _ hok
      injection hok with hv1 _
      rw [← hv1, h1.1] at hs1
      exact absurd hs1 (by simp)
    · have hcA := hcap A c hb.2.2.2.2.1 hb.2.2.2.2.2.1
      rw [shrink_to_fit_big N hb] at hok
      by_cases hfull : s.length = c.capacity
      · rw [if_pos hfull] at hok
        injection hok with _ hok
        injection hok with hv1 _
        rw [← hv1, hb.2.2.2.1]
        omega
      · rw [if_neg hfull] at hok
        by_cases hle : s.length ≤ N
        · rw [if_pos hle] at hok
          split at hok
          · injection hok with _ hok
            injection hok with hv1 _
            rw [← hv1] at hs1
            exact absurd hs1 (by simp)
          · exact absurd hok (by simp)
        · rw [if_neg hle] at hok
          split at hok
          · injection hok with _ hok
            injection hok with hv1 _
            rw [← hv1]
            simp only
            omega
          · exact absurd hok (by simp)

/-! ## The request of reserve -/

/-- C14, evaluation of the code: for `element<size_t>` (8 bytes, after a
header of 16 bytes) the byte count that `make_storage(2 ^ 61)` asks for wraps
to 16, the header alone, while a block of 10 elements asks for 96 bytes;
`reserve(2 ^ 61)` on the small container `[1]` copies its element past the end
of the block it obtained, where `reserve(10)` returns with capacity 10. -/
theorem reserve_request_wraps :
    storage_bytes Nat (2 ^ 61) = 16 ∧ storage_fits Nat (2 ^ 61) = false ∧
    storage_bytes Nat 10 = 96 ∧ storage_fits Nat 10 = true ∧
    reserve 3 (⟨true, 1, [1], none⟩ : socow_vector Nat) ⟨[], ⟨0, 0⟩⟩ (2 ^ 61) = .fault ∧
    reserve 3 (⟨true, 1, [1], none⟩ : socow_vector Nat) ⟨[], ⟨0, 0⟩⟩ 10 =
      .ok () (⟨false, 1, [], some 0⟩, ⟨[⟨10, 1, [1], true⟩], ⟨0, 1⟩⟩) := by
  decide

/-! ## Capacity and size after swap and copy assignment -/

theorem released_capacity {T : Type} (b : big_storage T) :
    (released b).capacity = b.capacity := by
  unfold released
  split <;> rfl

theorem heap_released_capacity {T : Type} (t : socow_vector T) (m : Mem T) (A : Nat)
    (b : big_storage T) (h : (heap_released t m)[A]? = some b) :
    ∃ b0, m.heap[A]? = some b0 ∧ b0.capacity = b.capacity := by
  have hA : A < m.heap.length := by
    have := (List.getElem?_eq_some.mp h).1
    rwa [heap_released_length] at this
  obtain ⟨b0, hb0⟩ : ∃ b0, m.heap[A]? = some b0 := ⟨_, List.getElem?_eq_getElem hA⟩
  by_cases ht : tgt t = some A
  · rw [heap_released_own t m A b0 ht hb0] at h
    injection h with h
    exact ⟨b0, hb0, by rw [← h, released_capacity]⟩
  · rw [heap_released_frame t m A ht, hb0] at h
    injection h with h
    exact ⟨b0, hb0, by rw [h]⟩

/-- A valid handle on the block of another valid handle, in a heap whose
blocks have kept their capacities, has the capacity of that handle. -/
theorem capacity_transfer {T : Type} {N : Nat} {v w : socow_vector T} {m m1 : Mem T}
    {s s1 : List T} (hv : Holds N v m s) (hw : Holds N w m1 s1) (ht : tgt w = tgt v)
    (hcapb : ∀ (A : Nat) (b1 : big_storage T), m1.heap[A]? = some b1 →
      ∃ b, m.heap[A]? = some b ∧ b.capacity = b1.capacity)
    (cap : Nat) (hc : capacity N v m = .ok cap (v, m)) :
    capacity N w m1 = .ok cap (w, m1) := by
  rcases hv with hs | ⟨A, c, hb⟩
  · have hws := holds_small_of_tgt hw (by rw [ht, tgt_small hs])
    have := capacity_inj (capacity_small m hs) hc
    rw [capacity_small m1 hws, this]
  · obtain ⟨b1, hb1⟩ := holds_tgt hw (by rw [ht, tgt_big hb])
    obtain ⟨b, hb0, hbc⟩ := hcapb A b1 hb1.2.2.2.2.1
    have hbe : c = b := by
      have := hb.2.2.2.2.1
      rw [hb0] at this
      injection this with this
      exact this.symm
    subst hbe
    have := capacity_inj (capacity_big N hb) hc
    rw [capacity_big N hb1, ← hbc, this]

/-- A `swap` that returns normally has exchanged the blocks the two handles
reference. -/
theorem swap_ok_tgt {T : Type} {N : Nat} {a b : socow_vector T} {m : Mem T} {sa sb : List T}
    (ha : Holds N a m sa) (hb : Holds N b m sb) (a1 b1 : socow_vector T) (m1 : Mem T)
    (hok : swap N a b m = .ok () (a1, b1, m1)) : tgt a1 = tgt b ∧ tgt b1 = tgt a := by
  rcases ha with ha | ⟨A, c, ha⟩
  · rcases hb with hb | ⟨B, d, hb⟩
    · by_cases hn : no_throw m.env (3 * min sa.length sb.length +
          (max sa.length sb.length - min sa.length sb.length))
      · rw [(swap_small_small m ha hb).1 hn] at hok
        injection hok with _ hok
        injection hok with e1 e2
        injection e2 with e2 _
        subst e1; subst e2
        simp [tgt, ha.1, hb.1]
      · obtain ⟨st, hst⟩ := (swap_small_small m ha hb).2 hn
        rw [hst] at hok
        exact absurd hok (by simp)
    · rw [swap_small_big ha hb] at hok
      split at hok
      · injection hok with _ hok
        injection hok with e1 e2
        injection e2 with e2 _
        subst e1; subst e2
        simp [tgt, ha.1, hb.1, hb.2.2.1]
      · exact absurd hok (by simp)
  · rcases hb with hb | ⟨B, d, hb⟩
    · rw [swap_big_small ha hb] at hok
      split at hok
      · injection hok with _ hok
        injection hok with e1 e2
        injection e2 with e2 _
        subst e1; subst e2
        simp [tgt, ha.1, hb.1, ha.2.2.1]
      · exact absurd hok (by simp)
    · rw [swap_big_big ha hb] at hok
      injection hok with _ hok
      injection hok with e1 e2
      injection e2 with e2 _
      subst e1; subst e2
      simp [tgt, ha.1, hb.1, ha.2.2.1, hb.2.2.1]

/-- A `swap` that returns normally has exchanged the capacities. -/
theorem swap_ok_capacity {T : Type} {N : Nat} {a b : socow_vector T} {m : Mem T}
    {sa sb : List T} (ha : Holds N a m sa) (hb : Holds N b m sb) (ca cb : Nat)
    (hca : capacity N a m = .ok ca (a, m)) (hcb : capacity N b m = .ok cb (b, m))
    (a1 b1 : socow_vector T) (m1 : Mem T) (hok : swap N a b m = .ok () (a1, b1, m1)) :
    capacity N a1 m1 = .ok cb (a1, m1) ∧ capacity N b1 m1 = .ok ca (b1, m1) := by
  obtain ⟨h1, h2, _, _, h5, _⟩ := swap_ok_holds ha hb a1 b1 m1 hok
  obtain ⟨t1, t2⟩ := swap_ok_tgt ha hb a1 b1 m1 hok
  have hfr : ∀ (A : Nat) (b1 : big_storage T), m1.heap[A]? = some b1 →
      ∃ b, m.heap[A]? = some b ∧ b.capacity = b1.capacity := by
    intro A b1 hA
    rw [h5] at hA
    exact ⟨b1, hA, rfl⟩
  exact ⟨capacity_transfer hb h1 t1 hfr cb hcb, capacity_transfer ha h2 t2 hfr ca hca⟩

/-- A `swap`, however it ends, leaves a handle whose size it has changed
either small, or on the block of the other handle with the size of the other
handle. -/
theorem swap_change {T : Type} {N : Nat} {a b : socow_vector T} {m : Mem T} {sa sb : List T}
    (ha : Holds N a m sa) (hb : Holds N b m sb) (a1 b1 : socow_vector T) (m1 : Mem T)
    (ho : swap N a b m = .ok () (a1, b1, m1) ∨ swap N a b m = .thrown (a1, b1, m1)) :
    (a1.size_ ≠ a.size_ → tgt a1 = none ∨ (tgt a1 = tgt b ∧ a1.size_ = b.size_)) ∧
    (b1.size_ ≠ b.size_ → tgt b1 = none ∨ (tgt b1 = tgt a ∧ b1.size_ = a.size_)) := by
  have hsame : ∀ e, (a1, b1, m1) = (a, b, (⟨m.heap, e⟩ : Mem T)) →
      (a1.size_ ≠ a.size_ → tgt a1 = none ∨ (tgt a1 = tgt b ∧ a1.size_ = b.size_)) ∧
      (b1.size_ ≠ b.size_ → tgt b1 = none ∨ (tgt b1 = tgt a ∧ b1.size_ = a.size_)) := by
    intro e he
    injection he with h1 h2
    injection h2 with h2 h3
    subst h1; subst h2
    exact ⟨fun hne => absurd rfl hne, fun hne => absurd rfl hne⟩
  rcases ho with hok | hth
  · obtain ⟨_, _, h3, h4, _, _⟩ := swap_ok_holds ha hb a1 b1 m1 hok
    obtain ⟨t1, t2⟩ := swap_ok_tgt ha hb a1 b1 m1 hok
    exact ⟨fun _ => Or.inr ⟨t1, by rw [h3, size_holds hb]⟩,
      fun _ => Or.inr ⟨t2, by rw [h4, size_holds ha]⟩⟩
  · rcases ha with ha | ⟨A, c, ha⟩
    · rcases hb with hb | ⟨B, d, hb⟩
      · obtain ⟨_, ⟨s1, h2⟩, ⟨s2, h3⟩⟩ := swap_small_small_thrown m ha hb a1 b1 m1 hth
        exact ⟨fun _ => Or.inl (tgt_small h2), fun _ => Or.inl (tgt_small h3)⟩
      · rw [swap_small_big ha hb] at hth
        split at hth
        · exact absurd hth (by simp)
        · injection hth with hth
          exact hsame _ hth.symm
    · rcases hb with hb | ⟨B, d, hb⟩
      · rw [swap_big_small ha hb] at hth
        split at hth
        · exact absurd hth (by simp)
        · injection hth with hth
          exact hsame _ hth.symm
      · rw [swap_big_big ha hb] at hth
        exact absurd hth (by simp)

theorem copy_ctor_capacity_frame {T : Type} {N : Nat} {o : socow_vector T} {m : Mem T}
    {so : List T} (ho : Holds N o m so) (t : socow_vector T) (m1 : Mem T)
    (hc : copy_ctor N o m = .ok t m1) :
    ∀ (A : Nat) (b1 : big_storage T), m1.heap[A]? = some b1 →
      ∃ b, m.heap[A]? = some b ∧ b.capacity = b1.capacity := by
  intro B b1 hB
  rcases ho with hs | ⟨A, c, hb⟩
  · rw [copy_ctor_small m hs] at hc
    split at hc
    · injection hc with _ hm
      rw [← hm] at hB
      exact ⟨b1, hB, rfl⟩
    · exact absurd hc (by simp)
  · rw [copy_ctor_big N hb] at hc
    injection hc with _ hm
    rw [← hm] at hB
    simp only at hB
    by_cases hAB : A = B
    · subst hAB
      rw [List.getElem?_set] at hB
      simp only [if_true] at hB
      split at hB
      · injection hB with hB
        exact ⟨c, hb.2.2.2.2.1, by rw [← hB]⟩
      · exact absurd hB (by simp)
    · rw [List.getElem?_set_ne hAB] at hB
      exact ⟨b1, hB, rfl⟩

/-- A copy assignment that returns normally leaves the target with the
capacity it had when the two containers compare equal, and with the capacity
of the source otherwise. -/
theorem assign_ok_capacity {T : Type} [DecidableEq T] (N : Nat) (v o : socow_vector T)
    (m : Mem T) (sv so : List T) (hv : Holds N v m sv) (ho : Holds N o m so) (cap capo : Nat)
    (hc : capacity N v m = .ok cap (v, m)) (hco : capacity N o m = .ok capo (o, m))
    (v1 o1 : socow_vector T) (m1 : Mem T)
    (hok : operator_assign N v o m = .ok () (v1, o1, m1)) :
    capacity N v1 m1 = .ok (if sv = so then cap else capo) (v1, m1) := by
  unfold operator_assign at hok
  rw [operator_eq_holds hv ho] at hok
  by_cases heq : sv = so
  · simp only [heq, decide_True] at hok
    injection hok with _ hok
    injection hok with h1 hok
    injection hok with h2 h3
    subst h1; subst h3
    rw [if_pos heq]
    exact hc
  · simp only [heq, decide_False] at hok
    rw [if_neg heq]
    cases hcc : copy_ctor N o m with
    | fault => rw [hcc] at hok; exact absurd hok (by simp)
    | thrown st => rw [hcc] at hok; exact absurd hok (by simp)
    | ok t mc =>
      rw [hcc] at hok
      simp only at hok
      obtain ⟨ht, hkeep, _⟩ := copy_ctor_ok_holds ho t mc hcc
      cases hs : swap N t v mc with
      | fault => rw [hs] at hok; exact absurd hok (by simp)
      | thrown st =>
        rw [hs] at hok
        obtain ⟨t1, v2, m2⟩ := st
        simp only at hok
        split at hok <;> exact absurd hok (by simp)
      | ok u st =>
        rw [hs] at hok
        obtain ⟨t1, v2, m2⟩ := st
        simp only at hok
        obtain ⟨k1, k2, _, _, k5, _⟩ := swap_ok_holds ht (hkeep v sv hv) t1 v2 m2 hs
        obtain ⟨_, t2⟩ := swap_ok_tgt ht (hkeep v sv hv) t1 v2 m2 hs
        rw [destructor_holds k1] at hok
        simp only at hok
        injection hok with _ hok
        injection hok with h1 hok
        injection hok with h2 h3
        subst h1; subst h3
        have hne : so ≠ sv := fun h => heq h.symm
        have hfin := holds_after_release k2 k1 hne m2.env
        refine capacity_transfer ho hfin (by rw [t2, copy_ctor_tgt ho t mc hcc]) ?_ capo hco
        intro A b1 hA
        obtain ⟨b2, hb2, hc2⟩ := heap_released_capacity t1 m2 A b1 hA
        rw [k5] at hb2
        obtain ⟨b3, hb3, hc3⟩ := copy_ctor_capacity_frame ho t mc hcc A b2 hb2
        exact ⟨b3, hb3, by rw [hc3, hc2]⟩

/-- A copy assignment, however it ends, leaves the source handle as it was,
and leaves a target whose size it has changed either small, or on the block of
the source with the size of the source. -/
theorem assign_change {T : Type} [DecidableEq T] (N : Nat) (v o : socow_vector T)
    (m : Mem T) (sv so : List T) (hv : Holds N v m sv) (ho : Holds N o m so)
    (v1 o1 : socow_vector T) (m1 : Mem T)
    (h : operator_assign N v o m = .ok () (v1, o1, m1) ∨
      operator_assign N v o m = .thrown (v1, o1, m1)) :
    o1 = o ∧
    (v1.size_ ≠ v.size_ → tgt v1 = none ∨ (tgt v1 = tgt o ∧ v1.size_ = o.size_)) := by
  unfold operator_assign at h
  rw [operator_eq_holds hv ho] at h
  by_cases heq : sv = so
  · simp only [heq, decide_True] at h
    rcases h with h | h
    · injection h with _ h
      injection h with h1 h
      injection h with h2 h3
      subst h1; subst h2
      exact ⟨rfl, fun hne => absurd rfl hne⟩
    · exact absurd h (by simp)
  · simp only [heq, decide_False] at h
    cases hcc : copy_ctor N o m with
    | fault => rw [hcc] at h; rcases h with h | h <;> exact absurd h (by simp)
    | thrown mc =>
      rw [hcc] at h
      simp only at h
      rcases h with h | h
      · exact absurd h (by simp)
      · injection h with h
        injection h with h1 h
        injection h with h2 h3
        subst h1; subst h2
        exact ⟨rfl, fun hne => absurd rfl hne⟩
    | ok t mc =>
      rw [hcc] at h
      simp only at h
      obtain ⟨ht, hkeep, _⟩ := copy_ctor_ok_holds ho t mc hcc
      have hfin : ∀ (t1 v2 : socow_vector T) (m2 : Mem T),
          (swap N t v mc = .ok () (t1, v2, m2) ∨ swap N t v mc = .thrown (t1, v2, m2)) →
          (∃ t2, destructor t1 m2 = some (t2, ⟨heap_released t1 m2, m2.env⟩)) ∧
          (v2.size_ ≠ v.size_ → tgt v2 = none ∨ (tgt v2 = tgt o ∧ v2.size_ = o.size_)) := by
        intro t1 v2 m2 hs
        obtain ⟨_, ⟨s1, hs1⟩, _, _⟩ := swap_outcome N t v mc so sv ht (hkeep v sv hv) t1 v2 m2 hs
        refine ⟨⟨_, destructor_holds hs1⟩, ?_⟩
        intro hne
        rcases (swap_change ht (hkeep v sv hv) t1 v2 m2 hs).2 hne with h1 | ⟨h1, h2⟩
        · exact Or.inl h1
        · exact Or.inr ⟨by rw [h1, copy_ctor_tgt ho t mc hcc],
            by rw [h2, size_holds ht, size_holds ho]⟩
      cases hs : swap N t v mc with
      | fault => rw [hs] at h; rcases h with h | h <;> exact absurd h (by simp)
      | ok u st =>
        obtain ⟨t1, v2, m2⟩ := st
        obtain ⟨⟨t2, hd⟩, hch⟩ := hfin t1 v2 m2 (Or.inl hs)
        rw [hs] at h
        simp only [hd] at h
        rcases h with h | h
        · injection h with _ h
          injection h with h1 h
          injection h with h2 h3
          subst h1; subst h2
          exact ⟨rfl, hch⟩
        · exact absurd h (by simp)
      | thrown st =>
        obtain ⟨t1, v2, m2⟩ := st
        obtain ⟨⟨t2, hd⟩, hch⟩ := hfin t1 v2 m2 (Or.inr hs)
        rw [hs] at h
        simp only [hd] at h
        rcases h with h | h
        · exact absurd h (by simp)
        · injection h with h
          injection h with h1 h
          injection h with h2 h3
          subst h1; subst h2
          exact ⟨rfl, hch⟩

/-- C24, amended. For a valid container of capacity `cap`: each of
`push_back`, `pop_back`, `insert`, `erase`, `clear`, `reserve` and an element
assignment through a mutable access path, when it returns normally, leaves a
capacity of at least `cap`; each mutable access path leaves the capacity
`cap`; a `swap` that returns normally exchanges the capacities of the two
containers; and a copy assignment that returns normally leaves the capacity
`cap` when the two containers compare equal, and gives the target the capacity
of the source otherwise. -/
theorem capacity_monotone {T : Type} [Layout T] [DecidableEq T] (N : Nat) (v : socow_vector T)
    (m : Mem T) (s : List T) (cap : Nat) (h : Holds N v m s)
    (hc : capacity N v m = .ok cap (v, m)) :
    (∀ op v2 m2, op ≠ .shrink_to_fit → apply_op N v m op = .ok () (v2, m2) →
      ∃ cap2, capacity N v2 m2 = .ok cap2 (v2, m2) ∧ cap ≤ cap2) ∧
    (∀ acc p v2 m2, access N v m acc = .ok p (v2, m2) →
      capacity N v2 m2 = .ok cap (v2, m2)) ∧
    (∀ o so capo, Holds N o m so → capacity N o m = .ok capo (o, m) → ∀ v1 o1 m1,
      swap N v o m = .ok () (v1, o1, m1) →
      capacity N v1 m1 = .ok capo (v1, m1) ∧ capacity N o1 m1 = .ok cap (o1, m1)) ∧
    (∀ o so capo, Holds N o m so → capacity N o m = .ok capo (o, m) → ∀ v1 o1 m1,
      operator_assign N v o m = .ok () (v1, o1, m1) →
      capacity N v1 m1 = .ok (if s = so then cap else capo) (v1, m1)) := by
  have hdata : ∀ (op : mut_op T),
      ((∃ acc fwd bwd x, op = .write acc fwd bwd x) ∨ op = .pop_back ∨
        (∃ i, op = .erase i) ∨ (∃ f t, op = .erase_range f t) ∨ op = .clear) →
      ∀ v2 m2, apply_op N v m op = .ok () (v2, m2) →
        ∃ cap2, capacity N v2 m2 = .ok cap2 (v2, m2) ∧ cap ≤ cap2 := by
    intro op hop v2 m2 hok
    obtain ⟨hth, hf, hin⟩ := op_after_data N v m s h op hop
    obtain ⟨p, v1, m1, hd⟩ := data_not_ok (apply_op N v m op) v2 m2 () hok hth hf
    obtain ⟨cap1, hst, hoff, hle, hsz, hcap⟩ := data_ok_stor h p v1 m1 hd
    have hcc := capacity_inj hcap hc
    subst hcc
    have hp : p = ⟨p.loc, 0⟩ := by cases p; simp_all
    rw [hp] at hd
    obtain ⟨d, e, _, _, h2, _, _⟩ := inPlace_outcome hst (hin v1 m1 p.loc cap1 hd hst hsz hle)
      v2 m2 (Or.inl ⟨(), hok⟩)
    exact ⟨cap1, capacity_stor h2, le_refl _⟩
  refine ⟨?_, ?_, ?_, ?_⟩
  · intro op v2 m2 hne hok
    cases op with
    | write acc fwd bwd x => exact hdata _ (Or.inl ⟨acc, fwd, bwd, x, rfl⟩) v2 m2 hok
    | pop_back => exact hdata _ (Or.inr (Or.inl rfl)) v2 m2 hok
    | erase i => exact hdata _ (Or.inr (Or.inr (Or.inl ⟨i, rfl⟩))) v2 m2 hok
    | erase_range f t => exact hdata _ (Or.inr (Or.inr (Or.inr (Or.inl ⟨f, t, rfl⟩)))) v2 m2 hok
    | clear => exact hdata _ (Or.inr (Or.inr (Or.inr (Or.inr rfl)))) v2 m2 hok
    | shrink_to_fit => exact absurd rfl hne
    | reserve k => exact reserve_ok_capacity N v m s k cap h hc v2 m2 hok
    | push_back x =>
      obtain ⟨_, _, cap0, hcap, hc2⟩ := push_back_ok_holds N v m s x h v2 m2 hok
      have hcc := capacity_inj hcap hc
      subst hcc
      refine ⟨_, hc2, ?_⟩
      split <;> omega
    | insert i x =>
      obtain ⟨l, hl, hbc⟩ := begin_const_holds h
      simp only [apply_op, hbc, Nat.zero_add] at hok
      cases hpb : push_back N v m (.val x) with
      | fault =>
        rw [insert_fault_of_push v m _ x hpb] at hok
        exact absurd hok (by simp [forget])
      | thrown st =>
        rw [insert_thrown_of_push v m l i x hl st hpb] at hok
        exact absurd hok (by simp [forget])
      | ok u st =>
        obtain ⟨v1, m1⟩ := st
        obtain ⟨l1, cap1, cap0, hst, hle, hsz, hcap, hc1⟩ :=
          push_back_ok_stor N v m s x h v1 m1 hpb
        have hcc := capacity_inj hcap hc
        subst hcc
        have hin := insert_inPlace v m l i x hl v1 m1 l1 (s ++ [x]) cap1 hpb hst
          (by simp [hsz]) (by simp) (by simpa using hle)
        obtain ⟨d, e, _, _, h2, _, _⟩ := inPlace_outcome hst hin v2 m2
          (forget_outcome _ v2 m2 (Or.inl hok))
        refine ⟨cap1, capacity_stor h2, ?_⟩
        rw [hc1]
        split <;> omega
  · intro acc p v2 m2 hok
    rw [access_eq] at hok
    cases hd : data N v m with
    | fault => rw [hd] at hok; exact absurd hok (by simp)
    | thrown st => rw [hd] at hok; exact absurd hok (by simp)
    | ok q st =>
      obtain ⟨v1, m1⟩ := st
      rw [hd] at hok
      simp only at hok
      injection hok with _ hst2
      injection hst2 with hv hm
      subst hv; subst hm
      obtain ⟨cap1, hst, _, _, _, hcap⟩ := data_ok_stor h q v1 m1 hd
      have hcc := capacity_inj hcap hc
      subst hcc
      exact capacity_stor hst
  · intro o so capo ho hco v1 o1 m1 hok
    exact swap_ok_capacity h ho cap capo hc hco v1 o1 m1 hok
  · intro o so capo ho hco v1 o1 m1 hok
    exact assign_ok_capacity N v o m s so h ho cap capo hc hco v1 o1 m1 hok

/-- C30, amended. In every reachable state two handles that reference the
same block have the same size, which is the number of constructed slots of the
block; the destructor of the only handle on a block destroys exactly these
slots and frees the block; a mutating operation other than `swap` and copy
assignment that ends with another size for its handle has worked in place on
exclusive storage or has moved the handle to a fresh block of its own; and a
`swap` or a copy assignment that ends with another size for a handle leaves
that handle small, or on the block of the other container with the size of the
other container. -/
theorem sharers_agree_on_size {T : Type} [Layout T] [DecidableEq T] (N : Nat) (sys : Sys T)
    (h : Reachable N sys) :
    (∀ v ∈ sys.objs, ∀ w ∈ sys.objs, ∀ A, tgt v = some A → tgt w = some A →
      v.size_ = w.size_ ∧
      ∃ b, sys.mem.heap[A]? = some b ∧ b.live = true ∧ b.data.length = v.size_) ∧
    (∀ v ∈ sys.objs, ∀ A b, tgt v = some A → sys.mem.heap[A]? = some b → b.ref_count = 1 →
      b.data.length = v.size_ ∧
      destructor v sys.mem =
        some (v, ⟨sys.mem.heap.set A ⟨b.capacity, 0, [], false⟩, sys.mem.env⟩)) ∧
    (∀ v ∈ sys.objs, ∀ s, Holds N v sys.mem s → ∀ op v2 m2,
      (apply_op N v sys.mem op = .ok () (v2, m2) ∨
        apply_op N v sys.mem op = .thrown (v2, m2)) →
      v2.size_ ≠ v.size_ → EffIn N v sys.mem v2 m2 ∨ EffMoved N v sys.mem s v2 m2) ∧
    (∀ v ∈ sys.objs, ∀ o ∈ sys.objs, ∀ v1 o1 m1,
      (swap N v o sys.mem = .ok () (v1, o1, m1) ∨
        swap N v o sys.mem = .thrown (v1, o1, m1)) →
      (v1.size_ ≠ v.size_ → tgt v1 = none ∨ (tgt v1 = tgt o ∧ v1.size_ = o.size_)) ∧
      (o1.size_ ≠ o.size_ → tgt o1 = none ∨ (tgt o1 = tgt v ∧ o1.size_ = v.size_))) ∧
    (∀ v ∈ sys.objs, ∀ o ∈ sys.objs, ∀ v1 o1 m1,
      (operator_assign N v o sys.mem = .ok () (v1, o1, m1) ∨
        operator_assign N v o sys.mem = .thrown (v1, o1, m1)) →
      o1 = o ∧
      (v1.size_ ≠ v.size_ → tgt v1 = none ∨ (tgt v1 = tgt o ∧ v1.size_ = o.size_))) := by
  obtain ⟨hv, hr⟩ := reachable_inv N sys h
  have hsz : ∀ v ∈ sys.objs, ∀ A, tgt v = some A →
      ∃ b, sys.mem.heap[A]? = some b ∧ b.live = true ∧ b.data.length = v.size_ := by
    intro v hvm A ht
    obtain ⟨s, hs⟩ := hv v hvm
    obtain ⟨b, hb⟩ := holds_tgt hs ht
    exact ⟨b, hb.2.2.2.2.1, hb.2.2.2.2.2.1, by rw [hb.2.2.2.2.2.2.1, hb.2.2.2.1]⟩
  refine ⟨?_, ?_, ?_, ?_, ?_⟩
  · intro v hvm w hwm A htv htw
    obtain ⟨b, hb, hl, hd⟩ := hsz v hvm A htv
    obtain ⟨b1, hb1, _, hd1⟩ := hsz w hwm A htw
    rw [hb] at hb1
    injection hb1 with hb1
    subst hb1
    exact ⟨by rw [← hd, hd1], b, hb, hl, hd⟩
  · intro v hvm A b ht hb hone
    obtain ⟨s, hs⟩ := hv v hvm
    obtain ⟨b1, hb1⟩ := holds_tgt hs ht
    have : b1 = b := by
      have := hb1.2.2.2.2.1
      rw [hb] at this
      injection this with this
      exact this.symm
    subst this
    refine ⟨by rw [hb1.2.2.2.2.2.2.1, hb1.2.2.2.1], ?_⟩
    rw [destructor_big hb1]
    simp [released, hone]
  · intro v hvm s hs op v2 m2 ho hne
    rcases apply_op_effect N v sys.mem s hs op v2 m2 ho with h1 | ⟨h2, _⟩ | h3 |
      ⟨A, c, e, hb, _, h4, _⟩
    · exact Or.inl h1
    · rw [h2] at hne
      exact absurd rfl hne
    · exact Or.inr h3
    · rw [h4] at hne
      simp only at hne
      exact absurd hb.2.2.2.1.symm hne
  · intro v hvm o hom v1 o1 m1 ho
    obtain ⟨sv, hsv⟩ := hv v hvm
    obtain ⟨so, hso⟩ := hv o hom
    exact swap_change hsv hso v1 o1 m1 ho
  · intro v hvm o hom v1 o1 m1 ho
    obtain ⟨sv, hsv⟩ := hv v hvm
    obtain ⟨so, hso⟩ := hv o hom
    exact assign_change N v o sys.mem sv so hsv hso v1 o1 m1 ho

/-! ## Instances on concrete containers -/

/-- C1, instance: `push_back(47)` on the full small container `[41, 43]` with
inline capacity 2 gives the big container `[41, 43, 47]` of capacity 4. -/
theorem push_back_appends_witness :
    Holds 2 (⟨true, 2, [41, 43], none⟩ : socow_vector Nat) ⟨[], ⟨0, 0⟩⟩ [41, 43] ∧
    Holds 2 (⟨false, 3, [], some 0⟩ : socow_vector Nat)
      ⟨[⟨4, 1, [41, 43, 47], true⟩], ⟨0, 3⟩⟩ [41, 43, 47] :=
  ⟨Or.inl ⟨rfl, rfl, rfl, by decide⟩,
   ((push_back_appends 2 ⟨true, 2, [41, 43], none⟩ ⟨[], ⟨0, 0⟩⟩ [41, 43] 47
      (Or.inl ⟨rfl, rfl, rfl, by decide⟩)).1 _ _ (by decide)).1⟩

/-- C2, instance: inserting 42 at position 1 of the small container `[41, 43]`
gives `[41, 42, 43]`. -/
theorem insert_inserts_witness :
    Holds 3 (⟨true, 2, [41, 43], none⟩ : socow_vector Nat) ⟨[], ⟨0, 0⟩⟩ [41, 43] ∧
    Holds 3 (⟨true, 3, [41, 42, 43], none⟩ : socow_vector Nat) ⟨[], ⟨0, 4⟩⟩ [41, 42, 43] :=
  ⟨Or.inl ⟨rfl, rfl, rfl, by decide⟩,
   ((insert_inserts 3 ⟨true, 2, [41, 43], none⟩ ⟨[], ⟨0, 0⟩⟩ [41, 43] 42 1 ⟨.small, 0⟩
      (Or.inl ⟨rfl, rfl, rfl, by decide⟩) (by decide) (by decide)).1 ⟨.small, 0⟩ _ _
      (by decide)).1⟩

/-- C3, instance: erasing `[1, 4)` from the big container `[10, 11, 12, 13, 14]`
gives `[10, 14]`. -/
theorem erase_range_erases_witness :
    Holds 2 (⟨false, 5, [], some 0⟩ : socow_vector Nat)
      ⟨[⟨8, 1, [10, 11, 12, 13, 14], true⟩], ⟨0, 0⟩⟩ [10, 11, 12, 13, 14] ∧
    Holds 2 (⟨false, 2, [], some 0⟩ : socow_vector Nat)
      ⟨[⟨8, 1, [10, 14], true⟩], ⟨0, 3⟩⟩ [10, 14] :=
  ⟨Or.inr ⟨0, _, rfl, rfl, rfl, rfl, rfl, rfl, rfl, by decide, by decide⟩,
   ((erase_range_erases 2 ⟨false, 5, [], some 0⟩
      ⟨[⟨8, 1, [10, 11, 12, 13, 14], true⟩], ⟨0, 0⟩⟩ [10, 11, 12, 13, 14] 1 4 ⟨.big 0, 0⟩
      (Or.inr ⟨0, _, rfl, rfl, rfl, rfl, rfl, rfl, rfl, by decide, by decide⟩)
      (by decide) (by decide) (by decide)).1 ⟨.big 0, 1⟩ _ _ (by decide)).1⟩

/-- C8, the claim as stated fails: a shared, not full container `[41, 43, 47]`
of capacity 4 whose 4th element copy fails leaves `push_back(51)` with a
handle that references a different block. -/
theorem push_back_strong_counterexample :
    push_back 2 (⟨false, 3, [], some 0⟩ : socow_vector Nat)
        ⟨[⟨4, 2, [41, 43, 47], true⟩], ⟨4, 0⟩⟩ (.val 51) =
      .thrown (⟨false, 3, [], some 1⟩,
        ⟨[⟨4, 1, [41, 43, 47], true⟩, ⟨4, 1, [41, 43, 47], true⟩], ⟨0, 4⟩⟩) ∧
    (⟨false, 3, [], some 1⟩ : socow_vector Nat).big ≠
      (⟨false, 3, [], some 0⟩ : socow_vector Nat).big := by
  decide

/-- C8, instance: `[41, 43, 47]` shared and full, the 2nd copy fails:
`push_back(51)` throws and the container still holds `[41, 43, 47]`. -/
theorem push_back_strong_witness :
    Holds 2 (⟨false, 3, [], some 0⟩ : socow_vector Nat)
      ⟨[⟨3, 2, [41, 43, 47], true⟩], ⟨2, 0⟩⟩ [41, 43, 47] ∧
    Holds 2 (⟨false, 3, [], some 0⟩ : socow_vector Nat)
      ⟨[⟨3, 2, [41, 43, 47], true⟩, ⟨6, 1, [], false⟩], ⟨0, 2⟩⟩ [41, 43, 47] :=
  ⟨Or.inr ⟨0, _, rfl, rfl, rfl, rfl, rfl, rfl, rfl, by decide, by decide⟩,
   (push_back_strong 2 ⟨false, 3, [], some 0⟩ ⟨[⟨3, 2, [41, 43, 47], true⟩], ⟨2, 0⟩⟩
      [41, 43, 47] 51 _ _
      (Or.inr ⟨0, _, rfl, rfl, rfl, rfl, rfl, rfl, rfl, by decide, by decide⟩)
      (by decide)).1⟩

/-- C10, evaluation of the code at the failing input: `this = []`,
`other = [1, 2]`, both small with inline capacity 2, the 4th element copy
fails; the assignment throws and leaves `this = [1]`. -/
theorem operator_assign_not_strong :
    operator_assign 2 (⟨true, 0, [], none⟩ : socow_vector Nat) ⟨true, 2, [1, 2], none⟩
        ⟨[], ⟨4, 0⟩⟩ =
      .thrown (⟨true, 1, [1], none⟩, ⟨true, 2, [1, 2], none⟩, ⟨[], ⟨0, 4⟩⟩) := by
  decide

/-- C4, instance: `b` is a copy of the big container `a = [100, 101, 102, 103]`;
after `b[3] = 42` the container `a` still holds `[100, 101, 102, 103]`. -/
theorem copy_value_independence_witness :
    Holds 2 (⟨false, 4, [], some 0⟩ : socow_vector Nat)
      ⟨[⟨4, 1, [100, 101, 102, 103], true⟩], ⟨0, 0⟩⟩ [100, 101, 102, 103] ∧
    copy_ctor 2 (⟨false, 4, [], some 0⟩ : socow_vector Nat)
      ⟨[⟨4, 1, [100, 101, 102, 103], true⟩], ⟨0, 0⟩⟩ =
      .ok ⟨false, 4, [], some 0⟩ ⟨[⟨4, 2, [100, 101, 102, 103], true⟩], ⟨0, 0⟩⟩ ∧
    Holds 2 (⟨false, 4, [], some 0⟩ : socow_vector Nat)
      ⟨[⟨4, 1, [100, 101, 102, 103], true⟩, ⟨4, 1, [100, 101, 102, 42], true⟩], ⟨0, 5⟩⟩
      [100, 101, 102, 103] :=
  ⟨Or.inr ⟨0, _, rfl, rfl, rfl, rfl, rfl, rfl, rfl, by decide, by decide⟩, by decide,
   ((copy_value_independence 2 ⟨false, 4, [], some 0⟩
      ⟨[⟨4, 1, [100, 101, 102, 103], true⟩], ⟨0, 0⟩⟩ [100, 101, 102, 103]
      ⟨false, 4, [], some 0⟩ ⟨[⟨4, 2, [100, 101, 102, 103], true⟩], ⟨0, 0⟩⟩
      (.write (.subscript 3) 0 0 42)
      (Or.inr ⟨0, _, rfl, rfl, rfl, rfl, rfl, rfl, rfl, by decide, by decide⟩)
      (by decide)).2.2.1 ⟨false, 4, [], some 1⟩ _ (Or.inl (by decide))).1⟩

/-- C5, instance: copying a big container while the next element copy is set
to fail returns normally, leaves the element statics alone and raises the
reference count from 1 to 2. -/
theorem copy_ctor_shares_witness :
    BigAt (⟨false, 4, [], some 0⟩ : socow_vector Nat)
      ⟨[⟨4, 1, [100, 101, 102, 103], true⟩], ⟨1, 0⟩⟩ 0 ⟨4, 1, [100, 101, 102, 103], true⟩
      [100, 101, 102, 103] ∧
    ∃ b m1, copy_ctor 2 (⟨false, 4, [], some 0⟩ : socow_vector Nat)
        ⟨[⟨4, 1, [100, 101, 102, 103], true⟩], ⟨1, 0⟩⟩ = .ok b m1 ∧
      m1.env = ⟨1, 0⟩ ∧ m1.heap = [⟨4, 2, [100, 101, 102, 103], true⟩] :=
  ⟨⟨rfl, rfl, rfl, rfl, rfl, rfl, rfl, by decide, by decide⟩,
   Exists.elim ((copy_ctor_shares 2 (⟨false, 4, [], some 0⟩ : socow_vector Nat)
      ⟨[⟨4, 1, [100, 101, 102, 103], true⟩], ⟨1, 0⟩⟩ [100, 101, 102, 103]).1 0
      ⟨4, 1, [100, 101, 102, 103], true⟩
      ⟨rfl, rfl, rfl, rfl, rfl, rfl, rfl, by decide, by decide⟩)
     (fun b hb => Exists.elim hb (fun m1 hm => ⟨b, m1, hm.1, hm.2.1, hm.2.2.1⟩))⟩

/-- C6, instance: `a[3]` on a big container of 4 elements whose block is
shared performs 4 copies and returns an address in the new block. -/
theorem mutable_access_unshares_witness :
    BigAt (⟨false, 4, [], some 0⟩ : socow_vector Nat)
      ⟨[⟨4, 2, [100, 101, 102, 103], true⟩], ⟨0, 0⟩⟩ 0 ⟨4, 2, [100, 101, 102, 103], true⟩
      [100, 101, 102, 103] ∧
    ∃ p v1 m1, access 2 (⟨false, 4, [], some 0⟩ : socow_vector Nat)
        ⟨[⟨4, 2, [100, 101, 102, 103], true⟩], ⟨0, 0⟩⟩ (.subscript 3) = .ok p (v1, m1) ∧
      m1.env.copy_counter = 0 + 4 ∧ p.loc = .big 1 :=
  ⟨⟨rfl, rfl, rfl, rfl, rfl, rfl, rfl, by decide, by decide⟩,
   Exists.elim ((mutable_access_unshares 2 (⟨false, 4, [], some 0⟩ : socow_vector Nat)
      ⟨[⟨4, 2, [100, 101, 102, 103], true⟩], ⟨0, 0⟩⟩ 0 ⟨4, 2, [100, 101, 102, 103], true⟩
      [100, 101, 102, 103] ⟨rfl, rfl, rfl, rfl, rfl, rfl, rfl, by decide, by decide⟩
      (.subscript 3)).1 (by decide) (by decide))
     (fun p hp => Exists.elim hp (fun v1 hv => Exists.elim hv (fun m1 hm =>
       ⟨p, v1, m1, hm.1, hm.2.1, hm.2.2.1⟩)))⟩

/-- C7, instance: `data() const` on a shared big container returns the state
unchanged. -/
theorem const_observers_pure_witness :
    Holds 2 (⟨false, 4, [], some 0⟩ : socow_vector Nat)
      ⟨[⟨4, 2, [100, 101, 102, 103], true⟩], ⟨1, 0⟩⟩ [100, 101, 102, 103] ∧
    ∃ l cap, base (⟨false, 4, [], some 0⟩ : socow_vector Nat) = some l ∧ 4 ≤ cap ∧
      data_const (⟨false, 4, [], some 0⟩ : socow_vector Nat)
        ⟨[⟨4, 2, [100, 101, 102, 103], true⟩], ⟨1, 0⟩⟩ =
        .ok ⟨l, 0⟩ (⟨false, 4, [], some 0⟩, ⟨[⟨4, 2, [100, 101, 102, 103], true⟩], ⟨1, 0⟩⟩) :=
  ⟨Or.inr ⟨0, _, rfl, rfl, rfl, rfl, rfl, rfl, rfl, by decide, by decide⟩,
   Exists.elim (const_observers_pure 2 (⟨false, 4, [], some 0⟩ : socow_vector Nat)
      ⟨[⟨4, 2, [100, 101, 102, 103], true⟩], ⟨1, 0⟩⟩ [100, 101, 102, 103]
      (Or.inr ⟨0, _, rfl, rfl, rfl, rfl, rfl, rfl, rfl, by decide, by decide⟩))
     (fun l hl => Exists.elim hl (fun cap hc => ⟨l, cap, hc.1, hc.2.1, hc.2.2.1⟩))⟩

/-- C9, instance: `[41, 43, 47]` shared, the 2nd copy fails: `pop_back` throws
and leaves the handle and its block as they were. -/
theorem unshare_all_or_nothing_witness :
    BigAt (⟨false, 3, [], some 0⟩ : socow_vector Nat)
      ⟨[⟨6, 2, [41, 43, 47], true⟩], ⟨2, 0⟩⟩ 0 ⟨6, 2, [41, 43, 47], true⟩ [41, 43, 47] ∧
    pop_back 3 (⟨false, 3, [], some 0⟩ : socow_vector Nat)
        ⟨[⟨6, 2, [41, 43, 47], true⟩], ⟨2, 0⟩⟩ =
      .thrown (⟨false, 3, [], some 0⟩,
        ⟨[⟨6, 2, [41, 43, 47], true⟩, ⟨6, 1, [], false⟩], ⟨0, 2⟩⟩) :=
  ⟨⟨rfl, rfl, rfl, rfl, rfl, rfl, rfl, by decide, by decide⟩,
   (unshare_all_or_nothing 3 (⟨false, 3, [], some 0⟩ : socow_vector Nat)
      ⟨[⟨6, 2, [41, 43, 47], true⟩], ⟨2, 0⟩⟩ 0 ⟨6, 2, [41, 43, 47], true⟩ [41, 43, 47]
      ⟨rfl, rfl, rfl, rfl, rfl, rfl, rfl, by decide, by decide⟩ (by decide) (by decide)
      (by decide)).1⟩

/-- C11, instance: assigning the big container `[1, 2, 3]` to the small
container `[7]`; afterwards the target holds `[1, 2, 3]` and the source is
unchanged. -/
theorem assign_copies_witness :
    Holds 2 (⟨true, 1, [7], none⟩ : socow_vector Nat)
      ⟨[⟨4, 1, [1, 2, 3], true⟩], ⟨0, 0⟩⟩ [7] ∧
    Holds 2 (⟨false, 3, [], some 0⟩ : socow_vector Nat)
      ⟨[⟨4, 1, [1, 2, 3], true⟩], ⟨0, 0⟩⟩ [1, 2, 3] ∧
    Holds 2 (⟨false, 3, [], some 0⟩ : socow_vector Nat)
      ⟨[⟨4, 2, [1, 2, 3], true⟩], ⟨0, 1⟩⟩ [1, 2, 3] :=
  ⟨Or.inl ⟨rfl, rfl, rfl, by decide⟩,
   Or.inr ⟨0, _, rfl, rfl, rfl, rfl, rfl, rfl, rfl, by decide, by decide⟩,
   ((assign_copies 2 ⟨true, 1, [7], none⟩ ⟨false, 3, [], some 0⟩
      ⟨[⟨4, 1, [1, 2, 3], true⟩], ⟨0, 0⟩⟩ [7] [1, 2, 3]
      (Or.inl ⟨rfl, rfl, rfl, by decide⟩)
      (Or.inr ⟨0, _, rfl, rfl, rfl, rfl, rfl, rfl, rfl, by decide, by decide⟩)).1
      ⟨false, 3, [], some 0⟩ ⟨false, 3, [], some 0⟩ ⟨[⟨4, 2, [1, 2, 3], true⟩], ⟨0, 1⟩⟩
      (by decide)).1⟩

/-- C12, instance: `a = [1, 2]` and `b = [3]`, both small with inline capacity
3; after `a.swap(b)` the container `a` holds `[3]` and `b` holds `[1, 2]`. -/
theorem swap_exchanges_witness :
    Holds 3 (⟨true, 2, [1, 2], none⟩ : socow_vector Nat) ⟨[], ⟨0, 0⟩⟩ [1, 2] ∧
    Holds 3 (⟨true, 1, [3], none⟩ : socow_vector Nat) ⟨[], ⟨0, 0⟩⟩ [3] ∧
    Holds 3 (⟨true, 1, [3], none⟩ : socow_vector Nat) ⟨[], ⟨0, 4⟩⟩ [3] ∧
    Holds 3 (⟨true, 2, [1, 2], none⟩ : socow_vector Nat) ⟨[], ⟨0, 4⟩⟩ [1, 2] :=
  ⟨Or.inl ⟨rfl, rfl, rfl, by decide⟩, Or.inl ⟨rfl, rfl, rfl, by decide⟩,
   ((swap_exchanges 3 ⟨true, 2, [1, 2], none⟩ ⟨true, 1, [3], none⟩ ⟨[], ⟨0, 0⟩⟩ [1, 2] [3]
      (Or.inl ⟨rfl, rfl, rfl, by decide⟩) (Or.inl ⟨rfl, rfl, rfl, by decide⟩)).1
      ⟨true, 1, [3], none⟩ ⟨true, 2, [1, 2], none⟩ ⟨[], ⟨0, 4⟩⟩ (by decide)).1,
   ((swap_exchanges 3 ⟨true, 2, [1, 2], none⟩ ⟨true, 1, [3], none⟩ ⟨[], ⟨0, 0⟩⟩ [1, 2] [3]
      (Or.inl ⟨rfl, rfl, rfl, by decide⟩) (Or.inl ⟨rfl, rfl, rfl, by decide⟩)).1
      ⟨true, 1, [3], none⟩ ⟨true, 2, [1, 2], none⟩ ⟨[], ⟨0, 4⟩⟩ (by decide)).2.1⟩

/-- C13, instance: the small `[1, 2]` swapped with the big `[10, 11, 12, 13]`
while the 2nd element copy is set to fail: the swap throws and both handles
and the heap are as before. -/
theorem swap_small_big_noop_witness :
    SmallAt 3 (⟨true, 2, [1, 2], none⟩ : socow_vector Nat) [1, 2] ∧
    BigAt (⟨false, 4, [], some 0⟩ : socow_vector Nat)
      ⟨[⟨6, 1, [10, 11, 12, 13], true⟩], ⟨2, 0⟩⟩ 0 ⟨6, 1, [10, 11, 12, 13], true⟩
      [10, 11, 12, 13] ∧
    swap 3 (⟨true, 2, [1, 2], none⟩ : socow_vector Nat) ⟨false, 4, [], some 0⟩
        ⟨[⟨6, 1, [10, 11, 12, 13], true⟩], ⟨2, 0⟩⟩ =
      .thrown (⟨true, 2, [1, 2], none⟩, ⟨false, 4, [], some 0⟩,
        ⟨[⟨6, 1, [10, 11, 12, 13], true⟩], ⟨0, 2⟩⟩) :=
  ⟨⟨rfl, rfl, rfl, by decide⟩,
   ⟨rfl, rfl, rfl, rfl, rfl, rfl, rfl, by decide, by decide⟩,
   (swap_small_big_noop 3 ⟨true, 2, [1, 2], none⟩ ⟨false, 4, [], some 0⟩
      ⟨[⟨6, 1, [10, 11, 12, 13], true⟩], ⟨2, 0⟩⟩ [1, 2] [10, 11, 12, 13] 0
      ⟨6, 1, [10, 11, 12, 13], true⟩ ⟨rfl, rfl, rfl, by decide⟩
      ⟨rfl, rfl, rfl, rfl, rfl, rfl, rfl, by decide, by decide⟩ (by decide) (by decide)).1⟩

/-- Instance of `reserve_ensures`: `reserve(10)` on the shared big container
`[1, 2, 3]` of capacity 3 leaves it with exclusive storage of capacity at least
10, size 3 and the same elements. -/
theorem reserve_ensures_witness :
    Holds 2 (⟨false, 3, [], some 0⟩ : socow_vector Nat)
      ⟨[⟨3, 2, [1, 2, 3], true⟩], ⟨0, 0⟩⟩ [1, 2, 3] ∧
    ∃ l cap1,
      Stor 2 (⟨false, 3, [], some 1⟩ : socow_vector Nat)
        ⟨[⟨3, 1, [1, 2, 3], true⟩, ⟨10, 1, [1, 2, 3], true⟩], ⟨0, 3⟩⟩ l [1, 2, 3] cap1 ∧
      capacity 2 (⟨false, 3, [], some 1⟩ : socow_vector Nat)
        ⟨[⟨3, 1, [1, 2, 3], true⟩, ⟨10, 1, [1, 2, 3], true⟩], ⟨0, 3⟩⟩ =
        .ok cap1 (⟨false, 3, [], some 1⟩,
          ⟨[⟨3, 1, [1, 2, 3], true⟩, ⟨10, 1, [1, 2, 3], true⟩], ⟨0, 3⟩⟩) ∧
      10 ≤ cap1 ∧
      (⟨false, 3, [], some 1⟩ : socow_vector Nat).size_ = [1, 2, 3].length ∧
      Holds 2 (⟨false, 3, [], some 1⟩ : socow_vector Nat)
        ⟨[⟨3, 1, [1, 2, 3], true⟩, ⟨10, 1, [1, 2, 3], true⟩], ⟨0, 3⟩⟩ [1, 2, 3] :=
  ⟨Or.inr ⟨0, _, rfl, rfl, rfl, rfl, rfl, rfl, rfl, by decide, by decide⟩,
   (reserve_ensures 2 ⟨false, 3, [], some 0⟩ ⟨[⟨3, 2, [1, 2, 3], true⟩], ⟨0, 0⟩⟩ [1, 2, 3] 10
      (Or.inr ⟨0, _, rfl, rfl, rfl, rfl, rfl, rfl, rfl, by decide, by decide⟩)).1
      ⟨false, 3, [], some 1⟩
      ⟨[⟨3, 1, [1, 2, 3], true⟩, ⟨10, 1, [1, 2, 3], true⟩], ⟨0, 3⟩⟩ (by decide)⟩

/-- C15, instance: `reserve(2)` on an empty container with inline capacity 3
returns the state unchanged; the capacity stays 3. -/
theorem reserve_superfluous_witness :
    Stor 3 (⟨true, 0, [], none⟩ : socow_vector Nat) ⟨[], ⟨0, 0⟩⟩ .small [] 3 ∧
    reserve 3 (⟨true, 0, [], none⟩ : socow_vector Nat) ⟨[], ⟨0, 0⟩⟩ 2 =
      .ok () (⟨true, 0, [], none⟩, ⟨[], ⟨0, 0⟩⟩) ∧
    capacity 3 (⟨true, 0, [], none⟩ : socow_vector Nat) ⟨[], ⟨0, 0⟩⟩ =
      .ok 3 (⟨true, 0, [], none⟩, ⟨[], ⟨0, 0⟩⟩) :=
  ⟨Or.inl ⟨rfl, rfl, rfl, rfl⟩,
   reserve_superfluous 3 ⟨true, 0, [], none⟩ ⟨[], ⟨0, 0⟩⟩ .small [] 3 2
     (Or.inl ⟨rfl, rfl, rfl, rfl⟩) (by decide)⟩

/-- C16, instance: inline capacity 3, a big container `[100, 101]` of capacity
5; after `shrink_to_fit` it is small with capacity 3 and holds `[100, 101]`. -/
theorem shrink_to_fit_fits_witness :
    Holds 3 (⟨false, 2, [], some 0⟩ : socow_vector Nat)
      ⟨[⟨5, 1, [100, 101], true⟩], ⟨0, 0⟩⟩ [100, 101] ∧
    Holds 3 (⟨true, 2, [100, 101], none⟩ : socow_vector Nat)
      ⟨[⟨5, 0, [], false⟩], ⟨0, 2⟩⟩ [100, 101] ∧
    (⟨true, 2, [100, 101], none⟩ : socow_vector Nat).is_small = true ∧
    capacity 3 (⟨true, 2, [100, 101], none⟩ : socow_vector Nat) ⟨[⟨5, 0, [], false⟩], ⟨0, 2⟩⟩ =
      .ok 3 (⟨true, 2, [100, 101], none⟩, ⟨[⟨5, 0, [], false⟩], ⟨0, 2⟩⟩) := by
  have h := (shrink_to_fit_fits 3 (⟨false, 2, [], some 0⟩ : socow_vector Nat)
    ⟨[⟨5, 1, [100, 101], true⟩], ⟨0, 0⟩⟩ [100, 101]
    (Or.inr ⟨0, _, rfl, rfl, rfl, rfl, rfl, rfl, rfl, by decide, by decide⟩)
    (by
      intro A c hb
      obtain ⟨_, _, h3, _, h5, _⟩ := hb
      simp at h3
      subst h3
      simp at h5
      subst h5
      decide)).1 ⟨true, 2, [100, 101], none⟩ ⟨[⟨5, 0, [], false⟩], ⟨0, 2⟩⟩ (by decide)
  exact ⟨Or.inr ⟨0, _, rfl, rfl, rfl, rfl, rfl, rfl, rfl, by decide, by decide⟩, h.1,
    h.2.2.2 (by decide)⟩

/-- C17, instance: inline capacity 3, a big container `[100, 101]` of capacity
5, the 2nd element copy fails: `shrink_to_fit` throws and the container still
references its block of capacity 5 holding `[100, 101]`. -/
theorem shrink_to_fit_strong_witness :
    BigAt (⟨false, 2, [], some 0⟩ : socow_vector Nat)
      ⟨[⟨5, 1, [100, 101], true⟩], ⟨2, 0⟩⟩ 0 ⟨5, 1, [100, 101], true⟩ [100, 101] ∧
    shrink_to_fit 3 (⟨false, 2, [], some 0⟩ : socow_vector Nat)
      ⟨[⟨5, 1, [100, 101], true⟩], ⟨2, 0⟩⟩ =
      .thrown (⟨false, 2, [], some 0⟩, ⟨[⟨5, 1, [100, 101], true⟩], ⟨0, 2⟩⟩) ∧
    BigAt (⟨false, 2, [], some 0⟩ : socow_vector Nat)
      ⟨[⟨5, 1, [100, 101], true⟩], ⟨0, 2⟩⟩ 0 ⟨5, 1, [100, 101], true⟩ [100, 101] ∧
    capacity 3 (⟨false, 2, [], some 0⟩ : socow_vector Nat)
      ⟨[⟨5, 1, [100, 101], true⟩], ⟨0, 2⟩⟩ =
      .ok 5 (⟨false, 2, [], some 0⟩, ⟨[⟨5, 1, [100, 101], true⟩], ⟨0, 2⟩⟩) := by
  have h := (shrink_to_fit_strong 3 (⟨false, 2, [], some 0⟩ : socow_vector Nat)
    ⟨[⟨5, 1, [100, 101], true⟩], ⟨2, 0⟩⟩ 0 ⟨5, 1, [100, 101], true⟩ [100, 101]
    ⟨rfl, rfl, rfl, rfl, rfl, rfl, rfl, by decide, by decide⟩).1
    ⟨false, 2, [], some 0⟩ ⟨[⟨5, 1, [100, 101], true⟩], ⟨0, 2⟩⟩ (by decide)
  exact ⟨⟨rfl, rfl, rfl, rfl, rfl, rfl, rfl, by decide, by decide⟩, by decide, h.2.1,
    h.2.2.1⟩

/-- C18, instance: `clear()` on the big container `[1, 2, 3]` that shares its
block with another handle: the container ends empty with capacity 4 and the
other handle still holds `[1, 2, 3]`. -/
theorem clear_empties_witness :
    Holds 2 (⟨false, 3, [], some 0⟩ : socow_vector Nat)
      ⟨[⟨4, 2, [1, 2, 3], true⟩], ⟨0, 0⟩⟩ [1, 2, 3] ∧
    Holds 2 (⟨false, 0, [], some 1⟩ : socow_vector Nat)
      ⟨[⟨4, 1, [1, 2, 3], true⟩, ⟨4, 1, [], true⟩], ⟨0, 3⟩⟩ [] ∧
    empty (⟨false, 0, [], some 1⟩ : socow_vector Nat)
      ⟨[⟨4, 1, [1, 2, 3], true⟩, ⟨4, 1, [], true⟩], ⟨0, 3⟩⟩ =
      .ok true (⟨false, 0, [], some 1⟩,
        ⟨[⟨4, 1, [1, 2, 3], true⟩, ⟨4, 1, [], true⟩], ⟨0, 3⟩⟩) ∧
    Holds 2 (⟨false, 3, [], some 0⟩ : socow_vector Nat)
      ⟨[⟨4, 1, [1, 2, 3], true⟩, ⟨4, 1, [], true⟩], ⟨0, 3⟩⟩ [1, 2, 3] := by
  have h := (clear_empties 2 (⟨false, 3, [], some 0⟩ : socow_vector Nat)
    ⟨[⟨4, 2, [1, 2, 3], true⟩], ⟨0, 0⟩⟩ [1, 2, 3]
    (Or.inr ⟨0, _, rfl, rfl, rfl, rfl, rfl, rfl, rfl, by decide, by decide⟩)).1
    ⟨false, 0, [], some 1⟩ ⟨[⟨4, 1, [1, 2, 3], true⟩, ⟨4, 1, [], true⟩], ⟨0, 3⟩⟩ (by decide)
  exact ⟨Or.inr ⟨0, _, rfl, rfl, rfl, rfl, rfl, rfl, rfl, by decide, by decide⟩, h.1, h.2.2.1,
    (h.2.2.2.2 ⟨false, 3, [], some 0⟩ 0 ⟨4, 2, [1, 2, 3], true⟩
      ⟨rfl, rfl, rfl, rfl, rfl, rfl, rfl, by decide, by decide⟩
      ⟨rfl, rfl, rfl, rfl, rfl, rfl, rfl, by decide, by decide⟩ (by decide)).1⟩

/-- C19, instance: `pop_back()` on the big container `[1, 2, 3]` that shares
its block with another handle: the container ends holding `[1, 2]` with size
2 and the other handle still holds `[1, 2, 3]`. -/
theorem pop_back_removes_last_witness :
    Holds 2 (⟨false, 3, [], some 0⟩ : socow_vector Nat)
      ⟨[⟨4, 2, [1, 2, 3], true⟩], ⟨0, 0⟩⟩ [1, 2, 3] ∧
    Holds 2 (⟨false, 2, [], some 1⟩ : socow_vector Nat)
      ⟨[⟨4, 1, [1, 2, 3], true⟩, ⟨4, 1, [1, 2], true⟩], ⟨0, 3⟩⟩ [1, 2] ∧
    Holds 2 (⟨false, 3, [], some 0⟩ : socow_vector Nat)
      ⟨[⟨4, 1, [1, 2, 3], true⟩, ⟨4, 1, [1, 2], true⟩], ⟨0, 3⟩⟩ [1, 2, 3] := by
  have h := (pop_back_removes_last 2 (⟨false, 3, [], some 0⟩ : socow_vector Nat)
    ⟨[⟨4, 2, [1, 2, 3], true⟩], ⟨0, 0⟩⟩ [1, 2, 3]
    (Or.inr ⟨0, _, rfl, rfl, rfl, rfl, rfl, rfl, rfl, by decide, by decide⟩) (by decide)).1
    ⟨false, 2, [], some 1⟩ ⟨[⟨4, 1, [1, 2, 3], true⟩, ⟨4, 1, [1, 2], true⟩], ⟨0, 3⟩⟩
    (by decide)
  exact ⟨Or.inr ⟨0, _, rfl, rfl, rfl, rfl, rfl, rfl, rfl, by decide, by decide⟩, h.1,
    (h.2.2.2 ⟨false, 3, [], some 0⟩ 0 ⟨4, 2, [1, 2, 3], true⟩
      ⟨rfl, rfl, rfl, rfl, rfl, rfl, rfl, by decide, by decide⟩
      ⟨rfl, rfl, rfl, rfl, rfl, rfl, rfl, by decide, by decide⟩ (by decide)).1⟩

/-- C22, the claim as stated fails: on the container `[1, 2, 3]` that shares
its block with another handle, `erase(begin() + 1, begin() + 1)` throws when
the 2nd element copy is set to fail; and when no failure is armed it returns
with the container on another block, the reference count of the old block
lowered from 2 to 1, and a returned position in the new block. -/
theorem erase_empty_range_counterexample :
    erase_range 2 (⟨false, 3, [], some 0⟩ : socow_vector Nat)
        ⟨[⟨4, 2, [1, 2, 3], true⟩], ⟨2, 0⟩⟩ ⟨.big 0, 1⟩ ⟨.big 0, 1⟩ =
      .thrown (⟨false, 3, [], some 0⟩,
        ⟨[⟨4, 2, [1, 2, 3], true⟩, ⟨4, 1, [], false⟩], ⟨0, 2⟩⟩) ∧
    erase_range 2 (⟨false, 3, [], some 0⟩ : socow_vector Nat)
        ⟨[⟨4, 2, [1, 2, 3], true⟩], ⟨0, 0⟩⟩ ⟨.big 0, 1⟩ ⟨.big 0, 1⟩ =
      .ok ⟨.big 1, 1⟩ (⟨false, 3, [], some 1⟩,
        ⟨[⟨4, 1, [1, 2, 3], true⟩, ⟨4, 1, [1, 2, 3], true⟩], ⟨0, 3⟩⟩) ∧
    (⟨.big 1, 1⟩ : ptr) ≠ ⟨.big 0, 1⟩ := by
  decide

/-- C22, instance: on the big container `[1, 2, 3, 4, 5]` with exclusive
storage, `erase(begin() + 3, begin() + 3)` returns the state unchanged and the
position `begin() + 3`. -/
theorem erase_empty_range_witness :
    Holds 3 (⟨false, 5, [], some 0⟩ : socow_vector Nat)
      ⟨[⟨6, 1, [1, 2, 3, 4, 5], true⟩], ⟨0, 0⟩⟩ [1, 2, 3, 4, 5] ∧
    erase_range 3 (⟨false, 5, [], some 0⟩ : socow_vector Nat)
        ⟨[⟨6, 1, [1, 2, 3, 4, 5], true⟩], ⟨0, 0⟩⟩ ⟨.big 0, 3⟩ ⟨.big 0, 3⟩ =
      .ok ⟨.big 0, 3⟩ (⟨false, 5, [], some 0⟩, ⟨[⟨6, 1, [1, 2, 3, 4, 5], true⟩], ⟨0, 0⟩⟩) :=
  ⟨Or.inr ⟨0, _, rfl, rfl, rfl, rfl, rfl, rfl, rfl, by decide, by decide⟩,
   (erase_empty_range 3 ⟨false, 5, [], some 0⟩ ⟨[⟨6, 1, [1, 2, 3, 4, 5], true⟩], ⟨0, 0⟩⟩
      [1, 2, 3, 4, 5] (.big 0) 3
      (Or.inr ⟨0, _, rfl, rfl, rfl, rfl, rfl, rfl, rfl, by decide, by decide⟩) rfl).1
      (.big 0) 6 (Or.inr ⟨rfl, rfl, 0, _, rfl, rfl, rfl, rfl, rfl, rfl, rfl⟩)⟩

/-- C24, the claim as stated fails: the big container `[1, 2, 3]` of capacity
8, swapped with the small container `[7]` (inline capacity 2), ends small with
capacity 2; assigned the small container `[7]`, it ends small with capacity 2
as well. -/
theorem capacity_monotone_counterexample :
    capacity 2 (⟨false, 3, [], some 0⟩ : socow_vector Nat) ⟨[⟨8, 1, [1, 2, 3], true⟩], ⟨0, 0⟩⟩ =
      .ok 8 (⟨false, 3, [], some 0⟩, ⟨[⟨8, 1, [1, 2, 3], true⟩], ⟨0, 0⟩⟩) ∧
    swap 2 (⟨false, 3, [], some 0⟩ : socow_vector Nat) ⟨true, 1, [7], none⟩
        ⟨[⟨8, 1, [1, 2, 3], true⟩], ⟨0, 0⟩⟩ =
      .ok () (⟨true, 1, [7], none⟩, ⟨false, 3, [], some 0⟩,
        ⟨[⟨8, 1, [1, 2, 3], true⟩], ⟨0, 1⟩⟩) ∧
    capacity 2 (⟨true, 1, [7], none⟩ : socow_vector Nat) ⟨[⟨8, 1, [1, 2, 3], true⟩], ⟨0, 1⟩⟩ =
      .ok 2 (⟨true, 1, [7], none⟩, ⟨[⟨8, 1, [1, 2, 3], true⟩], ⟨0, 1⟩⟩) ∧
    operator_assign 2 (⟨false, 3, [], some 0⟩ : socow_vector Nat) ⟨true, 1, [7], none⟩
        ⟨[⟨8, 1, [1, 2, 3], true⟩], ⟨0, 0⟩⟩ =
      .ok () (⟨true, 1, [7], none⟩, ⟨true, 1, [7], none⟩,
        ⟨[⟨8, 0, [], false⟩], ⟨0, 2⟩⟩) ∧
    capacity 2 (⟨true, 1, [7], none⟩ : socow_vector Nat) ⟨[⟨8, 0, [], false⟩], ⟨0, 2⟩⟩ =
      .ok 2 (⟨true, 1, [7], none⟩, ⟨[⟨8, 0, [], false⟩], ⟨0, 2⟩⟩) ∧
    ¬ 8 ≤ 2 := by
  decide

/-- C24, instance: `push_back(3)` on the full small container `[1, 2]` (inline
capacity 2) leaves a capacity of at least 2. -/
theorem capacity_monotone_witness :
    Holds 2 (⟨true, 2, [1, 2], none⟩ : socow_vector Nat) ⟨[], ⟨0, 0⟩⟩ [1, 2] ∧
    ∃ cap2, capacity 2 (⟨false, 3, [], some 0⟩ : socow_vector Nat)
        ⟨[⟨4, 1, [1, 2, 3], true⟩], ⟨0, 3⟩⟩ =
        .ok cap2 (⟨false, 3, [], some 0⟩, ⟨[⟨4, 1, [1, 2, 3], true⟩], ⟨0, 3⟩⟩) ∧ 2 ≤ cap2 :=
  ⟨Or.inl ⟨rfl, rfl, rfl, by decide⟩,
   (capacity_monotone 2 ⟨true, 2, [1, 2], none⟩ ⟨[], ⟨0, 0⟩⟩ [1, 2] 2
      (Or.inl ⟨rfl, rfl, rfl, by decide⟩) (by decide)).1 (.push_back 3)
      ⟨false, 3, [], some 0⟩ ⟨[⟨4, 1, [1, 2, 3], true⟩], ⟨0, 3⟩⟩ (by simp) (by decide)⟩

/-- C26, instance: `insert(begin() + 2, 200)` on the exclusive big container
`[100, 101, 102, 103]` of capacity 5 leaves `data()` at the same block. -/
theorem exclusive_big_keeps_buffer_witness :
    BigAt (⟨false, 4, [], some 0⟩ : socow_vector Nat)
      ⟨[⟨5, 1, [100, 101, 102, 103], true⟩], ⟨0, 0⟩⟩ 0 ⟨5, 1, [100, 101, 102, 103], true⟩
      [100, 101, 102, 103] ∧
    (⟨[⟨5, 1, [100, 101, 200, 102, 103], true⟩], ⟨0, 7⟩⟩ : Mem Nat).heap.length =
      (⟨[⟨5, 1, [100, 101, 102, 103], true⟩], ⟨0, 0⟩⟩ : Mem Nat).heap.length ∧
    data_const (⟨false, 5, [], some 0⟩ : socow_vector Nat)
        ⟨[⟨5, 1, [100, 101, 200, 102, 103], true⟩], ⟨0, 7⟩⟩ =
      .ok ⟨.big 0, 0⟩ (⟨false, 5, [], some 0⟩,
        ⟨[⟨5, 1, [100, 101, 200, 102, 103], true⟩], ⟨0, 7⟩⟩) :=
  ⟨⟨rfl, rfl, rfl, rfl, rfl, rfl, rfl, by decide, by decide⟩,
   ((exclusive_big_keeps_buffer 2 ⟨false, 4, [], some 0⟩
      ⟨[⟨5, 1, [100, 101, 102, 103], true⟩], ⟨0, 0⟩⟩ 0 ⟨5, 1, [100, 101, 102, 103], true⟩
      [100, 101, 102, 103] ⟨rfl, rfl, rfl, rfl, rfl, rfl, rfl, by decide, by decide⟩ rfl).2.1
      (forget (insert 2 ⟨false, 4, [], some 0⟩
        ⟨[⟨5, 1, [100, 101, 102, 103], true⟩], ⟨0, 0⟩⟩ ⟨.big 0, 2⟩ (.val 200)))
      (Or.inr (Or.inl ⟨2, 200, by decide, rfl⟩))
      ⟨false, 5, [], some 0⟩ ⟨[⟨5, 1, [100, 101, 200, 102, 103], true⟩], ⟨0, 7⟩⟩
      (Or.inl (by decide))).2⟩

/-- C27, instance: on the full small container `[5, 6]` (inline capacity 2),
`push_back(a[0])` with the argument a reference to the inline slot 0 grows the
container and leaves `[5, 6, 5]`. -/
theorem push_back_from_self_witness :
    Holds 2 (⟨true, 2, [5, 6], none⟩ : socow_vector Nat) ⟨[], ⟨0, 0⟩⟩ [5, 6] ∧
    Holds 2 (⟨false, 3, [], some 0⟩ : socow_vector Nat)
      ⟨[⟨4, 1, [5, 6, 5], true⟩], ⟨0, 3⟩⟩ ([5, 6] ++ [5]) :=
  ⟨Or.inl ⟨rfl, rfl, rfl, by decide⟩,
   ((push_back_from_self 2 ⟨true, 2, [5, 6], none⟩ ⟨[], ⟨0, 0⟩⟩ [5, 6] .small 0 5
      (Or.inl ⟨rfl, rfl, rfl, by decide⟩) rfl rfl).2.1
      ⟨false, 3, [], some 0⟩ ⟨[⟨4, 1, [5, 6, 5], true⟩], ⟨0, 3⟩⟩ (by decide)).1⟩

/-- C29, instance: the program that constructs a container, pushes 1, 2, 3
(inline capacity 2) and copies it reaches a state with two handles on block 0,
whose reference count is 2. -/
theorem refcount_invariant_witness :
    (⟨4, 2, [1, 2, 3], true⟩ : big_storage Nat).ref_count =
      refs [(⟨false, 3, [], some 0⟩ : socow_vector Nat), ⟨false, 3, [], some 0⟩] 0 ∧
    1 ≤ (⟨4, 2, [1, 2, 3], true⟩ : big_storage Nat).ref_count :=
  (refcount_invariant 2
    ⟨[⟨false, 3, [], some 0⟩, ⟨false, 3, [], some 0⟩],
      ⟨[⟨4, 2, [1, 2, 3], true⟩], ⟨0, 5⟩⟩⟩
    (Reachable.step_ok ⟨[⟨false, 3, [], some 0⟩], ⟨[⟨4, 1, [1, 2, 3], true⟩], ⟨0, 5⟩⟩⟩
      (.copy 0) _
      (Reachable.step_ok ⟨[⟨true, 2, [1, 2], none⟩], ⟨[], ⟨0, 2⟩⟩⟩ (.mutate 0 (.push_back 3)) _
        (Reachable.step_ok ⟨[⟨true, 1, [1], none⟩], ⟨[], ⟨0, 1⟩⟩⟩ (.mutate 0 (.push_back 2)) _
          (Reachable.step_ok ⟨[⟨true, 0, [], none⟩], ⟨[], ⟨0, 0⟩⟩⟩ (.mutate 0 (.push_back 1)) _
            (Reachable.step_ok ⟨[], ⟨[], ⟨0, 0⟩⟩⟩ .construct _ (Reachable.init ⟨0, 0⟩)
              (by decide))
            (by decide))
          (by decide))
        (by decide))
      (by decide))).1 0 ⟨4, 2, [1, 2, 3], true⟩ rfl rfl

/-- C30, instance: in the state reached by constructing a container, pushing
1, 2, 3 (inline capacity 2) and copying it, the two handles on block 0 have
the same size. -/
theorem sharers_agree_on_size_witness :
    (⟨false, 3, [], some 0⟩ : socow_vector Nat).size_ =
      (⟨false, 3, [], some 0⟩ : socow_vector Nat).size_ ∧
    ∃ b, (⟨[⟨4, 2, [1, 2, 3], true⟩], ⟨0, 5⟩⟩ : Mem Nat).heap[0]? = some b ∧ b.live = true ∧
      b.data.length = (⟨false, 3, [], some 0⟩ : socow_vector Nat).size_ :=
  (sharers_agree_on_size 2
    ⟨[⟨false, 3, [], some 0⟩, ⟨false, 3, [], some 0⟩],
      ⟨[⟨4, 2, [1, 2, 3], true⟩], ⟨0, 5⟩⟩⟩
    (Reachable.step_ok ⟨[⟨false, 3, [], some 0⟩], ⟨[⟨4, 1, [1, 2, 3], true⟩], ⟨0, 5⟩⟩⟩
      (.copy 0) _
      (Reachable.step_ok ⟨[⟨true, 2, [1, 2], none⟩], ⟨[], ⟨0, 2⟩⟩⟩ (.mutate 0 (.push_back 3)) _
        (Reachable.step_ok ⟨[⟨true, 1, [1], none⟩], ⟨[], ⟨0, 1⟩⟩⟩ (.mutate 0 (.push_back 2)) _
          (Reachable.step_ok ⟨[⟨true, 0, [], none⟩], ⟨[], ⟨0, 0⟩⟩⟩ (.mutate 0 (.push_back 1)) _
            (Reachable.step_ok ⟨[], ⟨[], ⟨0, 0⟩⟩⟩ .construct _ (Reachable.init ⟨0, 0⟩)
              (by decide))
            (by decide))
          (by decide))
        (by decide))
      (by decide))).1 ⟨false, 3, [], some 0⟩ (by simp) ⟨false, 3, [], some 0⟩ (by simp) 0
    rfl rfl

/-- C31, instance: the program that constructs a container and pushes 1, 2, 3
(inline capacity 2) reaches a state whose container is big, with capacity 4,
above the inline capacity. -/
theorem big_capacity_above_inline_witness :
    1 ≤ 2 ∧
    ∃ cap, capacity 2 (⟨false, 3, [], some 0⟩ : socow_vector Nat)
        ⟨[⟨4, 1, [1, 2, 3], true⟩], ⟨0, 5⟩⟩ =
        .ok cap (⟨false, 3, [], some 0⟩, ⟨[⟨4, 1, [1, 2, 3], true⟩], ⟨0, 5⟩⟩) ∧ 2 < cap :=
  ⟨by decide,
   (big_capacity_above_inline 2
    ⟨[⟨false, 3, [], some 0⟩], ⟨[⟨4, 1, [1, 2, 3], true⟩], ⟨0, 5⟩⟩⟩ (by decide)
    (Reachable.step_ok ⟨[⟨true, 2, [1, 2], none⟩], ⟨[], ⟨0, 2⟩⟩⟩ (.mutate 0 (.push_back 3)) _
      (Reachable.step_ok ⟨[⟨true, 1, [1], none⟩], ⟨[], ⟨0, 1⟩⟩⟩ (.mutate 0 (.push_back 2)) _
        (Reachable.step_ok ⟨[⟨true, 0, [], none⟩], ⟨[], ⟨0, 0⟩⟩⟩ (.mutate 0 (.push_back 1)) _
          (Reachable.step_ok ⟨[], ⟨[], ⟨0, 0⟩⟩⟩ .construct _ (Reachable.init ⟨0, 0⟩)
            (by decide))
          (by decide))
        (by decide))
      (by decide))).1 ⟨false, 3, [], some 0⟩ (by simp) rfl⟩

/-- C30, the claim as stated fails: in the state reached by building
`a = [1, 2]` and `b = [3, 4, 5]` (inline capacity 1) and copying `b` into `c`,
`a.swap(b)` changes the size of `a` from 2 to 3 and leaves `a` on the block
that `c` references too, a block that existed before the call and has
reference count 2; `a = b` changes the size of `a` in the same way and leaves
`a` on the block of `b` and `c`, with reference count 3. -/
theorem sharers_agree_on_size_counterexample :
    Reachable 1 (⟨[⟨false, 2, [], some 0⟩, ⟨false, 3, [], some 2⟩, ⟨false, 3, [], some 2⟩],
      ⟨[⟨2, 1, [1, 2], true⟩, ⟨2, 0, [], false⟩, ⟨4, 2, [3, 4, 5], true⟩], ⟨0, 9⟩⟩⟩ : Sys Nat) ∧
    run 1 (⟨[⟨false, 2, [], some 0⟩, ⟨false, 3, [], some 2⟩, ⟨false, 3, [], some 2⟩],
      ⟨[⟨2, 1, [1, 2], true⟩, ⟨2, 0, [], false⟩, ⟨4, 2, [3, 4, 5], true⟩], ⟨0, 9⟩⟩⟩ : Sys Nat)
      (.swap 0 1) =
      .ok () ⟨[⟨false, 3, [], some 2⟩, ⟨false, 2, [], some 0⟩, ⟨false, 3, [], some 2⟩],
        ⟨[⟨2, 1, [1, 2], true⟩, ⟨2, 0, [], false⟩, ⟨4, 2, [3, 4, 5], true⟩], ⟨0, 9⟩⟩⟩ ∧
    refs [(⟨false, 3, [], some 2⟩ : socow_vector Nat), ⟨false, 2, [], some 0⟩,
      ⟨false, 3, [], some 2⟩] 2 = 2 ∧
    run 1 (⟨[⟨false, 2, [], some 0⟩, ⟨false, 3, [], some 2⟩, ⟨false, 3, [], some 2⟩],
      ⟨[⟨2, 1, [1, 2], true⟩, ⟨2, 0, [], false⟩, ⟨4, 2, [3, 4, 5], true⟩], ⟨0, 9⟩⟩⟩ : Sys Nat)
      (.assign 0 1) =
      .ok () ⟨[⟨false, 3, [], some 2⟩, ⟨false, 3, [], some 2⟩, ⟨false, 3, [], some 2⟩],
        ⟨[⟨2, 0, [], false⟩, ⟨2, 0, [], false⟩, ⟨4, 3, [3, 4, 5], true⟩], ⟨0, 9⟩⟩⟩ ∧
    refs [(⟨false, 3, [], some 2⟩ : socow_vector Nat), ⟨false, 3, [], some 2⟩,
      ⟨false, 3, [], some 2⟩] 2 = 3 :=
  ⟨Reachable.step_ok
      ⟨[⟨false, 2, [], some 0⟩, ⟨false, 3, [], some 2⟩],
        ⟨[⟨2, 1, [1, 2], true⟩, ⟨2, 0, [], false⟩, ⟨4, 1, [3, 4, 5], true⟩], ⟨0, 9⟩⟩⟩
      (.copy 1) _
      (Reachable.step_ok
        ⟨[⟨false, 2, [], some 0⟩, ⟨false, 2, [], some 1⟩],
          ⟨[⟨2, 1, [1, 2], true⟩, ⟨2, 1, [3, 4], true⟩], ⟨0, 6⟩⟩⟩
        (.mutate 1 (.push_back 5)) _
        (Reachable.step_ok
          ⟨[⟨false, 2, [], some 0⟩, ⟨true, 1, [3], none⟩], ⟨[⟨2, 1, [1, 2], true⟩], ⟨0, 4⟩⟩⟩
          (.mutate 1 (.push_back 4)) _
          (Reachable.step_ok
            ⟨[⟨false, 2, [], some 0⟩, ⟨true, 0, [], none⟩], ⟨[⟨2, 1, [1, 2], true⟩], ⟨0, 3⟩⟩⟩
            (.mutate 1 (.push_back 3)) _
            (Reachable.step_ok
              ⟨[⟨false, 2, [], some 0⟩], ⟨[⟨2, 1, [1, 2], true⟩], ⟨0, 3⟩⟩⟩ .construct _
              (Reachable.step_ok ⟨[⟨true, 1, [1], none⟩], ⟨[], ⟨0, 1⟩⟩⟩
                (.mutate 0 (.push_back 2)) _
                (Reachable.step_ok ⟨[⟨true, 0, [], none⟩], ⟨[], ⟨0, 0⟩⟩⟩
                  (.mutate 0 (.push_back 1)) _
                  (Reachable.step_ok ⟨[], ⟨[], ⟨0, 0⟩⟩⟩ .construct _
                    (Reachable.init ⟨0, 0⟩) (by decide))
                  (by decide))
                (by decide))
              (by decide))
            (by decide))
          (by decide))
        (by decide))
      (by decide),
    by decide, by decide, by decide, by decide⟩

end Socow
